import Mathlib

/-!
# Netzwerk: contraction-order optimiser

A shallow embedding of the tensor-network contraction-order optimiser
(`BitSet.hpp`, `TensorNetwork.inl`, `Optimizer.cpp`, `LinDP.cpp`, `Greedy.cpp`,
`TensorIKKBZ.cpp`) together with theorems about it.

Conventions of the embedding.

* `long double` costs are exact rationals (`ℚ`).
* A `BitSet` is the numeral whose binary digits are the membership flags
  (`BitSet<0>` stores one `uint64_t`; the wider variants concatenate such
  words).  `+`, `&`, `^` of the source are `|||`, `&&&`, `^^^`.
* A `std::shared_ptr<Plan>` is the key (vertex set) under which the node is
  stored in the plan cache; `none` is `nullptr`.
* `std::vector` tables indexed by vertex or by interval are lists read with
  `getD`, or functions on indices.
* A failed `assert` makes a function return `none`.
-/

namespace Netzwerk

/-! ## BitSet -/

/-- A set of small naturals, stored as in `BitSet<0>::set`: bit `v` is set iff `v` is a member. -/
abbrev BitSet := Nat

namespace BitSet

/-- The set `BitSet({v})`, i.e. `1ull << v`. -/
def single (v : Nat) : BitSet := 2 ^ v

/-- The membership test `count(v)`: `set & (1ull << v)`. -/
def count (s : BitSet) (v : Nat) : Bool := s.testBit v

/-- The elements of `s` at or above offset `i`, ascending; `fuel` bounds the number of digits. -/
def bitsAux : Nat → Nat → Nat → List Nat
  | 0, _, _ => []
  | fuel + 1, s, i =>
    if s = 0 then [] else (if s % 2 = 1 then [i] else []) ++ bitsAux fuel (s / 2) (i + 1)

/-- Forward iteration `for (auto elem : set)`: the members in ascending order
(`operator*` is `min`, `operator++` clears the lowest set bit). -/
def toList (s : BitSet) : List Nat := bitsAux s s 0

/-- The cardinality `size()` (popcount). -/
def size (s : BitSet) : Nat := (toList s).length

/-- The set `fill(n) = {0,…,n-1}`, i.e. `(1ull << n) - 1`. -/
def fill (n : Nat) : BitSet := 2 ^ n - 1

/-- The first member, `front() = *begin()`; `0` on the empty set, where the source is undefined. -/
def front (s : BitSet) : Nat := (toList s).headD 0

end BitSet

/-! ## TensorNetwork -/

/-- The sentinel `NIL = std::numeric_limits<unsigned>::max()`. -/
def NIL : Nat := 2 ^ 32 - 1

/-- An entry of `edgeInfo`: the dimension of a leg and, for an internal edge, its endpoints. -/
structure EdgeInfo where
  cost : ℚ
  edge : Nat × Nat
  deriving DecidableEq, Repr

/-- A cell `(v, edgeId)` of an adjacency list (the `next` link is the tail of the list). -/
structure Cell where
  v : Nat
  edgeId : Nat
  deriving DecidableEq, Repr

/-- A bushy-tree entry `{nodeIndex, left, right}`. -/
structure RangeNode where
  nodeIndex : Nat
  left : Nat
  right : Nat
  deriving DecidableEq, Repr

/-- The fields of `TensorNetwork` the optimiser reads: `n`, `m`, `edgeInfo`
(of length `m + n`: internal edges first, then one virtual open leg per vertex)
and `openLegSize`. -/
structure TensorNetwork where
  n : Nat
  m : Nat
  edgeInfo : List EdgeInfo
  openLegSize : List ℚ
  deriving Repr

namespace TensorNetwork

/-- The dimension `edgeInfo[e].cost`. -/
def legDim (net : TensorNetwork) (e : Nat) : ℚ := (net.edgeInfo.getD e ⟨1, (0, 0)⟩).cost

/-- The endpoints `edgeInfo[e].edge`. -/
def endpoints (net : TensorNetwork) (e : Nat) : Nat × Nat := (net.edgeInfo.getD e ⟨1, (0, 0)⟩).edge

/-- The lambda `addEdge(u, v, edgeId)` of `initGraphStructure`: a new cell is linked in
front of the list of `u`. -/
def addEdge (adj : Nat → List Cell) (u v edgeId : Nat) : Nat → List Cell :=
  fun w => if w = u then ⟨v, edgeId⟩ :: adj u else adj w

/-- The adjacency lists built by `initGraphStructure`: for every internal edge, in
ascending id, `addEdge(first, second, id)` and then `addEdge(second, first, id)`.
`adj net u` lists the cells in the order in which `for (pos = adj[u]; pos; pos = list[pos].next)`
visits them. -/
def adj (net : TensorNetwork) : Nat → List Cell :=
  (List.range net.m).foldl
    (fun a index =>
      let edge := net.endpoints index
      addEdge (addEdge a edge.1 edge.2 index) edge.2 edge.1 index)
    (fun _ => [])

/-- The function `collectVertexLegs(u, strict)` with the tree view disabled: the ids of the
edges in the adjacency list of `u` and, unless `strict`, the virtual open leg `m + u`. -/
def collectVertexLegs (net : TensorNetwork) (u : Nat) (strict : Bool) : BitSet :=
  let ret := (net.adj u).foldl (fun ret c => ret ||| BitSet.single c.edgeId) 0
  if strict then ret else ret ||| BitSet.single (net.m + u)

/-- The function `collectOpenLegs(set)`: the legs of the members are toggled into the result. -/
def collectOpenLegs (net : TensorNetwork) (set : BitSet) : BitSet :=
  (BitSet.toList set).foldl (fun ret elem => ret ^^^ net.collectVertexLegs elem false) 0

/-- The function `computeLegDimProduct(set)` with the tree view disabled. -/
def computeLegDimProduct (net : TensorNetwork) (set : BitSet) : ℚ :=
  (BitSet.toList set).foldl (fun ret edgeIndex => ret * net.legDim edgeIndex) 1

/-- The function `computeContractionCost(set1, set2)`. -/
def computeContractionCost (net : TensorNetwork) (set1 set2 : BitSet) : ℚ :=
  let e1 := net.collectOpenLegs set1
  let e2 := net.collectOpenLegs set2
  net.computeLegDimProduct (e1 ||| e2)

/-- The table `vertexLegs` filled by `prepareForOptimization`. -/
def vertexLegs (net : TensorNetwork) (index : Nat) : BitSet := net.collectVertexLegs index false

/-- The table `vertexSizes` filled by `prepareForOptimization`. -/
def vertexSizes (net : TensorNetwork) (index : Nat) : ℚ :=
  net.computeLegDimProduct (net.vertexLegs index)

/-- The function `computeLinearCost(sol)`. -/
def computeLinearCost (net : TensorNetwork) (sol : List Nat) : ℚ :=
  ((sol.drop 1).foldl
    (fun (st : ℚ × BitSet) v =>
      let vertexEdges := net.collectVertexLegs v false
      (st.1 + net.computeLegDimProduct (st.2 ||| vertexEdges), st.2 ^^^ vertexEdges))
    (0, net.collectVertexLegs (sol.headD 0) false)).1

/-- The recursive lambda `rec` of `computeBushyCost`; `fuel` bounds the depth of the recursion
and `none` stands for a failed assertion or a read outside `sol`. -/
def computeBushyCostRec (net : TensorNetwork) (sol : List RangeNode) :
    Nat → Nat → Option (ℚ × BitSet)
  | 0, _ => none
  | fuel + 1, index =>
    match sol[index]? with
    | none => none
    | some node =>
      if node.left = NIL then
        if node.right = NIL then some (0, BitSet.single node.nodeIndex) else none
      else
        match computeBushyCostRec net sol fuel node.left with
        | none => none
        | some (lc, ls) =>
          match computeBushyCostRec net sol fuel node.right with
          | none => none
          | some (rc, rs) =>
            let contractionCost := net.computeContractionCost ls rs
            if ls &&& rs = 0 then some (lc + rc + contractionCost, ls ||| rs) else none

/-- The function `computeBushyCost(sol)`. -/
def computeBushyCost (net : TensorNetwork) (sol : List RangeNode) : Option ℚ :=
  (computeBushyCostRec net sol sol.length (sol.length - 1)).map Prod.fst

end TensorNetwork

/-! ## Plan cache -/

/-- A node `Optimizer::Plan` of the plan cache; `left` and `right` hold the keys of the
children. -/
structure PlanNode where
  totalCost : ℚ
  set : BitSet
  left : Option BitSet
  right : Option BitSet
  deriving DecidableEq, Repr

/-- The map `plans` from vertex sets to plan nodes. -/
abbrev PlanCache := BitSet → Option PlanNode

/-- The plan tree reachable from a `shared_ptr<Plan>`: a node with two null children or with
two children. -/
inductive Plan where
  | leaf (totalCost : ℚ) (set : BitSet) : Plan
  | node (totalCost : ℚ) (set : BitSet) (left right : Plan) : Plan
  deriving DecidableEq, Repr

namespace Plan

/-- The field `totalCost`. -/
def totalCost : Plan → ℚ
  | leaf c _ => c
  | node c _ _ _ => c

/-- The field `set`. -/
def set : Plan → BitSet
  | leaf _ s => s
  | node _ s _ _ => s

end Plan

namespace PlanCache

/-- The empty cache. -/
def empty : PlanCache := fun _ => none

/-- The assignment `plans[key] = node`. -/
def insert (plans : PlanCache) (key : BitSet) (node : PlanNode) : PlanCache :=
  fun k => if k = key then some node else plans k

/-- The plan tree a pointer refers to, read off the cache; `fuel` bounds its depth. -/
def toPlan (plans : PlanCache) : Nat → BitSet → Option Plan
  | 0, _ => none
  | fuel + 1, key =>
    match plans key with
    | none => none
    | some p =>
      match p.left, p.right with
      | none, none => some (Plan.leaf p.totalCost p.set)
      | some l, some r =>
        match toPlan plans fuel l, toPlan plans fuel r with
        | some lt, some rt => some (Plan.node p.totalCost p.set lt rt)
        | _, _ => none
      | _, _ => none

end PlanCache

/-- The function `Optimizer::createPlan(l, r)`: returns the updated cache and the pointer to the
plan of `l->set + r->set`. -/
def createPlan (net : TensorNetwork) (plans : PlanCache) (l r : BitSet) :
    Option (PlanCache × BitSet) :=
  match plans l, plans r with
  | some lp, some rp =>
    let rightProblem := rp.set
    let leftProblem := lp.set
    if leftProblem &&& rightProblem ≠ 0 then none
    else
      let totalProblem := leftProblem ||| rightProblem
      let contractionCost := net.computeContractionCost leftProblem rightProblem
      let currCost := contractionCost + lp.totalCost + rp.totalCost
      match plans totalProblem with
      | none =>
        some (plans.insert totalProblem ⟨currCost, totalProblem, some l, some r⟩, totalProblem)
      | some old =>
        if old.set ≠ totalProblem then none
        else if currCost < old.totalCost then
          some (plans.insert totalProblem
            { old with totalCost := currCost, left := some l, right := some r }, totalProblem)
        else some (plans, totalProblem)
  | _, _ => none

/-- The function `Optimizer::initBaseTensors`. -/
def initBaseTensors (net : TensorNetwork) (plans : PlanCache) : PlanCache :=
  (List.range net.n).foldl
    (fun p index => p.insert (BitSet.single index) ⟨0, BitSet.single index, none, none⟩) plans

/-- The function `Optimizer::getPlan(s)`. -/
def getPlan (plans : PlanCache) (s : BitSet) : Option BitSet :=
  match plans s with
  | some _ => some s
  | none => none

/-- The loop of `translateSolutionToPlan(const std::vector<unsigned>&)` over the positions
`index = 1, …, n - 1`, given as the list of the remaining positions; the state is the cache,
the pointer `l` and `leftProblem`. -/
def translateLinearLoop (net : TensorNetwork) (solution : List Nat) :
    List Nat → PlanCache × BitSet × BitSet → Option (PlanCache × BitSet × BitSet)
  | [], st => some st
  | index :: rest, (plans, l, leftProblem) =>
    match solution[index]? with
    | none => none
    | some v =>
      let rightProblem := BitSet.single v
      match getPlan plans rightProblem with
      | none => none
      | some r =>
        match plans l, plans r with
        | some lp, some rp =>
          if lp.set = leftProblem ∧ rp.set = rightProblem then
            match createPlan net plans l r with
            | none => none
            | some (plans1, l1) =>
              let leftProblem1 := leftProblem ||| rightProblem
              match plans1 l1 with
              | none => none
              | some lp1 =>
                if lp1.set = leftProblem1 then
                  translateLinearLoop net solution rest (plans1, l1, leftProblem1)
                else none
          else none
        | _, _ => none

/-- The function `translateSolutionToPlan(const std::vector<unsigned>& solution)`. -/
def translateLinearSolutionToPlan (net : TensorNetwork) (plans : PlanCache)
    (solution : List Nat) : Option (PlanCache × BitSet) :=
  let plans0 := initBaseTensors net plans
  match solution.head? with
  | none => none
  | some v0 =>
    let leftProblem := BitSet.single v0
    match translateLinearLoop net solution (List.range' 1 (net.n - 1)) (plans0, leftProblem, leftProblem) with
    | none => none
    | some (plans1, l, leftProblem1) =>
      if BitSet.size leftProblem1 = net.n then some (plans1, l) else none

/-- The recursive lambda `build` of `translateSolutionToPlan(const std::vector<RangeNode>&)`;
the state is the cache and `currIndex`, `fuel` bounds the depth of the recursion. -/
def translateBushyBuild (net : TensorNetwork) (solution : List RangeNode) :
    Nat → Nat → PlanCache × Nat → Option ((PlanCache × Nat) × BitSet)
  | 0, _, _ => none
  | fuel + 1, index, st =>
    match solution[index]? with
    | none => none
    | some node =>
      if node.left = NIL then
        if node.right = NIL then some (st, BitSet.single node.nodeIndex) else none
      else
        match translateBushyBuild net solution fuel node.left st with
        | none => none
        | some (st1, l) =>
          match translateBushyBuild net solution fuel node.right st1 with
          | none => none
          | some ((plans2, currIndex2), r) =>
            match createPlan net plans2 l r with
            | none => none
            | some (plans3, p) => some ((plans3, currIndex2 + 1), p)

/-- The function `translateSolutionToPlan(const std::vector<RangeNode>& solution)`. -/
def translateBushySolutionToPlan (net : TensorNetwork) (plans : PlanCache)
    (solution : List RangeNode) : Option (PlanCache × BitSet) :=
  let plans0 := initBaseTensors net plans
  match translateBushyBuild net solution solution.length (solution.length - 1) (plans0, net.n) with
  | none => none
  | some ((plans1, currIndex), ret) =>
    if currIndex = 2 * net.n - 1 then some (plans1, ret) else none

/-- An entry `{i, j}` of the output `Sequence[]`. -/
structure Sequence where
  i : Nat
  j : Nat
  deriving DecidableEq, Repr

/-- The recursive lambda `build` of `translatePlanToSequence`.  The array `ret` is written at
the positions `currIndex - n = 0, 1, 2, …` in this order, so the state keeps the list of the
entries written so far together with `currIndex`; a write at or beyond position `n - 1`, a
child dereferenced on a node without children, and the failed assertion give `none`. -/
def translatePlanBuild (n : Nat) : Plan → List Sequence × Nat → Option ((List Sequence × Nat) × Nat)
  | Plan.leaf _ set, st =>
    if BitSet.size set = 1 then some (st, BitSet.front set) else none
  | Plan.node _ set left right, st =>
    if BitSet.size set = 1 then none
    else
      match translatePlanBuild n left st with
      | none => none
      | some (st1, l) =>
        match translatePlanBuild n right st1 with
        | none => none
        | some ((ret, currIndex), r) =>
          if currIndex - n < n - 1 then
            some ((ret ++ [⟨l, r⟩], currIndex + 1), currIndex)
          else none

/-- The function `Optimizer::translatePlanToSequence(solution)` for a network of `n` vertices. -/
def translatePlanToSequence (n : Nat) (solution : Plan) : Option (List Sequence) :=
  match translatePlanBuild n solution ([], n) with
  | none => none
  | some ((ret, currIndex), _) => if currIndex = 2 * n - 1 then some ret else none

/-! ## Greedy -/

/-- The constant `std::numeric_limits<long double>::epsilon()` of the 80-bit format. -/
def epsilon : ℚ := 1 / 2 ^ 63

/-- The function `isClose(a, b)`. -/
def isClose (a b : ℚ) : Bool := decide (|a - b| < epsilon)

/-- The function `isLessOrEqualThan(a, b)`: `a + epsilon < b` or `isClose(a, b)`. -/
def isLessOrEqualThan (a b : ℚ) : Bool := decide (a + epsilon < b) || isClose a b

/-- The lambda `cost(edgeId)` of `runGreedy`. -/
def greedyCost (net : TensorNetwork) (mapping : Nat → BitSet) (edgeId : Nat) : ℚ :=
  let edge := net.endpoints edgeId
  let l := mapping edge.1
  let r := mapping edge.2
  if l = r then -1 else net.computeContractionCost l r

/-- The lambda `cmp(lhs, rhs)` of `runGreedy`. -/
def greedyCmp (net : TensorNetwork) (mapping : Nat → BitSet) (lhs rhs : Nat) : Bool :=
  let l := greedyCost net mapping lhs
  let r := greedyCost net mapping rhs
  if isClose l r then decide (lhs < rhs) else decide (l < r)

/-- The call `heap.insert(x)` on a `std::set` kept as the list of its elements in iteration
order: `x` is placed before the first element it precedes, and dropped when an element
equivalent to it is met. -/
def setInsert (cmp : Nat → Nat → Bool) (x : Nat) : List Nat → List Nat
  | [] => [x]
  | y :: ys =>
    if cmp x y then x :: y :: ys
    else if cmp y x then y :: setInsert cmp x ys
    else y :: ys

/-- The update `for (auto elem : cum) mapping[elem] = cum`. -/
def greedyAssign (mapping : Nat → BitSet) (cum : BitSet) : Nat → BitSet :=
  (BitSet.toList cum).foldl (fun mp elem => Function.update mp elem cum) mapping

/-- The loop `while (!heap.empty())` of `runGreedy`: nothing is inserted after the heap has
been set up, so the loop visits the elements in iteration order. -/
def greedyLoop (net : TensorNetwork) :
    List Nat → PlanCache × (Nat → BitSet) → Option (PlanCache × (Nat → BitSet))
  | [], st => some st
  | minEdgeId :: heap, (plans, mapping) =>
    if greedyCost net mapping minEdgeId < 0 then greedyLoop net heap (plans, mapping)
    else
      let edge := net.endpoints minEdgeId
      let l := mapping edge.1
      let r := mapping edge.2
      match getPlan plans l, getPlan plans r with
      | some pl, some pr =>
        match createPlan net plans pl pr with
        | none => none
        | some (plans1, _) =>
          let cum := l ||| r
          greedyLoop net heap (plans1, greedyAssign mapping cum)
      | _, _ => none

/-- The initial `mapping` of `runGreedy`; a key that was never assigned reads as the empty
set. -/
def greedyInitMapping (net : TensorNetwork) : Nat → BitSet :=
  fun index => if index < net.n then BitSet.single index else 0

/-- The initial `heap` of `runGreedy`: every index of `edgeInfo` is inserted. -/
def greedyInitHeap (net : TensorNetwork) : List Nat :=
  (List.range net.edgeInfo.length).foldl
    (fun heap index => setInsert (greedyCmp net (greedyInitMapping net)) index heap) []

/-- The function `Optimizer::runGreedy`, started on the cache `plans`. -/
def runGreedy (net : TensorNetwork) (plans : PlanCache) : Option (PlanCache × BitSet) :=
  let plans0 := initBaseTensors net plans
  match greedyLoop net (greedyInitHeap net) (plans0, greedyInitMapping net) with
  | none => none
  | some (plans1, _) =>
    match getPlan plans1 (BitSet.fill net.n) with
    | none => none
    | some finalPlan => some (plans1, finalPlan)

/-! ## runDummy and LinDP -/

/-- The function `Optimizer::runDummy(baseSol, cost)`. -/
def runDummy (baseSol : List Nat) (cost : ℚ) : ℚ × List RangeNode :=
  let n := baseSol.length
  let sol0 : List RangeNode := List.replicate (2 * n - 1) ⟨0, 0, 0⟩
  let sol1 := (List.range n).foldl
    (fun sol index => sol.set index ⟨baseSol.getD index 0, NIL, NIL⟩) sol0
  let sol2 := (List.range' n (2 * n - 1 - n)).foldl
    (fun (st : List RangeNode × Nat) index =>
      (st.1.set index ⟨NIL, st.2, index - n + 1⟩, index)) (sol1, 0)
  (cost, sol2.1)

/-- The compile-time switch `ENABLE_LinDP_OUTER_PRODUCTS`, defined as `0` in `Optimizer.hpp`. -/
def ENABLE_LinDP_OUTER_PRODUCTS : Bool := false

/-- The assignment `table[i][j] = v` on an `n × n` table kept as a function of the two
indices. -/
def setCell {α : Type} (table : Nat → Nat → α) (i j : Nat) (v : α) : Nat → Nat → α :=
  fun a b => if a = i ∧ b = j then v else table a b

/-- The tables `tensorLegs` and `tensorSizes` of `runLocalLinDP`. -/
structure LegTables where
  tensorLegs : Nat → Nat → BitSet
  tensorSizes : Nat → Nat → ℚ

/-- The inner loop `for (unsigned j = i; j != n; ++j)` of the precomputation, over the list of
the remaining `j`; the state is `currTensorSize`, `currLegs` and the two tables.  The loop
ends without tables when `assert(isLessOrEqualThan(commonSize, currTensorSize))` fails. -/
def linDPLegsRow (net : TensorNetwork) (baseSol : List Nat) (i : Nat) :
    List Nat → ℚ × BitSet × LegTables → Option LegTables
  | [], st => some st.2.2
  | j :: rest, (currTensorSize, currLegs, tabs) =>
    let incomingLegs := net.vertexLegs (baseSol.getD j 0)
    let commonSize := net.computeLegDimProduct (currLegs &&& incomingLegs)
    if isLessOrEqualThan commonSize currTensorSize then
      let currTensorSize1 :=
        (currTensorSize / commonSize) * (net.vertexSizes (baseSol.getD j 0) / commonSize)
      let currLegs1 := currLegs ^^^ incomingLegs
      linDPLegsRow net baseSol i rest
        (currTensorSize1, currLegs1,
          ⟨setCell tabs.tensorLegs i j currLegs1, setCell tabs.tensorSizes i j currTensorSize1⟩)
    else none

/-- The loop `for (unsigned i = n - 1; i < n; --i)` of the precomputation over the list of the
remaining rows `i`, each started with `currTensorSize = 1.0` and empty `currLegs`. -/
def linDPLegsRows (net : TensorNetwork) (baseSol : List Nat) :
    List Nat → LegTables → Option LegTables
  | [], tabs => some tabs
  | i :: rest, tabs =>
    match linDPLegsRow net baseSol i (List.range' i (net.n - i)) (1, 0, tabs) with
    | none => none
    | some tabs1 => linDPLegsRows net baseSol rest tabs1

/-- The tables `tensorLegs` and `tensorSizes` after the precomputation of `runLocalLinDP`,
the rows `n - 1, …, 0` in turn. -/
def linDPLegs (net : TensorNetwork) (baseSol : List Nat) : Option LegTables :=
  linDPLegsRows net baseSol (List.range net.n).reverse ⟨fun _ _ => 0, fun _ _ => 0⟩

/-- The tables `dp` and `ptr` of `runLocalLinDP`; the cost `kInf` is `none`. -/
structure DPTables where
  dp : Nat → Nat → Option ℚ
  ptr : Nat → Nat → Nat

/-- One pass of the body of `for (unsigned k = i; k != j; ++k)`. -/
def linDPSplit (net : TensorNetwork) (legs : LegTables) (i j : Nat) (t : DPTables) (k : Nat) :
    DPTables :=
  match t.dp i k, t.dp (k + 1) j with
  | some l, some r =>
    let commonLegs := legs.tensorLegs i k &&& legs.tensorLegs (k + 1) j
    if !ENABLE_LinDP_OUTER_PRODUCTS && commonLegs = 0 then t
    else
      let commonSize := net.computeLegDimProduct commonLegs
      let leftSize := legs.tensorSizes i k
      let rightSize := legs.tensorSizes (k + 1) j
      let contractionCost := (max leftSize rightSize / commonSize) * min leftSize rightSize
      let better : Bool :=
        match t.dp i j with
        | none => true
        | some c => decide (l + r + contractionCost < c)
      if better then ⟨setCell t.dp i j (some (l + r + contractionCost)), setCell t.ptr i j k⟩
      else t
  | _, _ => t

/-- The body of `for (unsigned i = 0; i + d != n; ++i)`: all splits of the window `[i, i + d]`. -/
def linDPWindow (net : TensorNetwork) (legs : LegTables) (d : Nat) (t : DPTables) (i : Nat) :
    DPTables :=
  (List.range' i d).foldl (linDPSplit net legs i (i + d)) t

/-- The body of `for (unsigned d = 1; d != n; ++d)`: all windows of length `d + 1`. -/
def linDPDiagonal (net : TensorNetwork) (legs : LegTables) (t : DPTables) (d : Nat) : DPTables :=
  (List.range (net.n - d)).foldl (linDPWindow net legs d) t

/-- The tables `dp` and `ptr` after the initialisation of the windows of length 1. -/
def linDPInit (n : Nat) : DPTables :=
  (List.range n).foldl
    (fun t index => ⟨setCell t.dp index index (some 0), setCell t.ptr index index NIL⟩)
    ⟨fun _ _ => none, fun _ _ => NIL⟩

/-- The tables `dp` and `ptr` after the three nested loops of `runLocalLinDP`, run on the
tables `legs` of the precomputation. -/
def linDPTables (net : TensorNetwork) (legs : LegTables) : DPTables :=
  (List.range' 1 (net.n - 1)).foldl (linDPDiagonal net legs) (linDPInit net.n)

/-- The recursive lambda `buildSolution(i, j, d)` of `runLocalLinDP`; the state is the vector
`sol`, `fuel` bounds the depth of the recursion. -/
def buildSolution (baseSol : List Nat) (ptr : Nat → Nat → Nat) :
    Nat → Nat → Nat → List RangeNode → Option (List RangeNode × Nat)
  | 0, _, _, _ => none
  | fuel + 1, i, j, sol =>
    if ¬ i ≤ j then none
    else if i = j then
      let sol1 := sol ++ [⟨baseSol.getD i 0, NIL, NIL⟩]
      some (sol1, sol1.length - 1)
    else
      if ptr i j = NIL then none
      else
        let k := ptr i j
        if ¬ (i ≤ k ∧ k ≤ j) then none
        else
          match buildSolution baseSol ptr fuel i k sol with
          | none => none
          | some (sol1, l) =>
            match buildSolution baseSol ptr fuel (k + 1) j sol1 with
            | none => none
            | some (sol2, r) =>
              let sol3 := sol2 ++ [⟨baseSol.getD k 0, l, r⟩]
              some (sol3, sol3.length - 1)

/-- The function `Optimizer::runLocalLinDP(baseSol, cost)`. -/
def runLocalLinDP (net : TensorNetwork) (baseSol : List Nat) : Option (ℚ × List RangeNode) :=
  match linDPLegs net baseSol with
  | none => none
  | some legs =>
    let t := linDPTables net legs
    match buildSolution baseSol t.ptr net.n 0 (net.n - 1) [] with
    | none => none
    | some (sol, _) =>
      match net.computeBushyCost sol with
      | none => none
      | some cost => some (cost, sol)

/-! ## Predicates used in the statements -/

namespace Plan

/-- The vertices at the leaves of a plan tree, from left to right (the order in which
`flattenPlan` lists them). -/
def leaves : Plan → List Nat
  | leaf _ s => [BitSet.front s]
  | node _ _ l r => l.leaves ++ r.leaves

/-- A plan tree is well formed when every leaf covers a single vertex and every non-leaf node
`p` satisfies `left.set ∪ right.set = p.set` and `left.set ∩ right.set = ∅`. -/
def WellFormed : Plan → Prop
  | leaf _ s => ∃ v, s = BitSet.single v
  | node _ s l r => l.set ||| r.set = s ∧ l.set &&& r.set = 0 ∧ l.WellFormed ∧ r.WellFormed

/-- The cost of a plan tree recomputed bottom-up: the sum of
`computeContractionCost(left.set, right.set)` over the non-leaf nodes. -/
def bottomUpCost (net : TensorNetwork) : Plan → ℚ
  | leaf _ _ => 0
  | node _ _ l r => net.computeContractionCost l.set r.set + l.bottomUpCost net + r.bottomUpCost net

end Plan

namespace PlanCache

/-- The invariant of the plan cache: every node is stored under its own set; a node without
children covers a single vertex; the children of any other node are in the cache and their
sets split the set of the node. -/
def WF (plans : PlanCache) : Prop :=
  ∀ s p, plans s = some p →
    p.set = s ∧ s ≠ 0 ∧
    ((p.left = none ∧ p.right = none ∧ ∃ v, s = BitSet.single v) ∨
     (∃ l r lp rp, p.left = some l ∧ p.right = some r ∧ plans l = some lp ∧ plans r = some rp ∧
        lp.set ||| rp.set = p.set ∧ lp.set &&& rp.set = 0))

end PlanCache

/-- The shape of a bushy solution: a binary tree with vertices at its leaves. -/
inductive BTree where
  | leaf (v : Nat) : BTree
  | node (l r : BTree) : BTree
  deriving DecidableEq, Repr

namespace BTree

/-- The vertices at the leaves, from left to right. -/
def leaves : BTree → List Nat
  | leaf v => [v]
  | node l r => l.leaves ++ r.leaves

/-- The number of non-leaf nodes. -/
def internal : BTree → Nat
  | leaf _ => 0
  | node l r => l.internal + r.internal + 1

/-- The set of the vertices at the leaves. -/
def set : BTree → BitSet
  | leaf v => BitSet.single v
  | node l r => l.set ||| r.set

end BTree

/-- The entry `index` of the array `sol` is the root of a post-order bushy tree of shape `T`:
a leaf is `(vertexId, NIL, NIL)`, the children of any other entry lie before it. -/
inductive RangeTree (sol : List RangeNode) : Nat → BTree → Prop where
  | leaf (index v : Nat) : sol[index]? = some ⟨v, NIL, NIL⟩ → RangeTree sol index (BTree.leaf v)
  | node (index x l r : Nat) (L R : BTree) : sol[index]? = some ⟨x, l, r⟩ → l ≠ NIL →
      l < index → r < index → RangeTree sol l L → RangeTree sol r R →
      RangeTree sol index (BTree.node L R)

namespace TensorNetwork

/-- The invariants the constructors and `initGraphStructure` establish: `edgeInfo` has
`m + n` entries, the endpoints of the internal edges are vertices, the entry `m + v` is the
open leg of `v` (with value-initialised endpoints), and all dimensions are positive. -/
def WellFormed (net : TensorNetwork) : Prop :=
  net.edgeInfo.length = net.m + net.n ∧ net.openLegSize.length = net.n ∧
  (∀ e, e < net.m → (net.endpoints e).1 < net.n ∧ (net.endpoints e).2 < net.n) ∧
  (∀ v, v < net.n → net.edgeInfo.getD (net.m + v) ⟨1, (0, 0)⟩ = ⟨net.openLegSize.getD v 1, (0, 0)⟩) ∧
  (∀ e, 0 < net.legDim e)

/-- Two vertices are joined by an internal edge. -/
def Adjacent (net : TensorNetwork) (u v : Nat) : Prop :=
  ∃ e, e < net.m ∧ (net.endpoints e = (u, v) ∨ net.endpoints e = (v, u))

/-- The network is connected: any two vertices are joined by a path of internal edges. -/
def Connected (net : TensorNetwork) : Prop :=
  ∀ u v, u < net.n → v < net.n → Relation.ReflTransGen net.Adjacent u v

end TensorNetwork

/-! ## Bit-set lemmas -/

namespace BitSet

theorem mem_bitsAux : ∀ (fuel s i v : Nat), s ≤ fuel →
    (v ∈ bitsAux fuel s i ↔ i ≤ v ∧ s.testBit (v - i) = true) := by
  intro fuel
  induction fuel with
  | zero =>
    intro s i v hs
    have : s = 0 := by omega
    subst this
    simp [bitsAux]
  | succ fuel ih =>
    intro s i v hs
    unfold bitsAux
    by_cases h0 : s = 0
    · subst h0; simp
    · rw [if_neg h0, List.mem_append, ih (s / 2) (i + 1) v (by omega)]
      constructor
      · rintro (h | ⟨h1, h2⟩)
        · split at h
          · rename_i hodd
            simp only [List.mem_singleton] at h
            subst h
            simp [Nat.testBit_zero, hodd]
          · simp at h
        · refine ⟨by omega, ?_⟩
          have : v - i = (v - (i + 1)) + 1 := by omega
          rw [this, Nat.testBit_add_one]; exact h2
      · rintro ⟨h1, h2⟩
        by_cases hv : v = i
        · left
          subst hv
          simp only [Nat.sub_self, Nat.testBit_zero, decide_eq_true_eq] at h2
          simp [h2]
        · right
          refine ⟨by omega, ?_⟩
          have : v - i = (v - (i + 1)) + 1 := by omega
          rw [this, Nat.testBit_add_one] at h2; exact h2

theorem bitsAux_sorted : ∀ (fuel s i : Nat), (bitsAux fuel s i).Pairwise (· < ·) := by
  intro fuel
  induction fuel with
  | zero => intro s i; simp [bitsAux]
  | succ fuel ih =>
    intro s i
    unfold bitsAux
    by_cases h0 : s = 0
    · simp [h0]
    · rw [if_neg h0, List.pairwise_append]
      refine ⟨by split <;> simp, ih _ _, ?_⟩
      intro a ha b hb
      have hb1 : i + 1 ≤ b := by
        by_contra hlt
        -- membership below the offset is impossible
        have key : ∀ (f t j w : Nat), w ∈ bitsAux f t j → j ≤ w := by
          intro f
          induction f with
          | zero => intro t j w hw; simp [bitsAux] at hw
          | succ f ihf =>
            intro t j w hw
            unfold bitsAux at hw
            split at hw
            · simp at hw
            · rcases List.mem_append.1 hw with h | h
              · split at h
                · simp at h; omega
                · simp at h
              · have := ihf _ _ _ h; omega
        exact hlt (key _ _ _ _ hb)
      split at ha
      · simp at ha; omega
      · simp at ha

theorem mem_toList {s v : Nat} : v ∈ toList s ↔ s.testBit v = true := by
  unfold toList
  rw [mem_bitsAux s s 0 v (le_refl _)]
  simp

theorem toList_sorted (s : Nat) : (toList s).Pairwise (· < ·) := bitsAux_sorted _ _ _

theorem toList_nodup (s : Nat) : (toList s).Nodup :=
  (toList_sorted s).imp (fun h => Nat.ne_of_lt h)

theorem toList_eq_of_mem {s : Nat} {l : List Nat} (hl : l.Pairwise (· < ·))
    (h : ∀ v, v ∈ l ↔ s.testBit v = true) : toList s = l := by
  apply List.eq_of_perm_of_sorted (r := (· < ·)) _ (toList_sorted s) hl
  rw [List.perm_ext_iff_of_nodup (toList_nodup s) (hl.imp (fun h => Nat.ne_of_lt h))]
  intro a
  rw [mem_toList, h]

theorem testBit_single (v i : Nat) : (single v).testBit i = decide (v = i) := by
  unfold single; exact Nat.testBit_two_pow

theorem testBit_fill (n i : Nat) : (fill n).testBit i = decide (i < n) := by
  unfold fill; exact Nat.testBit_two_pow_sub_one n i

theorem toList_single (v : Nat) : toList (single v) = [v] := by
  apply toList_eq_of_mem (by simp)
  intro i; simp [testBit_single, eq_comm]

theorem toList_zero : toList 0 = [] := by
  apply toList_eq_of_mem (by simp)
  intro i; simp

theorem toList_fill (n : Nat) : toList (fill n) = List.range n := by
  apply toList_eq_of_mem
  · exact List.pairwise_lt_range n
  · intro i; simp [testBit_fill]

theorem size_single (v : Nat) : size (single v) = 1 := by simp [size, toList_single]
theorem front_single (v : Nat) : front (single v) = v := by simp [front, toList_single]
theorem size_fill (n : Nat) : size (fill n) = n := by simp [size, toList_fill]

theorem single_ne_zero (v : Nat) : single v ≠ 0 := by
  unfold single; positivity

theorem eq_zero_of_toList {s : Nat} (h : toList s = []) : s = 0 := by
  apply Nat.eq_of_testBit_eq
  intro i
  have := @mem_toList s i
  rw [h] at this
  simp at this
  simp [this]

theorem size_eq_zero {s : Nat} : size s = 0 ↔ s = 0 := by
  constructor
  · intro h; exact eq_zero_of_toList (List.length_eq_zero.1 h)
  · intro h; subst h; simp [size, toList_zero]

/-- The members of a bit-set as a `Finset`. -/
def toFinset (s : BitSet) : Finset Nat := (toList s).toFinset

theorem mem_toFinset {s v : Nat} : v ∈ toFinset s ↔ s.testBit v = true := by
  simp [toFinset, mem_toList]

theorem size_eq_card (s : Nat) : size s = (toFinset s).card := by
  unfold size toFinset
  rw [List.toFinset_card_of_nodup (toList_nodup s)]

theorem toFinset_lor (a b : Nat) : toFinset (a ||| b) = toFinset a ∪ toFinset b := by
  ext v; simp [mem_toFinset, Nat.testBit_lor]

theorem toFinset_land (a b : Nat) : toFinset (a &&& b) = toFinset a ∩ toFinset b := by
  ext v; simp [mem_toFinset, Nat.testBit_land]

theorem toFinset_xor (a b : Nat) : toFinset (a ^^^ b) = symmDiff (toFinset a) (toFinset b) := by
  ext v
  simp only [mem_toFinset, Nat.testBit_xor, Finset.mem_symmDiff]
  cases a.testBit v <;> cases b.testBit v <;> simp

theorem toFinset_eq_empty {s : Nat} : toFinset s = ∅ ↔ s = 0 := by
  constructor
  · intro h
    apply Nat.eq_of_testBit_eq
    intro i
    have : i ∉ toFinset s := by rw [h]; simp
    rw [mem_toFinset] at this
    simp [this]
  · intro h; subst h; simp [toFinset, toList_zero]

theorem toFinset_inj {a b : Nat} (h : toFinset a = toFinset b) : a = b := by
  apply Nat.eq_of_testBit_eq
  intro i
  have := Finset.ext_iff.1 h i
  rw [mem_toFinset, mem_toFinset] at this
  cases ha : a.testBit i <;> cases hb : b.testBit i <;> simp_all

theorem disjoint_toFinset {a b : Nat} : Disjoint (toFinset a) (toFinset b) ↔ a &&& b = 0 := by
  rw [Finset.disjoint_iff_inter_eq_empty, ← toFinset_land, toFinset_eq_empty]

theorem size_lor {a b : Nat} (h : a &&& b = 0) : size (a ||| b) = size a + size b := by
  rw [size_eq_card, size_eq_card, size_eq_card, toFinset_lor,
    Finset.card_union_of_disjoint (disjoint_toFinset.2 h)]

theorem toList_lor_perm {a b : Nat} (h : a &&& b = 0) :
    (toList (a ||| b)).Perm (toList a ++ toList b) := by
  rw [List.perm_ext_iff_of_nodup (toList_nodup _)]
  · intro v; simp [mem_toList, Nat.testBit_lor]
  · rw [List.nodup_append]
    refine ⟨toList_nodup _, toList_nodup _, ?_⟩
    intro v ha hb
    rw [mem_toList] at ha hb
    have := Nat.testBit_land a b v
    rw [h, ha, hb] at this
    simp at this

end BitSet

/-! ## Plan cache lemmas -/

namespace PlanCache

theorem insert_same (plans : PlanCache) (k : BitSet) (p : PlanNode) :
    plans.insert k p k = some p := by simp [insert]

theorem insert_other (plans : PlanCache) {k k' : BitSet} (p : PlanNode) (h : k' ≠ k) :
    plans.insert k p k' = plans k' := by simp [insert, h]

theorem wf_empty : WF empty := by
  intro s p h; simp [empty] at h

/-- Storing under `k` a node with set `k` keeps the invariant, provided the new node itself
satisfies it. -/
theorem wf_insert {plans : PlanCache} (hwf : plans.WF) (k : BitSet) (p : PlanNode)
    (hset : p.set = k) (hk : k ≠ 0)
    (hp : (p.left = none ∧ p.right = none ∧ ∃ v, k = BitSet.single v) ∨
      (∃ l r lp rp, p.left = some l ∧ p.right = some r ∧ plans l = some lp ∧
        plans r = some rp ∧ lp.set ||| rp.set = p.set ∧ lp.set &&& rp.set = 0)) :
    (plans.insert k p).WF := by
  have key : ∀ c cp, plans c = some cp → ∃ cp', plans.insert k p c = some cp' ∧ cp'.set = cp.set := by
    intro c cp hc
    by_cases hck : c = k
    · subst hck
      refine ⟨p, insert_same _ _ _, ?_⟩
      rw [hset, (hwf c cp hc).1]
    · exact ⟨cp, by rw [insert_other _ _ hck]; exact hc, rfl⟩
  intro s q hq
  by_cases hsk : s = k
  · subst hsk
    rw [insert_same] at hq
    cases hq
    refine ⟨hset, hk, ?_⟩
    rcases hp with h | ⟨l, r, lp, rp, h1, h2, h3, h4, h5, h6⟩
    · exact Or.inl h
    · obtain ⟨lp', hl', hls⟩ := key l lp h3
      obtain ⟨rp', hr', hrs⟩ := key r rp h4
      exact Or.inr ⟨l, r, lp', rp', h1, h2, hl', hr', by rw [hls, hrs]; exact h5,
        by rw [hls, hrs]; exact h6⟩
  · rw [insert_other _ _ hsk] at hq
    obtain ⟨h1, h2, h3⟩ := hwf s q hq
    refine ⟨h1, h2, ?_⟩
    rcases h3 with h | ⟨l, r, lp, rp, g1, g2, g3, g4, g5, g6⟩
    · exact Or.inl h
    · obtain ⟨lp', hl', hls⟩ := key l lp g3
      obtain ⟨rp', hr', hrs⟩ := key r rp g4
      exact Or.inr ⟨l, r, lp', rp', g1, g2, hl', hr', by rw [hls, hrs]; exact g5,
        by rw [hls, hrs]; exact g6⟩

end PlanCache

theorem lor_ne_zero_left {a b : Nat} (h : a ≠ 0) : a ||| b ≠ 0 := by
  intro h0
  apply h
  apply Nat.eq_of_testBit_eq
  intro i
  have := congrArg (fun x => Nat.testBit x i) h0
  simp only [Nat.testBit_lor, Nat.zero_testBit, Bool.or_eq_false_iff] at this
  simp [this.1]

/-- What `createPlan` does on a well-formed cache: it succeeds on two cached plans with
disjoint sets, returns the key `l ||| r`, keeps the invariant and keeps every key. -/
theorem createPlan_ok (net : TensorNetwork) {plans : PlanCache} (hwf : plans.WF)
    {l r : BitSet} {lp rp : PlanNode} (hl : plans l = some lp) (hr : plans r = some rp)
    (hdisj : l &&& r = 0) :
    ∃ plans', createPlan net plans l r = some (plans', l ||| r) ∧ plans'.WF ∧
      (∀ k, (plans k).isSome → (plans' k).isSome) ∧ (plans' (l ||| r)).isSome ∧
      (∀ k, k ≠ l ||| r → plans' k = plans k) := by
  have hls := (hwf l lp hl).1
  have hrs := (hwf r rp hr).1
  have hl0 := (hwf l lp hl).2.1
  unfold createPlan
  simp only [hl, hr, hls, hrs, hdisj, ne_eq, not_true_eq_false, if_false]
  cases hold : plans (l ||| r) with
  | none =>
    refine ⟨_, rfl, ?_, ?_, ?_, ?_⟩
    · refine PlanCache.wf_insert hwf (l ||| r) _ rfl (lor_ne_zero_left hl0) ?_
      exact Or.inr ⟨l, r, lp, rp, rfl, rfl, hl, hr, by simp [hls, hrs], by simp [hls, hrs, hdisj]⟩
    · intro k hk
      by_cases hkk : k = l ||| r
      · subst hkk; simp [PlanCache.insert_same]
      · rw [PlanCache.insert_other _ _ hkk]; exact hk
    · simp [PlanCache.insert_same]
    · intro k hk; exact PlanCache.insert_other _ _ hk
  | some old =>
    have hos := (hwf _ old hold).1
    simp only [hos, not_true_eq_false, if_false]
    by_cases hlt : net.computeContractionCost l r + lp.totalCost + rp.totalCost < old.totalCost
    · simp only [hlt, if_true]
      refine ⟨_, rfl, ?_, ?_, ?_, ?_⟩
      · refine PlanCache.wf_insert hwf (l ||| r) _ rfl (lor_ne_zero_left hl0) ?_
        exact Or.inr ⟨l, r, lp, rp, rfl, rfl, hl, hr, by simp [hls, hrs],
          by simp [hls, hrs, hdisj]⟩
      · intro k hk
        by_cases hkk : k = l ||| r
        · subst hkk; simp [PlanCache.insert_same]
        · rw [PlanCache.insert_other _ _ hkk]; exact hk
      · simp [PlanCache.insert_same]
      · intro k hk; exact PlanCache.insert_other _ _ hk
    · simp only [hlt, if_false]
      exact ⟨plans, rfl, hwf, fun _ h => h, by simp [hold], fun _ _ => rfl⟩

/-- Whatever `createPlan` returns, the invariant of the cache is kept. -/
theorem createPlan_wf (net : TensorNetwork) {plans plans' : PlanCache} {l r p : BitSet}
    (hwf : plans.WF) (h : createPlan net plans l r = some (plans', p)) : plans'.WF := by
  unfold createPlan at h
  cases hl : plans l with
  | none => simp [hl] at h
  | some lp =>
    cases hr : plans r with
    | none => simp [hl, hr] at h
    | some rp =>
      have hls := (hwf l lp hl).1
      have hrs := (hwf r rp hr).1
      by_cases hdisj : l &&& r = 0
      · obtain ⟨q, hq, hqwf, _⟩ := createPlan_ok net hwf hl hr hdisj
        unfold createPlan at hq
        rw [hq] at h
        cases h
        exact hqwf
      · simp [hl, hr, hls, hrs, hdisj] at h

namespace PlanCache

/-- The stored costs are consistent: a node without children costs nothing and the cost of
any other node is the contraction cost of its children plus their stored costs. -/
def CostOK (net : TensorNetwork) (plans : PlanCache) : Prop :=
  ∀ s p, plans s = some p →
    (p.left = none → p.totalCost = 0) ∧
    (∀ l r lp rp, p.left = some l → p.right = some r → plans l = some lp → plans r = some rp →
      p.totalCost = net.computeContractionCost lp.set rp.set + lp.totalCost + rp.totalCost)

/-- Reading a plan off a well-formed cache: with fuel at least the size of the key the tree is
found, it is well formed, covers the key and lists the members of the key at its leaves. -/
theorem toPlan_of_wf {plans : PlanCache} (hwf : plans.WF) :
    ∀ (fuel : Nat) (s : BitSet) (p : PlanNode), plans s = some p → BitSet.size s ≤ fuel →
      ∃ P, plans.toPlan fuel s = some P ∧ P.set = s ∧ P.totalCost = p.totalCost ∧
        P.WellFormed ∧ P.leaves.Perm (BitSet.toList s) := by
  intro fuel
  induction fuel with
  | zero =>
    intro s p hp hsz
    exact absurd (BitSet.size_eq_zero.1 (Nat.le_zero.1 hsz)) (hwf s p hp).2.1
  | succ fuel ih =>
    intro s p hp hsz
    obtain ⟨hset, hs0, hcase⟩ := hwf s p hp
    rcases hcase with ⟨h1, h2, v, hv⟩ | ⟨l, r, lp, rp, h1, h2, h3, h4, h5, h6⟩
    · refine ⟨Plan.leaf p.totalCost p.set, ?_, hset, rfl, ?_, ?_⟩
      · simp [toPlan, hp, h1, h2]
      · exact ⟨v, by rw [hset, hv]⟩
      · simp [Plan.leaves, hset, hv, BitSet.front_single, BitSet.toList_single]
    · have hls := (hwf l lp h3).1
      have hrs := (hwf r rp h4).1
      have hl0 := (hwf l lp h3).2.1
      have hr0 := (hwf r rp h4).2.1
      rw [hls, hrs, hset] at h5
      rw [hls, hrs] at h6
      have hsz' : BitSet.size s = BitSet.size l + BitSet.size r := by
        rw [← h5]; exact BitSet.size_lor h6
      have hlpos : 0 < BitSet.size l := Nat.pos_of_ne_zero (fun h => hl0 (BitSet.size_eq_zero.1 h))
      have hrpos : 0 < BitSet.size r := Nat.pos_of_ne_zero (fun h => hr0 (BitSet.size_eq_zero.1 h))
      obtain ⟨PL, hPL, hPLs, _, hPLw, hPLl⟩ := ih l lp h3 (by omega)
      obtain ⟨PR, hPR, hPRs, _, hPRw, hPRl⟩ := ih r rp h4 (by omega)
      refine ⟨Plan.node p.totalCost p.set PL PR, ?_, hset, rfl, ?_, ?_⟩
      · simp [toPlan, hp, h1, h2, hPL, hPR]
      · exact ⟨by rw [hPLs, hPRs, hset]; exact h5, by rw [hPLs, hPRs]; exact h6, hPLw, hPRw⟩
      · simp only [Plan.leaves]
        rw [← h5]
        exact (List.Perm.append hPLl hPRl).trans (BitSet.toList_lor_perm h6).symm

/-- On a cache with consistent costs the stored cost of a plan is its bottom-up cost. -/
theorem toPlan_cost {net : TensorNetwork} {plans : PlanCache} (hwf : plans.WF)
    (hc : plans.CostOK net) :
    ∀ (fuel : Nat) (s : BitSet) (P : Plan), plans.toPlan fuel s = some P →
      P.totalCost = P.bottomUpCost net ∧ ∀ p, plans s = some p → P.totalCost = p.totalCost ∧ P.set = p.set := by
  intro fuel
  induction fuel with
  | zero => intro s P h; simp [toPlan] at h
  | succ fuel ih =>
    intro s P h
    unfold toPlan at h
    cases hp : plans s with
    | none => simp [hp] at h
    | some p =>
      simp only [hp] at h
      cases hl : p.left with
      | none =>
        cases hr : p.right with
        | none =>
          simp only [hl, hr, Option.some.injEq] at h
          subst h
          refine ⟨?_, ?_⟩
          · simp [Plan.totalCost, Plan.bottomUpCost, (hc s p hp).1 hl]
          · intro q hq; cases hq; exact ⟨rfl, rfl⟩
        | some r => simp [hl, hr] at h
      | some l =>
        cases hr : p.right with
        | none => simp [hl, hr] at h
        | some r =>
          simp only [hl, hr] at h
          cases hPL : plans.toPlan fuel l with
          | none => simp [hPL] at h
          | some PL =>
            cases hPR : plans.toPlan fuel r with
            | none => simp [hPL, hPR] at h
            | some PR =>
              simp only [hPL, hPR, Option.some.injEq] at h
              subst h
              obtain ⟨hcl, hpl⟩ := ih l PL hPL
              obtain ⟨hcr, hpr⟩ := ih r PR hPR
              refine ⟨?_, ?_⟩
              · obtain ⟨_, _, hcase⟩ := hwf s p hp
                rcases hcase with ⟨h1, _⟩ | ⟨l', r', lp, rp, h1, h2, h3, h4, _, _⟩
                · rw [hl] at h1; cases h1
                · rw [hl] at h1; rw [hr] at h2; cases h1; cases h2
                  have := (hc s p hp).2 l r lp rp hl hr h3 h4
                  simp only [Plan.totalCost, Plan.bottomUpCost]
                  rw [this, ← hcl, ← hcr, (hpl lp h3).1, (hpr rp h4).1, (hpl lp h3).2, (hpr rp h4).2]
              · intro q hq; cases hq; exact ⟨rfl, rfl⟩

end PlanCache

/-- The cache `initBaseTensors` builds from the empty one holds exactly the single-vertex
plans of the vertices below `n`. -/
theorem initBaseTensors_empty (net : TensorNetwork) (k : BitSet) :
    initBaseTensors net PlanCache.empty k =
      if ∃ v, v < net.n ∧ k = BitSet.single v then some ⟨0, k, none, none⟩ else none := by
  unfold initBaseTensors
  generalize net.n = n
  induction n with
  | zero => simp [PlanCache.empty]
  | succ n ih =>
    rw [List.range_succ, List.foldl_append]
    simp only [List.foldl_cons, List.foldl_nil]
    by_cases hk : k = BitSet.single n
    · subst hk
      rw [PlanCache.insert_same, if_pos ⟨n, Nat.lt_succ_self n, rfl⟩]
    · rw [PlanCache.insert_other _ _ hk, ih]
      by_cases h : ∃ v, v < n ∧ k = BitSet.single v
      · obtain ⟨v, hv, hkv⟩ := h
        rw [if_pos ⟨v, hv, hkv⟩, if_pos ⟨v, by omega, hkv⟩]
      · rw [if_neg h, if_neg]
        rintro ⟨v, hv, hkv⟩
        by_cases hvn : v = n
        · subst hvn; exact hk hkv
        · exact h ⟨v, by omega, hkv⟩

theorem initBaseTensors_empty_wf (net : TensorNetwork) :
    (initBaseTensors net PlanCache.empty).WF := by
  intro s p hp
  rw [initBaseTensors_empty] at hp
  split at hp
  · rename_i h
    obtain ⟨v, _, hv⟩ := h
    cases hp
    exact ⟨rfl, by rw [hv]; exact BitSet.single_ne_zero v, Or.inl ⟨rfl, rfl, v, hv⟩⟩
  · cases hp

theorem initBaseTensors_empty_costOK (net : TensorNetwork) :
    (initBaseTensors net PlanCache.empty).CostOK net := by
  intro s p hp
  rw [initBaseTensors_empty] at hp
  split at hp
  · cases hp
    refine ⟨?_, ?_⟩
    · intro _; rfl
    · intro l r lp rp h; cases h
  · cases hp

/-- Adding a fresh node whose cost is that of its children keeps the costs consistent. -/
theorem costOK_insert_fresh {net : TensorNetwork} {plans : PlanCache} (hwf : plans.WF)
    (hc : plans.CostOK net) {k l r : BitSet} {lp rp : PlanNode} (hk : plans k = none)
    (hl : plans l = some lp) (hr : plans r = some rp) :
    (plans.insert k ⟨net.computeContractionCost lp.set rp.set + lp.totalCost + rp.totalCost, k,
      some l, some r⟩).CostOK net := by
  have hlk : l ≠ k := by rintro rfl; rw [hk] at hl; cases hl
  have hrk : r ≠ k := by rintro rfl; rw [hk] at hr; cases hr
  intro s p hp
  by_cases hsk : s = k
  · subst hsk
    rw [PlanCache.insert_same] at hp
    cases hp
    refine ⟨fun h => (by cases h), ?_⟩
    intro l' r' lp' rp' h1 h2 h3 h4
    cases h1; cases h2
    rw [PlanCache.insert_other _ _ hlk, hl] at h3
    rw [PlanCache.insert_other _ _ hrk, hr] at h4
    cases h3; cases h4
    rfl
  · rw [PlanCache.insert_other _ _ hsk] at hp
    refine ⟨(hc s p hp).1, ?_⟩
    intro l' r' lp' rp' h1 h2 h3 h4
    obtain ⟨_, _, hcase⟩ := hwf s p hp
    rcases hcase with ⟨g1, _⟩ | ⟨l2, r2, lp2, rp2, g1, g2, g3, g4, _, _⟩
    · rw [h1] at g1; cases g1
    · rw [h1] at g1; rw [h2] at g2; cases g1; cases g2
      have hl'k : l' ≠ k := by rintro rfl; rw [hk] at g3; cases g3
      have hr'k : r' ≠ k := by rintro rfl; rw [hk] at g4; cases g4
      rw [PlanCache.insert_other _ _ hl'k] at h3
      rw [PlanCache.insert_other _ _ hr'k] at h4
      exact (hc s p hp).2 l' r' lp' rp' h1 h2 h3 h4

/-- When the key `l ||| r` is not yet cached, `createPlan` adds the node of cost
`computeContractionCost(l, r) + l.totalCost + r.totalCost` and keeps the costs consistent. -/
theorem createPlan_fresh (net : TensorNetwork) {plans : PlanCache} (hwf : plans.WF)
    (hc : plans.CostOK net) {l r : BitSet} {lp rp : PlanNode} (hl : plans l = some lp)
    (hr : plans r = some rp) (hdisj : l &&& r = 0) (hk : plans (l ||| r) = none) :
    ∃ plans', createPlan net plans l r = some (plans', l ||| r) ∧ plans'.WF ∧ plans'.CostOK net ∧
      (∃ q, plans' (l ||| r) = some q) ∧ (∀ k, k ≠ l ||| r → plans' k = plans k) := by
  obtain ⟨plans', h1, h2, _, h4, h5⟩ := createPlan_ok net hwf hl hr hdisj
  refine ⟨plans', h1, h2, ?_, Option.isSome_iff_exists.1 h4, h5⟩
  have hls := (hwf l lp hl).1
  have hrs := (hwf r rp hr).1
  have : plans' = plans.insert (l ||| r)
      ⟨net.computeContractionCost lp.set rp.set + lp.totalCost + rp.totalCost, l ||| r,
        some l, some r⟩ := by
    unfold createPlan at h1
    simp only [hl, hr, hls, hrs, hdisj, hk, ne_eq, not_true_eq_false, if_false,
      Option.some.injEq, Prod.mk.injEq, and_true] at h1
    rw [← h1, hls, hrs]
  rw [this]
  exact costOK_insert_fresh hwf hc hk hl hr

/-! ## The left-deep translation -/

/-- The bit-set holding the members of a list. -/
def listSet (l : List Nat) : BitSet := l.foldr (fun v s => BitSet.single v ||| s) 0

theorem testBit_listSet (l : List Nat) (i : Nat) : (listSet l).testBit i = decide (i ∈ l) := by
  induction l with
  | nil => simp [listSet]
  | cons v l ih =>
    have : listSet (v :: l) = BitSet.single v ||| listSet l := rfl
    rw [this, Nat.testBit_lor, ih, BitSet.testBit_single]
    by_cases h1 : i = v <;> by_cases h2 : i ∈ l <;> simp [h1, h2, eq_comm]

theorem listSet_append_single (l : List Nat) (v : Nat) :
    listSet (l ++ [v]) = listSet l ||| BitSet.single v := by
  apply Nat.eq_of_testBit_eq
  intro i
  rw [Nat.testBit_lor, testBit_listSet, testBit_listSet, BitSet.testBit_single]
  by_cases h1 : i = v <;> by_cases h2 : i ∈ l <;> simp [h1, h2] <;> exact fun h => h1 h.symm

theorem listSet_append (l l' : List Nat) : listSet (l ++ l') = listSet l ||| listSet l' := by
  apply Nat.eq_of_testBit_eq
  intro i
  rw [Nat.testBit_lor, testBit_listSet, testBit_listSet, testBit_listSet]
  by_cases h1 : i ∈ l <;> by_cases h2 : i ∈ l' <;> simp [h1, h2]

theorem listSet_singleton (v : Nat) : listSet [v] = BitSet.single v := by
  simp [listSet]

theorem toList_listSet_perm {l : List Nat} (h : l.Nodup) : (BitSet.toList (listSet l)).Perm l := by
  rw [List.perm_ext_iff_of_nodup (BitSet.toList_nodup _) h]
  intro v
  rw [BitSet.mem_toList, testBit_listSet]; simp

theorem size_listSet {l : List Nat} (h : l.Nodup) : BitSet.size (listSet l) = l.length :=
  (toList_listSet_perm h).length_eq

theorem listSet_perm {l l' : List Nat} (h : l.Perm l') : listSet l = listSet l' := by
  apply Nat.eq_of_testBit_eq
  intro i
  rw [testBit_listSet, testBit_listSet]
  simp [h.mem_iff]

theorem listSet_range (n : Nat) : listSet (List.range n) = BitSet.fill n := by
  apply Nat.eq_of_testBit_eq
  intro i
  rw [testBit_listSet, BitSet.testBit_fill]; simp

theorem listSet_disjoint {l l' : List Nat} (h : ∀ v, v ∈ l → v ∉ l') :
    listSet l &&& listSet l' = 0 := by
  apply Nat.eq_of_testBit_eq
  intro i
  rw [Nat.testBit_land, testBit_listSet, testBit_listSet]
  by_cases h1 : i ∈ l
  · simp [h1, h i h1]
  · simp [h1]

/-- The loop of the left-deep translation from position `k` on: it succeeds, ends on the
plan of all of `σ`, and keeps the cache well formed with consistent costs. -/
theorem translateLinearLoop_ok (net : TensorNetwork) (σ : List Nat) (hnd : σ.Nodup) :
    ∀ (cnt k : Nat) (plans : PlanCache), k + cnt = σ.length → 0 < k →
      plans.WF → plans.CostOK net →
      (∀ v, v ∈ σ → (plans (BitSet.single v)).isSome) →
      (∀ key, (plans key).isSome → BitSet.size key ≤ k) →
      (plans (listSet (σ.take k))).isSome →
      ∃ plans', translateLinearLoop net σ (List.range' k cnt)
          (plans, listSet (σ.take k), listSet (σ.take k)) = some (plans', listSet σ, listSet σ) ∧
        plans'.WF ∧ plans'.CostOK net ∧ (plans' (listSet σ)).isSome := by
  intro cnt
  induction cnt with
  | zero =>
    intro k plans hk _ hwf hc _ _ hl
    have : σ.take k = σ := List.take_of_length_le (by omega)
    rw [this] at hl ⊢
    exact ⟨plans, by simp [translateLinearLoop], hwf, hc, hl⟩
  | succ cnt ih =>
    intro k plans hk hkpos hwf hc hsing hsize hl
    have hklt : k < σ.length := by omega
    have hget : σ[k]? = some σ[k] := List.getElem?_eq_getElem hklt
    have htake : σ.take (k + 1) = σ.take k ++ [σ[k]] := by
      rw [List.take_succ, hget]; rfl
    have hvmem : σ[k] ∈ σ := List.getElem_mem hklt
    have hvnot : σ[k] ∉ σ.take k := by
      intro hmem
      have hnd' : (σ.take (k + 1)).Nodup := hnd.sublist (List.take_sublist _ _)
      rw [htake, List.nodup_append] at hnd'
      exact hnd'.2.2 hmem (by simp)
    obtain ⟨lp, hlp⟩ := Option.isSome_iff_exists.1 hl
    obtain ⟨rp, hrp⟩ := Option.isSome_iff_exists.1 (hsing _ hvmem)
    have hdisj : listSet (σ.take k) &&& BitSet.single σ[k] = 0 := by
      rw [← listSet_singleton]
      exact listSet_disjoint (fun v hv => by simp; rintro rfl; exact hvnot hv)
    have hsz : BitSet.size (listSet (σ.take k) ||| BitSet.single σ[k]) = k + 1 := by
      rw [BitSet.size_lor hdisj, size_listSet (hnd.sublist (List.take_sublist _ _)),
        BitSet.size_single, List.length_take]
      omega
    have hfresh : plans (listSet (σ.take k) ||| BitSet.single σ[k]) = none := by
      cases hcase : plans (listSet (σ.take k) ||| BitSet.single σ[k]) with
      | none => rfl
      | some q =>
        have := hsize _ (by rw [hcase]; rfl)
        omega
    obtain ⟨plans1, hcp, hwf1, hc1, ⟨q, hq⟩, hframe⟩ :=
      createPlan_fresh net hwf hc hlp hrp hdisj hfresh
    have hmono : ∀ key, (plans key).isSome → (plans1 key).isSome := by
      intro key hkey
      by_cases hkk : key = listSet (σ.take k) ||| BitSet.single σ[k]
      · rw [hkk, hq]; rfl
      · rw [hframe key hkk]; exact hkey
    obtain ⟨plans', hloop, hres⟩ := ih (k + 1) plans1 (by omega) (by omega) hwf1 hc1
      (fun v hv => hmono _ (hsing v hv))
      (by
        intro key hkey
        by_cases hkk : key = listSet (σ.take k) ||| BitSet.single σ[k]
        · rw [hkk, hsz]
        · rw [hframe key hkk] at hkey
          exact Nat.le_succ_of_le (hsize key hkey))
      (by rw [htake, listSet_append_single, hq]; rfl)
    refine ⟨plans', ?_, hres⟩
    rw [List.range'_succ, translateLinearLoop]
    simp only [hget, getPlan, hrp, hlp, (hwf _ lp hlp).1, (hwf _ rp hrp).1, and_self, if_true,
      hcp, hq, (hwf1 _ q hq).1]
    rw [htake, listSet_append_single] at hloop
    exact hloop

/-- The left-deep translation of a permutation of the vertices, started on the empty cache,
returns the plan of `fill(n)`; the cache it leaves is well formed with consistent costs. -/
theorem translateLinear_ok (net : TensorNetwork) (σ : List Nat) (hσ : σ.Perm (List.range net.n))
    (hn : 0 < net.n) :
    ∃ plans', translateLinearSolutionToPlan net PlanCache.empty σ = some (plans', BitSet.fill net.n) ∧
      plans'.WF ∧ plans'.CostOK net ∧ (plans' (BitSet.fill net.n)).isSome := by
  have hnd : σ.Nodup := hσ.nodup_iff.2 (List.nodup_range _)
  have hlen : σ.length = net.n := by rw [hσ.length_eq, List.length_range]
  have hset : listSet σ = BitSet.fill net.n := by rw [listSet_perm hσ, listSet_range]
  obtain ⟨v0, rest, hσe⟩ : ∃ v0 rest, σ = v0 :: rest := by
    cases σ with
    | nil => simp at hlen; omega
    | cons a b => exact ⟨a, b, rfl⟩
  have htake1 : listSet (σ.take 1) = BitSet.single v0 := by
    rw [hσe]; simp [listSet]
  have hinit : ∀ v, v ∈ σ → initBaseTensors net PlanCache.empty (BitSet.single v) =
      some ⟨0, BitSet.single v, none, none⟩ := by
    intro v hv
    rw [initBaseTensors_empty, if_pos]
    exact ⟨v, by simpa using hσ.mem_iff.1 hv, rfl⟩
  obtain ⟨plans', hloop, hwf, hc, hsome⟩ :=
    translateLinearLoop_ok net σ hnd (net.n - 1) 1 (initBaseTensors net PlanCache.empty)
      (by omega) (by omega) (initBaseTensors_empty_wf net) (initBaseTensors_empty_costOK net)
      (fun v hv => by rw [hinit v hv]; rfl)
      (by
        intro key hkey
        rw [initBaseTensors_empty] at hkey
        split at hkey
        · rename_i h
          obtain ⟨v, _, hv⟩ := h
          rw [hv, BitSet.size_single]
        · cases hkey)
      (by rw [htake1, hinit v0 (by rw [hσe]; simp)]; rfl)
  refine ⟨plans', ?_, hwf, hc, by rw [← hset]; exact hsome⟩
  unfold translateLinearSolutionToPlan
  rw [htake1] at hloop
  simp only [hσe, List.head?_cons]
  rw [hσe] at hloop
  simp only [hloop]
  rw [← hσe, hset, BitSet.size_fill]
  simp

/-! ## The bushy translation -/

namespace BitSet

/-- Inclusion of bit-sets, member by member. -/
def Sub (a b : BitSet) : Prop := ∀ i, a.testBit i = true → b.testBit i = true

theorem Sub.refl (a : BitSet) : Sub a a := fun _ h => h

theorem Sub.trans {a b c : BitSet} (h1 : Sub a b) (h2 : Sub b c) : Sub a c :=
  fun i h => h2 i (h1 i h)

theorem sub_lor_left (a b : BitSet) : Sub a (a ||| b) := by
  intro i h; rw [Nat.testBit_lor, h]; rfl

theorem sub_lor_right (a b : BitSet) : Sub b (a ||| b) := by
  intro i h; rw [Nat.testBit_lor, h]; simp

theorem eq_zero_of_sub_disjoint {k a b : BitSet} (h1 : Sub k a) (h2 : Sub k b)
    (h : a &&& b = 0) : k = 0 := by
  apply Nat.eq_of_testBit_eq
  intro i
  rw [Nat.zero_testBit]
  cases hk : k.testBit i with
  | false => rfl
  | true =>
    have := Nat.testBit_land a b i
    rw [h, h1 i hk, h2 i hk] at this
    simp at this

theorem eq_zero_of_sub_zero {k : BitSet} (h : Sub k 0) : k = 0 :=
  eq_zero_of_sub_disjoint h h (by simp)

end BitSet

namespace BTree

theorem set_eq_listSet (T : BTree) : T.set = listSet T.leaves := by
  induction T with
  | leaf v => simp [set, leaves, listSet]
  | node l r ihl ihr => simp only [set, leaves, listSet_append, ihl, ihr]

theorem leaves_length (T : BTree) : T.leaves.length = T.internal + 1 := by
  induction T with
  | leaf v => simp [leaves, internal]
  | node l r ihl ihr => simp only [leaves, internal, List.length_append, ihl, ihr]; omega

theorem set_ne_zero (T : BTree) : T.set ≠ 0 := by
  induction T with
  | leaf v => exact BitSet.single_ne_zero v
  | node l r ihl _ => exact lor_ne_zero_left ihl

theorem size_set {T : BTree} (h : T.leaves.Nodup) : BitSet.size T.set = T.leaves.length := by
  rw [set_eq_listSet, size_listSet h]

end BTree

/-- Building the plan of a post-order bushy tree with distinct leaves: every `createPlan` call adds a
node that was not cached, so the call succeeds and the costs stay consistent. -/
theorem translateBushyBuild_ok (net : TensorNetwork) (sol : List RangeNode) :
    ∀ (index : Nat) (T : BTree), RangeTree sol index T →
      ∀ (fuel : Nat) (plans : PlanCache) (currIndex : Nat), index < fuel → T.leaves.Nodup →
        plans.WF → plans.CostOK net →
        (∀ v, v ∈ T.leaves → (plans (BitSet.single v)).isSome) →
        (∀ key, BitSet.Sub key T.set → 2 ≤ BitSet.size key → plans key = none) →
        ∃ plans', translateBushyBuild net sol fuel index (plans, currIndex) =
            some ((plans', currIndex + T.internal), T.set) ∧
          plans'.WF ∧ plans'.CostOK net ∧ (plans' T.set).isSome ∧
          (∀ key, plans' key ≠ plans key → BitSet.Sub key T.set ∧ 2 ≤ BitSet.size key) := by
  intro index T hT
  induction hT with
  | leaf index v hget =>
    intro fuel plans currIndex hfuel _ hwf hc hsing _
    obtain ⟨fuel, rfl⟩ : ∃ f, fuel = f + 1 := ⟨fuel - 1, by omega⟩
    refine ⟨plans, ?_, hwf, hc, hsing v (by simp [BTree.leaves]), fun key h => absurd rfl h⟩
    simp [translateBushyBuild, hget, BTree.internal, BTree.set]
  | node index x l r L R hget hl hli hri _ _ ihL ihR =>
    intro fuel plans currIndex hfuel hnd hwf hc hsing hfresh
    obtain ⟨fuel, rfl⟩ : ∃ f, fuel = f + 1 := ⟨fuel - 1, by omega⟩
    simp only [BTree.leaves, List.nodup_append] at hnd
    obtain ⟨hndL, hndR, hdisjLR⟩ := hnd
    have hdisj : L.set &&& R.set = 0 := by
      rw [BTree.set_eq_listSet, BTree.set_eq_listSet]
      exact listSet_disjoint (fun v hv hv' => hdisjLR hv hv')
    have hsubL : BitSet.Sub L.set (BTree.node L R).set := BitSet.sub_lor_left _ _
    have hsubR : BitSet.Sub R.set (BTree.node L R).set := BitSet.sub_lor_right _ _
    -- the left subtree
    obtain ⟨plans1, hb1, hwf1, hc1, hsome1, hch1⟩ := ihL fuel plans currIndex (by omega) hndL hwf hc
      (fun v hv => hsing v (by simp [BTree.leaves, hv]))
      (fun key hk => hfresh key (hk.trans hsubL))
    have hsingle1 : ∀ v, plans1 (BitSet.single v) = plans (BitSet.single v) := by
      intro v
      by_contra hne
      have := (hch1 _ hne).2
      rw [BitSet.size_single] at this
      omega
    -- the right subtree
    obtain ⟨plans2, hb2, hwf2, hc2, hsome2, hch2⟩ := ihR fuel plans1 (currIndex + L.internal)
      (by omega) hndR hwf1 hc1
      (fun v hv => by rw [hsingle1]; exact hsing v (by simp [BTree.leaves, hv]))
      (by
        intro key hk hsz
        by_cases hne : plans1 key = plans key
        · rw [hne]; exact hfresh key (hk.trans hsubR) hsz
        · have h0 := BitSet.eq_zero_of_sub_disjoint (hch1 key hne).1 hk hdisj
          rw [h0, BitSet.size_eq_zero.2 rfl] at hsz
          omega)
    have hL2 : plans2 L.set = plans1 L.set := by
      by_contra hne
      exact L.set_ne_zero (BitSet.eq_zero_of_sub_disjoint (BitSet.Sub.refl _) (hch2 _ hne).1 hdisj)
    obtain ⟨lp, hlp⟩ := Option.isSome_iff_exists.1 (by rw [← hL2] at hsome1; exact hsome1)
    obtain ⟨rp, hrp⟩ := Option.isSome_iff_exists.1 hsome2
    have hsizeT : 2 ≤ BitSet.size (L.set ||| R.set) := by
      rw [BitSet.size_lor hdisj]
      have h1 : BitSet.size L.set ≠ 0 := fun h => L.set_ne_zero (BitSet.size_eq_zero.1 h)
      have h2 : BitSet.size R.set ≠ 0 := fun h => R.set_ne_zero (BitSet.size_eq_zero.1 h)
      omega
    have hT2 : plans2 (L.set ||| R.set) = none := by
      have e2 : plans2 (L.set ||| R.set) = plans1 (L.set ||| R.set) := by
        by_contra hne
        have hs : BitSet.Sub L.set R.set := (BitSet.sub_lor_left _ _).trans (hch2 _ hne).1
        exact L.set_ne_zero (BitSet.eq_zero_of_sub_disjoint (BitSet.Sub.refl _) hs hdisj)
      have e1 : plans1 (L.set ||| R.set) = plans (L.set ||| R.set) := by
        by_contra hne
        have hs : BitSet.Sub R.set L.set := (BitSet.sub_lor_right _ _).trans (hch1 _ hne).1
        exact R.set_ne_zero (BitSet.eq_zero_of_sub_disjoint hs (BitSet.Sub.refl _) hdisj)
      rw [e2, e1]
      exact hfresh _ (BitSet.Sub.refl _) hsizeT
    obtain ⟨plans3, hcp, hwf3, hc3, ⟨q, hq⟩, hframe⟩ :=
      createPlan_fresh net hwf2 hc2 hlp hrp hdisj hT2
    refine ⟨plans3, ?_, hwf3, hc3, by simp [BTree.set, hq], ?_⟩
    · rw [translateBushyBuild]
      simp only [hget, hl, if_false, hb1, hb2, hcp, BTree.internal, BTree.set]
      simp [Nat.add_assoc]
    · intro key hne
      by_cases hk : key = L.set ||| R.set
      · rw [hk]; exact ⟨BitSet.Sub.refl _, hsizeT⟩
      · rw [hframe key hk] at hne
        by_cases hne2 : plans2 key = plans1 key
        · rw [hne2] at hne
          exact ⟨(hch1 key hne).1.trans hsubL, (hch1 key hne).2⟩
        · exact ⟨(hch2 key hne2).1.trans hsubR, (hch2 key hne2).2⟩

/-- The translation of a post-order bushy tree over a permutation of the vertices, started on
the empty cache, returns the plan of `fill(n)`; the cache it leaves is well formed with
consistent costs. -/
theorem translateBushy_ok (net : TensorNetwork) (sol : List RangeNode) (T : BTree)
    (hT : RangeTree sol (sol.length - 1) T) (hperm : T.leaves.Perm (List.range net.n)) :
    ∃ plans', translateBushySolutionToPlan net PlanCache.empty sol =
        some (plans', BitSet.fill net.n) ∧
      plans'.WF ∧ plans'.CostOK net ∧ (plans' (BitSet.fill net.n)).isSome := by
  have hnd : T.leaves.Nodup := hperm.nodup_iff.2 (List.nodup_range _)
  have hset : T.set = BitSet.fill net.n := by
    rw [BTree.set_eq_listSet, listSet_perm hperm, listSet_range]
  have hlen : T.internal + 1 = net.n := by
    rw [← BTree.leaves_length, hperm.length_eq, List.length_range]
  have hsol : sol.length - 1 < sol.length := by
    cases hT with
    | leaf _ _ h => exact (List.getElem?_eq_some_iff.1 h).1
    | node _ _ _ _ _ _ h => exact (List.getElem?_eq_some_iff.1 h).1
  obtain ⟨plans', hb, hwf, hc, hsome, _⟩ :=
    translateBushyBuild_ok net sol _ T hT sol.length (initBaseTensors net PlanCache.empty) net.n
      hsol hnd (initBaseTensors_empty_wf net) (initBaseTensors_empty_costOK net)
      (by
        intro v hv
        rw [initBaseTensors_empty, if_pos ⟨v, by simpa using hperm.mem_iff.1 hv, rfl⟩]
        rfl)
      (by
        intro key _ hsz
        rw [initBaseTensors_empty, if_neg]
        rintro ⟨v, _, hv⟩
        rw [hv, BitSet.size_single] at hsz
        omega)
  refine ⟨plans', ?_, hwf, hc, by rw [← hset]; exact hsome⟩
  unfold translateBushySolutionToPlan
  simp only [hb]
  rw [if_pos (by omega), hset]

/-! ## Greedy -/

theorem computeLegDimProduct_pos (net : TensorNetwork) (h : ∀ e, 0 < net.legDim e) (s : BitSet) :
    0 < net.computeLegDimProduct s := by
  unfold TensorNetwork.computeLegDimProduct
  have : ∀ (l : List Nat) (a : ℚ), 0 < a →
      0 < l.foldl (fun ret edgeIndex => ret * net.legDim edgeIndex) a := by
    intro l
    induction l with
    | nil => intro a ha; exact ha
    | cons x l ih => intro a ha; exact ih _ (mul_pos ha (h x))
  exact this _ 1 one_pos

theorem computeContractionCost_pos (net : TensorNetwork) (h : ∀ e, 0 < net.legDim e)
    (a b : BitSet) : 0 < net.computeContractionCost a b :=
  computeLegDimProduct_pos net h _

theorem greedyAssign_apply (mapping : Nat → BitSet) (cum : BitSet) (x : Nat) :
    greedyAssign mapping cum x = if cum.testBit x = true then cum else mapping x := by
  unfold greedyAssign
  have : ∀ (l : List Nat) (mp : Nat → BitSet),
      l.foldl (fun mp elem => Function.update mp elem cum) mp x =
        if x ∈ l then cum else mp x := by
    intro l
    induction l with
    | nil => intro mp; simp
    | cons y l ih =>
      intro mp
      rw [List.foldl_cons, ih]
      by_cases hxl : x ∈ l
      · simp [hxl]
      · by_cases hxy : x = y
        · subst hxy; simp [hxl]
        · simp [hxl, hxy, Function.update_noteq hxy]
  rw [this]
  simp [BitSet.mem_toList]

/-- The invariant of the loop of `runGreedy`: the clusters partition the vertices, the plan of
every cluster is cached, and every cached set lies inside the cluster of each of its members. -/
structure GreedyInv (net : TensorNetwork) (plans : PlanCache) (mapping : Nat → BitSet) : Prop where
  wf : plans.WF
  cost : plans.CostOK net
  self : ∀ v, v < net.n → (mapping v).testBit v = true
  bound : ∀ v, v < net.n → ∀ i, (mapping v).testBit i = true → i < net.n
  same : ∀ v, v < net.n → ∀ w, (mapping v).testBit w = true → mapping w = mapping v
  cached : ∀ v, v < net.n → (plans (mapping v)).isSome
  inside : ∀ key, (plans key).isSome → ∀ i, key.testBit i = true →
    i < net.n ∧ BitSet.Sub key (mapping i)

theorem greedyLoop_ok (net : TensorNetwork) (hdim : ∀ e, 0 < net.legDim e) :
    ∀ (heap : List Nat) (plans : PlanCache) (mapping : Nat → BitSet),
      (∀ e, e ∈ heap → (net.endpoints e).1 < net.n ∧ (net.endpoints e).2 < net.n) →
      GreedyInv net plans mapping →
      ∃ plans' mapping', greedyLoop net heap (plans, mapping) = some (plans', mapping') ∧
        GreedyInv net plans' mapping' ∧
        (∀ a b, a < net.n → b < net.n → mapping a = mapping b → mapping' a = mapping' b) ∧
        (∀ e, e ∈ heap → mapping' (net.endpoints e).1 = mapping' (net.endpoints e).2) := by
  intro heap
  induction heap with
  | nil =>
    intro plans mapping _ hinv
    exact ⟨plans, mapping, rfl, hinv, fun _ _ _ _ h => h, fun e he => by simp at he⟩
  | cons e heap ih =>
    intro plans mapping hends hinv
    obtain ⟨hu, hw⟩ := hends e (by simp)
    have hends' : ∀ e', e' ∈ heap → (net.endpoints e').1 < net.n ∧ (net.endpoints e').2 < net.n :=
      fun e' he' => hends e' (by simp [he'])
    by_cases hlr : mapping (net.endpoints e).1 = mapping (net.endpoints e).2
    · -- a stale entry
      obtain ⟨plans', mapping', hloop, hinv', hmono, hedges⟩ := ih plans mapping hends' hinv
      refine ⟨plans', mapping', ?_, hinv', hmono, ?_⟩
      · rw [greedyLoop]
        have : greedyCost net mapping e < 0 := by simp [greedyCost, hlr]
        rw [if_pos this]; exact hloop
      · intro e' he'
        rcases List.mem_cons.1 he' with rfl | h
        · exact hmono _ _ hu hw hlr
        · exact hedges e' h
    · -- a live edge
      set u := (net.endpoints e).1 with hu_def
      set w := (net.endpoints e).2 with hw_def
      set l := mapping u with hl_def
      set r := mapping w with hr_def
      have hdisj : l &&& r = 0 := by
        apply Nat.eq_of_testBit_eq
        intro i
        rw [Nat.testBit_land, Nat.zero_testBit]
        cases h1 : l.testBit i with
        | false => simp
        | true =>
          cases h2 : r.testBit i with
          | false => simp
          | true =>
            exfalso
            exact hlr ((hinv.same u hu i h1).symm.trans (hinv.same w hw i h2))
      obtain ⟨lp, hlp⟩ := Option.isSome_iff_exists.1 (hinv.cached u hu)
      obtain ⟨rp, hrp⟩ := Option.isSome_iff_exists.1 (hinv.cached w hw)
      have hwr : r.testBit w = true := hinv.self w hw
      have hul : l.testBit u = true := hinv.self u hu
      have hfresh : plans (l ||| r) = none := by
        cases hcase : plans (l ||| r) with
        | none => rfl
        | some q =>
          exfalso
          have hsub := (hinv.inside (l ||| r) (by rw [hcase]; rfl) u
            (by rw [Nat.testBit_lor, hul]; rfl)).2
          have : (mapping u).testBit w = true :=
            hsub w (by rw [Nat.testBit_lor, hwr]; simp)
          have := Nat.testBit_land l r w
          rw [hdisj, hwr] at this
          simp_all
      obtain ⟨plans1, hcp, hwf1, hc1, ⟨q, hq⟩, hframe⟩ :=
        createPlan_fresh net hinv.wf hinv.cost hlp hrp hdisj hfresh
      have hmono1 : ∀ key, (plans key).isSome → (plans1 key).isSome := by
        intro key hkey
        by_cases hkk : key = l ||| r
        · rw [hkk, hq]; rfl
        · rw [hframe key hkk]; exact hkey
      have hcum : ∀ i, (l ||| r).testBit i = true → mapping i = l ∨ mapping i = r := by
        intro i hi
        rw [Nat.testBit_lor, Bool.or_eq_true] at hi
        rcases hi with hi | hi
        · exact Or.inl (hinv.same u hu i hi)
        · exact Or.inr (hinv.same w hw i hi)
      have hcumlt : ∀ i, (l ||| r).testBit i = true → i < net.n := by
        intro i hi
        rw [Nat.testBit_lor, Bool.or_eq_true] at hi
        rcases hi with hi | hi
        · exact hinv.bound u hu i hi
        · exact hinv.bound w hw i hi
      have hin : ∀ v, v < net.n → (mapping v = l ∨ mapping v = r) → (l ||| r).testBit v = true := by
        intro v hv hcase
        have := hinv.self v hv
        rw [Nat.testBit_lor, Bool.or_eq_true]
        rcases hcase with h | h
        · left; rw [← h]; exact this
        · right; rw [← h]; exact this
      have hinv1 : GreedyInv net plans1 (greedyAssign mapping (l ||| r)) := by
        refine ⟨hwf1, hc1, ?_, ?_, ?_, ?_, ?_⟩
        · intro v hv
          rw [greedyAssign_apply]
          split
          · assumption
          · exact hinv.self v hv
        · intro v hv i hi
          rw [greedyAssign_apply] at hi
          split at hi
          · exact hcumlt i hi
          · exact hinv.bound v hv i hi
        · intro v hv x hx
          rw [greedyAssign_apply] at hx ⊢
          rw [greedyAssign_apply]
          by_cases hcv : (l ||| r).testBit v = true
          · rw [if_pos hcv] at hx ⊢
            rw [if_pos hx]
          · rw [if_neg hcv] at hx ⊢
            have hxv := hinv.same v hv x hx
            have hcx : ¬ (l ||| r).testBit x = true := by
              intro hcx
              apply hcv
              apply hin v hv
              rw [← hxv]
              exact hcum x hcx
            rw [if_neg hcx]; exact hxv
        · intro v hv
          rw [greedyAssign_apply]
          split
          · rw [hq]; rfl
          · exact hmono1 _ (hinv.cached v hv)
        · intro key hkey i hi
          by_cases hkk : key = l ||| r
          · subst hkk
            refine ⟨hcumlt i hi, ?_⟩
            rw [greedyAssign_apply, if_pos hi]
            exact BitSet.Sub.refl _
          · rw [hframe key hkk] at hkey
            obtain ⟨hilt, hsub⟩ := hinv.inside key hkey i hi
            refine ⟨hilt, ?_⟩
            rw [greedyAssign_apply]
            split
            · rename_i hci
              rcases hcum i hci with h | h
              · rw [h] at hsub; exact hsub.trans (BitSet.sub_lor_left _ _)
              · rw [h] at hsub; exact hsub.trans (BitSet.sub_lor_right _ _)
            · exact hsub
      obtain ⟨plans', mapping', hloop, hinv', hmono, hedges⟩ :=
        ih plans1 (greedyAssign mapping (l ||| r)) hends' hinv1
      have hstep : ∀ a b, a < net.n → b < net.n → mapping a = mapping b →
          greedyAssign mapping (l ||| r) a = greedyAssign mapping (l ||| r) b := by
        intro a b ha hb hab
        rw [greedyAssign_apply, greedyAssign_apply]
        by_cases hca : (l ||| r).testBit a = true
        · rw [if_pos hca, if_pos (hin b hb (by rw [← hab]; exact hcum a hca))]
        · have hcb : ¬ (l ||| r).testBit b = true := by
            intro hcb
            exact hca (hin a ha (by rw [hab]; exact hcum b hcb))
          rw [if_neg hca, if_neg hcb]; exact hab
      refine ⟨plans', mapping', ?_, hinv', ?_, ?_⟩
      · rw [greedyLoop]
        have hcost : ¬ greedyCost net mapping e < 0 := by
          have : greedyCost net mapping e = net.computeContractionCost l r := by
            simp only [greedyCost]
            rw [if_neg hlr]
          rw [this]
          exact not_lt.2 (le_of_lt (computeContractionCost_pos net hdim l r))
        rw [if_neg hcost]
        simp only [getPlan, ← hu_def, ← hw_def, ← hl_def, ← hr_def, hlp, hrp, hcp]
        exact hloop
      · intro a b ha hb hab
        exact hmono a b ha hb (hstep a b ha hb hab)
      · intro e' he'
        rcases List.mem_cons.1 he' with rfl | h
        · apply hmono _ _ hu hw
          rw [greedyAssign_apply, greedyAssign_apply,
            if_pos (hin u hu (Or.inl rfl)), if_pos (hin w hw (Or.inr rfl))]
        · exact hedges e' h

theorem mem_setInsert_of_mem (cmp : Nat → Nat → Bool) (x y : Nat) (l : List Nat) (h : y ∈ l) :
    y ∈ setInsert cmp x l := by
  induction l with
  | nil => simp at h
  | cons z l ih =>
    unfold setInsert
    split
    · exact List.mem_cons_of_mem _ h
    · split
      · rcases List.mem_cons.1 h with rfl | h'
        · simp
        · exact List.mem_cons_of_mem _ (ih h')
      · exact h

theorem mem_setInsert_self (cmp : Nat → Nat → Bool) (x : Nat) (l : List Nat)
    (h : ∀ y, y ∈ l → y ≠ x → cmp x y = true ∨ cmp y x = true) : x ∈ setInsert cmp x l := by
  induction l with
  | nil => simp [setInsert]
  | cons z l ih =>
    unfold setInsert
    split
    · simp
    · split
      · exact List.mem_cons_of_mem _ (ih (fun y hy => h y (List.mem_cons_of_mem _ hy)))
      · rename_i h1 h2
        by_cases hzx : z = x
        · simp [hzx]
        · rcases h z (by simp) hzx with h3 | h3
          · exact absurd h3 h1
          · exact absurd h3 h2

theorem mem_of_mem_setInsert (cmp : Nat → Nat → Bool) (x y : Nat) (l : List Nat)
    (h : y ∈ setInsert cmp x l) : y = x ∨ y ∈ l := by
  induction l with
  | nil => simp [setInsert] at h; exact Or.inl h
  | cons z l ih =>
    unfold setInsert at h
    split at h
    · rcases List.mem_cons.1 h with rfl | h'
      · exact Or.inl rfl
      · exact Or.inr h'
    · split at h
      · rcases List.mem_cons.1 h with rfl | h'
        · exact Or.inr (by simp)
        · rcases ih h' with h1 | h1
          · exact Or.inl h1
          · exact Or.inr (List.mem_cons_of_mem _ h1)
      · exact Or.inr h

theorem epsilon_pos : 0 < epsilon := by unfold epsilon; positivity

theorem greedyCmp_total (net : TensorNetwork) (mapping : Nat → BitSet) (x y : Nat) (h : y ≠ x) :
    greedyCmp net mapping x y = true ∨ greedyCmp net mapping y x = true := by
  unfold greedyCmp isClose
  simp only
  by_cases hc : |greedyCost net mapping x - greedyCost net mapping y| < epsilon
  · have hc' : |greedyCost net mapping y - greedyCost net mapping x| < epsilon := by
      rw [abs_sub_comm]; exact hc
    simp only [hc, hc', decide_True, if_true, decide_eq_true_eq]
    omega
  · have hc' : ¬ |greedyCost net mapping y - greedyCost net mapping x| < epsilon := by
      rw [abs_sub_comm]; exact hc
    simp only [hc, hc', decide_False, if_false, decide_eq_true_eq, Bool.false_eq_true]
    have hne : greedyCost net mapping x ≠ greedyCost net mapping y := by
      intro heq
      apply hc
      rw [heq, sub_self, abs_zero]
      exact epsilon_pos
    exact lt_or_gt_of_ne hne

/-- The heap of `runGreedy` holds exactly the indices of `edgeInfo`. -/
theorem mem_greedyInitHeap (net : TensorNetwork) (e : Nat) :
    e ∈ greedyInitHeap net ↔ e < net.edgeInfo.length := by
  unfold greedyInitHeap
  generalize net.edgeInfo.length = k
  induction k with
  | zero => simp
  | succ k ih =>
    rw [List.range_succ, List.foldl_append]
    simp only [List.foldl_cons, List.foldl_nil]
    constructor
    · intro h
      rcases mem_of_mem_setInsert _ _ _ _ h with h1 | h1
      · omega
      · have := ih.1 h1; omega
    · intro h
      by_cases hek : e = k
      · subst hek
        exact mem_setInsert_self _ _ _ (fun y _ hy => greedyCmp_total net _ _ _ hy)
      · exact mem_setInsert_of_mem _ _ _ _ (ih.2 (by omega))

theorem endpoints_lt_of_wellFormed {net : TensorNetwork} (hnet : net.WellFormed) (hn : 0 < net.n)
    (e : Nat) (he : e < net.edgeInfo.length) :
    (net.endpoints e).1 < net.n ∧ (net.endpoints e).2 < net.n := by
  obtain ⟨hlen, _, hend, hopen, _⟩ := hnet
  by_cases hem : e < net.m
  · exact hend e hem
  · have : e = net.m + (e - net.m) := by omega
    have h := hopen (e - net.m) (by omega)
    rw [← this] at h
    unfold TensorNetwork.endpoints
    rw [h]
    exact ⟨hn, hn⟩

/-- On a connected network `runGreedy`, started on the empty cache, returns the plan of
`fill(n)`; the cache it leaves is well formed with consistent costs. -/
theorem runGreedy_ok (net : TensorNetwork) (hnet : net.WellFormed) (hn : 0 < net.n)
    (hconn : net.Connected) :
    ∃ plans', runGreedy net PlanCache.empty = some (plans', BitSet.fill net.n) ∧
      plans'.WF ∧ plans'.CostOK net ∧ (plans' (BitSet.fill net.n)).isSome := by
  have hinit : ∀ v, v < net.n → initBaseTensors net PlanCache.empty (BitSet.single v) =
      some ⟨0, BitSet.single v, none, none⟩ := by
    intro v hv
    rw [initBaseTensors_empty, if_pos ⟨v, hv, rfl⟩]
  have hinv0 : GreedyInv net (initBaseTensors net PlanCache.empty) (greedyInitMapping net) := by
    refine ⟨initBaseTensors_empty_wf net, initBaseTensors_empty_costOK net, ?_, ?_, ?_, ?_, ?_⟩
    · intro v hv
      simp [greedyInitMapping, hv, BitSet.testBit_single]
    · intro v hv i hi
      simp only [greedyInitMapping, hv, if_true, BitSet.testBit_single, decide_eq_true_eq] at hi
      omega
    · intro v hv w hw
      simp only [greedyInitMapping, hv, if_true, BitSet.testBit_single, decide_eq_true_eq] at hw
      rw [hw]
    · intro v hv
      simp only [greedyInitMapping, hv, if_true]
      rw [hinit v hv]; rfl
    · intro key hkey i hi
      rw [initBaseTensors_empty] at hkey
      split at hkey
      · rename_i h
        obtain ⟨v, hv, hkv⟩ := h
        subst hkv
        simp only [BitSet.testBit_single, decide_eq_true_eq] at hi
        subst hi
        refine ⟨hv, ?_⟩
        simp only [greedyInitMapping, hv, if_true]
        exact BitSet.Sub.refl _
      · cases hkey
  obtain ⟨plans', mapping', hloop, hinv', _, hedges⟩ :=
    greedyLoop_ok net hnet.2.2.2.2 (greedyInitHeap net) _ _
      (fun e he => endpoints_lt_of_wellFormed hnet hn e ((mem_greedyInitHeap net e).1 he)) hinv0
  have hadj : ∀ a b, net.Adjacent a b → mapping' b = mapping' a := by
    rintro a b ⟨e, he, hcase⟩
    have := hedges e ((mem_greedyInitHeap net e).2 (by rw [hnet.1]; omega))
    rcases hcase with h | h <;> rw [h] at this
    · exact this.symm
    · exact this
  have hreach : ∀ v, Relation.ReflTransGen net.Adjacent 0 v → mapping' v = mapping' 0 := by
    intro v hpath
    induction hpath with
    | refl => rfl
    | tail _ hbc ih => rw [hadj _ _ hbc]; exact ih
  have hall : ∀ v, v < net.n → mapping' v = mapping' 0 :=
    fun v hv => hreach v (hconn 0 v hn hv)
  have hfill : mapping' 0 = BitSet.fill net.n := by
    apply Nat.eq_of_testBit_eq
    intro i
    rw [BitSet.testBit_fill]
    by_cases hi : i < net.n
    · rw [← hall i hi, hinv'.self i hi]; simp [hi]
    · cases hb : (mapping' 0).testBit i with
      | false => simp [hi]
      | true => exact absurd (hinv'.bound 0 hn i hb) hi
  have hsome := hinv'.cached 0 hn
  rw [hfill] at hsome
  refine ⟨plans', ?_, hinv'.wf, hinv'.cost, hsome⟩
  unfold runGreedy
  simp only [hloop, getPlan]
  obtain ⟨q, hq⟩ := Option.isSome_iff_exists.1 hsome
  rw [hq]

/-- The plan of `fill(n)` read off a well-formed cache with consistent costs. -/
theorem extract_fill (net : TensorNetwork) {plans : PlanCache} (hwf : plans.WF)
    (hc : plans.CostOK net) (hsome : (plans (BitSet.fill net.n)).isSome) :
    ∃ P, plans.toPlan net.n (BitSet.fill net.n) = some P ∧ P.set = BitSet.fill net.n ∧
      P.WellFormed ∧ P.leaves.Perm (List.range net.n) ∧ P.totalCost = P.bottomUpCost net := by
  obtain ⟨p, hp⟩ := Option.isSome_iff_exists.1 hsome
  obtain ⟨P, hP, hset, _, hw, hl⟩ :=
    PlanCache.toPlan_of_wf hwf net.n _ p hp (by rw [BitSet.size_fill])
  rw [BitSet.toList_fill] at hl
  exact ⟨P, hP, hset, hw, hl, (PlanCache.toPlan_cost hwf hc _ _ P hP).1⟩

/-! ## Example networks -/

/-- The triangle of scenario S1: edges `(0,1)`, `(1,2)`, `(0,2)` of dimensions 4, 5, 3. -/
def triangle : TensorNetwork :=
  ⟨3, 3, [⟨4, (0, 1)⟩, ⟨5, (1, 2)⟩, ⟨3, (0, 2)⟩, ⟨1, (0, 0)⟩, ⟨1, (0, 0)⟩, ⟨1, (0, 0)⟩], [1, 1, 1]⟩

/-- The path of scenario S2: edges `(0,1)`, `(1,2)`, `(2,3)` of dimensions 2, 3, 4. -/
def path4 : TensorNetwork :=
  ⟨4, 3, [⟨2, (0, 1)⟩, ⟨3, (1, 2)⟩, ⟨4, (2, 3)⟩, ⟨1, (0, 0)⟩, ⟨1, (0, 0)⟩, ⟨1, (0, 0)⟩,
    ⟨1, (0, 0)⟩], [1, 1, 1, 1]⟩

theorem triangle_wellFormed : triangle.WellFormed := by
  refine ⟨rfl, rfl, by decide, ?_, ?_⟩
  · intro v hv
    have : v = 0 ∨ v = 1 ∨ v = 2 := by
      have : v < 3 := hv
      omega
    rcases this with rfl | rfl | rfl <;> rfl
  · intro e
    unfold TensorNetwork.legDim
    by_cases he : e < 6
    · have : e = 0 ∨ e = 1 ∨ e = 2 ∨ e = 3 ∨ e = 4 ∨ e = 5 := by omega
      rcases this with rfl | rfl | rfl | rfl | rfl | rfl <;> simp [triangle]
    · rw [List.getD_eq_default _ _ (by simp [triangle]; omega)]
      norm_num

theorem triangle_connected : triangle.Connected := by
  have h01 : triangle.Adjacent 0 1 := ⟨0, by decide, Or.inl rfl⟩
  have h10 : triangle.Adjacent 1 0 := ⟨0, by decide, Or.inr rfl⟩
  have h12 : triangle.Adjacent 1 2 := ⟨1, by decide, Or.inl rfl⟩
  have h21 : triangle.Adjacent 2 1 := ⟨1, by decide, Or.inr rfl⟩
  have h02 : triangle.Adjacent 0 2 := ⟨2, by decide, Or.inl rfl⟩
  have h20 : triangle.Adjacent 2 0 := ⟨2, by decide, Or.inr rfl⟩
  intro u v hu hv
  have hu' : u = 0 ∨ u = 1 ∨ u = 2 := by
    have : u < 3 := hu
    omega
  have hv' : v = 0 ∨ v = 1 ∨ v = 2 := by
    have : v < 3 := hv
    omega
  rcases hu' with rfl | rfl | rfl <;> rcases hv' with rfl | rfl | rfl <;>
    first
    | exact Relation.ReflTransGen.refl
    | exact Relation.ReflTransGen.single h01
    | exact Relation.ReflTransGen.single h10
    | exact Relation.ReflTransGen.single h12
    | exact Relation.ReflTransGen.single h21
    | exact Relation.ReflTransGen.single h02
    | exact Relation.ReflTransGen.single h20

/-- The bushy solution `runDummy` yields for the order `[2, 0, 1]`. -/
def dummy201 : List RangeNode :=
  [⟨2, NIL, NIL⟩, ⟨0, NIL, NIL⟩, ⟨1, NIL, NIL⟩, ⟨NIL, 0, 1⟩, ⟨NIL, 3, 2⟩]

theorem dummy201_rangeTree :
    RangeTree dummy201 (dummy201.length - 1)
      (BTree.node (BTree.node (BTree.leaf 2) (BTree.leaf 0)) (BTree.leaf 1)) := by
  refine RangeTree.node 4 NIL 3 2 _ _ rfl (by decide) (by decide) (by decide) ?_ ?_
  · exact RangeTree.node 3 NIL 0 1 _ _ rfl (by decide) (by decide) (by decide)
      (RangeTree.leaf 0 2 rfl) (RangeTree.leaf 1 0 rfl)
  · exact RangeTree.leaf 2 1 rfl

/-! ## Plans: well-formedness and cost -/

/-- C1 (plan well-formedness).  `createPlan` keeps the invariant of the cache on every node:
each node is stored under its set, and the sets of the children of a non-leaf node are disjoint
and have the set of the node as union.  Started on the empty cache, the left-deep translation
of a permutation of the vertices, the translation of a post-order bushy tree over such a
permutation, and `runGreedy` on a connected network all return a plan; the leaves of its tree
are a permutation of `0, …, n-1` and every non-leaf node `p` of the tree satisfies
`left.set ∪ right.set = p.set`, `left.set ∩ right.set = ∅`. -/
theorem plan_wellFormed (net : TensorNetwork) :
    (∀ (plans plans' : PlanCache) (l r p : BitSet), plans.WF →
      createPlan net plans l r = some (plans', p) → plans'.WF) ∧
    (∀ σ : List Nat, σ.Perm (List.range net.n) → 0 < net.n →
      ∃ plans' p P, translateLinearSolutionToPlan net PlanCache.empty σ = some (plans', p) ∧
        plans'.WF ∧ plans'.toPlan net.n p = some P ∧ P.WellFormed ∧
        P.leaves.Perm (List.range net.n)) ∧
    (∀ (sol : List RangeNode) (T : BTree), RangeTree sol (sol.length - 1) T →
      T.leaves.Perm (List.range net.n) →
      ∃ plans' p P, translateBushySolutionToPlan net PlanCache.empty sol = some (plans', p) ∧
        plans'.WF ∧ plans'.toPlan net.n p = some P ∧ P.WellFormed ∧
        P.leaves.Perm (List.range net.n)) ∧
    (net.WellFormed → 0 < net.n → net.Connected →
      ∃ plans' p P, runGreedy net PlanCache.empty = some (plans', p) ∧
        plans'.WF ∧ plans'.toPlan net.n p = some P ∧ P.WellFormed ∧
        P.leaves.Perm (List.range net.n)) := by
  refine ⟨?_, ?_, ?_, ?_⟩
  · intro plans plans' l r p hwf h
    exact createPlan_wf net hwf h
  · intro σ hσ hn
    obtain ⟨plans', h, hwf, hc, hsome⟩ := translateLinear_ok net σ hσ hn
    obtain ⟨P, hP, _, hw, hl, _⟩ := extract_fill net hwf hc hsome
    exact ⟨plans', _, P, h, hwf, hP, hw, hl⟩
  · intro sol T hT hperm
    obtain ⟨plans', h, hwf, hc, hsome⟩ := translateBushy_ok net sol T hT hperm
    obtain ⟨P, hP, _, hw, hl, _⟩ := extract_fill net hwf hc hsome
    exact ⟨plans', _, P, h, hwf, hP, hw, hl⟩
  · intro hnet hn hconn
    obtain ⟨plans', h, hwf, hc, hsome⟩ := runGreedy_ok net hnet hn hconn
    obtain ⟨P, hP, _, hw, hl, _⟩ := extract_fill net hwf hc hsome
    exact ⟨plans', _, P, h, hwf, hP, hw, hl⟩

/-- The statement of `plan_wellFormed` on the triangle: the order `[2, 0, 1]`, its bushy
form and the greedy run. -/
theorem plan_wellFormed_witness :
    (∃ plans' p P, translateLinearSolutionToPlan triangle PlanCache.empty [2, 0, 1] =
        some (plans', p) ∧ plans'.WF ∧ plans'.toPlan 3 p = some P ∧ P.WellFormed ∧
        P.leaves.Perm (List.range 3)) ∧
    (∃ plans' p P, translateBushySolutionToPlan triangle PlanCache.empty dummy201 =
        some (plans', p) ∧ plans'.WF ∧ plans'.toPlan 3 p = some P ∧ P.WellFormed ∧
        P.leaves.Perm (List.range 3)) ∧
    (∃ plans' p P, runGreedy triangle PlanCache.empty = some (plans', p) ∧
        plans'.WF ∧ plans'.toPlan 3 p = some P ∧ P.WellFormed ∧
        P.leaves.Perm (List.range 3)) :=
  ⟨(plan_wellFormed triangle).2.1 [2, 0, 1] (by decide) (by decide),
   (plan_wellFormed triangle).2.2.1 dummy201 _ dummy201_rangeTree (by decide),
   (plan_wellFormed triangle).2.2.2 triangle_wellFormed (by decide) triangle_connected⟩

/-- C2 (cost consistency).  Started on the empty cache, the plan returned by the left-deep
translation of a permutation of the vertices, by the translation of a post-order bushy tree
over such a permutation, and by `runGreedy` on a connected network has a `totalCost` equal to
the sum of `computeContractionCost(left.set, right.set)` over the non-leaf nodes of its
tree. -/
theorem plan_cost_consistent (net : TensorNetwork) :
    (∀ σ : List Nat, σ.Perm (List.range net.n) → 0 < net.n →
      ∃ plans' p P, translateLinearSolutionToPlan net PlanCache.empty σ = some (plans', p) ∧
        plans'.toPlan net.n p = some P ∧ P.totalCost = P.bottomUpCost net) ∧
    (∀ (sol : List RangeNode) (T : BTree), RangeTree sol (sol.length - 1) T →
      T.leaves.Perm (List.range net.n) →
      ∃ plans' p P, translateBushySolutionToPlan net PlanCache.empty sol = some (plans', p) ∧
        plans'.toPlan net.n p = some P ∧ P.totalCost = P.bottomUpCost net) ∧
    (net.WellFormed → 0 < net.n → net.Connected →
      ∃ plans' p P, runGreedy net PlanCache.empty = some (plans', p) ∧
        plans'.toPlan net.n p = some P ∧ P.totalCost = P.bottomUpCost net) := by
  refine ⟨?_, ?_, ?_⟩
  · intro σ hσ hn
    obtain ⟨plans', h, hwf, hc, hsome⟩ := translateLinear_ok net σ hσ hn
    obtain ⟨P, hP, _, _, _, hcost⟩ := extract_fill net hwf hc hsome
    exact ⟨plans', _, P, h, hP, hcost⟩
  · intro sol T hT hperm
    obtain ⟨plans', h, hwf, hc, hsome⟩ := translateBushy_ok net sol T hT hperm
    obtain ⟨P, hP, _, _, _, hcost⟩ := extract_fill net hwf hc hsome
    exact ⟨plans', _, P, h, hP, hcost⟩
  · intro hnet hn hconn
    obtain ⟨plans', h, hwf, hc, hsome⟩ := runGreedy_ok net hnet hn hconn
    obtain ⟨P, hP, _, _, _, hcost⟩ := extract_fill net hwf hc hsome
    exact ⟨plans', _, P, h, hP, hcost⟩

/-- The statement of `plan_cost_consistent` on the triangle. -/
theorem plan_cost_consistent_witness :
    (∃ plans' p P, translateLinearSolutionToPlan triangle PlanCache.empty [2, 0, 1] =
        some (plans', p) ∧ plans'.toPlan 3 p = some P ∧ P.totalCost = P.bottomUpCost triangle) ∧
    (∃ plans' p P, translateBushySolutionToPlan triangle PlanCache.empty dummy201 =
        some (plans', p) ∧ plans'.toPlan 3 p = some P ∧ P.totalCost = P.bottomUpCost triangle) ∧
    (∃ plans' p P, runGreedy triangle PlanCache.empty = some (plans', p) ∧
        plans'.toPlan 3 p = some P ∧ P.totalCost = P.bottomUpCost triangle) :=
  ⟨(plan_cost_consistent triangle).1 [2, 0, 1] (by decide) (by decide),
   (plan_cost_consistent triangle).2.1 dummy201 _ dummy201_rangeTree (by decide),
   (plan_cost_consistent triangle).2.2 triangle_wellFormed (by decide) triangle_connected⟩

/-! ## The output sequence -/

namespace Plan

/-- The number of non-leaf nodes of a plan tree. -/
def internal : Plan → Nat
  | leaf _ _ => 0
  | node _ _ l r => l.internal + r.internal + 1

theorem plan_leaves_length (P : Plan) : P.leaves.length = P.internal + 1 := by
  induction P with
  | leaf c s => simp [leaves, internal]
  | node c s l r ihl ihr => simp only [leaves, internal, List.length_append, ihl, ihr]; omega

theorem plan_set_ne_zero {P : Plan} (h : P.WellFormed) : P.set ≠ 0 := by
  induction P with
  | leaf c s =>
    obtain ⟨v, hv⟩ := h
    simp only [set, hv]
    exact BitSet.single_ne_zero v
  | node c s l r ihl _ =>
    obtain ⟨h1, _, h3, _⟩ := h
    simp only [set]
    rw [← h1]
    exact lor_ne_zero_left (ihl h3)

theorem leaves_perm {P : Plan} (h : P.WellFormed) : P.leaves.Perm (BitSet.toList P.set) := by
  induction P with
  | leaf c s =>
    obtain ⟨v, hv⟩ := h
    simp [leaves, set, hv, BitSet.front_single, BitSet.toList_single]
  | node c s l r ihl ihr =>
    obtain ⟨h1, h2, h3, h4⟩ := h
    simp only [leaves, set]
    rw [← h1]
    exact (List.Perm.append (ihl h3) (ihr h4)).trans (BitSet.toList_lor_perm h2).symm

theorem plan_size_set {P : Plan} (h : P.WellFormed) : BitSet.size P.set = P.internal + 1 := by
  rw [← plan_leaves_length]
  exact (leaves_perm h).length_eq.symm

end Plan

/-- The operands named by a sequence, entry by entry. -/
def operands (seq : List Sequence) : List Nat := seq.flatMap (fun e => [e.i, e.j])

/-- The set an operand stands for when a sequence is replayed: operand `k < n` is the vertex
set `{k}`, operand `n + k` is the set produced by entry `k`. -/
def operandSet (n : Nat) (produced : List BitSet) (id : Nat) : BitSet :=
  if id < n then BitSet.single id else produced.getD (id - n) 0

/-- One step of the replay of a sequence: the entry contracts the sets of its two operands,
which costs `computeContractionCost` of the two sets and produces their union. -/
def replayStep (net : TensorNetwork) (n : Nat) (st : List BitSet × ℚ) (e : Sequence) :
    List BitSet × ℚ :=
  let si := operandSet n st.1 e.i
  let sj := operandSet n st.1 e.j
  (st.1 ++ [si ||| sj], st.2 + net.computeContractionCost si sj)

/-- The replay of a sequence: the sets produced by its entries and the total cost. -/
def replaySequence (net : TensorNetwork) (n : Nat) (seq : List Sequence) : List BitSet × ℚ :=
  seq.foldl (replayStep net n) ([], 0)

theorem operandSet_append_left (n : Nat) (tab more : List BitSet) (id : Nat)
    (h : id < n + tab.length) : operandSet n (tab ++ more) id = operandSet n tab id := by
  unfold operandSet
  split
  · rfl
  · rw [List.getD_append _ _ _ _ (by omega)]

/-- What the walk of `translatePlanToSequence` does on a well-formed subtree whose vertices
are below `n`: it appends one entry per non-leaf node, names a leaf by its vertex and a
non-leaf node by the index of its entry, and the appended entries replay to the subtree. -/
theorem translatePlanBuild_ok (net : TensorNetwork) (n : Nat) :
    ∀ (P : Plan), P.WellFormed → (∀ v, v ∈ P.leaves → v < n) →
      ∀ (ret : List Sequence) (cur : Nat), n ≤ cur → cur - n + P.internal ≤ n - 1 →
        ∃ (es : List Sequence) (id : Nat),
          translatePlanBuild n P (ret, cur) = some ((ret ++ es, cur + P.internal), id) ∧
          es.length = P.internal ∧ id < cur + P.internal ∧
          (0 < P.internal → id = cur + P.internal - 1) ∧
          (∀ k e, es[k]? = some e → e.i < cur + k ∧ e.j < cur + k) ∧
          (operands es ++ [id]).Perm (P.leaves ++ List.range' cur P.internal) ∧
          (∀ (tab : List BitSet) (c : ℚ), tab.length = cur - n →
            ∃ tabNew, es.foldl (replayStep net n) (tab, c) = (tab ++ tabNew, c + P.bottomUpCost net) ∧
              tabNew.length = P.internal ∧
              ∀ more, operandSet n (tab ++ tabNew ++ more) id = P.set) := by
  intro P
  induction P with
  | leaf c s =>
    intro hw hlt ret cur hcur _
    obtain ⟨v, hv⟩ := hw
    subst hv
    have hvn : v < n := hlt v (by simp [Plan.leaves, BitSet.front_single])
    refine ⟨[], v, ?_, rfl, ?_, ?_, ?_, ?_, ?_⟩
    · simp [translatePlanBuild, BitSet.size_single, BitSet.front_single, Plan.internal]
    · simp only [Plan.internal]; omega
    · intro h; simp [Plan.internal] at h
    · intro k e h; simp at h
    · simp [operands, Plan.leaves, Plan.internal, BitSet.front_single]
    · intro tab c _
      refine ⟨[], by simp [Plan.bottomUpCost], rfl, ?_⟩
      intro more
      simp [operandSet, hvn, Plan.set]
  | node c s l r ihl ihr =>
    intro hw hlt ret cur hcur hroom
    obtain ⟨h1, h2, h3, h4⟩ := hw
    simp only [Plan.internal] at hroom
    have hsz : ¬ BitSet.size s = 1 := by
      rw [← h1, BitSet.size_lor h2, Plan.plan_size_set h3, Plan.plan_size_set h4]
      omega
    obtain ⟨esL, idl, hbL, hlenL, hidL, _, htopL, hpermL, hrepL⟩ :=
      ihl h3 (fun v hv => hlt v (by simp [Plan.leaves, hv])) ret cur hcur (by omega)
    obtain ⟨esR, idr, hbR, hlenR, hidR, _, htopR, hpermR, hrepR⟩ :=
      ihr h4 (fun v hv => hlt v (by simp [Plan.leaves, hv])) (ret ++ esL) (cur + l.internal)
        (by omega) (by omega)
    refine ⟨esL ++ esR ++ [⟨idl, idr⟩], cur + l.internal + r.internal, ?_, ?_, ?_, ?_, ?_, ?_, ?_⟩
    · rw [translatePlanBuild, if_neg hsz]
      simp only [hbL, hbR]
      rw [if_pos (by omega)]
      simp [Plan.internal, List.append_assoc, Nat.add_assoc]
    · simp only [List.length_append, List.length_singleton, hlenL, hlenR, Plan.internal]
    · simp only [Plan.internal]; omega
    · intro _; simp only [Plan.internal]; omega
    · intro k e hk
      by_cases hk1 : k < esL.length
      · rw [List.append_assoc, List.getElem?_append_left hk1] at hk
        exact htopL k e hk
      · by_cases hk2 : k < esL.length + esR.length
        · rw [List.append_assoc, List.getElem?_append_right (by omega),
            List.getElem?_append_left (by omega)] at hk
          have := htopR _ e hk
          rw [hlenL] at this
          have hk' : cur + l.internal + (k - l.internal) = cur + k := by omega
          rw [hk'] at this
          exact this
        · have hklen : k = (esL ++ esR).length ∨ (esL ++ esR).length < k := by
            rw [List.length_append]; omega
          rcases hklen with hkeq | hkgt
          · have hk' : k = l.internal + r.internal := by
              rw [hkeq, List.length_append, hlenL, hlenR]
            rw [List.getElem?_append_right (by omega), hkeq, Nat.sub_self] at hk
            simp only [List.getElem?_cons_zero, Option.some.injEq] at hk
            subst hk
            show idl < cur + k ∧ idr < cur + k
            exact ⟨by omega, by omega⟩
          · rw [List.getElem?_append_right (by omega)] at hk
            have : k - (esL ++ esR).length = (k - (esL ++ esR).length - 1) + 1 := by omega
            rw [this] at hk
            simp at hk
    · -- the operands
      have hops : operands (esL ++ esR ++ [⟨idl, idr⟩]) =
          operands esL ++ operands esR ++ [idl, idr] := by
        simp [operands, List.flatMap_append]
      rw [hops]
      simp only [Plan.leaves, Plan.internal]
      have hr1 : List.range' cur (l.internal + r.internal + 1) =
          List.range' cur l.internal ++ List.range' (cur + l.internal) r.internal ++
            [cur + l.internal + r.internal] := by
        rw [List.range'_concat]
        congr 1
        · rw [Nat.add_comm l.internal r.internal, ← List.range'_append]
          simp
        · simp only [Nat.one_mul, List.cons.injEq, and_true]; omega
      rw [hr1]
      have p1 : (operands esL ++ operands esR ++ [idl, idr]).Perm
          ((operands esL ++ [idl]) ++ (operands esR ++ [idr])) := by
        simp only [List.append_assoc]
        apply List.Perm.append_left
        have : [idl] ++ (operands esR ++ [idr]) = ([idl] ++ operands esR) ++ [idr] := by simp
        rw [this]
        have : operands esR ++ [idl, idr] = (operands esR ++ [idl]) ++ [idr] := by simp
        rw [this]
        exact List.Perm.append_right _ List.perm_append_comm
      have p2 : ((operands esL ++ [idl]) ++ (operands esR ++ [idr])).Perm
          ((l.leaves ++ List.range' cur l.internal) ++
            (r.leaves ++ List.range' (cur + l.internal) r.internal)) :=
        List.Perm.append hpermL hpermR
      have p3 : ((l.leaves ++ List.range' cur l.internal) ++
            (r.leaves ++ List.range' (cur + l.internal) r.internal)).Perm
          (l.leaves ++ r.leaves ++
            (List.range' cur l.internal ++ List.range' (cur + l.internal) r.internal)) := by
        simp only [List.append_assoc]
        apply List.Perm.append_left
        rw [← List.append_assoc, ← List.append_assoc]
        exact List.Perm.append_right _ List.perm_append_comm
      have := (p1.trans (p2.trans p3)).append_right [cur + l.internal + r.internal]
      simpa only [List.append_assoc] using this
    · -- the replay
      intro tab c htab
      obtain ⟨tL, hfL, htLlen, hsetL⟩ := hrepL tab c htab
      obtain ⟨tR, hfR, htRlen, hsetR⟩ := hrepR (tab ++ tL) (c + l.bottomUpCost net)
        (by rw [List.length_append, htab, htLlen]; omega)
      refine ⟨tL ++ tR ++ [l.set ||| r.set], ?_, ?_, ?_⟩
      · rw [List.foldl_append, List.foldl_append, hfL, hfR]
        simp only [List.foldl_cons, List.foldl_nil, replayStep]
        have hl : operandSet n (tab ++ tL ++ tR) idl = l.set := by
          have := hsetL (tR)
          exact this
        have hr : operandSet n (tab ++ tL ++ tR) idr = r.set := by
          have := hsetR []
          simpa using this
        rw [hl, hr]
        simp only [Plan.bottomUpCost, List.append_assoc, Prod.mk.injEq, true_and]
        ring
      · simp only [List.length_append, List.length_singleton, htLlen, htRlen, Plan.internal]
      · intro more
        unfold operandSet
        rw [if_neg (by omega)]
        have hpos : cur + l.internal + r.internal - n = (tab ++ (tL ++ tR)).length := by
          simp only [List.length_append, htab, htLlen, htRlen]; omega
        have : tab ++ (tL ++ tR ++ [l.set ||| r.set]) ++ more =
            (tab ++ (tL ++ tR)) ++ ((l.set ||| r.set) :: more) := by simp
        rw [this, List.getD_append_right _ _ _ _ (by omega), hpos, Nat.sub_self]
        exact h1

/-- The plan `((0 1) 2)` of the triangle, as the greedy run builds it. -/
def trianglePlan : Plan :=
  Plan.node 75 7 (Plan.node 60 3 (Plan.leaf 0 1) (Plan.leaf 0 2)) (Plan.leaf 0 4)

theorem trianglePlan_wellFormed : trianglePlan.WellFormed :=
  ⟨rfl, rfl, ⟨rfl, rfl, ⟨0, rfl⟩, ⟨1, rfl⟩⟩, ⟨2, rfl⟩⟩

theorem leaves_lt_of_set_fill {n : Nat} {P : Plan} (hw : P.WellFormed)
    (hset : P.set = BitSet.fill n) : ∀ v, v ∈ P.leaves → v < n := by
  intro v hv
  have := (Plan.leaves_perm hw).mem_iff.1 hv
  rw [hset, BitSet.toList_fill] at this
  simpa using this

/-- C3 (topologically sorted output).  For a well-formed plan over the `n` vertices,
`translatePlanToSequence` returns a sequence of exactly `n - 1` pairs; both operands of entry
`k` are below `n + k`; every index in `0, …, 2n-3` occurs exactly once as an operand; and the
walk names a leaf by its vertex id. -/
theorem translatePlanToSequence_topological (n : Nat) (P : Plan) (hw : P.WellFormed)
    (hset : P.set = BitSet.fill n) :
    ∃ seq, translatePlanToSequence n P = some seq ∧ seq.length = n - 1 ∧
      (∀ k e, seq[k]? = some e → e.i < n + k ∧ e.j < n + k) ∧
      (operands seq).Perm (List.range (2 * n - 2)) ∧
      (∀ (c : ℚ) (v : Nat) (st : List Sequence × Nat),
        translatePlanBuild n (Plan.leaf c (BitSet.single v)) st = some (st, v)) := by
  have hsize : P.internal + 1 = n := by
    rw [← Plan.plan_size_set hw, hset, BitSet.size_fill]
  obtain ⟨es, id, hb, hlen, _, hid, htop, hperm, _⟩ :=
    translatePlanBuild_ok triangle n P hw (leaves_lt_of_set_fill hw hset) [] n (le_refl _)
      (by omega)
  refine ⟨es, ?_, by omega, htop, ?_, ?_⟩
  · unfold translatePlanToSequence
    simp only [hb, List.nil_append]
    rw [if_pos (by omega)]
  · have hleaves : P.leaves.Perm (List.range n) := by
      have := Plan.leaves_perm hw
      rwa [hset, BitSet.toList_fill] at this
    by_cases h0 : P.internal = 0
    · have hes : es = [] := List.length_eq_zero.1 (by omega)
      have hn1 : 2 * n - 2 = 0 := by omega
      rw [hes, hn1]
      simp [operands]
    · have hidv := hid (by omega)
      obtain ⟨k, hk⟩ : ∃ k, P.internal = k + 1 := ⟨P.internal - 1, by omega⟩
      rw [hk, List.range'_concat, ← List.append_assoc] at hperm
      have hidv' : id = n + 1 * k := by omega
      rw [hidv'] at hperm
      have h1 := (List.perm_append_right_iff _).1 hperm
      have h2 : (P.leaves ++ List.range' n k).Perm (List.range n ++ List.range' n k) :=
        List.Perm.append_right _ hleaves
      have h3 : List.range n ++ List.range' n k = List.range (2 * n - 2) := by
        rw [List.range_eq_range', List.range_eq_range']
        have := List.range'_append 0 n k 1
        simp only [Nat.one_mul, Nat.zero_add] at this
        rw [this]
        congr 1
        omega
      rw [← h3]
      exact h1.trans h2
  · intro c v st
    simp [translatePlanBuild, BitSet.size_single, BitSet.front_single]

/-- The statement of `translatePlanToSequence_topological` on the plan `((0 1) 2)`. -/
theorem translatePlanToSequence_topological_witness :
    ∃ seq, translatePlanToSequence 3 trianglePlan = some seq ∧ seq.length = 3 - 1 ∧
      (∀ k e, seq[k]? = some e → e.i < 3 + k ∧ e.j < 3 + k) ∧
      (operands seq).Perm (List.range (2 * 3 - 2)) ∧
      (∀ (c : ℚ) (v : Nat) (st : List Sequence × Nat),
        translatePlanBuild 3 (Plan.leaf c (BitSet.single v)) st = some (st, v)) :=
  translatePlanToSequence_topological 3 trianglePlan trianglePlan_wellFormed (by decide)

/-- C4 (sequence faithfulness).  For a well-formed plan `p` over the `n` vertices of a
network, replaying `translatePlanToSequence(p)` yields a total cost equal to the bottom-up
contraction cost of `p`, and the set produced by the last entry is `p.set`. -/
theorem sequence_faithful (net : TensorNetwork) (n : Nat) (P : Plan) (hw : P.WellFormed)
    (hset : P.set = BitSet.fill n) :
    ∃ seq, translatePlanToSequence n P = some seq ∧
      (replaySequence net n seq).2 = P.bottomUpCost net ∧
      (seq ≠ [] → (replaySequence net n seq).1.getLast? = some P.set) := by
  have hsize : P.internal + 1 = n := by
    rw [← Plan.plan_size_set hw, hset, BitSet.size_fill]
  obtain ⟨es, id, hb, hlen, _, hid, _, _, hrep⟩ :=
    translatePlanBuild_ok net n P hw (leaves_lt_of_set_fill hw hset) [] n (le_refl _) (by omega)
  obtain ⟨tabNew, hfold, htlen, hop⟩ := hrep [] 0 (by simp)
  refine ⟨es, ?_, ?_, ?_⟩
  · unfold translatePlanToSequence
    simp only [hb, List.nil_append]
    rw [if_pos (by omega)]
  · unfold replaySequence
    rw [hfold]; simp
  · intro hne
    have hpos : 0 < P.internal := by
      rw [← hlen]
      exact List.length_pos.2 hne
    have hidv := hid hpos
    have := hop []
    unfold replaySequence
    rw [hfold]
    simp only [List.nil_append, List.append_nil] at this ⊢
    unfold operandSet at this
    rw [if_neg (by omega), List.getD_eq_getElem?_getD] at this
    rw [List.getLast?_eq_getElem?, htlen]
    have hidx : id - n = P.internal - 1 := by omega
    rw [hidx] at this
    have hlt : P.internal - 1 < tabNew.length := by omega
    rw [List.getElem?_eq_getElem hlt] at this ⊢
    simpa using this

/-- The statement of `sequence_faithful` on the triangle and the plan `((0 1) 2)`. -/
theorem sequence_faithful_witness :
    ∃ seq, translatePlanToSequence 3 trianglePlan = some seq ∧
      (replaySequence triangle 3 seq).2 = trianglePlan.bottomUpCost triangle ∧
      (seq ≠ [] → (replaySequence triangle 3 seq).1.getLast? = some trianglePlan.set) :=
  sequence_faithful triangle 3 trianglePlan trianglePlan_wellFormed (by decide)

/-! ## Products of leg dimensions -/

theorem computeLegDimProduct_eq_prod (net : TensorNetwork) (s : BitSet) :
    net.computeLegDimProduct s = ∏ e ∈ BitSet.toFinset s, net.legDim e := by
  unfold TensorNetwork.computeLegDimProduct BitSet.toFinset
  rw [List.prod_toFinset _ (BitSet.toList_nodup s)]
  have : ∀ (l : List Nat) (a : ℚ),
      l.foldl (fun ret edgeIndex => ret * net.legDim edgeIndex) a = a * (l.map net.legDim).prod := by
    intro l
    induction l with
    | nil => intro a; simp
    | cons x l ih => intro a; rw [List.foldl_cons, ih]; simp [mul_assoc]
  rw [this, one_mul]

theorem computeLegDimProduct_ne_zero (net : TensorNetwork) (h : ∀ e, 0 < net.legDim e)
    (s : BitSet) : net.computeLegDimProduct s ≠ 0 :=
  ne_of_gt (computeLegDimProduct_pos net h s)

/-- The product over a union times the product over the intersection. -/
theorem computeLegDimProduct_lor_land (net : TensorNetwork) (a b : BitSet) :
    net.computeLegDimProduct (a ||| b) * net.computeLegDimProduct (a &&& b) =
      net.computeLegDimProduct a * net.computeLegDimProduct b := by
  simp only [computeLegDimProduct_eq_prod, BitSet.toFinset_lor, BitSet.toFinset_land]
  exact Finset.prod_union_inter

/-- The product over a symmetric difference times the product over the intersection. -/
theorem computeLegDimProduct_xor_land (net : TensorNetwork) (a b : BitSet) :
    net.computeLegDimProduct (a ^^^ b) * net.computeLegDimProduct (a &&& b) =
      net.computeLegDimProduct (a ||| b) := by
  have hdisj : (a ^^^ b) &&& (a &&& b) = 0 := by
    apply Nat.eq_of_testBit_eq
    intro i
    simp only [Nat.testBit_land, Nat.testBit_xor, Nat.zero_testBit]
    cases a.testBit i <;> cases b.testBit i <;> rfl
  have hunion : (a ^^^ b) ||| (a &&& b) = a ||| b := by
    apply Nat.eq_of_testBit_eq
    intro i
    simp only [Nat.testBit_land, Nat.testBit_xor, Nat.testBit_lor]
    cases a.testBit i <;> cases b.testBit i <;> rfl
  have := computeLegDimProduct_lor_land net (a ^^^ b) (a &&& b)
  rw [hdisj, hunion] at this
  have h0 : net.computeLegDimProduct 0 = 1 := by
    simp [TensorNetwork.computeLegDimProduct, BitSet.toList_zero]
  rw [h0, mul_one] at this
  exact this.symm

/-- The size update of the precomputation: dividing both sizes by the common size gives the
size of the toggled leg set. -/
theorem computeLegDimProduct_xor (net : TensorNetwork) (h : ∀ e, 0 < net.legDim e)
    (a b : BitSet) :
    net.computeLegDimProduct (a ^^^ b) =
      (net.computeLegDimProduct a / net.computeLegDimProduct (a &&& b)) *
        (net.computeLegDimProduct b / net.computeLegDimProduct (a &&& b)) := by
  have hc := computeLegDimProduct_ne_zero net h (a &&& b)
  have h1 := computeLegDimProduct_xor_land net a b
  have h2 := computeLegDimProduct_lor_land net a b
  field_simp
  rw [← h2, ← h1]
  ring

/-- The cost of a split as LinDP computes it is the product over the union of the legs. -/
theorem splitCost_eq (net : TensorNetwork) (h : ∀ e, 0 < net.legDim e) (a b : BitSet) :
    (max (net.computeLegDimProduct a) (net.computeLegDimProduct b) /
        net.computeLegDimProduct (a &&& b)) *
      min (net.computeLegDimProduct a) (net.computeLegDimProduct b) =
    net.computeLegDimProduct (a ||| b) := by
  have hc := computeLegDimProduct_ne_zero net h (a &&& b)
  have h2 := computeLegDimProduct_lor_land net a b
  have hmm : max (net.computeLegDimProduct a) (net.computeLegDimProduct b) *
      min (net.computeLegDimProduct a) (net.computeLegDimProduct b) =
      net.computeLegDimProduct a * net.computeLegDimProduct b := max_mul_min _ _
  rw [div_mul_eq_mul_div, hmm, ← h2]
  field_simp

theorem path4_legDim_pos : ∀ e, 0 < path4.legDim e := by
  intro e
  unfold TensorNetwork.legDim
  by_cases he : e < 7
  · have : e = 0 ∨ e = 1 ∨ e = 2 ∨ e = 3 ∨ e = 4 ∨ e = 5 ∨ e = 6 := by omega
    rcases this with rfl | rfl | rfl | rfl | rfl | rfl | rfl <;> simp [path4]
  · rw [List.getD_eq_default _ _ (by simp [path4]; omega)]
    norm_num

/-- The symmetric difference of `vertexLegs` over the positions `i, …, j` of `σ`. -/
def intervalLegs (net : TensorNetwork) (σ : List Nat) (i j : Nat) : BitSet :=
  (List.range' i (j + 1 - i)).foldl (fun acc k => acc ^^^ net.vertexLegs (σ.getD k 0)) 0

theorem setCell_same {α : Type} (t : Nat → Nat → α) (i j : Nat) (v : α) :
    setCell t i j v i j = v := by simp [setCell]

theorem setCell_other {α : Type} (t : Nat → Nat → α) {i j a b : Nat} (v : α)
    (h : ¬ (a = i ∧ b = j)) : setCell t i j v a b = t a b := by simp [setCell, h]

/-- The inner loop of the precomputation from position `j0` on, started with the legs `lg`
of the positions before `j0` and the matching size: when no assertion fails, the cell `(i, j)`
of each visited `j` receives the legs toggled up to `j` and their size, and no other cell
changes. -/
theorem linDPLegsRow_spec (net : TensorNetwork) (hdim : ∀ e, 0 < net.legDim e) (σ : List Nat)
    (i : Nat) :
    ∀ (cnt j0 : Nat) (sz : ℚ) (lg : BitSet) (tabs res : LegTables),
      sz = net.computeLegDimProduct lg →
      linDPLegsRow net σ i (List.range' j0 cnt) (sz, lg, tabs) = some res →
      (∀ a b, ¬ (a = i ∧ j0 ≤ b ∧ b < j0 + cnt) →
        res.tensorLegs a b = tabs.tensorLegs a b ∧ res.tensorSizes a b = tabs.tensorSizes a b) ∧
      (∀ j, j0 ≤ j → j < j0 + cnt →
        res.tensorLegs i j = (List.range' j0 (j + 1 - j0)).foldl
          (fun acc k => acc ^^^ net.vertexLegs (σ.getD k 0)) lg ∧
        res.tensorSizes i j = net.computeLegDimProduct (res.tensorLegs i j)) := by
  intro cnt
  induction cnt with
  | zero =>
    intro j0 sz lg tabs res _ hres
    simp only [List.range'_zero, linDPLegsRow, Option.some.injEq] at hres
    subst hres
    refine ⟨?_, ?_⟩
    · intro a b _
      exact ⟨rfl, rfl⟩
    · intro j h1 h2
      omega
  | succ cnt ih =>
    intro j0 sz lg tabs res hsz hres
    simp only [List.range'_succ, linDPLegsRow] at hres
    by_cases hchk : isLessOrEqualThan
        (net.computeLegDimProduct (lg &&& net.vertexLegs (σ.getD j0 0))) sz = true
    · rw [if_pos hchk] at hres
      set inc := net.vertexLegs (σ.getD j0 0) with hinc
      set sz1 := (sz / net.computeLegDimProduct (lg &&& inc)) *
        (net.vertexSizes (σ.getD j0 0) / net.computeLegDimProduct (lg &&& inc)) with hsz1
      have hsz1' : sz1 = net.computeLegDimProduct (lg ^^^ inc) := by
        rw [hsz1, hsz, computeLegDimProduct_xor net hdim lg inc]
        rfl
      obtain ⟨hframe, hval⟩ := ih (j0 + 1) sz1 (lg ^^^ inc)
        ⟨setCell tabs.tensorLegs i j0 (lg ^^^ inc), setCell tabs.tensorSizes i j0 sz1⟩ res
        hsz1' hres
      refine ⟨?_, ?_⟩
      · intro a b hab
        obtain ⟨h1, h2⟩ := hframe a b (by intro h; apply hab; omega)
        rw [h1, h2]
        have hne : ¬ (a = i ∧ b = j0) := by intro h; apply hab; omega
        exact ⟨setCell_other _ _ hne, setCell_other _ _ hne⟩
      · intro j hj1 hj2
        by_cases hj : j = j0
        · subst hj
          obtain ⟨h1, h2⟩ := hframe i j (by intro h; omega)
          rw [h1, h2]
          simp only [setCell_same]
          have : j + 1 - j = 1 := by omega
          rw [this]
          simp only [List.range'_one, List.foldl_cons, List.foldl_nil]
          refine ⟨?_, ?_⟩
          · trivial
          · exact hsz1'
        · obtain ⟨h1, h2⟩ := hval j (by omega) (by omega)
          refine ⟨?_, h2⟩
          rw [h1]
          have : j + 1 - j0 = (j + 1 - (j0 + 1)) + 1 := by omega
          rw [this, List.range'_succ, List.foldl_cons]
    · rw [if_neg hchk] at hres
      cases hres

/-- The outer loop of the precomputation over a list of distinct rows: when no assertion
fails, the cell `(i, j)` of every visited row `i` and every `j` with `i ≤ j < n` holds the legs
of the interval and their size. -/
theorem linDPLegs_rows (net : TensorNetwork) (hdim : ∀ e, 0 < net.legDim e) (σ : List Nat) :
    ∀ (rows : List Nat), rows.Nodup → ∀ (tabs res : LegTables),
      linDPLegsRows net σ rows tabs = some res →
      (∀ a b, a ∉ rows →
        res.tensorLegs a b = tabs.tensorLegs a b ∧ res.tensorSizes a b = tabs.tensorSizes a b) ∧
      (∀ i j, i ∈ rows → i ≤ j → j < net.n →
        res.tensorLegs i j = intervalLegs net σ i j ∧
        res.tensorSizes i j = net.computeLegDimProduct (intervalLegs net σ i j)) := by
  intro rows
  induction rows with
  | nil =>
    intro _ tabs res hres
    simp only [linDPLegsRows, Option.some.injEq] at hres
    subst hres
    refine ⟨?_, ?_⟩
    · intro a b _
      exact ⟨rfl, rfl⟩
    · intro i j h
      simp at h
  | cons r rows ih =>
    intro hnd tabs res hres
    rw [List.nodup_cons] at hnd
    rw [linDPLegsRows] at hres
    have h0 : (1 : ℚ) = net.computeLegDimProduct 0 := by
      simp [TensorNetwork.computeLegDimProduct, BitSet.toList_zero]
    cases hrow : linDPLegsRow net σ r (List.range' r (net.n - r)) (1, 0, tabs) with
    | none =>
      rw [hrow] at hres
      cases hres
    | some tabs1 =>
      rw [hrow] at hres
      obtain ⟨hrf, hrv⟩ := linDPLegsRow_spec net hdim σ r (net.n - r) r 1 0 tabs tabs1 h0 hrow
      obtain ⟨hf, hv⟩ := ih hnd.2 tabs1 res hres
      refine ⟨?_, ?_⟩
      · intro a b ha
        simp only [List.mem_cons, not_or] at ha
        obtain ⟨h1, h2⟩ := hf a b ha.2
        obtain ⟨h3, h4⟩ := hrf a b (by intro h; exact ha.1 h.1)
        exact ⟨h1.trans h3, h2.trans h4⟩
      · intro i j hi hij hjn
        rcases List.mem_cons.1 hi with rfl | hi'
        · obtain ⟨h1, h2⟩ := hf i j hnd.1
          obtain ⟨h3, h4⟩ := hrv j hij (by omega)
          have h5 : tabs1.tensorLegs i j = intervalLegs net σ i j := h3
          rw [h1, h2, h4, h5]
          exact ⟨rfl, rfl⟩
        · exact hv i j hi' hij hjn

theorem linDPLegs_spec (net : TensorNetwork) (hdim : ∀ e, 0 < net.legDim e) (σ : List Nat)
    {legs : LegTables} (hlegs : linDPLegs net σ = some legs)
    (i j : Nat) (hij : i ≤ j) (hjn : j < net.n) :
    legs.tensorLegs i j = intervalLegs net σ i j ∧
    legs.tensorSizes i j = net.computeLegDimProduct (intervalLegs net σ i j) :=
  (linDPLegs_rows net hdim σ (List.range net.n).reverse
    (List.nodup_reverse.2 (List.nodup_range _)) ⟨fun _ _ => 0, fun _ _ => 0⟩ legs hlegs).2 i j
    (by simp; omega) hij hjn

/-- Toggling the legs of distinct vertices in any order gives `collectOpenLegs` of their set. -/
theorem collectOpenLegs_listSet (net : TensorNetwork) {l : List Nat} (hnd : l.Nodup) :
    net.collectOpenLegs (listSet l) = l.foldl (fun acc v => acc ^^^ net.vertexLegs v) 0 := by
  unfold TensorNetwork.collectOpenLegs
  have hp := toList_listSet_perm hnd
  have hcomm : RightCommutative (fun (acc : Nat) (v : Nat) => acc ^^^ net.vertexLegs v) := by
    constructor
    intro a b c
    show a ^^^ net.vertexLegs b ^^^ net.vertexLegs c = a ^^^ net.vertexLegs c ^^^ net.vertexLegs b
    rw [Nat.xor_assoc, Nat.xor_comm (net.vertexLegs b), ← Nat.xor_assoc]
  exact hp.foldl_eq (f := fun (acc : Nat) (v : Nat) => acc ^^^ net.vertexLegs v) 0

/-- The common legs of the split of `[i, j]` after position `k`. -/
def splitCommon (legs : LegTables) (i k j : Nat) : BitSet :=
  legs.tensorLegs i k &&& legs.tensorLegs (k + 1) j

/-- The cost LinDP charges for the split of `[i, j]` after position `k`. -/
def splitCost (net : TensorNetwork) (legs : LegTables) (i k j : Nat) : ℚ :=
  (max (legs.tensorSizes i k) (legs.tensorSizes (k + 1) j) /
      net.computeLegDimProduct (splitCommon legs i k j)) *
    min (legs.tensorSizes i k) (legs.tensorSizes (k + 1) j)

/-- The cell `(i, j)` is final with respect to the cells of its sub-intervals: a finite cost
is the cost of the recorded split, which is admissible; it is at most the cost of every
admissible split; and an infinite cost goes with the pointer `NIL`. -/
structure CellSpec (net : TensorNetwork) (legs : LegTables) (t : DPTables) (i j : Nat) : Prop where
  attained : ∀ c, t.dp i j = some c → ∃ k l r, i ≤ k ∧ k < j ∧ t.ptr i j = k ∧
    t.dp i k = some l ∧ t.dp (k + 1) j = some r ∧ splitCommon legs i k j ≠ 0 ∧
    c = l + r + splitCost net legs i k j
  minimal : ∀ k l r, i ≤ k → k < j → t.dp i k = some l → t.dp (k + 1) j = some r →
    splitCommon legs i k j ≠ 0 → ∃ c, t.dp i j = some c ∧ c ≤ l + r + splitCost net legs i k j
  infinite : t.dp i j = none → t.ptr i j = NIL

/-- The state of the loop over the splits of the window `[i, j]`, `S` being the set of the
splits tried so far and `t0` the tables before the loop. -/
structure WindowInv (net : TensorNetwork) (legs : LegTables) (i j : Nat) (t0 t : DPTables)
    (S : Nat → Prop) : Prop where
  frame : ∀ a b, ¬ (a = i ∧ b = j) → t.dp a b = t0.dp a b ∧ t.ptr a b = t0.ptr a b
  attained : ∀ c, t.dp i j = some c → ∃ k l r, S k ∧ t.ptr i j = k ∧
    t0.dp i k = some l ∧ t0.dp (k + 1) j = some r ∧ splitCommon legs i k j ≠ 0 ∧
    c = l + r + splitCost net legs i k j
  minimal : ∀ k l r, S k → t0.dp i k = some l → t0.dp (k + 1) j = some r →
    splitCommon legs i k j ≠ 0 → ∃ c, t.dp i j = some c ∧ c ≤ l + r + splitCost net legs i k j
  infinite : t.dp i j = none → t.ptr i j = NIL

theorem linDPSplit_skip_left (net : TensorNetwork) (legs : LegTables) (i j k : Nat)
    (t : DPTables) (h : t.dp i k = none) : linDPSplit net legs i j t k = t := by
  simp [linDPSplit, h]

theorem linDPSplit_skip_right (net : TensorNetwork) (legs : LegTables) (i j k : Nat)
    (t : DPTables) (h : t.dp (k + 1) j = none) : linDPSplit net legs i j t k = t := by
  unfold linDPSplit
  cases t.dp i k <;> simp [h]

theorem linDPSplit_skip_outer (net : TensorNetwork) (legs : LegTables) (i j k : Nat)
    (t : DPTables) (h : splitCommon legs i k j = 0) : linDPSplit net legs i j t k = t := by
  unfold linDPSplit
  unfold splitCommon at h
  cases t.dp i k <;> cases t.dp (k + 1) j <;> simp [h, ENABLE_LinDP_OUTER_PRODUCTS]

theorem linDPSplit_live (net : TensorNetwork) (legs : LegTables) (i j k : Nat) (t : DPTables)
    {l r : ℚ} (hl : t.dp i k = some l) (hr : t.dp (k + 1) j = some r)
    (h : splitCommon legs i k j ≠ 0) :
    linDPSplit net legs i j t k =
      if (match t.dp i j with
          | none => true
          | some c => decide (l + r + splitCost net legs i k j < c)) = true then
        ⟨setCell t.dp i j (some (l + r + splitCost net legs i k j)), setCell t.ptr i j k⟩
      else t := by
  unfold linDPSplit
  unfold splitCommon at h
  simp only [hl, hr, h, ENABLE_LinDP_OUTER_PRODUCTS, Bool.not_false, Bool.true_and,
    decide_False, Bool.false_eq_true, if_false]
  rfl

theorem linDPSplit_inv (net : TensorNetwork) (legs : LegTables) (i j k : Nat)
    (hk1 : i ≤ k) (hk2 : k < j) {t0 t : DPTables} {S : Nat → Prop}
    (hinv : WindowInv net legs i j t0 t S) :
    WindowInv net legs i j t0 (linDPSplit net legs i j t k) (fun x => S x ∨ x = k) := by
  have hfl : t.dp i k = t0.dp i k := (hinv.frame i k (by omega)).1
  have hfr : t.dp (k + 1) j = t0.dp (k + 1) j := (hinv.frame (k + 1) j (by omega)).1
  -- when the split is skipped nothing changes and the split is not admissible
  have hskip : (t0.dp i k = none ∨ t0.dp (k + 1) j = none ∨ splitCommon legs i k j = 0) →
      WindowInv net legs i j t0 t (fun x => S x ∨ x = k) := by
    intro hcase
    refine ⟨hinv.frame, ?_, ?_, hinv.infinite⟩
    · intro c hc
      obtain ⟨k', l, r, h1, h2⟩ := hinv.attained c hc
      exact ⟨k', l, r, Or.inl h1, h2⟩
    · intro k' l r hS hl hr hcom
      rcases hS with hS | rfl
      · exact hinv.minimal k' l r hS hl hr hcom
      · rcases hcase with h | h | h
        · rw [h] at hl; cases hl
        · rw [h] at hr; cases hr
        · exact absurd h hcom
  cases hl : t.dp i k with
  | none =>
    rw [linDPSplit_skip_left net legs i j k t hl]
    exact hskip (Or.inl (by rw [← hfl]; exact hl))
  | some l =>
    cases hr : t.dp (k + 1) j with
    | none =>
      rw [linDPSplit_skip_right net legs i j k t hr]
      exact hskip (Or.inr (Or.inl (by rw [← hfr]; exact hr)))
    | some r =>
      by_cases hcom : splitCommon legs i k j = 0
      · rw [linDPSplit_skip_outer net legs i j k t hcom]
        exact hskip (Or.inr (Or.inr hcom))
      · rw [linDPSplit_live net legs i j k t hl hr hcom]
        rw [hfl] at hl
        rw [hfr] at hr
        cases hcur : t.dp i j with
        | none =>
          simp only [if_true]
          refine ⟨?_, ?_, ?_, ?_⟩
          · intro a b hab
            simp only [setCell_other _ _ hab]
            exact hinv.frame a b hab
          · intro c hc
            simp only [setCell_same, Option.some.injEq] at hc
            exact ⟨k, l, r, Or.inr rfl, by simp [setCell_same], hl, hr, hcom, hc.symm⟩
          · intro k' l' r' hS hl' hr' hcom'
            rcases hS with hS | rfl
            · obtain ⟨c, hc, _⟩ := hinv.minimal k' l' r' hS hl' hr' hcom'
              rw [hcur] at hc; cases hc
            · rw [hl] at hl'; rw [hr] at hr'
              cases hl'; cases hr'
              exact ⟨_, by simp [setCell_same], le_refl _⟩
          · intro h
            simp [setCell_same] at h
        | some c0 =>
          by_cases hlt : l + r + splitCost net legs i k j < c0
          · simp only [hlt, decide_True, if_true]
            refine ⟨?_, ?_, ?_, ?_⟩
            · intro a b hab
              simp only [setCell_other _ _ hab]
              exact hinv.frame a b hab
            · intro c hc
              simp only [setCell_same, Option.some.injEq] at hc
              exact ⟨k, l, r, Or.inr rfl, by simp [setCell_same], hl, hr, hcom, hc.symm⟩
            · intro k' l' r' hS hl' hr' hcom'
              rcases hS with hS | rfl
              · obtain ⟨c, hc, hle⟩ := hinv.minimal k' l' r' hS hl' hr' hcom'
                rw [hcur] at hc; cases hc
                exact ⟨_, by simp [setCell_same], le_trans (le_of_lt hlt) hle⟩
              · rw [hl] at hl'; rw [hr] at hr'
                cases hl'; cases hr'
                exact ⟨_, by simp [setCell_same], le_refl _⟩
            · intro h
              simp [setCell_same] at h
          · simp only [hlt, decide_False, Bool.false_eq_true, if_false]
            refine ⟨hinv.frame, ?_, ?_, hinv.infinite⟩
            · intro c hc
              obtain ⟨k', l', r', h1, h2⟩ := hinv.attained c hc
              exact ⟨k', l', r', Or.inl h1, h2⟩
            · intro k' l' r' hS hl' hr' hcom'
              rcases hS with hS | rfl
              · exact hinv.minimal k' l' r' hS hl' hr' hcom'
              · rw [hl] at hl'; rw [hr] at hr'
                cases hl'; cases hr'
                exact ⟨c0, hcur, not_lt.1 hlt⟩

theorem linDPWindow_fold (net : TensorNetwork) (legs : LegTables) (i j : Nat) (t0 : DPTables) :
    ∀ (ks : List Nat), (∀ k, k ∈ ks → i ≤ k ∧ k < j) → ∀ (t : DPTables) (S : Nat → Prop),
      WindowInv net legs i j t0 t S →
      WindowInv net legs i j t0 (ks.foldl (linDPSplit net legs i j) t) (fun x => S x ∨ x ∈ ks) := by
  intro ks
  induction ks with
  | nil =>
    intro _ t S hinv
    simpa using hinv
  | cons k ks ih =>
    intro hks t S hinv
    have hk := hks k (by simp)
    have h1 := linDPSplit_inv net legs i j k hk.1 hk.2 hinv
    have h2 := ih (fun k' hk' => hks k' (by simp [hk'])) _ _ h1
    simp only [List.foldl_cons]
    have : (fun x => (S x ∨ x = k) ∨ x ∈ ks) = (fun x => S x ∨ x ∈ k :: ks) := by
      funext x; simp [or_assoc]
    rw [← this]
    exact h2

/-- After the loop over its splits the window `[i, i + d]` is final. -/
theorem linDPWindow_spec (net : TensorNetwork) (legs : LegTables) (d i : Nat)
    (t : DPTables) (hnone : t.dp i (i + d) = none) (hnil : t.ptr i (i + d) = NIL) :
    (∀ a b, ¬ (a = i ∧ b = i + d) →
      (linDPWindow net legs d t i).dp a b = t.dp a b ∧
      (linDPWindow net legs d t i).ptr a b = t.ptr a b) ∧
    CellSpec net legs (linDPWindow net legs d t i) i (i + d) := by
  have hstart : WindowInv net legs i (i + d) t t (fun _ => False) := by
    refine ⟨fun _ _ _ => ⟨rfl, rfl⟩, ?_, ?_, fun _ => hnil⟩
    · intro c hc; rw [hnone] at hc; cases hc
    · intro k l r h; exact absurd h id
  have hks : ∀ k, k ∈ List.range' i d → i ≤ k ∧ k < i + d := by
    intro k hk
    rw [List.mem_range'_1] at hk
    exact hk
  have hfin : WindowInv net legs i (i + d) t (linDPWindow net legs d t i)
      (fun x => False ∨ x ∈ List.range' i d) :=
    linDPWindow_fold net legs i (i + d) t (List.range' i d) hks t _ hstart
  have hframe := hfin.frame
  refine ⟨hframe, ?_, ?_, hfin.infinite⟩
  · intro c hc
    obtain ⟨k, l, r, hS, hp, hl, hr, hcom, hceq⟩ := hfin.attained c hc
    have hk : i ≤ k ∧ k < i + d := by
      rcases hS with h | h
      · exact absurd h id
      · exact hks k h
    refine ⟨k, l, r, hk.1, hk.2, hp, ?_, ?_, hcom, hceq⟩
    · rw [(hframe i k (by omega)).1]; exact hl
    · rw [(hframe (k + 1) (i + d) (by omega)).1]; exact hr
  · intro k l r hk1 hk2 hl hr hcom
    rw [(hframe i k (by omega)).1] at hl
    rw [(hframe (k + 1) (i + d) (by omega)).1] at hr
    exact hfin.minimal k l r (Or.inr (by rw [List.mem_range'_1]; exact ⟨hk1, hk2⟩)) hl hr hcom

theorem cellSpec_congr (net : TensorNetwork) (legs : LegTables) {t t' : DPTables} {a b : Nat}
    (h : ∀ x y, a ≤ x → y ≤ b → t'.dp x y = t.dp x y ∧ t'.ptr x y = t.ptr x y)
    (hc : CellSpec net legs t a b) : CellSpec net legs t' a b := by
  refine ⟨?_, ?_, ?_⟩
  · intro c hcc
    rw [(h a b (le_refl _) (le_refl _)).1] at hcc
    obtain ⟨k, l, r, h1, h2, h3, h4, h5, h6⟩ := hc.attained c hcc
    refine ⟨k, l, r, h1, h2, ?_, ?_, ?_, h6⟩
    · rw [(h a b (le_refl _) (le_refl _)).2]; exact h3
    · rw [(h a k (le_refl _) (by omega)).1]; exact h4
    · rw [(h (k + 1) b (by omega) (le_refl _)).1]; exact h5
  · intro k l r h1 h2 hl hr hcom
    rw [(h a k (le_refl _) (by omega)).1] at hl
    rw [(h (k + 1) b (by omega) (le_refl _)).1] at hr
    obtain ⟨c, hcc, hle⟩ := hc.minimal k l r h1 h2 hl hr hcom
    exact ⟨c, by rw [(h a b (le_refl _) (le_refl _)).1]; exact hcc, hle⟩
  · intro hn
    rw [(h a b (le_refl _) (le_refl _)).1] at hn
    rw [(h a b (le_refl _) (le_refl _)).2]
    exact hc.infinite hn

/-- The state of the tables while the windows of length `d + 1` are processed: the windows of
smaller length and the first `i0` windows of length `d + 1` are final, the other cells above
the diagonal are untouched. -/
structure DPGood (net : TensorNetwork) (legs : LegTables) (t : DPTables) (d i0 : Nat) : Prop where
  diag : ∀ i, i < net.n → t.dp i i = some 0 ∧ t.ptr i i = NIL
  finished : ∀ i j, i < j → j < net.n → (j - i < d ∨ (j - i = d ∧ i < i0)) →
    CellSpec net legs t i j
  untouched : ∀ i j, i < j → ¬ (j < net.n ∧ (j - i < d ∨ (j - i = d ∧ i < i0))) →
    t.dp i j = none ∧ t.ptr i j = NIL

theorem linDPWindow_good (net : TensorNetwork) (legs : LegTables) (d i0 : Nat) (hd : 0 < d)
    (hi0 : i0 + d < net.n) {t : DPTables} (hg : DPGood net legs t d i0) :
    DPGood net legs (linDPWindow net legs d t i0) d (i0 + 1) := by
  obtain ⟨hnone, hnil⟩ := hg.untouched i0 (i0 + d) (by omega) (by omega)
  obtain ⟨hframe, hcell⟩ := linDPWindow_spec net legs d i0 t hnone hnil
  refine ⟨?_, ?_, ?_⟩
  · intro i hi
    obtain ⟨h1, h2⟩ := hframe i i (by omega)
    rw [h1, h2]; exact hg.diag i hi
  · intro i j hij hjn hcase
    by_cases hnew : i = i0 ∧ j = i0 + d
    · obtain ⟨rfl, rfl⟩ := hnew
      exact hcell
    · apply cellSpec_congr net legs _ (hg.finished i j hij hjn (by omega))
      intro x y hx hy
      exact hframe x y (by omega)
  · intro i j hij hcase
    obtain ⟨h1, h2⟩ := hframe i j (by omega)
    rw [h1, h2]
    exact hg.untouched i j hij (by omega)

theorem linDPDiagonal_good (net : TensorNetwork) (legs : LegTables) (d : Nat) (hd : 0 < d)
    {t : DPTables} (hg : DPGood net legs t d 0) :
    DPGood net legs (linDPDiagonal net legs t d) (d + 1) 0 := by
  have key : ∀ cnt, cnt ≤ net.n - d →
      DPGood net legs ((List.range cnt).foldl (linDPWindow net legs d) t) d cnt := by
    intro cnt
    induction cnt with
    | zero => intro _; simpa using hg
    | succ cnt ih =>
      intro hcnt
      rw [List.range_succ, List.foldl_append]
      simp only [List.foldl_cons, List.foldl_nil]
      exact linDPWindow_good net legs d cnt hd (by omega) (ih (by omega))
  have hfin := key (net.n - d) (le_refl _)
  unfold linDPDiagonal
  refine ⟨hfin.diag, ?_, ?_⟩
  · intro i j hij hjn hcase
    exact hfin.finished i j hij hjn (by omega)
  · intro i j hij hcase
    exact hfin.untouched i j hij (by omega)

theorem linDPInit_spec (n a b : Nat) :
    (linDPInit n).dp a b = (if a = b ∧ a < n then some 0 else none) ∧
    (linDPInit n).ptr a b = NIL := by
  unfold linDPInit
  induction n with
  | zero => simp
  | succ n ih =>
    rw [List.range_succ, List.foldl_append]
    simp only [List.foldl_cons, List.foldl_nil]
    by_cases h : a = n ∧ b = n
    · obtain ⟨rfl, rfl⟩ := h
      simp [setCell_same]
    · rw [setCell_other _ _ h, setCell_other _ _ h, ih.1, ih.2]
      refine ⟨?_, rfl⟩
      by_cases h1 : a = b ∧ a < n
      · rw [if_pos h1, if_pos ⟨h1.1, by omega⟩]
      · rw [if_neg h1, if_neg]
        rintro ⟨h2, h3⟩
        apply h1
        refine ⟨h2, ?_⟩
        by_contra h4
        apply h
        omega

/-- Every cell of the final tables is final: the diagonal holds cost `0`, and every window
`[i, j]` with `i < j < n` satisfies the recurrence. -/
theorem linDPTables_good (net : TensorNetwork) (legs : LegTables) :
    DPGood net legs (linDPTables net legs) net.n 0 := by
  have hinit : DPGood net legs (linDPInit net.n) 1 0 := by
    refine ⟨?_, ?_, ?_⟩
    · intro i hi
      obtain ⟨h1, h2⟩ := linDPInit_spec net.n i i
      rw [h1, h2, if_pos ⟨rfl, hi⟩]
      exact ⟨rfl, rfl⟩
    · intro i j hij _ hcase; omega
    · intro i j hij _
      obtain ⟨h1, h2⟩ := linDPInit_spec net.n i j
      rw [h1, h2, if_neg (by omega)]
      exact ⟨rfl, rfl⟩
  have key : ∀ cnt, DPGood net legs
      ((List.range' 1 cnt).foldl (linDPDiagonal net legs) (linDPInit net.n))
      (1 + cnt) 0 := by
    intro cnt
    induction cnt with
    | zero => simpa using hinit
    | succ cnt ih =>
      rw [List.range'_concat, List.foldl_append]
      simp only [List.foldl_cons, List.foldl_nil, Nat.one_mul]
      have := linDPDiagonal_good net legs (1 + cnt) (by omega) ih
      rw [← Nat.add_assoc]
      exact this
  have hfin := key (net.n - 1)
  unfold linDPTables
  refine ⟨hfin.diag, ?_, ?_⟩
  · intro i j hij hjn _
    exact hfin.finished i j hij hjn (by omega)
  · intro i j hij hcase
    exact hfin.untouched i j hij (by omega)

theorem linDPTables_cell (net : TensorNetwork) (legs : LegTables) (i j : Nat) (hij : i < j)
    (hjn : j < net.n) : CellSpec net legs (linDPTables net legs) i j :=
  (linDPTables_good net legs).finished i j hij hjn (Or.inl (by omega))

/-! ## Bushy trees over a linear order -/

namespace BTree

/-- The legs that survive the contraction of the leaves: the symmetric difference of their
vertex legs. -/
def legs (net : TensorNetwork) (T : BTree) : BitSet :=
  T.leaves.foldl (fun acc v => acc ^^^ net.vertexLegs v) 0

/-- Every non-leaf node joins two subtrees that share at least one leg. -/
def Feasible (net : TensorNetwork) : BTree → Prop
  | leaf _ => True
  | node l r => l.Feasible net ∧ r.Feasible net ∧ l.legs net &&& r.legs net ≠ 0

/-- The sum of `computeContractionCost(left set, right set)` over the non-leaf nodes. -/
def cost (net : TensorNetwork) : BTree → ℚ
  | leaf _ => 0
  | node l r => net.computeContractionCost l.set r.set + l.cost net + r.cost net

theorem legs_eq_collectOpenLegs (net : TensorNetwork) {T : BTree} (h : T.leaves.Nodup) :
    net.collectOpenLegs T.set = T.legs net := by
  rw [set_eq_listSet, collectOpenLegs_listSet net h]
  rfl

theorem computeContractionCost_eq (net : TensorNetwork) {L R : BTree} (hL : L.leaves.Nodup)
    (hR : R.leaves.Nodup) :
    net.computeContractionCost L.set R.set = net.computeLegDimProduct (L.legs net ||| R.legs net) := by
  unfold TensorNetwork.computeContractionCost
  rw [legs_eq_collectOpenLegs net hL, legs_eq_collectOpenLegs net hR]

end BTree

/-- The vertices at the positions `i, …, j` of `σ`. -/
def interval (σ : List Nat) (i j : Nat) : List Nat :=
  (List.range' i (j + 1 - i)).map (fun k => σ.getD k 0)

theorem interval_nodup {σ : List Nat} (hnd : σ.Nodup) (i j : Nat) (hj : j < σ.length) :
    (interval σ i j).Nodup := by
  unfold interval
  rw [List.nodup_map_iff_inj_on (List.nodup_range' _ _)]
  intro a ha b hb hab
  rw [List.mem_range'_1] at ha hb
  have ha' : a < σ.length := by omega
  have hb' : b < σ.length := by omega
  rw [List.getD_eq_getElem _ _ ha', List.getD_eq_getElem _ _ hb'] at hab
  exact (List.Nodup.getElem_inj_iff hnd).1 hab

theorem interval_split (σ : List Nat) (i k j : Nat) (h1 : i ≤ k) (h2 : k < j) :
    interval σ i j = interval σ i k ++ interval σ (k + 1) j := by
  unfold interval
  rw [← List.map_append]
  congr 1
  have := List.range'_append i (k + 1 - i) (j + 1 - (k + 1)) 1
  simp only [Nat.one_mul] at this
  have e1 : i + (k + 1 - i) = k + 1 := by omega
  have e2 : j + 1 - (k + 1) + (k + 1 - i) = j + 1 - i := by omega
  rw [e1, e2] at this
  exact this.symm

theorem interval_single (σ : List Nat) (i : Nat) : interval σ i i = [σ.getD i 0] := by
  unfold interval
  have : i + 1 - i = 1 := by omega
  rw [this]
  rfl

theorem interval_full (σ : List Nat) (h : 0 < σ.length) : interval σ 0 (σ.length - 1) = σ := by
  unfold interval
  have : σ.length - 1 + 1 - 0 = σ.length := by omega
  rw [this, ← List.range_eq_range']
  apply List.ext_getElem
  · simp
  · intro n h1 h2
    simp only [List.length_map, List.length_range] at h1
    simp [List.getElem?_eq_getElem h1]

theorem intervalLegs_eq_legs (net : TensorNetwork) (σ : List Nat) (i j : Nat) {T : BTree}
    (h : T.leaves = interval σ i j) : intervalLegs net σ i j = T.legs net := by
  unfold BTree.legs intervalLegs
  rw [h]
  unfold interval
  rw [List.foldl_map]

theorem rangeTree_append {sol : List RangeNode} {index : Nat} {T : BTree}
    (h : RangeTree sol index T) (more : List RangeNode) : RangeTree (sol ++ more) index T := by
  induction h with
  | leaf index v hget =>
    apply RangeTree.leaf
    rw [List.getElem?_append_left (List.getElem?_eq_some_iff.1 hget).1]; exact hget
  | node index x l r L R hget hl hli hri _ _ ihL ihR =>
    apply RangeTree.node index x l r L R _ hl hli hri ihL ihR
    rw [List.getElem?_append_left (List.getElem?_eq_some_iff.1 hget).1]; exact hget

/-- On a post-order bushy tree with distinct leaves `computeBushyCost` evaluates to the sum of
the contraction costs of the non-leaf nodes. -/
theorem computeBushyCostRec_ok (net : TensorNetwork) (sol : List RangeNode) :
    ∀ (index : Nat) (T : BTree), RangeTree sol index T → T.leaves.Nodup →
      ∀ fuel, index < fuel →
        net.computeBushyCostRec sol fuel index = some (T.cost net, T.set) := by
  intro index T hT
  induction hT with
  | leaf index v hget =>
    intro _ fuel hfuel
    obtain ⟨fuel, rfl⟩ : ∃ f, fuel = f + 1 := ⟨fuel - 1, by omega⟩
    simp [TensorNetwork.computeBushyCostRec, hget, BTree.cost, BTree.set]
  | node index x l r L R hget hl hli hri _ _ ihL ihR =>
    intro hnd fuel hfuel
    obtain ⟨fuel, rfl⟩ : ∃ f, fuel = f + 1 := ⟨fuel - 1, by omega⟩
    simp only [BTree.leaves, List.nodup_append] at hnd
    obtain ⟨hndL, hndR, hdisjLR⟩ := hnd
    have hdisj : L.set &&& R.set = 0 := by
      rw [BTree.set_eq_listSet, BTree.set_eq_listSet]
      exact listSet_disjoint (fun v hv hv' => hdisjLR hv hv')
    rw [TensorNetwork.computeBushyCostRec]
    simp only [hget, hl, if_false, ihL hndL fuel (by omega), ihR hndR fuel (by omega), hdisj,
      if_true, BTree.cost, BTree.set]
    congr 2
    ring

/-- The children named by the entries of a bushy solution. -/
def childIndices (sol : List RangeNode) : List Nat :=
  sol.flatMap (fun e => if e.left = NIL then [] else [e.left, e.right])

theorem splitCommon_linDP (net : TensorNetwork) (hdim : ∀ e, 0 < net.legDim e) (σ : List Nat)
    {legs : LegTables} (hlegs : linDPLegs net σ = some legs) (i k j : Nat) (h1 : i ≤ k) (h2 : k < j) (h3 : j < net.n) :
    splitCommon legs i k j =
      intervalLegs net σ i k &&& intervalLegs net σ (k + 1) j := by
  unfold splitCommon
  rw [(linDPLegs_spec net hdim σ hlegs i k h1 (by omega)).1,
    (linDPLegs_spec net hdim σ hlegs (k + 1) j (by omega) h3).1]

theorem splitCost_linDP (net : TensorNetwork) (hdim : ∀ e, 0 < net.legDim e) (σ : List Nat)
    {legs : LegTables} (hlegs : linDPLegs net σ = some legs) (i k j : Nat) (h1 : i ≤ k) (h2 : k < j) (h3 : j < net.n) :
    splitCost net legs i k j =
      net.computeLegDimProduct (intervalLegs net σ i k ||| intervalLegs net σ (k + 1) j) := by
  unfold splitCost
  rw [splitCommon_linDP net hdim σ hlegs i k j h1 h2 h3,
    (linDPLegs_spec net hdim σ hlegs i k h1 (by omega)).2,
    (linDPLegs_spec net hdim σ hlegs (k + 1) j (by omega) h3).2]
  exact splitCost_eq net hdim _ _

/-- The reconstruction of the window `[i, j]` from a finite cell: it appends the post-order
array of a tree over `σ[i], …, σ[j]` whose splits are the recorded ones. -/
theorem buildSolution_ok (net : TensorNetwork) (hdim : ∀ e, 0 < net.legDim e) (σ : List Nat)
    {legs : LegTables} (hlegs : linDPLegs net σ = some legs) (hnd : σ.Nodup) (hlen : net.n ≤ σ.length) (hn32 : net.n ≤ NIL) :
    ∀ (fuel i j : Nat) (sol : List RangeNode) (c : ℚ), i ≤ j → j < net.n → j - i < fuel →
      (linDPTables net legs).dp i j = some c → sol.length + 2 * (j - i) + 1 ≤ NIL →
      ∃ (new : List RangeNode) (T : BTree),
        buildSolution σ (linDPTables net legs).ptr fuel i j sol =
          some (sol ++ new, sol.length + 2 * (j - i)) ∧
        new.length = 2 * (j - i) + 1 ∧
        RangeTree (sol ++ new) (sol.length + 2 * (j - i)) T ∧
        T.leaves = interval σ i j ∧ T.Feasible net ∧ T.cost net = c ∧
        (∀ p e, new[p]? = some e → (e.left = NIL ∧ e.right = NIL) ∨
          (e.left ≠ NIL ∧ e.left < sol.length + p ∧ e.right < sol.length + p)) ∧
        (childIndices new).Perm (List.range' sol.length (2 * (j - i))) := by
  intro fuel
  induction fuel with
  | zero => intro i j sol c _ _ h; omega
  | succ fuel ih =>
    intro i j sol c hij hjn hfuel hdp hnil
    by_cases heq : i = j
    · subst heq
      have hc : c = 0 := by
        have := ((linDPTables_good net legs).diag i hjn).1
        rw [this] at hdp
        cases hdp; rfl
      refine ⟨[⟨σ.getD i 0, NIL, NIL⟩], BTree.leaf (σ.getD i 0), ?_, ?_, ?_, ?_, ?_, ?_, ?_, ?_⟩
      · simp [buildSolution]
      · simp
      · apply RangeTree.leaf
        simp
      · rw [interval_single]; rfl
      · trivial
      · rw [hc]; rfl
      · intro p e hp
        cases p with
        | zero => simp at hp; subst hp; exact Or.inl ⟨rfl, rfl⟩
        | succ p => simp at hp
      · simp [childIndices]
    · have hlt : i < j := by omega
      obtain ⟨k, l, r, hk1, hk2, hptr, hl, hr, hcom, hceq⟩ :=
        (linDPTables_cell net legs i j hlt hjn).attained c hdp
      have hknil : k ≠ NIL := by omega
      obtain ⟨newL, L, hbL, hlenL, htL, hleavesL, hfeasL, hcostL, hentL, hchL⟩ :=
        ih i k sol l hk1 (by omega) (by omega) hl (by omega)
      obtain ⟨newR, R, hbR, hlenR, htR, hleavesR, hfeasR, hcostR, hentR, hchR⟩ :=
        ih (k + 1) j (sol ++ newL) r (by omega) hjn (by omega) hr
          (by rw [List.length_append, hlenL]; omega)
      have hlenSL : (sol ++ newL).length = sol.length + 2 * (k - i) + 1 := by
        rw [List.length_append, hlenL]; omega
      have hridx : (sol ++ newL).length + 2 * (j - (k + 1)) = sol.length + 2 * (j - i) - 1 := by
        rw [hlenSL]; omega
      have hndL : L.leaves.Nodup := by
        rw [hleavesL]; exact interval_nodup hnd i k (by omega)
      have hndR : R.leaves.Nodup := by
        rw [hleavesR]; exact interval_nodup hnd (k + 1) j (by omega)
      have hlegsL := intervalLegs_eq_legs net σ i k hleavesL
      have hlegsR := intervalLegs_eq_legs net σ (k + 1) j hleavesR
      refine ⟨newL ++ newR ++ [⟨σ.getD k 0, sol.length + 2 * (k - i),
          sol.length + 2 * (j - i) - 1⟩], BTree.node L R, ?_, ?_, ?_, ?_, ?_, ?_, ?_, ?_⟩
      · rw [buildSolution]
        rw [if_neg (by omega), if_neg heq, hptr, if_neg hknil, if_neg (by omega)]
        simp only [hbL, hbR, hridx]
        simp only [List.append_assoc, List.length_append, List.length_singleton, hlenL, hlenR,
          Option.some.injEq, Prod.mk.injEq, true_and]
        omega
      · simp only [List.length_append, List.length_singleton, hlenL, hlenR]; omega
      · have hget : (sol ++ (newL ++ newR ++ [⟨σ.getD k 0, sol.length + 2 * (k - i),
            sol.length + 2 * (j - i) - 1⟩]))[sol.length + 2 * (j - i)]? =
            some ⟨σ.getD k 0, sol.length + 2 * (k - i), sol.length + 2 * (j - i) - 1⟩ := by
          have e1 : sol ++ (newL ++ newR ++ [(⟨σ.getD k 0, sol.length + 2 * (k - i),
              sol.length + 2 * (j - i) - 1⟩ : RangeNode)]) =
              (sol ++ newL ++ newR) ++ [⟨σ.getD k 0, sol.length + 2 * (k - i),
                sol.length + 2 * (j - i) - 1⟩] := by simp
          have e2 : (sol ++ newL ++ newR).length = sol.length + 2 * (j - i) := by
            simp only [List.length_append, hlenL, hlenR]; omega
          rw [e1, List.getElem?_append_right (by omega), e2, Nat.sub_self]
          rfl
        refine RangeTree.node _ _ _ _ L R hget (by omega) (by omega) (by omega) ?_ ?_
        · have := rangeTree_append htL (newR ++ [⟨σ.getD k 0, sol.length + 2 * (k - i),
            sol.length + 2 * (j - i) - 1⟩])
          simpa only [List.append_assoc] using this
        · have := rangeTree_append htR [⟨σ.getD k 0, sol.length + 2 * (k - i),
            sol.length + 2 * (j - i) - 1⟩]
          rw [hridx] at this
          simpa only [List.append_assoc] using this
      · simp only [BTree.leaves, hleavesL, hleavesR]
        exact (interval_split σ i k j hk1 hk2).symm
      · refine ⟨hfeasL, hfeasR, ?_⟩
        rw [← hlegsL, ← hlegsR, ← splitCommon_linDP net hdim σ hlegs i k j hk1 hk2 hjn]
        exact hcom
      · simp only [BTree.cost]
        rw [hcostL, hcostR, BTree.computeContractionCost_eq net hndL hndR, ← hlegsL, ← hlegsR,
          ← splitCost_linDP net hdim σ hlegs i k j hk1 hk2 hjn, hceq]
        ring
      · intro p e hp
        by_cases hp1 : p < newL.length
        · rw [List.append_assoc, List.getElem?_append_left hp1] at hp
          exact hentL p e hp
        · by_cases hp2 : p < newL.length + newR.length
          · rw [List.append_assoc, List.getElem?_append_right (by omega),
              List.getElem?_append_left (by omega)] at hp
            rcases hentR _ e hp with h | ⟨h1, h2, h3⟩
            · exact Or.inl h
            · refine Or.inr ⟨h1, ?_, ?_⟩
              · rw [List.length_append] at h2; omega
              · rw [List.length_append] at h3; omega
          · rw [List.getElem?_append_right (by rw [List.length_append]; omega)] at hp
            have hpe : p = newL.length + newR.length := by
              by_contra hne
              have : p - (newL ++ newR).length = (p - (newL ++ newR).length - 1) + 1 := by
                rw [List.length_append]; omega
              rw [this] at hp
              simp at hp
            rw [hpe, List.length_append, Nat.sub_self] at hp
            simp only [List.getElem?_cons_zero, Option.some.injEq] at hp
            subst hp
            right
            refine ⟨?_, ?_, ?_⟩
            · show sol.length + 2 * (k - i) ≠ NIL
              omega
            · show sol.length + 2 * (k - i) < sol.length + p
              omega
            · show sol.length + 2 * (j - i) - 1 < sol.length + p
              omega
      · have hci : childIndices (newL ++ newR ++ [⟨σ.getD k 0, sol.length + 2 * (k - i),
            sol.length + 2 * (j - i) - 1⟩]) =
            childIndices newL ++ childIndices newR ++
              [sol.length + 2 * (k - i), sol.length + 2 * (j - i) - 1] := by
          have hne : ¬ sol.length + 2 * (k - i) = NIL := by omega
          simp [childIndices, List.flatMap_append, hne]
        rw [hci]
        have hr1 : List.range' sol.length (2 * (j - i)) =
            List.range' sol.length (2 * (k - i)) ++ [sol.length + 2 * (k - i)] ++
              List.range' (sol ++ newL).length (2 * (j - (k + 1))) ++
              [sol.length + 2 * (j - i) - 1] := by
          have a1 := @List.range'_concat 1 sol.length (2 * (k - i))
          have a2 := @List.range'_concat 1 (sol ++ newL).length (2 * (j - (k + 1)))
          have a3 := List.range'_append sol.length (2 * (k - i) + 1) (2 * (j - (k + 1)) + 1) 1
          simp only [Nat.one_mul] at a1 a2 a3
          rw [← a1, List.append_assoc, ← hridx, ← a2, hlenSL]
          have e3 : sol.length + (2 * (k - i) + 1) = sol.length + 2 * (k - i) + 1 := by omega
          rw [e3] at a3
          rw [a3]
          congr 1
          omega
        rw [hr1]
        have p1 : (childIndices newL ++ childIndices newR ++
            [sol.length + 2 * (k - i), sol.length + 2 * (j - i) - 1]).Perm
            (childIndices newL ++ [sol.length + 2 * (k - i)] ++ childIndices newR ++
              [sol.length + 2 * (j - i) - 1]) := by
          have e4 : childIndices newL ++ childIndices newR ++
              [sol.length + 2 * (k - i), sol.length + 2 * (j - i) - 1] =
              childIndices newL ++ (childIndices newR ++ [sol.length + 2 * (k - i)]) ++
                [sol.length + 2 * (j - i) - 1] := by simp
          have e5 : childIndices newL ++ [sol.length + 2 * (k - i)] ++ childIndices newR ++
              [sol.length + 2 * (j - i) - 1] =
              childIndices newL ++ ([sol.length + 2 * (k - i)] ++ childIndices newR) ++
                [sol.length + 2 * (j - i) - 1] := by simp
          rw [e4, e5]
          exact List.Perm.append_right _ (List.Perm.append_left _ List.perm_append_comm)
        refine p1.trans ?_
        exact List.Perm.append_right _
          (List.Perm.append (List.Perm.append_right _ hchL) hchR)

/-- A well-formed post-order bushy tree over the order `σ`: `2n - 1` entries, each a leaf
`(vertex, NIL, NIL)` or a node whose children lie before it, the last entry the root of a tree
whose leaves read `σ` from left to right, and every entry but the last the child of exactly
one entry. -/
structure RangeWF (σ : List Nat) (sol : List RangeNode) : Prop where
  length : sol.length = 2 * σ.length - 1
  entries : ∀ (i : Nat) (e : RangeNode), sol[i]? = some e → (e.left = NIL ∧ e.right = NIL) ∨
    (e.left ≠ NIL ∧ e.left < i ∧ e.right < i)
  tree : ∃ T : BTree, RangeTree sol (sol.length - 1) T ∧ T.leaves = σ
  children : (childIndices sol).Perm (List.range (sol.length - 1))

/-- What `runLocalLinDP` returns when the cell of the whole order is finite: the cost of that
cell and the well-formed post-order array of a tree over `σ` whose every split is
admissible. -/
theorem runLocalLinDP_ok (net : TensorNetwork) (hdim : ∀ e, 0 < net.legDim e) (σ : List Nat)
    {legs : LegTables} (hlegs : linDPLegs net σ = some legs) (hnd : σ.Nodup) (hlen : σ.length = net.n) (hn : 0 < net.n) (hn32 : 2 * net.n ≤ NIL) (c : ℚ)
    (hfeas : (linDPTables net legs).dp 0 (net.n - 1) = some c) :
    ∃ (sol : List RangeNode) (T : BTree), runLocalLinDP net σ = some (c, sol) ∧
      RangeWF σ sol ∧ RangeTree sol (sol.length - 1) T ∧ T.leaves = σ ∧ T.Feasible net ∧
      T.cost net = c := by
  obtain ⟨new, T, hb, hnewlen, hT, hleaves, hfeasT, hcost, hent, hch⟩ :=
    buildSolution_ok net hdim σ hlegs hnd (by omega) (by omega) net.n 0 (net.n - 1) [] c (by omega)
      (by omega) (by omega) hfeas (by simp; omega)
  simp only [List.nil_append, List.length_nil, Nat.zero_add, Nat.sub_zero] at hb hT hent hch
  have hlast : new.length - 1 = 2 * (net.n - 1) := by omega
  have hleaves' : T.leaves = σ := by
    rw [hleaves, ← hlen]
    exact interval_full σ (by omega)
  have hndT : T.leaves.Nodup := by rw [hleaves']; exact hnd
  refine ⟨new, T, ?_, ?_, by rw [hlast]; exact hT, hleaves', hfeasT, hcost⟩
  · unfold runLocalLinDP
    simp only [hlegs, hb]
    unfold TensorNetwork.computeBushyCost
    rw [hlast, computeBushyCostRec_ok net new _ T hT hndT new.length (by omega)]
    simp [hcost]
  · refine ⟨by omega, ?_, ⟨T, by rw [hlast]; exact hT, hleaves'⟩, ?_⟩
    · intro i e hi
      have := hent i e hi
      simpa using this
    · rw [hlast, List.range_eq_range']
      exact hch

/-! ## runDummy -/

theorem foldl_set_getElem? {α : Type} (g : Nat → α) :
    ∀ (k : Nat) (l : List α) (i : Nat), k ≤ l.length →
      ((List.range k).foldl (fun sol index => sol.set index (g index)) l)[i]? =
        if i < k then some (g i) else l[i]? := by
  intro k
  induction k with
  | zero => intro l i _; simp
  | succ k ih =>
    intro l i hk
    rw [List.range_succ, List.foldl_append]
    simp only [List.foldl_cons, List.foldl_nil]
    have hlen : ((List.range k).foldl (fun sol index => sol.set index (g index)) l).length =
        l.length := by
      have : ∀ (ks : List Nat) (l : List α),
          (ks.foldl (fun sol index => sol.set index (g index)) l).length = l.length := by
        intro ks
        induction ks with
        | nil => intro l; rfl
        | cons a ks ih2 => intro l; rw [List.foldl_cons, ih2]; simp
      exact this _ _
    rw [List.getElem?_set]
    by_cases hik : k = i
    · subst hik
      rw [if_pos rfl, if_pos (by omega), if_pos (by omega)]
    · rw [if_neg hik, ih l i (by omega)]
      by_cases h1 : i < k
      · rw [if_pos h1, if_pos (by omega)]
      · rw [if_neg h1, if_neg (by omega)]

/-- The second loop of `runDummy`: entry `index` receives `(NIL, ptr, index - n + 1)`, where
`ptr` is `0` for the first entry and the previous index afterwards. -/
theorem runDummy_loop (n : Nat) :
    ∀ (cnt : Nat) (sol : List RangeNode) (i : Nat), n + cnt ≤ sol.length →
      let res := (List.range' n cnt).foldl
        (fun (st : List RangeNode × Nat) index =>
          (st.1.set index ⟨NIL, st.2, index - n + 1⟩, index)) (sol, 0)
      res.1[i]? = (if n ≤ i ∧ i < n + cnt then
          some ⟨NIL, if i = n then 0 else i - 1, i - n + 1⟩ else sol[i]?) ∧
      res.2 = (if cnt = 0 then 0 else n + cnt - 1) ∧ res.1.length = sol.length := by
  intro cnt
  induction cnt with
  | zero =>
    intro sol i _
    simp only [List.range'_zero, List.foldl_nil, if_true]
    refine ⟨?_, trivial, trivial⟩
    rw [if_neg (by omega)]
  | succ cnt ih =>
    intro sol i hlen
    rw [List.range'_concat, List.foldl_append]
    simp only [List.foldl_cons, List.foldl_nil, Nat.one_mul]
    obtain ⟨h1, h2, h3⟩ := ih sol i (by omega)
    refine ⟨?_, ?_, ?_⟩
    · rw [List.getElem?_set]
      by_cases hi : n + cnt = i
      · subst hi
        have e1 : n ≤ n + cnt ∧ n + cnt < n + (cnt + 1) := ⟨by omega, by omega⟩
        have e2 : n + cnt <
            ((List.range' n cnt).foldl
              (fun (st : List RangeNode × Nat) index =>
                (st.1.set index ⟨NIL, st.2, index - n + 1⟩, index)) (sol, 0)).1.length := by
          rw [h3]; omega
        rw [if_pos rfl, if_pos e2, if_pos e1, h2]
        by_cases hc : cnt = 0
        · subst hc; simp
        · have e3 : ¬ n + cnt = n := by omega
          rw [if_neg hc, if_neg e3]
      · rw [if_neg hi, h1]
        by_cases hc : n ≤ i ∧ i < n + cnt
        · have e1 : n ≤ i ∧ i < n + (cnt + 1) := ⟨hc.1, by omega⟩
          rw [if_pos hc, if_pos e1]
        · have e1 : ¬ (n ≤ i ∧ i < n + (cnt + 1)) := by omega
          rw [if_neg hc, if_neg e1]
    · rw [if_neg (by omega)]
      omega
    · rw [List.length_set, h3]

/-- The entries of the array `runDummy` returns. -/
theorem runDummy_getElem? (σ : List Nat) (cost : ℚ) (i : Nat) (hn : 0 < σ.length) :
    (runDummy σ cost).2[i]? =
      if i < σ.length then some ⟨σ.getD i 0, NIL, NIL⟩
      else if i < 2 * σ.length - 1 then
        some ⟨NIL, if i = σ.length then 0 else i - 1, i - σ.length + 1⟩
      else none := by
  unfold runDummy
  simp only
  have hlen1 : ((List.range σ.length).foldl
      (fun sol index => sol.set index (⟨σ.getD index 0, NIL, NIL⟩ : RangeNode))
      (List.replicate (2 * σ.length - 1) ⟨0, 0, 0⟩)).length = 2 * σ.length - 1 := by
    have : ∀ (ks : List Nat) (l : List RangeNode),
        (ks.foldl (fun sol index => sol.set index (⟨σ.getD index 0, NIL, NIL⟩ : RangeNode))
          l).length = l.length := by
      intro ks
      induction ks with
      | nil => intro l; rfl
      | cons a ks ih2 => intro l; rw [List.foldl_cons, ih2]; simp
    rw [this]; simp
  obtain ⟨h1, _, _⟩ := runDummy_loop σ.length (2 * σ.length - 1 - σ.length)
    ((List.range σ.length).foldl
      (fun sol index => sol.set index (⟨σ.getD index 0, NIL, NIL⟩ : RangeNode))
      (List.replicate (2 * σ.length - 1) ⟨0, 0, 0⟩)) i (by rw [hlen1]; omega)
  rw [h1]
  rw [foldl_set_getElem? (fun index => (⟨σ.getD index 0, NIL, NIL⟩ : RangeNode)) σ.length _ i
    (by simp; omega)]
  by_cases hi : i < σ.length
  · have e1 : ¬ (σ.length ≤ i ∧ i < σ.length + (2 * σ.length - 1 - σ.length)) := by omega
    rw [if_neg e1, if_pos hi, if_pos hi]
  · by_cases hi2 : i < 2 * σ.length - 1
    · have e1 : σ.length ≤ i ∧ i < σ.length + (2 * σ.length - 1 - σ.length) := by omega
      rw [if_pos e1, if_neg hi, if_pos hi2]
    · have e1 : ¬ (σ.length ≤ i ∧ i < σ.length + (2 * σ.length - 1 - σ.length)) := by omega
      rw [if_neg e1, if_neg hi, if_neg hi, if_neg hi2]
      rw [List.getElem?_eq_none]
      simp; omega

theorem runDummy_length (σ : List Nat) (cost : ℚ) (hn : 0 < σ.length) :
    (runDummy σ cost).2.length = 2 * σ.length - 1 := by
  have h1 := runDummy_getElem? σ cost (2 * σ.length - 1) hn
  rw [if_neg (by omega), if_neg (by omega), List.getElem?_eq_none_iff] at h1
  have h2 := runDummy_getElem? σ cost (2 * σ.length - 2) hn
  by_cases hl : σ.length = 1
  · rw [hl] at h2 h1 ⊢
    simp only [Nat.mul_one, Nat.sub_self, Nat.lt_one_iff, if_true] at h2
    have := (List.getElem?_eq_some_iff.1 h2).1
    omega
  · rw [if_neg (by omega), if_pos (by omega)] at h2
    have := (List.getElem?_eq_some_iff.1 h2).1
    omega

/-- The left-deep tree over the first `t + 1` vertices of `σ`. -/
def dummyTree (σ : List Nat) : Nat → BTree
  | 0 => BTree.leaf (σ.getD 0 0)
  | t + 1 => BTree.node (dummyTree σ t) (BTree.leaf (σ.getD (t + 1) 0))

theorem dummyTree_leaves (σ : List Nat) (t : Nat) :
    (dummyTree σ t).leaves = (List.range (t + 1)).map (fun k => σ.getD k 0) := by
  induction t with
  | zero => rfl
  | succ t ih =>
    simp only [dummyTree, BTree.leaves, ih]
    rw [List.range_succ (n := t + 1), List.map_append]
    rfl

theorem map_getD_range (σ : List Nat) : (List.range σ.length).map (fun k => σ.getD k 0) = σ := by
  apply List.ext_getElem
  · simp
  · intro n h1 h2
    simp only [List.length_map, List.length_range] at h1
    simp [List.getElem?_eq_getElem h1]

/-- The position of the root of `dummyTree σ t` in the array of `runDummy`. -/
def dummyLoc (n t : Nat) : Nat := if t = 0 then 0 else n + t - 1

theorem runDummy_rangeTree (σ : List Nat) (cost : ℚ) (hn32 : 2 * σ.length ≤ NIL) :
    ∀ t, t < σ.length →
      RangeTree (runDummy σ cost).2 (dummyLoc σ.length t) (dummyTree σ t) := by
  intro t
  induction t with
  | zero =>
    intro ht
    apply RangeTree.leaf
    rw [runDummy_getElem? σ cost _ ht]
    simp [dummyLoc, ht]
  | succ t ih =>
    intro ht
    have hget : (runDummy σ cost).2[dummyLoc σ.length (t + 1)]? =
        some ⟨NIL, dummyLoc σ.length t, t + 1⟩ := by
      rw [runDummy_getElem? σ cost _ (by omega)]
      have e0 : dummyLoc σ.length (t + 1) = σ.length + t := by
        unfold dummyLoc; rw [if_neg (by omega)]; omega
      rw [e0, if_neg (by omega), if_pos (by omega)]
      congr 2
      · unfold dummyLoc
        by_cases h0 : t = 0
        · subst h0; simp
        · have e5 : ¬ σ.length + t = σ.length := by omega
          rw [if_neg e5, if_neg h0]
      · omega
    have e0 : dummyLoc σ.length (t + 1) = σ.length + t := by
      unfold dummyLoc; rw [if_neg (by omega)]; omega
    have hloc : dummyLoc σ.length t < σ.length + t := by
      unfold dummyLoc
      split <;> omega
    refine RangeTree.node _ NIL (dummyLoc σ.length t) (t + 1) _ _ hget ?_ ?_ ?_ (ih (by omega)) ?_
    · omega
    · rw [e0]; exact hloc
    · rw [e0]; omega
    · apply RangeTree.leaf
      rw [runDummy_getElem? σ cost _ (by omega), if_pos ht]

/-- When the cell of the whole order is infinite `runLocalLinDP` returns nothing. -/
theorem runLocalLinDP_none (net : TensorNetwork) (σ : List Nat) {legs : LegTables}
    (hlegs : linDPLegs net σ = some legs) (hn : 0 < net.n)
    (h : (linDPTables net legs).dp 0 (net.n - 1) = none) : runLocalLinDP net σ = none := by
  have hn2 : net.n ≠ 1 := by
    intro h1
    have := ((linDPTables_good net legs).diag 0 hn).1
    rw [h1] at h
    rw [show (1 : Nat) - 1 = 0 from rfl] at h
    rw [h] at this
    cases this
  have hptr := (linDPTables_cell net legs 0 (net.n - 1) (by omega) (by omega)).infinite h
  unfold runLocalLinDP
  simp only [hlegs]
  obtain ⟨f, hf⟩ : ∃ f, net.n = f + 1 := ⟨net.n - 1, by omega⟩
  have : buildSolution σ (linDPTables net legs).ptr net.n 0 (net.n - 1) [] = none := by
    rw [hf, buildSolution, ← hf]
    rw [if_neg (by omega), if_neg (by omega), if_pos hptr]
  simp only [this]

/-- What `runLocalLinDP` has returned: the well-formed post-order array of a tree over `σ`
whose every split is admissible, with the cost of that tree, which is the cell of the whole
order. -/
theorem runLocalLinDP_returned (net : TensorNetwork) (hdim : ∀ e, 0 < net.legDim e)
    (σ : List Nat) (hnd : σ.Nodup) (hlen : σ.length = net.n) (hn : 0 < net.n)
    (hn32 : 2 * net.n ≤ NIL) {cost : ℚ} {sol : List RangeNode}
    (hrun : runLocalLinDP net σ = some (cost, sol)) :
    ∃ (legs : LegTables) (T : BTree), linDPLegs net σ = some legs ∧
      (linDPTables net legs).dp 0 (net.n - 1) = some cost ∧ RangeWF σ sol ∧
      RangeTree sol (sol.length - 1) T ∧ T.leaves = σ ∧ T.Feasible net ∧ T.cost net = cost := by
  cases hlegs : linDPLegs net σ with
  | none =>
    unfold runLocalLinDP at hrun
    simp only [hlegs] at hrun
    cases hrun
  | some legs =>
    cases hdp : (linDPTables net legs).dp 0 (net.n - 1) with
    | none =>
      rw [runLocalLinDP_none net σ hlegs hn hdp] at hrun
      cases hrun
    | some c =>
      obtain ⟨sol', T, h1, h2, h3, h4, h5, h6⟩ :=
        runLocalLinDP_ok net hdim σ hlegs hnd hlen hn hn32 c hdp
      rw [h1] at hrun
      cases hrun
      exact ⟨legs, T, rfl, hdp, h2, h3, h4, h5, h6⟩

/-- C8 (no outer products).  With `ENABLE_LinDP_OUTER_PRODUCTS` off, a split recorded in `ptr`
for a window `[i, j]`, whatever the leg tables, lies inside the window and separates two
intervals with a common leg, and every non-leaf node of the tree `runLocalLinDP` returns
joins two subtrees with a common leg. -/
theorem linDP_no_outer_products (net : TensorNetwork) (hdim : ∀ e, 0 < net.legDim e)
    (σ : List Nat) (hnd : σ.Nodup) (hlen : σ.length = net.n) (hn : 0 < net.n)
    (hn32 : 2 * net.n ≤ NIL) :
    ENABLE_LinDP_OUTER_PRODUCTS = false ∧
    (∀ (legs : LegTables) i j, i < j → j < net.n → (linDPTables net legs).ptr i j ≠ NIL →
      i ≤ (linDPTables net legs).ptr i j ∧ (linDPTables net legs).ptr i j < j ∧
      legs.tensorLegs i ((linDPTables net legs).ptr i j) &&&
        legs.tensorLegs ((linDPTables net legs).ptr i j + 1) j ≠ 0) ∧
    (∀ cost sol, runLocalLinDP net σ = some (cost, sol) →
      ∃ T : BTree, RangeTree sol (sol.length - 1) T ∧ T.leaves = σ ∧ T.Feasible net) := by
  refine ⟨rfl, ?_, ?_⟩
  · intro legs i j hij hjn hptr
    have hcell := linDPTables_cell net legs i j hij hjn
    cases hdp : (linDPTables net legs).dp i j with
    | none => exact absurd (hcell.infinite hdp) hptr
    | some c =>
      obtain ⟨k, l, r, h1, h2, h3, _, _, h6, _⟩ := hcell.attained c hdp
      rw [h3]
      exact ⟨h1, h2, h6⟩
  · intro cost sol hrun
    obtain ⟨_, T, _, _, _, h3, h4, h5, _⟩ :=
      runLocalLinDP_returned net hdim σ hnd hlen hn hn32 hrun
    exact ⟨T, h3, h4, h5⟩

/-- The statement of `linDP_no_outer_products` on the path of four vertices and the order
`[0, 1, 2, 3]`. -/
theorem linDP_no_outer_products_witness :
    ENABLE_LinDP_OUTER_PRODUCTS = false ∧
    (∀ (legs : LegTables) i j, i < j → j < path4.n → (linDPTables path4 legs).ptr i j ≠ NIL →
      i ≤ (linDPTables path4 legs).ptr i j ∧ (linDPTables path4 legs).ptr i j < j ∧
      legs.tensorLegs i ((linDPTables path4 legs).ptr i j) &&&
        legs.tensorLegs ((linDPTables path4 legs).ptr i j + 1) j ≠ 0) ∧
    (∀ cost sol, runLocalLinDP path4 [0, 1, 2, 3] = some (cost, sol) →
      ∃ T : BTree, RangeTree sol (sol.length - 1) T ∧ T.leaves = [0, 1, 2, 3] ∧
        T.Feasible path4) :=
  linDP_no_outer_products path4 path4_legDim_pos [0, 1, 2, 3] (by decide) rfl (by decide)
    (by decide)

/-- C11 (createPlan).  On two cached plans `L`, `R` with disjoint sets `createPlan` returns the
entry of `L.set ∪ R.set`.  Writing `c'` for
`computeContractionCost(L.set, R.set) + L.totalCost + R.totalCost`: an absent key receives the
node `(c', L.set ∪ R.set, L, R)`; a present node of cost `c > c'` keeps its set and receives
cost `c'` and children `L`, `R`; otherwise the node is unchanged.  The cost of the entry
afterwards is `c'` for an absent key and `min(c, c')` for a present one, and no other entry of
the cache changes. -/
theorem createPlan_spec (net : TensorNetwork) (plans : PlanCache) (l r : BitSet)
    (lp rp : PlanNode) (hl : plans l = some lp) (hr : plans r = some rp)
    (hdisj : lp.set &&& rp.set = 0)
    (hkey : ∀ old, plans (lp.set ||| rp.set) = some old → old.set = lp.set ||| rp.set) :
    ∃ plans', createPlan net plans l r = some (plans', lp.set ||| rp.set) ∧
      (∀ k, k ≠ lp.set ||| rp.set → plans' k = plans k) ∧
      (plans (lp.set ||| rp.set) = none →
        plans' (lp.set ||| rp.set) =
          some ⟨net.computeContractionCost lp.set rp.set + lp.totalCost + rp.totalCost,
            lp.set ||| rp.set, some l, some r⟩) ∧
      (∀ old, plans (lp.set ||| rp.set) = some old →
        (net.computeContractionCost lp.set rp.set + lp.totalCost + rp.totalCost < old.totalCost →
          plans' (lp.set ||| rp.set) =
            some ⟨net.computeContractionCost lp.set rp.set + lp.totalCost + rp.totalCost,
              old.set, some l, some r⟩) ∧
        (¬ net.computeContractionCost lp.set rp.set + lp.totalCost + rp.totalCost < old.totalCost →
          plans' (lp.set ||| rp.set) = some old) ∧
        ∃ q, plans' (lp.set ||| rp.set) = some q ∧
          q.totalCost = min old.totalCost
            (net.computeContractionCost lp.set rp.set + lp.totalCost + rp.totalCost)) := by
  unfold createPlan
  simp only [hl, hr, hdisj, ne_eq, not_true_eq_false, if_false]
  cases hold : plans (lp.set ||| rp.set) with
  | none =>
    refine ⟨_, rfl, ?_, ?_, ?_⟩
    · intro k hk; exact PlanCache.insert_other _ _ hk
    · intro _; exact PlanCache.insert_same _ _ _
    · intro old h; cases h
  | some old =>
    have hos := hkey old hold
    simp only [hos, not_true_eq_false, if_false]
    by_cases hlt : net.computeContractionCost lp.set rp.set + lp.totalCost + rp.totalCost <
        old.totalCost
    · simp only [hlt, if_true]
      refine ⟨_, rfl, ?_, ?_, ?_⟩
      · intro k hk; exact PlanCache.insert_other _ _ hk
      · intro h; cases h
      · intro old' h
        cases h
        refine ⟨?_, ?_, ?_⟩
        · intro _; rw [PlanCache.insert_same, hos]
        · intro h; exact absurd hlt h
        · exact ⟨_, PlanCache.insert_same _ _ _, by
            show _ = min old.totalCost _
            rw [min_eq_right (le_of_lt hlt)]⟩
    · simp only [hlt, if_false]
      refine ⟨_, rfl, ?_, ?_, ?_⟩
      · intro k _; rfl
      · intro h; cases h
      · intro old' h
        cases h
        refine ⟨?_, ?_, ?_⟩
        · intro h; exact absurd h hlt
        · intro _; exact hold
        · exact ⟨old, hold, by rw [min_eq_left (not_lt.1 hlt)]⟩

/-- The cache of the triangle after `initBaseTensors`. -/
def triangleBase : PlanCache := initBaseTensors triangle PlanCache.empty

/-- The statement of `createPlan_spec` on the plans of the vertices `0` and `1` of the
triangle. -/
theorem createPlan_spec_witness :
    ∃ plans', createPlan triangle triangleBase 1 2 = some (plans', 1 ||| 2) ∧
      (∀ k, k ≠ 1 ||| 2 → plans' k = triangleBase k) ∧
      (triangleBase (1 ||| 2) = none →
        plans' (1 ||| 2) =
          some ⟨triangle.computeContractionCost 1 2 + 0 + 0, 1 ||| 2, some 1, some 2⟩) ∧
      (∀ old, triangleBase (1 ||| 2) = some old →
        (triangle.computeContractionCost 1 2 + 0 + 0 < old.totalCost →
          plans' (1 ||| 2) =
            some ⟨triangle.computeContractionCost 1 2 + 0 + 0, old.set, some 1, some 2⟩) ∧
        (¬ triangle.computeContractionCost 1 2 + 0 + 0 < old.totalCost →
          plans' (1 ||| 2) = some old) ∧
        ∃ q, plans' (1 ||| 2) = some q ∧
          q.totalCost = min old.totalCost (triangle.computeContractionCost 1 2 + 0 + 0)) :=
  createPlan_spec triangle triangleBase 1 2 ⟨0, 1, none, none⟩ ⟨0, 2, none, none⟩
    (by unfold triangleBase; rw [initBaseTensors_empty, if_pos ⟨0, by decide, rfl⟩])
    (by unfold triangleBase; rw [initBaseTensors_empty, if_pos ⟨1, by decide, rfl⟩])
    (by decide)
    (by
      intro old h
      unfold triangleBase at h
      rw [initBaseTensors_empty, if_neg] at h
      · cases h
      · rintro ⟨v, hv, hk⟩
        have hv' : v < 3 := hv
        have : v = 0 ∨ v = 1 ∨ v = 2 := by omega
        rcases this with rfl | rfl | rfl <;> simp [BitSet.single] at hk)

/-! ## Open legs of a vertex set -/

theorem foldl_xor_init (f : Nat → Nat) (l : List Nat) (acc : Nat) :
    l.foldl (fun a v => a ^^^ f v) acc = acc ^^^ l.foldl (fun a v => a ^^^ f v) 0 := by
  induction l generalizing acc with
  | nil => simp
  | cons v l ih =>
    simp only [List.foldl_cons]
    rw [ih (acc ^^^ f v), ih (0 ^^^ f v), Nat.zero_xor, Nat.xor_assoc]

/-- The open legs of a disjoint union are the symmetric difference of the open legs. -/
theorem collectOpenLegs_lor (net : TensorNetwork) {a b : BitSet} (h : a &&& b = 0) :
    net.collectOpenLegs (a ||| b) = net.collectOpenLegs a ^^^ net.collectOpenLegs b := by
  unfold TensorNetwork.collectOpenLegs
  have hcomm : RightCommutative
      (fun (acc : Nat) (v : Nat) => acc ^^^ net.collectVertexLegs v false) := by
    constructor
    intro x y z
    show x ^^^ net.collectVertexLegs y false ^^^ net.collectVertexLegs z false =
      x ^^^ net.collectVertexLegs z false ^^^ net.collectVertexLegs y false
    rw [Nat.xor_assoc, Nat.xor_comm (net.collectVertexLegs y false), ← Nat.xor_assoc]
  rw [(BitSet.toList_lor_perm h).foldl_eq
    (f := fun (acc : Nat) (v : Nat) => acc ^^^ net.collectVertexLegs v false) 0,
    List.foldl_append, foldl_xor_init]

theorem exists_lt_succ_iff (k : Nat) (P : Nat → Prop) :
    (∃ e, e < k + 1 ∧ P e) ↔ P k ∨ ∃ e, e < k ∧ P e := by
  constructor
  · rintro ⟨e, he, hp⟩
    by_cases hek : e = k
    · subst hek; exact Or.inl hp
    · exact Or.inr ⟨e, by omega, hp⟩
  · rintro (hp | ⟨e, he, hp⟩)
    · exact ⟨k, by omega, hp⟩
    · exact ⟨e, by omega, hp⟩

/-- The cells of the adjacency list of `u` after the first `k` edges have been added. -/
theorem mem_adj_aux (net : TensorNetwork) (k u : Nat) (c : Cell) :
    c ∈ ((List.range k).foldl
      (fun a index =>
        TensorNetwork.addEdge
          (TensorNetwork.addEdge a (net.endpoints index).1 (net.endpoints index).2 index)
          (net.endpoints index).2 (net.endpoints index).1 index)
      (fun _ => [])) u ↔
    ∃ e, e < k ∧ (c.edgeId = e ∧
      (((net.endpoints e).1 = u ∧ c.v = (net.endpoints e).2) ∨
        ((net.endpoints e).2 = u ∧ c.v = (net.endpoints e).1))) := by
  induction k generalizing u c with
  | zero => simp
  | succ k ih =>
    rw [List.range_succ, List.foldl_append, exists_lt_succ_iff]
    simp only [← ih]
    simp only [List.foldl_cons, List.foldl_nil, TensorNetwork.addEdge]
    obtain ⟨cv, ce⟩ := c
    generalize (List.foldl
          (fun a index =>
            TensorNetwork.addEdge (TensorNetwork.addEdge a (net.endpoints index).1
              (net.endpoints index).2 index)
              (net.endpoints index).2 (net.endpoints index).1 index)
          (fun _ => []) (List.range k)) = old
    generalize (net.endpoints k).1 = a
    generalize (net.endpoints k).2 = b
    by_cases hb : u = b
    · by_cases ha : u = a
      · subst hb
        subst ha
        simp only [if_true, List.mem_cons, Cell.mk.injEq, true_and]
        tauto
      · subst hb
        have ha' : ¬ a = u := fun h => ha h.symm
        simp only [ha, ha', if_true, if_false, List.mem_cons, Cell.mk.injEq, true_and,
          false_and, false_or]
        tauto
    · by_cases ha : u = a
      · subst ha
        have hb' : ¬ b = u := fun h => hb h.symm
        simp only [hb, hb', if_true, if_false, List.mem_cons, Cell.mk.injEq, true_and,
          false_and, or_false]
        tauto
      · have ha' : ¬ a = u := fun h => ha h.symm
        have hb' : ¬ b = u := fun h => hb h.symm
        simp only [ha, hb, ha', hb', if_false, false_and, and_false, or_false, false_or]

/-- The cells of `adj[u]`: one cell `(v, e)` for every internal edge `e` joining `u` and `v`. -/
theorem mem_adj (net : TensorNetwork) (u : Nat) (c : Cell) :
    c ∈ net.adj u ↔ ∃ e, e < net.m ∧ (c.edgeId = e ∧
      (((net.endpoints e).1 = u ∧ c.v = (net.endpoints e).2) ∨
        ((net.endpoints e).2 = u ∧ c.v = (net.endpoints e).1))) :=
  mem_adj_aux net net.m u c

theorem testBit_foldl_lor_single (l : List Cell) (acc x : Nat) :
    (l.foldl (fun ret c => ret ||| BitSet.single c.edgeId) acc).testBit x = true ↔
      acc.testBit x = true ∨ ∃ c ∈ l, c.edgeId = x := by
  induction l generalizing acc with
  | nil => simp
  | cons c l ih =>
    simp only [List.foldl_cons, ih, Nat.testBit_lor, BitSet.testBit_single, Bool.or_eq_true,
      decide_eq_true_eq, List.mem_cons, exists_eq_or_imp]
    tauto

/-- The legs of the vertex `u`: the internal edges with an endpoint `u`, and the virtual
open leg `m + u`. -/
theorem testBit_collectVertexLegs (net : TensorNetwork) (u x : Nat) :
    (net.collectVertexLegs u false).testBit x = true ↔
      (x < net.m ∧ ((net.endpoints x).1 = u ∨ (net.endpoints x).2 = u)) ∨ x = net.m + u := by
  unfold TensorNetwork.collectVertexLegs
  simp only [Bool.false_eq_true, if_false, Nat.testBit_lor, Bool.or_eq_true,
    testBit_foldl_lor_single, BitSet.testBit_single, decide_eq_true_eq, Nat.zero_testBit,
    false_or]
  constructor
  · rintro (⟨c, hc, rfl⟩ | h)
    · rw [mem_adj] at hc
      obtain ⟨e, he, hce, h⟩ := hc
      subst hce
      left
      exact ⟨he, by tauto⟩
    · exact Or.inr h.symm
  · rintro (⟨hx, h⟩ | h)
    · left
      rcases h with h | h
      · exact ⟨⟨(net.endpoints x).2, x⟩, (mem_adj net u _).2 ⟨x, hx, rfl, Or.inl ⟨h, rfl⟩⟩, rfl⟩
      · exact ⟨⟨(net.endpoints x).1, x⟩, (mem_adj net u _).2 ⟨x, hx, rfl, Or.inr ⟨h, rfl⟩⟩, rfl⟩
    · exact Or.inr h.symm
theorem testBit_foldl_xor_one (f : Nat → Nat) (x v : Nat)
    (hf : ∀ u, (f u).testBit x = decide (u = v)) (l : List Nat) (hnd : l.Nodup) (acc : Nat) :
    (l.foldl (fun a u => a ^^^ f u) acc).testBit x = (acc.testBit x ^^ decide (v ∈ l)) := by
  induction l generalizing acc with
  | nil => simp
  | cons u l ih =>
    rw [List.nodup_cons] at hnd
    rw [List.foldl_cons, ih hnd.2, Nat.testBit_xor, hf]
    by_cases huv : u = v
    · subst huv
      simp [hnd.1]
    · have hvu : ¬ v = u := fun h => huv h.symm
      simp [huv, hvu]

theorem testBit_foldl_xor_two (f : Nat → Nat) (x a b : Nat) (hab : a ≠ b)
    (hf : ∀ u, (f u).testBit x = decide (u = a ∨ u = b)) (l : List Nat) (hnd : l.Nodup)
    (acc : Nat) :
    (l.foldl (fun c u => c ^^^ f u) acc).testBit x =
      (acc.testBit x ^^ (decide (a ∈ l) ^^ decide (b ∈ l))) := by
  induction l generalizing acc with
  | nil => simp
  | cons u l ih =>
    rw [List.nodup_cons] at hnd
    rw [List.foldl_cons, ih hnd.2, Nat.testBit_xor, hf]
    by_cases hua : u = a
    · subst hua
      have h1 : ¬ u = b := hab
      have h2 : ¬ b = u := fun h => hab h.symm
      simp [hnd.1, h1, h2]
    · have hau : ¬ a = u := fun h => hua h.symm
      by_cases hub : u = b
      · subst hub
        simp [hnd.1, hua, hau]
      · have hbu : ¬ b = u := fun h => hub h.symm
        simp [hua, hub, hau, hbu]

/-- C14 (open legs).  On a network without self-loops, for every vertex set `S` the set
`collectOpenLegs(S)` contains an internal edge `e < m` iff exactly one endpoint of `e` lies in
`S`, and contains the virtual open leg `m + v` iff `v ∈ S`. -/
theorem collectOpenLegs_spec (net : TensorNetwork)
    (hloop : ∀ e, e < net.m → (net.endpoints e).1 ≠ (net.endpoints e).2) (S : BitSet) :
    (∀ e, e < net.m → ((net.collectOpenLegs S).testBit e = true ↔
      (S.testBit (net.endpoints e).1 = true ∧ S.testBit (net.endpoints e).2 = false) ∨
      (S.testBit (net.endpoints e).1 = false ∧ S.testBit (net.endpoints e).2 = true))) ∧
    (∀ v, (net.collectOpenLegs S).testBit (net.m + v) = true ↔ S.testBit v = true) := by
  constructor
  · intro e he
    have hf : ∀ u, (net.collectVertexLegs u false).testBit e =
        decide (u = (net.endpoints e).1 ∨ u = (net.endpoints e).2) := by
      intro u
      rw [Bool.eq_iff_iff, testBit_collectVertexLegs, decide_eq_true_eq]
      constructor
      · rintro (⟨_, h | h⟩ | h)
        · exact Or.inl h.symm
        · exact Or.inr h.symm
        · omega
      · rintro (h | h)
        · exact Or.inl ⟨he, Or.inl h.symm⟩
        · exact Or.inl ⟨he, Or.inr h.symm⟩
    unfold TensorNetwork.collectOpenLegs
    rw [testBit_foldl_xor_two (fun u => net.collectVertexLegs u false) e _ _ (hloop e he) hf _
      (BitSet.toList_nodup S) 0]
    simp only [BitSet.mem_toList, Nat.zero_testBit, Bool.false_xor]
    cases S.testBit (net.endpoints e).1 <;> cases S.testBit (net.endpoints e).2 <;> simp
  · intro v
    have hf : ∀ u, (net.collectVertexLegs u false).testBit (net.m + v) = decide (u = v) := by
      intro u
      rw [Bool.eq_iff_iff, testBit_collectVertexLegs, decide_eq_true_eq]
      constructor
      · rintro (⟨h, _⟩ | h)
        · omega
        · omega
      · intro h
        exact Or.inr (by rw [h])
    unfold TensorNetwork.collectOpenLegs
    rw [testBit_foldl_xor_one (fun u => net.collectVertexLegs u false) (net.m + v) v hf _
      (BitSet.toList_nodup S) 0]
    simp only [BitSet.mem_toList, Nat.zero_testBit, Bool.false_xor, decide_eq_true_eq]

/-- The statement of `collectOpenLegs_spec` on the triangle and the set `{0, 1}`. -/
theorem collectOpenLegs_spec_witness :
    (∀ e, e < triangle.m → ((triangle.collectOpenLegs 3).testBit e = true ↔
      (Nat.testBit 3 (triangle.endpoints e).1 = true ∧
        Nat.testBit 3 (triangle.endpoints e).2 = false) ∨
      (Nat.testBit 3 (triangle.endpoints e).1 = false ∧
        Nat.testBit 3 (triangle.endpoints e).2 = true))) ∧
    (∀ v, (triangle.collectOpenLegs 3).testBit (triangle.m + v) = true ↔
      Nat.testBit 3 v = true) :=
  collectOpenLegs_spec triangle (by decide) 3

/-- C15 (contraction cost).  For disjoint vertex sets `A`, `B` the open legs of `A ∪ B` are
the symmetric difference of the open legs of `A` and of `B`, and
`computeContractionCost(A, B)` is the dimension product over the open legs of `A ∪ B` (the
output indices) times the dimension product over the legs common to `A` and `B` (the summed
indices). -/
theorem computeContractionCost_factor (net : TensorNetwork) (A B : BitSet)
    (h : A &&& B = 0) :
    net.collectOpenLegs (A ||| B) = net.collectOpenLegs A ^^^ net.collectOpenLegs B ∧
    net.computeContractionCost A B =
      net.computeLegDimProduct (net.collectOpenLegs (A ||| B)) *
        net.computeLegDimProduct (net.collectOpenLegs A &&& net.collectOpenLegs B) := by
  refine ⟨collectOpenLegs_lor net h, ?_⟩
  rw [collectOpenLegs_lor net h, computeLegDimProduct_xor_land]
  rfl

/-- The statement of `computeContractionCost_factor` on the vertices `0` and `1` of the
triangle. -/
theorem computeContractionCost_factor_witness :
    triangle.collectOpenLegs (1 ||| 2) = triangle.collectOpenLegs 1 ^^^ triangle.collectOpenLegs 2 ∧
    triangle.computeContractionCost 1 2 =
      triangle.computeLegDimProduct (triangle.collectOpenLegs (1 ||| 2)) *
        triangle.computeLegDimProduct (triangle.collectOpenLegs 1 &&& triangle.collectOpenLegs 2) :=
  computeContractionCost_factor triangle 1 2 (by decide)

/-! ## Linear cost, left-deep plan and dummy tree -/

/-- The sum, for `i = 1, …, k - 1`, of
`computeContractionCost({σ[0], …, σ[i-1]}, {σ[i]})`. -/
def prefixCostSum (net : TensorNetwork) (σ : List Nat) (k : Nat) : ℚ :=
  ((List.range' 1 (k - 1)).map
    (fun i => net.computeContractionCost (listSet (σ.take i)) (BitSet.single (σ.getD i 0)))).sum

theorem prefixCostSum_one (net : TensorNetwork) (σ : List Nat) : prefixCostSum net σ 1 = 0 := by
  simp [prefixCostSum]

theorem prefixCostSum_succ (net : TensorNetwork) (σ : List Nat) (k : Nat) (hk : 0 < k) :
    prefixCostSum net σ (k + 1) = prefixCostSum net σ k +
      net.computeContractionCost (listSet (σ.take k)) (BitSet.single (σ.getD k 0)) := by
  unfold prefixCostSum
  obtain ⟨j, rfl⟩ : ∃ j, k = j + 1 := ⟨k - 1, by omega⟩
  rw [show j + 1 + 1 - 1 = j + 1 from rfl, show j + 1 - 1 = j from rfl, List.range'_1_concat,
    List.map_append, List.sum_append]
  simp [Nat.add_comm]

/-- The node `createPlan` stores under a key that was absent. -/
theorem createPlan_fresh_eq (net : TensorNetwork) {plans : PlanCache} (hwf : plans.WF)
    {l r : BitSet} {lp rp : PlanNode} (hl : plans l = some lp)
    (hr : plans r = some rp) (hdisj : l &&& r = 0) (hk : plans (l ||| r) = none) :
    createPlan net plans l r = some (plans.insert (l ||| r)
      ⟨net.computeContractionCost l r + lp.totalCost + rp.totalCost, l ||| r,
        some l, some r⟩, l ||| r) := by
  have hls := (hwf l lp hl).1
  have hrs := (hwf r rp hr).1
  unfold createPlan
  simp only [hl, hr, hls, hrs, hdisj, hk, ne_eq, not_true_eq_false, if_false]

/-- The loop of the left-deep translation keeps the stored cost of the running prefix equal
to the sum of the contraction costs of its steps. -/
theorem translateLinearLoop_cost (net : TensorNetwork) (σ : List Nat) (hnd : σ.Nodup) :
    ∀ (cnt k : Nat) (plans : PlanCache), k + cnt = σ.length → 0 < k →
      plans.WF → plans.CostOK net →
      (∀ v, v ∈ σ → ∃ q, plans (BitSet.single v) = some q ∧ q.totalCost = 0) →
      (∀ key, (plans key).isSome → BitSet.size key ≤ k) →
      (∃ p, plans (listSet (σ.take k)) = some p ∧ p.totalCost = prefixCostSum net σ k) →
      ∃ plans' p', translateLinearLoop net σ (List.range' k cnt)
          (plans, listSet (σ.take k), listSet (σ.take k)) = some (plans', listSet σ, listSet σ) ∧
        plans' (listSet σ) = some p' ∧ p'.totalCost = prefixCostSum net σ σ.length := by
  intro cnt
  induction cnt with
  | zero =>
    intro k plans hk _ hwf hc _ _ hl
    have hkl : k = σ.length := by omega
    have : σ.take k = σ := List.take_of_length_le (by omega)
    rw [this] at hl ⊢
    obtain ⟨p, hp, hpc⟩ := hl
    exact ⟨plans, p, by simp [translateLinearLoop], hp, by rw [hpc, hkl]⟩
  | succ cnt ih =>
    intro k plans hk hkpos hwf hc hsing hsize hl
    have hklt : k < σ.length := by omega
    have hget : σ[k]? = some σ[k] := List.getElem?_eq_getElem hklt
    have hgetD : σ.getD k 0 = σ[k] := List.getD_eq_getElem _ _ hklt
    have htake : σ.take (k + 1) = σ.take k ++ [σ[k]] := by
      rw [List.take_succ, hget]; rfl
    have hvmem : σ[k] ∈ σ := List.getElem_mem hklt
    have hvnot : σ[k] ∉ σ.take k := by
      intro hmem
      have hnd' : (σ.take (k + 1)).Nodup := hnd.sublist (List.take_sublist _ _)
      rw [htake, List.nodup_append] at hnd'
      exact hnd'.2.2 hmem (by simp)
    obtain ⟨lp, hlp, hlpc⟩ := hl
    obtain ⟨rp, hrp, hrpc⟩ := hsing _ hvmem
    have hdisj : listSet (σ.take k) &&& BitSet.single σ[k] = 0 := by
      rw [← listSet_singleton]
      exact listSet_disjoint (fun v hv => by simp; rintro rfl; exact hvnot hv)
    have hsz : BitSet.size (listSet (σ.take k) ||| BitSet.single σ[k]) = k + 1 := by
      rw [BitSet.size_lor hdisj, size_listSet (hnd.sublist (List.take_sublist _ _)),
        BitSet.size_single, List.length_take]
      omega
    have hfresh : plans (listSet (σ.take k) ||| BitSet.single σ[k]) = none := by
      cases hcase : plans (listSet (σ.take k) ||| BitSet.single σ[k]) with
      | none => rfl
      | some q =>
        have := hsize _ (by rw [hcase]; rfl)
        omega
    have hcp := createPlan_fresh_eq net hwf hlp hrp hdisj hfresh
    obtain ⟨plans1, hcp', hwf1, hc1, _, hframe⟩ :=
      createPlan_fresh net hwf hc hlp hrp hdisj hfresh
    rw [hcp] at hcp'
    have hpl1 : plans1 = plans.insert (listSet (σ.take k) ||| BitSet.single σ[k])
        ⟨net.computeContractionCost (listSet (σ.take k)) (BitSet.single σ[k]) +
          lp.totalCost + rp.totalCost, listSet (σ.take k) ||| BitSet.single σ[k],
          some (listSet (σ.take k)), some (BitSet.single σ[k])⟩ := by
      simp only [Option.some.injEq, Prod.mk.injEq, and_true] at hcp'
      exact hcp'.symm
    have hq : plans1 (listSet (σ.take k) ||| BitSet.single σ[k]) =
        some ⟨net.computeContractionCost (listSet (σ.take k)) (BitSet.single σ[k]) +
          lp.totalCost + rp.totalCost, listSet (σ.take k) ||| BitSet.single σ[k],
          some (listSet (σ.take k)), some (BitSet.single σ[k])⟩ := by
      rw [hpl1, PlanCache.insert_same]
    have hksz : ∀ v, BitSet.single v ≠ listSet (σ.take k) ||| BitSet.single σ[k] := by
      intro v h
      have := congrArg BitSet.size h
      rw [hsz, BitSet.size_single] at this
      omega
    obtain ⟨plans', p', hloop, hres⟩ := ih (k + 1) plans1 (by omega) (by omega) hwf1 hc1
      (fun v hv => by
        rw [hframe _ (hksz v)]
        exact hsing v hv)
      (by
        intro key hkey
        by_cases hkk : key = listSet (σ.take k) ||| BitSet.single σ[k]
        · rw [hkk, hsz]
        · rw [hframe key hkk] at hkey
          exact Nat.le_succ_of_le (hsize key hkey))
      (by
        rw [htake, listSet_append_single]
        refine ⟨_, hq, ?_⟩
        rw [prefixCostSum_succ net σ k hkpos, hgetD]
        show _ + lp.totalCost + rp.totalCost = _
        rw [hlpc, hrpc]
        ring)
    refine ⟨plans', p', ?_, hres⟩
    rw [← hpl1] at hcp
    rw [List.range'_succ, translateLinearLoop]
    simp only [hget, getPlan, hrp, hlp, (hwf _ lp hlp).1, (hwf _ rp hrp).1, and_self, if_true,
      hcp, hq]
    rw [htake, listSet_append_single] at hloop
    exact hloop
theorem collectOpenLegs_single (net : TensorNetwork) (v : Nat) :
    net.collectOpenLegs (BitSet.single v) = net.vertexLegs v := by
  unfold TensorNetwork.collectOpenLegs
  rw [BitSet.toList_single]
  simp [TensorNetwork.vertexLegs]

/-- The cost of joining the set of distinct vertices `l` with the vertex `v`, read off the
running symmetric difference of the legs. -/
theorem computeContractionCost_prefix (net : TensorNetwork) {l : List Nat} (hnd : l.Nodup)
    (v : Nat) :
    net.computeContractionCost (listSet l) (BitSet.single v) =
      net.computeLegDimProduct
        (l.foldl (fun acc u => acc ^^^ net.vertexLegs u) 0 ||| net.vertexLegs v) := by
  unfold TensorNetwork.computeContractionCost
  rw [collectOpenLegs_listSet net hnd, collectOpenLegs_single]

theorem drop_one_eq_map (σ : List Nat) :
    σ.drop 1 = (List.range' 1 (σ.length - 1)).map (fun i => σ.getD i 0) := by
  apply List.ext_getElem
  · simp
  · intro i h1 h2
    simp only [List.length_drop] at h1
    simp only [List.getElem_drop, List.getElem_map, List.getElem_range']
    rw [List.getD_eq_getElem _ _ (by omega)]
    simp

theorem computeLinearCost_loop (net : TensorNetwork) (σ : List Nat) (hnd : σ.Nodup) :
    ∀ cnt, 1 + cnt ≤ σ.length →
      ((List.range' 1 cnt).map (fun i => σ.getD i 0)).foldl
        (fun (st : ℚ × BitSet) v =>
          (st.1 + net.computeLegDimProduct (st.2 ||| net.collectVertexLegs v false),
            st.2 ^^^ net.collectVertexLegs v false))
        (0, net.collectVertexLegs (σ.headD 0) false) =
      (prefixCostSum net σ (cnt + 1),
        (σ.take (cnt + 1)).foldl (fun acc v => acc ^^^ net.vertexLegs v) 0) := by
  intro cnt
  induction cnt with
  | zero =>
    intro h
    cases σ with
    | nil => simp at h
    | cons a rest =>
      simp [prefixCostSum_one, TensorNetwork.vertexLegs]
  | succ cnt ih =>
    intro h
    have hlt : cnt + 1 < σ.length := by omega
    have hget : σ[cnt + 1]? = some σ[cnt + 1] := List.getElem?_eq_getElem hlt
    have hgetD : σ.getD (1 + cnt) 0 = σ[cnt + 1] := by
      rw [Nat.add_comm 1 cnt]; exact List.getD_eq_getElem _ _ hlt
    have htake : σ.take (cnt + 1 + 1) = σ.take (cnt + 1) ++ [σ[cnt + 1]] := by
      rw [List.take_succ, hget]; rfl
    rw [List.range'_1_concat, List.map_append, List.foldl_append, ih (by omega)]
    simp only [List.map_cons, List.map_nil, List.foldl_cons, List.foldl_nil]
    rw [prefixCostSum_succ net σ (cnt + 1) (by omega), htake, List.foldl_append, hgetD,
      List.getD_eq_getElem _ _ hlt,
      computeContractionCost_prefix net (hnd.sublist (List.take_sublist _ _))]
    rfl

/-- The function `computeLinearCost` sums the contraction costs of the left-deep steps. -/
theorem computeLinearCost_eq (net : TensorNetwork) (σ : List Nat) (hnd : σ.Nodup)
    (hn : 0 < σ.length) : net.computeLinearCost σ = prefixCostSum net σ σ.length := by
  unfold TensorNetwork.computeLinearCost
  rw [drop_one_eq_map, computeLinearCost_loop net σ hnd (σ.length - 1) (by omega)]
  show prefixCostSum net σ (σ.length - 1 + 1) = _
  rw [Nat.sub_add_cancel hn]

theorem map_getD_range_take (σ : List Nat) (k : Nat) (hk : k ≤ σ.length) :
    (List.range k).map (fun i => σ.getD i 0) = σ.take k := by
  apply List.ext_getElem
  · simp [hk]
  · intro i h1 h2
    simp only [List.length_map, List.length_range] at h1
    simp only [List.getElem_map, List.getElem_range, List.getElem_take]
    exact List.getD_eq_getElem _ _ (by omega)

/-- The cost of the left-deep tree over the first `t + 1` vertices. -/
theorem dummyTree_cost (net : TensorNetwork) (σ : List Nat) :
    ∀ t, t < σ.length → (dummyTree σ t).cost net = prefixCostSum net σ (t + 1) := by
  intro t
  induction t with
  | zero => intro _; simp [dummyTree, BTree.cost, prefixCostSum_one]
  | succ t ih =>
    intro ht
    simp only [dummyTree, BTree.cost]
    rw [ih (by omega), prefixCostSum_succ net σ (t + 1) (by omega), BTree.set_eq_listSet,
      dummyTree_leaves, map_getD_range_take σ (t + 1) (by omega)]
    simp only [BTree.set]
    ring
/-- The left-deep translation of a permutation of the vertices, started on the empty cache,
stores under `fill(n)` the sum of the contraction costs of its steps. -/
theorem translateLinear_cost (net : TensorNetwork) (σ : List Nat)
    (hσ : σ.Perm (List.range net.n)) (hn : 0 < net.n) :
    ∃ plans' p, translateLinearSolutionToPlan net PlanCache.empty σ =
        some (plans', BitSet.fill net.n) ∧
      plans' (BitSet.fill net.n) = some p ∧ p.totalCost = prefixCostSum net σ net.n := by
  have hnd : σ.Nodup := hσ.nodup_iff.2 (List.nodup_range _)
  have hlen : σ.length = net.n := by rw [hσ.length_eq, List.length_range]
  have hset : listSet σ = BitSet.fill net.n := by rw [listSet_perm hσ, listSet_range]
  obtain ⟨v0, rest, hσe⟩ : ∃ v0 rest, σ = v0 :: rest := by
    cases σ with
    | nil => simp at hlen; omega
    | cons a b => exact ⟨a, b, rfl⟩
  have htake1 : listSet (σ.take 1) = BitSet.single v0 := by
    rw [hσe]; simp [listSet]
  have hinit : ∀ v, v ∈ σ → initBaseTensors net PlanCache.empty (BitSet.single v) =
      some ⟨0, BitSet.single v, none, none⟩ := by
    intro v hv
    rw [initBaseTensors_empty, if_pos]
    exact ⟨v, by simpa using hσ.mem_iff.1 hv, rfl⟩
  obtain ⟨plans', p', hloop, hp', hcost⟩ :=
    translateLinearLoop_cost net σ hnd (net.n - 1) 1 (initBaseTensors net PlanCache.empty)
      (by omega) (by omega) (initBaseTensors_empty_wf net) (initBaseTensors_empty_costOK net)
      (fun v hv => ⟨_, hinit v hv, rfl⟩)
      (by
        intro key hkey
        rw [initBaseTensors_empty] at hkey
        split at hkey
        · rename_i h
          obtain ⟨v, _, hv⟩ := h
          rw [hv, BitSet.size_single]
        · cases hkey)
      ⟨_, by rw [htake1]; exact hinit v0 (by rw [hσe]; simp), by rw [prefixCostSum_one]⟩
  refine ⟨plans', p', ?_, by rw [← hset]; exact hp', by rw [hcost, hlen]⟩
  unfold translateLinearSolutionToPlan
  rw [htake1] at hloop
  simp only [hσe, List.head?_cons]
  rw [hσe] at hloop
  simp only [hloop]
  rw [← hσe, hset, BitSet.size_fill]
  simp

/-- The function `computeBushyCost` on the left-deep tree of `runDummy`. -/
theorem computeBushyCost_runDummy (net : TensorNetwork) (σ : List Nat) (hnd : σ.Nodup)
    (hn : 0 < σ.length) (hn32 : 2 * σ.length ≤ NIL) (cost : ℚ) :
    net.computeBushyCost (runDummy σ cost).2 = some (prefixCostSum net σ σ.length) := by
  have hT := runDummy_rangeTree σ cost hn32 (σ.length - 1) (by omega)
  have hleaves : (dummyTree σ (σ.length - 1)).leaves.Nodup := by
    rw [dummyTree_leaves, map_getD_range_take σ _ (by omega)]
    exact hnd.sublist (List.take_sublist _ _)
  have hloc : dummyLoc σ.length (σ.length - 1) = 2 * σ.length - 1 - 1 := by
    unfold dummyLoc
    split <;> omega
  unfold TensorNetwork.computeBushyCost
  rw [runDummy_length σ cost hn, ← hloc,
    computeBushyCostRec_ok net _ _ _ hT hleaves _ (by rw [hloc]; omega),
    dummyTree_cost net σ _ (by omega), Nat.sub_add_cancel hn]
  rfl

/-- C16 (linear cost).  For every order `σ` of the `n` vertices, `computeLinearCost(σ)` is the
sum for `i = 1, …, n - 1` of `computeContractionCost({σ[0], …, σ[i-1]}, {σ[i]})`; the plan
`translateSolutionToPlan(σ)` builds from the empty cache has this sum as its `totalCost`, and
`computeBushyCost` of the tree of `runDummy(σ)` returns it as well. -/
theorem computeLinearCost_spec (net : TensorNetwork) (σ : List Nat)
    (hσ : σ.Perm (List.range net.n)) (hn : 0 < net.n) (hn32 : 2 * net.n ≤ NIL) (cost : ℚ) :
    net.computeLinearCost σ = prefixCostSum net σ net.n ∧
    (∃ plans' p, translateLinearSolutionToPlan net PlanCache.empty σ =
        some (plans', BitSet.fill net.n) ∧
      plans' (BitSet.fill net.n) = some p ∧ p.totalCost = prefixCostSum net σ net.n) ∧
    net.computeBushyCost (runDummy σ cost).2 = some (prefixCostSum net σ net.n) := by
  have hnd : σ.Nodup := hσ.nodup_iff.2 (List.nodup_range _)
  have hlen : σ.length = net.n := by rw [hσ.length_eq, List.length_range]
  refine ⟨?_, translateLinear_cost net σ hσ hn, ?_⟩
  · rw [← hlen]; exact computeLinearCost_eq net σ hnd (by omega)
  · rw [← hlen]; exact computeBushyCost_runDummy net σ hnd (by omega) (by omega) cost

/-- The statement of `computeLinearCost_spec` on the triangle and the order `[2, 0, 1]`. -/
theorem computeLinearCost_spec_witness :
    triangle.computeLinearCost [2, 0, 1] = prefixCostSum triangle [2, 0, 1] triangle.n ∧
    (∃ plans' p, translateLinearSolutionToPlan triangle PlanCache.empty [2, 0, 1] =
        some (plans', BitSet.fill triangle.n) ∧
      plans' (BitSet.fill triangle.n) = some p ∧
      p.totalCost = prefixCostSum triangle [2, 0, 1] triangle.n) ∧
    triangle.computeBushyCost (runDummy [2, 0, 1] 0).2 =
      some (prefixCostSum triangle [2, 0, 1] triangle.n) :=
  computeLinearCost_spec triangle [2, 0, 1] (by decide) (by decide) (by decide) 0

/-! ## The loop of the greedy algorithm -/

/-- The loop of `runGreedy` with a log: the state carries, besides the cache and `mapping`,
the list of the edges on which `createPlan` has been called, in the order of the calls. -/
def greedyLoopTrace (net : TensorNetwork) :
    List Nat → PlanCache × (Nat → BitSet) × List Nat →
      Option (PlanCache × (Nat → BitSet) × List Nat)
  | [], st => some st
  | minEdgeId :: heap, (plans, mapping, calls) =>
    if greedyCost net mapping minEdgeId < 0 then greedyLoopTrace net heap (plans, mapping, calls)
    else
      let edge := net.endpoints minEdgeId
      let l := mapping edge.1
      let r := mapping edge.2
      match getPlan plans l, getPlan plans r with
      | some pl, some pr =>
        match createPlan net plans pl pr with
        | none => none
        | some (plans1, _) =>
          let cum := l ||| r
          greedyLoopTrace net heap (plans1, greedyAssign mapping cum, calls ++ [minEdgeId])
      | _, _ => none

/-- The number of distinct clusters of the vertices below `n`. -/
def numClusters (n : Nat) (mapping : Nat → BitSet) : Nat :=
  ((Finset.range n).image mapping).card

/-- Dropping the log of `greedyLoopTrace` gives `greedyLoop`. -/
theorem greedyLoopTrace_erase (net : TensorNetwork) :
    ∀ (heap : List Nat) (plans : PlanCache) (mapping : Nat → BitSet) (calls : List Nat),
      (greedyLoopTrace net heap (plans, mapping, calls)).map (fun s => (s.1, s.2.1)) =
        greedyLoop net heap (plans, mapping) := by
  intro heap
  induction heap with
  | nil => intro plans mapping calls; rfl
  | cons e heap ih =>
    intro plans mapping calls
    rw [greedyLoopTrace, greedyLoop]
    by_cases hc : greedyCost net mapping e < 0
    · rw [if_pos hc, if_pos hc]; exact ih _ _ _
    · rw [if_neg hc, if_neg hc]
      simp only []
      cases getPlan plans (mapping (net.endpoints e).1) with
      | none => rfl
      | some pl =>
        cases getPlan plans (mapping (net.endpoints e).2) with
        | none => rfl
        | some pr =>
          simp only []
          cases createPlan net plans pl pr with
          | none => rfl
          | some res => exact ih _ _ _

/-- Merging two distinct clusters lowers the number of clusters by one and keeps the clusters
a partition. -/
theorem greedyAssign_clusters (n : Nat) (mapping : Nat → BitSet) (u w : Nat) (hu : u < n)
    (hw : w < n)
    (hself : ∀ v, v < n → (mapping v).testBit v = true)
    (hsame : ∀ v, v < n → ∀ x, (mapping v).testBit x = true → mapping x = mapping v)
    (hlr : mapping u ≠ mapping w) :
    (∀ v, v < n → (greedyAssign mapping (mapping u ||| mapping w) v).testBit v = true) ∧
    (∀ v, v < n → ∀ x, (greedyAssign mapping (mapping u ||| mapping w) v).testBit x = true →
      greedyAssign mapping (mapping u ||| mapping w) x =
        greedyAssign mapping (mapping u ||| mapping w) v) ∧
    numClusters n (greedyAssign mapping (mapping u ||| mapping w)) + 1 =
      numClusters n mapping := by
  set l := mapping u with hl_def
  set r := mapping w with hr_def
  have hcum : ∀ i, (l ||| r).testBit i = true → mapping i = l ∨ mapping i = r := by
    intro i hi
    rw [Nat.testBit_lor, Bool.or_eq_true] at hi
    rcases hi with hi | hi
    · exact Or.inl (hsame u hu i hi)
    · exact Or.inr (hsame w hw i hi)
  have hin : ∀ v, v < n → (mapping v = l ∨ mapping v = r) → (l ||| r).testBit v = true := by
    intro v hv hcase
    have := hself v hv
    rw [Nat.testBit_lor, Bool.or_eq_true]
    rcases hcase with h | h
    · left; rw [← h]; exact this
    · right; rw [← h]; exact this
  refine ⟨?_, ?_, ?_⟩
  · intro v hv
    rw [greedyAssign_apply]
    split
    · assumption
    · exact hself v hv
  · intro v hv x hx
    rw [greedyAssign_apply] at hx ⊢
    rw [greedyAssign_apply]
    by_cases hcv : (l ||| r).testBit v = true
    · rw [if_pos hcv] at hx ⊢
      rw [if_pos hx]
    · rw [if_neg hcv] at hx ⊢
      have hxv := hsame v hv x hx
      have hcx : ¬ (l ||| r).testBit x = true := by
        intro hcx
        apply hcv
        apply hin v hv
        rw [← hxv]
        exact hcum x hcx
      rw [if_neg hcx]; exact hxv
  · unfold numClusters
    have hlmem : l ∈ (Finset.range n).image mapping :=
      Finset.mem_image.2 ⟨u, Finset.mem_range.2 hu, rfl⟩
    have hrmem : r ∈ ((Finset.range n).image mapping).erase l :=
      Finset.mem_erase.2 ⟨fun h => hlr h.symm, Finset.mem_image.2 ⟨w, Finset.mem_range.2 hw, rfl⟩⟩
    have hnew : l ||| r ∉ (((Finset.range n).image mapping).erase l).erase r := by
      intro h
      have h1 := Finset.mem_of_mem_erase (Finset.mem_of_mem_erase h)
      obtain ⟨v, hv, hvm⟩ := Finset.mem_image.1 h1
      have hv' := Finset.mem_range.1 hv
      have hul : (mapping v).testBit u = true := by
        rw [hvm, Nat.testBit_lor, hl_def, hself u hu]; rfl
      have hwr : (mapping v).testBit w = true := by
        rw [hvm, Nat.testBit_lor, hr_def, hself w hw]; simp
      exact hlr ((hsame v hv' u hul).trans (hsame v hv' w hwr).symm)
    have himg : (Finset.range n).image (greedyAssign mapping (l ||| r)) =
        insert (l ||| r) ((((Finset.range n).image mapping).erase l).erase r) := by
      ext c
      simp only [Finset.mem_image, Finset.mem_range, Finset.mem_insert, Finset.mem_erase]
      constructor
      · rintro ⟨v, hv, rfl⟩
        rw [greedyAssign_apply]
        by_cases hcv : (l ||| r).testBit v = true
        · rw [if_pos hcv]; exact Or.inl rfl
        · rw [if_neg hcv]
          refine Or.inr ⟨fun h => hcv (hin v hv (Or.inr h)), fun h => hcv (hin v hv (Or.inl h)),
            v, hv, rfl⟩
      · rintro (rfl | ⟨hcr, hcl, v, hv, rfl⟩)
        · refine ⟨u, hu, ?_⟩
          rw [greedyAssign_apply, if_pos (hin u hu (Or.inl rfl))]
        · refine ⟨v, hv, ?_⟩
          rw [greedyAssign_apply, if_neg]
          intro hcv
          rcases hcum v hcv with h | h
          · exact hcl h
          · exact hcr h
    rw [himg, Finset.card_insert_of_not_mem hnew, Finset.card_erase_of_mem hrmem,
      Finset.card_erase_of_mem hlmem]
    have h1 : 0 < ((Finset.range n).image mapping).card := Finset.card_pos.2 ⟨l, hlmem⟩
    have h2 : 0 < (((Finset.range n).image mapping).erase l).card :=
      Finset.card_pos.2 ⟨r, hrmem⟩
    rw [Finset.card_erase_of_mem hlmem] at h2
    omega
/-- Every call of `createPlan` in the loop of `runGreedy` lowers the number of clusters by
one. -/
theorem greedyLoopTrace_count (net : TensorNetwork) :
    ∀ (heap : List Nat) (plans : PlanCache) (mapping : Nat → BitSet) (calls : List Nat)
      (plans' : PlanCache) (mapping' : Nat → BitSet) (calls' : List Nat),
      (∀ e, e ∈ heap → (net.endpoints e).1 < net.n ∧ (net.endpoints e).2 < net.n) →
      (∀ v, v < net.n → (mapping v).testBit v = true) →
      (∀ v, v < net.n → ∀ x, (mapping v).testBit x = true → mapping x = mapping v) →
      greedyLoopTrace net heap (plans, mapping, calls) = some (plans', mapping', calls') →
      calls'.length + numClusters net.n mapping' = calls.length + numClusters net.n mapping := by
  intro heap
  induction heap with
  | nil =>
    intro plans mapping calls plans' mapping' calls' _ _ _ h
    simp only [greedyLoopTrace, Option.some.injEq, Prod.mk.injEq] at h
    obtain ⟨_, h2, h3⟩ := h
    rw [h2, h3]
  | cons e heap ih =>
    intro plans mapping calls plans' mapping' calls' hends hself hsame h
    obtain ⟨hu, hw⟩ := hends e (by simp)
    have hends' : ∀ e', e' ∈ heap → (net.endpoints e').1 < net.n ∧ (net.endpoints e').2 < net.n :=
      fun e' he' => hends e' (by simp [he'])
    rw [greedyLoopTrace] at h
    by_cases hc : greedyCost net mapping e < 0
    · rw [if_pos hc] at h
      exact ih _ _ _ _ _ _ hends' hself hsame h
    · rw [if_neg hc] at h
      have hlr : mapping (net.endpoints e).1 ≠ mapping (net.endpoints e).2 := by
        intro hlr
        apply hc
        simp [greedyCost, hlr]
      simp only [] at h
      cases hpl : getPlan plans (mapping (net.endpoints e).1) with
      | none => rw [hpl] at h; cases h
      | some pl =>
        cases hpr : getPlan plans (mapping (net.endpoints e).2) with
        | none => rw [hpl, hpr] at h; cases h
        | some pr =>
          rw [hpl, hpr] at h
          simp only [] at h
          cases hcp : createPlan net plans pl pr with
          | none => rw [hcp] at h; cases h
          | some res =>
            rw [hcp] at h
            simp only [] at h
            obtain ⟨h1, h2, h3⟩ := greedyAssign_clusters net.n mapping _ _ hu hw hself hsame hlr
            have := ih _ _ _ _ _ _ hends' h1 h2 h
            rw [this, List.length_append, List.length_singleton]
            omega

/-- On a connected network the loop of `runGreedy` ends with every vertex mapped to
`fill(n)` and with the plan of `fill(n)` in the cache. -/
theorem greedyLoop_connected (net : TensorNetwork) (hnet : net.WellFormed) (hn : 0 < net.n)
    (hconn : net.Connected) :
    ∃ plans' mapping', greedyLoop net (greedyInitHeap net)
        (initBaseTensors net PlanCache.empty, greedyInitMapping net) = some (plans', mapping') ∧
      (∀ v, v < net.n → mapping' v = BitSet.fill net.n) ∧
      (plans' (BitSet.fill net.n)).isSome := by
  have hinit : ∀ v, v < net.n → initBaseTensors net PlanCache.empty (BitSet.single v) =
      some ⟨0, BitSet.single v, none, none⟩ := by
    intro v hv
    rw [initBaseTensors_empty, if_pos ⟨v, hv, rfl⟩]
  have hinv0 : GreedyInv net (initBaseTensors net PlanCache.empty) (greedyInitMapping net) := by
    refine ⟨initBaseTensors_empty_wf net, initBaseTensors_empty_costOK net, ?_, ?_, ?_, ?_, ?_⟩
    · intro v hv
      simp [greedyInitMapping, hv, BitSet.testBit_single]
    · intro v hv i hi
      simp only [greedyInitMapping, hv, if_true, BitSet.testBit_single, decide_eq_true_eq] at hi
      omega
    · intro v hv w hw
      simp only [greedyInitMapping, hv, if_true, BitSet.testBit_single, decide_eq_true_eq] at hw
      rw [hw]
    · intro v hv
      simp only [greedyInitMapping, hv, if_true]
      rw [hinit v hv]; rfl
    · intro key hkey i hi
      rw [initBaseTensors_empty] at hkey
      split at hkey
      · rename_i h
        obtain ⟨v, hv, hkv⟩ := h
        subst hkv
        simp only [BitSet.testBit_single, decide_eq_true_eq] at hi
        subst hi
        refine ⟨hv, ?_⟩
        simp only [greedyInitMapping, hv, if_true]
        exact BitSet.Sub.refl _
      · cases hkey
  obtain ⟨plans', mapping', hloop, hinv', _, hedges⟩ :=
    greedyLoop_ok net hnet.2.2.2.2 (greedyInitHeap net) _ _
      (fun e he => endpoints_lt_of_wellFormed hnet hn e ((mem_greedyInitHeap net e).1 he)) hinv0
  have hadj : ∀ a b, net.Adjacent a b → mapping' b = mapping' a := by
    rintro a b ⟨e, he, hcase⟩
    have := hedges e ((mem_greedyInitHeap net e).2 (by rw [hnet.1]; omega))
    rcases hcase with h | h <;> rw [h] at this
    · exact this.symm
    · exact this
  have hreach : ∀ v, Relation.ReflTransGen net.Adjacent 0 v → mapping' v = mapping' 0 := by
    intro v hpath
    induction hpath with
    | refl => rfl
    | tail _ hbc ih => rw [hadj _ _ hbc]; exact ih
  have hall : ∀ v, v < net.n → mapping' v = mapping' 0 :=
    fun v hv => hreach v (hconn 0 v hn hv)
  have hfill : mapping' 0 = BitSet.fill net.n := by
    apply Nat.eq_of_testBit_eq
    intro i
    rw [BitSet.testBit_fill]
    by_cases hi : i < net.n
    · rw [← hall i hi, hinv'.self i hi]; simp [hi]
    · cases hb : (mapping' 0).testBit i with
      | false => simp [hi]
      | true => exact absurd (hinv'.bound 0 hn i hb) hi
  have hsome := hinv'.cached 0 hn
  rw [hfill] at hsome
  exact ⟨plans', mapping', hloop, fun v hv => by rw [hall v hv, hfill], hsome⟩

theorem numClusters_init (net : TensorNetwork) :
    numClusters net.n (greedyInitMapping net) = net.n := by
  unfold numClusters
  rw [Finset.card_image_of_injOn, Finset.card_range]
  intro a ha b hb hab
  have ha' : a < net.n := Finset.mem_range.1 ha
  have hb' : b < net.n := Finset.mem_range.1 hb
  simp only [greedyInitMapping, ha', hb', if_true] at hab
  have := congrArg (fun s => Nat.testBit s b) hab
  simp only [BitSet.testBit_single, decide_eq_decide] at this
  exact this.2 trivial

theorem numClusters_const (n : Nat) (hn : 0 < n) (mapping : Nat → BitSet) (c : BitSet)
    (h : ∀ v, v < n → mapping v = c) : numClusters n mapping = 1 := by
  unfold numClusters
  have : (Finset.range n).image mapping = {c} := by
    ext x
    simp only [Finset.mem_image, Finset.mem_range, Finset.mem_singleton]
    constructor
    · rintro ⟨v, hv, rfl⟩; exact h v hv
    · rintro rfl; exact ⟨0, hn, h 0 hn⟩
  rw [this, Finset.card_singleton]

/-- C13 (greedy on a connected network).  On a connected network the loop of `runGreedy`
runs to its end after exactly `n - 1` calls of `createPlan`; at the end every vertex is mapped
to `fill(n)`, the cache holds an entry for `fill(n)`, so `getPlan` succeeds, and `runGreedy`
returns that entry. -/
theorem runGreedy_terminates (net : TensorNetwork) (hnet : net.WellFormed) (hn : 0 < net.n)
    (hconn : net.Connected) :
    ∃ plans' mapping' calls,
      greedyLoopTrace net (greedyInitHeap net)
        (initBaseTensors net PlanCache.empty, greedyInitMapping net, []) =
          some (plans', mapping', calls) ∧
      calls.length = net.n - 1 ∧
      (∀ v, v < net.n → mapping' v = BitSet.fill net.n) ∧
      (∃ p, plans' (BitSet.fill net.n) = some p) ∧
      getPlan plans' (BitSet.fill net.n) = some (BitSet.fill net.n) ∧
      runGreedy net PlanCache.empty = some (plans', BitSet.fill net.n) := by
  obtain ⟨plans', mapping', hloop, hall, hsome⟩ := greedyLoop_connected net hnet hn hconn
  have herase := greedyLoopTrace_erase net (greedyInitHeap net)
    (initBaseTensors net PlanCache.empty) (greedyInitMapping net) []
  rw [hloop] at herase
  cases htr : greedyLoopTrace net (greedyInitHeap net)
      (initBaseTensors net PlanCache.empty, greedyInitMapping net, []) with
  | none => rw [htr] at herase; cases herase
  | some res =>
    obtain ⟨p1, m1, calls⟩ := res
    rw [htr] at herase
    simp only [Option.map_some', Option.some.injEq, Prod.mk.injEq] at herase
    obtain ⟨rfl, rfl⟩ := herase
    have hcount := greedyLoopTrace_count net _ _ _ _ _ _ _
      (fun e he => endpoints_lt_of_wellFormed hnet hn e ((mem_greedyInitHeap net e).1 he))
      (by
        intro v hv
        simp [greedyInitMapping, hv, BitSet.testBit_single])
      (by
        intro v hv w hw
        simp only [greedyInitMapping, hv, if_true, BitSet.testBit_single,
          decide_eq_true_eq] at hw
        rw [hw])
      htr
    rw [numClusters_init, numClusters_const net.n hn _ _ hall] at hcount
    obtain ⟨q, hq⟩ := Option.isSome_iff_exists.1 hsome
    refine ⟨p1, m1, calls, rfl, ?_, hall, ⟨q, hq⟩, ?_, ?_⟩
    · simp only [List.length_nil] at hcount; omega
    · simp only [getPlan, hq]
    · unfold runGreedy
      simp only [hloop, getPlan, hq]

/-- The statement of `runGreedy_terminates` on the triangle. -/
theorem runGreedy_terminates_witness :
    ∃ plans' mapping' calls,
      greedyLoopTrace triangle (greedyInitHeap triangle)
        (initBaseTensors triangle PlanCache.empty, greedyInitMapping triangle, []) =
          some (plans', mapping', calls) ∧
      calls.length = triangle.n - 1 ∧
      (∀ v, v < triangle.n → mapping' v = BitSet.fill triangle.n) ∧
      (∃ p, plans' (BitSet.fill triangle.n) = some p) ∧
      getPlan plans' (BitSet.fill triangle.n) = some (BitSet.fill triangle.n) ∧
      runGreedy triangle PlanCache.empty = some (plans', BitSet.fill triangle.n) :=
  runGreedy_terminates triangle triangle_wellFormed (by decide) triangle_connected

/-! ## The order of the pops of the greedy algorithm -/

/-- The path `2 - 0 - 1 - 3`: edges `(0,1)`, `(0,2)`, `(1,3)` of dimension 2 and open legs of
dimensions 1, 2, 3, 1. -/
def greedyNet : TensorNetwork :=
  ⟨4, 3, [⟨2, (0, 1)⟩, ⟨2, (0, 2)⟩, ⟨2, (1, 3)⟩, ⟨1, (0, 0)⟩, ⟨2, (0, 0)⟩, ⟨3, (0, 0)⟩,
    ⟨1, (0, 0)⟩], [1, 2, 3, 1]⟩

/-- C12 (order of the greedy pops).  On the path `2 - 0 - 1 - 3` with open legs 1, 2, 3, 1 the
heap is set up as `[3, 4, 5, 6, 2, 1, 0]` (initial costs 8, 12, 16 of the edges 2, 1, 0) and
`createPlan` is called on the edges 2, 1, 0 in this order.  After the contraction of edge 2 the
clusters are `{0}`, `{2}`, `{1, 3}`: the edge 1, popped next, costs 12 while the edge 0, still
in the heap with its endpoints in different clusters, costs 8. -/
theorem greedy_pops_initial_order :
    greedyInitHeap greedyNet = [3, 4, 5, 6, 2, 1, 0] ∧
    (greedyLoopTrace greedyNet (greedyInitHeap greedyNet)
      (initBaseTensors greedyNet PlanCache.empty, greedyInitMapping greedyNet, [])).map
        (fun s => s.2.2) = some [2, 1, 0] ∧
    greedyCost greedyNet (greedyInitMapping greedyNet) 2 = 8 ∧
    greedyCost greedyNet
      (greedyAssign (greedyInitMapping greedyNet)
        (greedyInitMapping greedyNet 1 ||| greedyInitMapping greedyNet 3)) 1 = 12 ∧
    greedyCost greedyNet
      (greedyAssign (greedyInitMapping greedyNet)
        (greedyInitMapping greedyNet 1 ||| greedyInitMapping greedyNet 3)) 0 = 8 := by
  refine ⟨?_, ?_, ?_, ?_, ?_⟩
  · decide!
  · decide!
  · decide!
  · decide!
  · decide!

/-! ## Reachability -/

/-- The call `cum.insert(v)`; the wide variants assert that `v` is not yet a member. -/
def BitSet.insert (s : BitSet) (v : Nat) : Option BitSet :=
  if s.testBit v then none else some (s ||| BitSet.single v)

/-- The loop `for (pos = adj[u]; pos; pos = list[pos].next)` of `reach`, over the cells that
remain; `rec` is the recursive call. -/
def reachCells (allowedSet : BitSet) (rec : Nat → BitSet → Option BitSet) :
    List Cell → BitSet → Option BitSet
  | [], cum => some cum
  | c :: rest, cum =>
    if (!cum.testBit c.v) && allowedSet.testBit c.v then
      match rec c.v cum with
      | none => none
      | some cum1 => reachCells allowedSet rec rest cum1
    else reachCells allowedSet rec rest cum

/-- The function `reach(u, cum, allowedSet)` with the tree view disabled; the result is the
final value of `cum`, `fuel` bounds the depth of the recursion. -/
def reach (net : TensorNetwork) (allowedSet : BitSet) : Nat → Nat → BitSet → Option BitSet
  | 0, _, _ => none
  | fuel + 1, u, cum =>
    match BitSet.insert cum u with
    | none => none
    | some cum0 => reachCells allowedSet (reach net allowedSet fuel) (net.adj u) cum0

/-- The function `isConnected(set)`: `reach(set.front(), cum, set)` and then
`set.isSubsetOf(cum)`. -/
def TensorNetwork.isConnected (net : TensorNetwork) (set : BitSet) : Option Bool :=
  match reach net set (BitSet.size set + 1) (BitSet.front set) 0 with
  | none => none
  | some cum => some (decide (set &&& cum = set))

/-- One step of `reach`: from `x` to a neighbour `y` in the allowed set. -/
def ReachStep (net : TensorNetwork) (allowedSet : BitSet) (x y : Nat) : Prop :=
  (∃ c, c ∈ net.adj x ∧ c.v = y) ∧ allowedSet.testBit y = true

/-- The subgraph induced by `set` is connected: every member is joined to `set.front()` by a
path of internal edges with both endpoints in `set`. -/
def TensorNetwork.InducedConnected (net : TensorNetwork) (set : BitSet) : Prop :=
  ∀ v, set.testBit v = true →
    Relation.ReflTransGen
      (fun a b => net.Adjacent a b ∧ set.testBit a = true ∧ set.testBit b = true)
      (BitSet.front set) v

/-- The number of allowed vertices not yet in `cum`. -/
def reachMeasure (allowedSet cum : BitSet) : Nat :=
  (BitSet.toFinset allowedSet \ BitSet.toFinset cum).card

theorem reachMeasure_mono {allowedSet c c' : BitSet} (h : BitSet.Sub c c') :
    reachMeasure allowedSet c' ≤ reachMeasure allowedSet c := by
  unfold reachMeasure
  apply Finset.card_le_card
  intro x hx
  rw [Finset.mem_sdiff, BitSet.mem_toFinset, BitSet.mem_toFinset] at hx ⊢
  exact ⟨hx.1, fun hc => hx.2 (h x hc)⟩

theorem reachMeasure_insert {allowedSet c : BitSet} {v : Nat} (hv : c.testBit v = false)
    (ha : allowedSet.testBit v = true) :
    reachMeasure allowedSet (c ||| BitSet.single v) < reachMeasure allowedSet c := by
  unfold reachMeasure
  apply Finset.card_lt_card
  rw [Finset.ssubset_iff_of_subset]
  · refine ⟨v, ?_, ?_⟩
    · rw [Finset.mem_sdiff, BitSet.mem_toFinset, BitSet.mem_toFinset]
      exact ⟨ha, by rw [hv]; simp⟩
    · rw [Finset.mem_sdiff, BitSet.mem_toFinset, BitSet.mem_toFinset]
      rintro ⟨_, h⟩
      apply h
      rw [Nat.testBit_lor, BitSet.testBit_single]
      simp
  · intro x hx
    rw [Finset.mem_sdiff, BitSet.mem_toFinset, BitSet.mem_toFinset] at hx ⊢
    refine ⟨hx.1, fun hc => hx.2 ?_⟩
    rw [Nat.testBit_lor, hc]; rfl
/-- What a call of `reach` on a vertex outside `cum` returns: `cum` grows by `u` and by
vertices reachable from `u`, and every new vertex has all its allowed neighbours in the
result. -/
structure ReachSpec (net : TensorNetwork) (allowedSet : BitSet) (u : Nat) (cum cum' : BitSet) :
    Prop where
  sub : BitSet.Sub (cum ||| BitSet.single u) cum'
  sound : ∀ x, cum'.testBit x = true →
    cum.testBit x = true ∨ Relation.ReflTransGen (ReachStep net allowedSet) u x
  closed : ∀ x, cum'.testBit x = true →
    cum.testBit x = true ∨ ∀ y, ReachStep net allowedSet x y → cum'.testBit y = true

theorem reachCells_spec (net : TensorNetwork) (allowedSet : BitSet) (fuel u : Nat)
    (ih : ∀ v c, c.testBit v = false → reachMeasure allowedSet (c ||| BitSet.single v) < fuel →
      ∃ c', reach net allowedSet fuel v c = some c' ∧ ReachSpec net allowedSet v c c') :
    ∀ (cells : List Cell) (c : BitSet), (∀ cell, cell ∈ cells → cell ∈ net.adj u) →
      reachMeasure allowedSet c ≤ fuel →
      ∃ c', reachCells allowedSet (reach net allowedSet fuel) cells c = some c' ∧
        BitSet.Sub c c' ∧
        (∀ x, c'.testBit x = true → c.testBit x = true ∨
          ∃ v, ReachStep net allowedSet u v ∧ Relation.ReflTransGen (ReachStep net allowedSet) v x) ∧
        (∀ x, c'.testBit x = true → c.testBit x = true ∨
          ∀ y, ReachStep net allowedSet x y → c'.testBit y = true) ∧
        (∀ cell, cell ∈ cells → allowedSet.testBit cell.v = true → c'.testBit cell.v = true) := by
  intro cells
  induction cells with
  | nil =>
    intro c _ _
    exact ⟨c, rfl, BitSet.Sub.refl c, fun x hx => Or.inl hx, fun x hx => Or.inl hx,
      fun cell h => by simp at h⟩
  | cons cell rest ihc =>
    intro c hmem hμ
    have hmem' : ∀ cell', cell' ∈ rest → cell' ∈ net.adj u :=
      fun cell' h => hmem cell' (by simp [h])
    rw [reachCells]
    by_cases hcond : ((!c.testBit cell.v) && allowedSet.testBit cell.v) = true
    · rw [if_pos hcond]
      simp only [Bool.and_eq_true, Bool.not_eq_true'] at hcond
      obtain ⟨hvc, hva⟩ := hcond
      have hstep : ReachStep net allowedSet u cell.v :=
        ⟨⟨cell, hmem cell (by simp), rfl⟩, hva⟩
      obtain ⟨c1, hc1, hspec⟩ := ih cell.v c hvc
        (lt_of_lt_of_le (reachMeasure_insert hvc hva) hμ)
      have hsub1 : BitSet.Sub c c1 := (BitSet.sub_lor_left c _).trans hspec.sub
      obtain ⟨c', hc', hsub, hsound, hclosed, hcells⟩ :=
        ihc c1 hmem' (le_trans (reachMeasure_mono hsub1) hμ)
      rw [hc1]
      refine ⟨c', hc', hsub1.trans hsub, ?_, ?_, ?_⟩
      · intro x hx
        rcases hsound x hx with h | h
        · rcases hspec.sound x h with h' | h'
          · exact Or.inl h'
          · exact Or.inr ⟨cell.v, hstep, h'⟩
        · exact Or.inr h
      · intro x hx
        rcases hclosed x hx with h | h
        · rcases hspec.closed x h with h' | h'
          · exact Or.inl h'
          · exact Or.inr (fun y hy => hsub y (h' y hy))
        · exact Or.inr h
      · intro cell' hcell' ha
        rcases List.mem_cons.1 hcell' with rfl | h
        · apply hsub
          apply hspec.sub
          rw [Nat.testBit_lor, BitSet.testBit_single]
          simp
        · exact hcells cell' h ha
    · rw [if_neg hcond]
      obtain ⟨c', hc', hsub, hsound, hclosed, hcells⟩ := ihc c hmem' hμ
      refine ⟨c', hc', hsub, hsound, hclosed, ?_⟩
      intro cell' hcell' ha
      rcases List.mem_cons.1 hcell' with rfl | h
      · apply hsub
        simp only [Bool.and_eq_true, Bool.not_eq_true', not_and, Bool.not_eq_true] at hcond
        cases hc : c.testBit cell'.v with
        | true => rfl
        | false => have := hcond hc; rw [ha] at this; cases this
      · exact hcells cell' h ha

/-- With enough fuel `reach` returns, and its result satisfies `ReachSpec`. -/
theorem reach_spec (net : TensorNetwork) (allowedSet : BitSet) :
    ∀ (fuel u : Nat) (cum : BitSet), cum.testBit u = false →
      reachMeasure allowedSet (cum ||| BitSet.single u) < fuel →
      ∃ cum', reach net allowedSet fuel u cum = some cum' ∧
        ReachSpec net allowedSet u cum cum' := by
  intro fuel
  induction fuel with
  | zero => intro u cum _ h; omega
  | succ fuel ih =>
    intro u cum hu hμ
    obtain ⟨c', hc', hsub, hsound, hclosed, hcells⟩ :=
      reachCells_spec net allowedSet fuel u ih (net.adj u) (cum ||| BitSet.single u)
        (fun _ h => h) (by omega)
    refine ⟨c', ?_, hsub, ?_, ?_⟩
    · rw [reach]
      simp only [BitSet.insert, hu, Bool.false_eq_true, if_false]
      exact hc'
    · intro x hx
      rcases hsound x hx with h | ⟨v, hv, hpath⟩
      · rw [Nat.testBit_lor, BitSet.testBit_single, Bool.or_eq_true, decide_eq_true_eq] at h
        rcases h with h | h
        · exact Or.inl h
        · subst h; exact Or.inr Relation.ReflTransGen.refl
      · exact Or.inr (Relation.ReflTransGen.head hv hpath)
    · intro x hx
      rcases hclosed x hx with h | h
      · rw [Nat.testBit_lor, BitSet.testBit_single, Bool.or_eq_true, decide_eq_true_eq] at h
        rcases h with h | h
        · exact Or.inl h
        · subst h
          right
          rintro y ⟨⟨cell, hcell, rfl⟩, hy⟩
          exact hcells cell hcell hy
      · exact Or.inr h
theorem front_mem {S : BitSet} (h : S ≠ 0) : S.testBit (BitSet.front S) = true := by
  unfold BitSet.front
  cases hl : BitSet.toList S with
  | nil => exact absurd (BitSet.eq_zero_of_toList hl) h
  | cons a l =>
    rw [← BitSet.mem_toList, hl]
    simp

theorem reachStep_iff (net : TensorNetwork) (S : BitSet) (x y : Nat) :
    ReachStep net S x y ↔ net.Adjacent x y ∧ S.testBit y = true := by
  unfold ReachStep TensorNetwork.Adjacent
  constructor
  · rintro ⟨⟨c, hc, rfl⟩, hy⟩
    rw [mem_adj] at hc
    obtain ⟨e, he, _, h⟩ := hc
    refine ⟨⟨e, he, ?_⟩, hy⟩
    rcases h with ⟨h1, h2⟩ | ⟨h1, h2⟩
    · left; rw [← h1, h2]
    · right; rw [← h1, h2]
  · rintro ⟨⟨e, he, h⟩, hy⟩
    refine ⟨?_, hy⟩
    rcases h with h | h
    · exact ⟨⟨y, e⟩, (mem_adj net x _).2 ⟨e, he, rfl, Or.inl ⟨by rw [h], by rw [h]⟩⟩, rfl⟩
    · exact ⟨⟨y, e⟩, (mem_adj net x _).2 ⟨e, he, rfl, Or.inr ⟨by rw [h], by rw [h]⟩⟩, rfl⟩

/-- With an empty `cum` the result of `reach` is the set of the vertices joined to the start
by a path inside the allowed set. -/
theorem reach_zero (net : TensorNetwork) (S : BitSet) (hS : S ≠ 0) :
    ∃ cum, reach net S (BitSet.size S + 1) (BitSet.front S) 0 = some cum ∧
      ∀ v, cum.testBit v = true ↔
        Relation.ReflTransGen
          (fun a b => net.Adjacent a b ∧ S.testBit a = true ∧ S.testBit b = true)
          (BitSet.front S) v := by
  have hfront := front_mem hS
  have hμ : reachMeasure S (0 ||| BitSet.single (BitSet.front S)) < BitSet.size S + 1 := by
    rw [BitSet.size_eq_card, Nat.lt_succ_iff]
    exact Finset.card_le_card Finset.sdiff_subset
  obtain ⟨cum, hcum, hspec⟩ := reach_spec net S _ (BitSet.front S) 0 (Nat.zero_testBit _) hμ
  refine ⟨cum, hcum, fun v => ⟨?_, ?_⟩⟩
  · intro hv
    rcases hspec.sound v hv with h | h
    · rw [Nat.zero_testBit] at h; cases h
    · have : ∀ x, Relation.ReflTransGen (ReachStep net S) (BitSet.front S) x →
          S.testBit x = true ∧ Relation.ReflTransGen
            (fun a b => net.Adjacent a b ∧ S.testBit a = true ∧ S.testBit b = true)
            (BitSet.front S) x := by
        intro x hx
        induction hx with
        | refl => exact ⟨hfront, Relation.ReflTransGen.refl⟩
        | tail _ hbc ih =>
          rw [reachStep_iff] at hbc
          exact ⟨hbc.2, Relation.ReflTransGen.tail ih.2 ⟨hbc.1, ih.1, hbc.2⟩⟩
      exact (this v h).2
  · intro hpath
    induction hpath with
    | refl =>
      apply hspec.sub
      rw [Nat.testBit_lor, BitSet.testBit_single]
      simp
    | tail _ hbc ih =>
      rcases hspec.closed _ ih with h | h
      · rw [Nat.zero_testBit] at h; cases h
      · exact h _ ((reachStep_iff net S _ _).2 ⟨hbc.1, hbc.2.2⟩)

/-- C17 (isConnected).  For every non-empty vertex set `S` the recursion of `reach` ends and
`isConnected(S)` returns `true` iff the subgraph induced by `S` is connected, i.e. every
vertex of `S` is joined to `S.front()` by a path of edges with both endpoints in `S`. -/
theorem isConnected_spec (net : TensorNetwork) (S : BitSet) (hS : S ≠ 0) :
    ∃ b, net.isConnected S = some b ∧ (b = true ↔ net.InducedConnected S) := by
  obtain ⟨cum, hcum, hmem⟩ := reach_zero net S hS
  refine ⟨decide (S &&& cum = S), ?_, ?_⟩
  · unfold TensorNetwork.isConnected
    rw [hcum]
  · rw [decide_eq_true_eq]
    unfold TensorNetwork.InducedConnected
    constructor
    · intro h v hv
      apply (hmem v).1
      have := congrArg (fun s => Nat.testBit s v) h
      simp only [Nat.testBit_land, hv, Bool.true_and] at this
      exact this
    · intro h
      apply Nat.eq_of_testBit_eq
      intro i
      rw [Nat.testBit_land]
      cases hi : S.testBit i with
      | false => rfl
      | true => rw [(hmem i).2 (h i hi)]; rfl

/-- The statement of `isConnected_spec` on the triangle and the set `{0, 1, 2}`. -/
theorem isConnected_spec_witness :
    ∃ b, triangle.isConnected 7 = some b ∧ (b = true ↔ triangle.InducedConnected 7) :=
  isConnected_spec triangle 7 (by decide)

/-! ## The entry point -/

/-- The five algorithms `optimize` dispatches to, each as the result it returns on a network
(`none` for a failed assertion); the parallel ones also take the number of threads. -/
structure Algorithms where
  runTensorIKKBZ : TensorNetwork → Option (PlanCache × BitSet)
  runLinDP : TensorNetwork → Option (PlanCache × BitSet)
  runGreedy : TensorNetwork → Option (PlanCache × BitSet)
  runParallelTensorIKKBZ : TensorNetwork → Nat → Option (PlanCache × BitSet)
  runParallelLinDP : TensorNetwork → Nat → Option (PlanCache × BitSet)

/-- The function `Optimizer::optimize(algorithm, numThreads)`: the assertion
`isConnected(fill(n))` and then the dispatch on the name of the algorithm; an unknown name
ends in `assert(0)`. -/
def optimize (algs : Algorithms) (net : TensorNetwork) (algorithm : String) (numThreads : Nat) :
    Option (PlanCache × BitSet) :=
  match net.isConnected (BitSet.fill net.n) with
  | some true =>
    if algorithm = "tensor-ikkbz" then algs.runTensorIKKBZ net
    else if algorithm = "lindp" then algs.runLinDP net
    else if algorithm = "greedy" then algs.runGreedy net
    else if algorithm = "tensor-ikkbz-parallel" then algs.runParallelTensorIKKBZ net numThreads
    else if algorithm = "lindp-parallel" then algs.runParallelLinDP net numThreads
    else none
  | _ => none

/-- Two vertices and no edge. -/
def twoIsolated : TensorNetwork := ⟨2, 0, [⟨1, (0, 0)⟩, ⟨1, (0, 0)⟩], [1, 1]⟩

theorem adjacent_symm (net : TensorNetwork) : Symmetric net.Adjacent := by
  rintro a b ⟨e, he, h⟩
  exact ⟨e, he, h.symm⟩

/-- On the full vertex set the induced subgraph is the graph itself. -/
theorem inducedConnected_fill (net : TensorNetwork) (hnet : net.WellFormed) (hn : 0 < net.n) :
    net.InducedConnected (BitSet.fill net.n) ↔ net.Connected := by
  have hfront : BitSet.front (BitSet.fill net.n) = 0 := by
    unfold BitSet.front
    rw [BitSet.toList_fill]
    obtain ⟨k, hk⟩ : ∃ k, net.n = k + 1 := ⟨net.n - 1, by omega⟩
    rw [hk, List.range_succ_eq_map]
    rfl
  unfold TensorNetwork.InducedConnected TensorNetwork.Connected
  rw [hfront]
  constructor
  · intro h u v hu hv
    have h0 : ∀ x, x < net.n → Relation.ReflTransGen net.Adjacent 0 x := by
      intro x hx
      have := h x (by rw [BitSet.testBit_fill]; simpa using hx)
      exact Relation.ReflTransGen.mono (fun a b hab => hab.1) this
    exact ((Relation.ReflTransGen.symmetric (adjacent_symm net)) (h0 u hu)).trans (h0 v hv)
  · intro h v hv
    rw [BitSet.testBit_fill, decide_eq_true_eq] at hv
    refine Relation.ReflTransGen.mono ?_ (h 0 v hn hv)
    rintro a b ⟨e, he, hcase⟩
    have hends := hnet.2.2.1 e he
    refine ⟨⟨e, he, hcase⟩, ?_, ?_⟩
    · rw [BitSet.testBit_fill, decide_eq_true_eq]
      rcases hcase with h | h <;> rw [h] at hends
      · exact hends.1
      · exact hends.2
    · rw [BitSet.testBit_fill, decide_eq_true_eq]
      rcases hcase with h | h <;> rw [h] at hends
      · exact hends.2
      · exact hends.1

theorem fill_ne_zero {n : Nat} (hn : 0 < n) : BitSet.fill n ≠ 0 := by
  intro h
  have := BitSet.testBit_fill n 0
  rw [h, Nat.zero_testBit] at this
  simp [hn] at this

/-- C18 (optimize rejects disconnected input).  When the graph of the network is not
connected the assertion `isConnected(fill(n))` of `optimize` fails, whatever the algorithms
and the name passed; when it is connected the assertion passes. -/
theorem optimize_rejects_disconnected (net : TensorNetwork) (hnet : net.WellFormed)
    (hn : 0 < net.n) :
    (¬ net.Connected → net.isConnected (BitSet.fill net.n) = some false ∧
      ∀ algs algorithm numThreads, optimize algs net algorithm numThreads = none) ∧
    (net.Connected → net.isConnected (BitSet.fill net.n) = some true) := by
  obtain ⟨b, hb, hiff⟩ := isConnected_spec net (BitSet.fill net.n) (fill_ne_zero hn)
  rw [inducedConnected_fill net hnet hn] at hiff
  constructor
  · intro hnc
    have hbf : b = false := by
      cases b with
      | false => rfl
      | true => exact absurd (hiff.1 rfl) hnc
    subst hbf
    refine ⟨hb, ?_⟩
    intro algs algorithm numThreads
    unfold optimize
    rw [hb]
  · intro hc
    rw [hb, hiff.2 hc]

theorem twoIsolated_wellFormed : twoIsolated.WellFormed := by
  refine ⟨rfl, rfl, by decide, ?_, ?_⟩
  · intro v hv
    have : v = 0 ∨ v = 1 := by
      have : v < 2 := hv
      omega
    rcases this with rfl | rfl <;> rfl
  · intro e
    unfold TensorNetwork.legDim
    by_cases he : e < 2
    · have : e = 0 ∨ e = 1 := by omega
      rcases this with rfl | rfl <;> simp [twoIsolated]
    · rw [List.getD_eq_default _ _ (by simp [twoIsolated]; omega)]
      norm_num

theorem twoIsolated_not_connected : ¬ twoIsolated.Connected := by
  intro h
  have hpath := h 0 1 (by decide) (by decide)
  rcases Relation.ReflTransGen.cases_tail hpath with h1 | ⟨b, _, e, he, _⟩
  · cases h1
  · exact absurd he (Nat.not_lt_zero e)

/-- The statement of `optimize_rejects_disconnected` on the network of two vertices without
an edge, which is rejected, and on the triangle, which passes. -/
theorem optimize_rejects_disconnected_witness :
    (twoIsolated.isConnected (BitSet.fill twoIsolated.n) = some false ∧
      ∀ algs algorithm numThreads, optimize algs twoIsolated algorithm numThreads = none) ∧
    triangle.isConnected (BitSet.fill triangle.n) = some true :=
  ⟨(optimize_rejects_disconnected twoIsolated twoIsolated_wellFormed (by decide)).1
      twoIsolated_not_connected,
   (optimize_rejects_disconnected triangle triangle_wellFormed (by decide)).2
      triangle_connected⟩

/-! ## The recursive bit-sets and their iterators -/

/-- The template `BitSet<N>`: `BitSet<0>` stores one `uint64_t`, and `BitSet<N + 1>` stores
the halves `set1` (low) and `set2` (high), each a `BitSet<N>`. -/
inductive BitSetN : Nat → Type where
  | word (set : Nat) : BitSetN 0
  | pair {N : Nat} (set1 set2 : BitSetN N) : BitSetN (N + 1)
  deriving DecidableEq

namespace BitSetN

/-- The number of bits of `BitSet<N>`, which is the constant `half` of `BitSet<N + 1>`. -/
def capacity (N : Nat) : Nat := 2 ^ (N + 6)

/-- The number of trailing zero bits among the lowest `fuel` bits of `set`. -/
def ctzAux : Nat → Nat → Nat
  | 0, _ => 0
  | fuel + 1, set => if set % 2 = 1 then 0 else 1 + ctzAux fuel (set / 2)

/-- The builtin `__builtin_ctzll`. -/
def ctzll (set : Nat) : Nat := ctzAux 64 set

/-- The number of binary digits of `set`, at most `fuel`. -/
def bitLength : Nat → Nat → Nat
  | 0, _ => 0
  | fuel + 1, set => if set = 0 then 0 else 1 + bitLength fuel (set / 2)

/-- The builtin `__builtin_clzll`: the number of leading zero bits of a 64-bit word. -/
def clzll (set : Nat) : Nat := 64 - bitLength 64 set

/-- The test `empty()`. -/
def empty : {N : Nat} → BitSetN N → Bool
  | _, word set => decide (set = 0)
  | _, pair set1 set2 => empty set1 && empty set2

/-- The function `fill(n)`; the assertion `n <= 2 * half` is not modelled. -/
def fill : (N : Nat) → Nat → BitSetN N
  | 0, n => word (if n ≥ 64 then 2 ^ 64 - 1 else (1 <<< n) - 1)
  | N + 1, n =>
    pair (fill N (if n ≥ capacity N then capacity N else n))
      (fill N (if n ≥ capacity N then n - capacity N else 0))

/-- The function `min()`; `none` stands for the failed assertion `!empty()`. -/
def min : {N : Nat} → BitSetN N → Option Nat
  | _, word set => some (ctzll set)
  | _, @pair N set1 set2 =>
    if empty set1 && empty set2 then none
    else if !empty set1 then min set1 else (min set2).map (fun x => x + capacity N)

/-- The function `max()`; `none` stands for the failed assertion `!empty()`. -/
def max : {N : Nat} → BitSetN N → Option Nat
  | _, word set => some (63 - clzll set)
  | _, @pair N set1 set2 =>
    if empty set1 && empty set2 then none
    else if !empty set2 then (max set2).map (fun x => x + capacity N) else max set1

/-- The membership test `count(v)`. -/
def count : {N : Nat} → BitSetN N → Nat → Bool
  | _, word set, v => decide (set &&& ((1 <<< v) % 2 ^ 64) ≠ 0)
  | _, @pair N set1 set2, v =>
    if v < capacity N then count set1 v else count set2 (v - capacity N)

/-- The function `decrement()`; `none` stands for a failed assertion. -/
def decrement : {N : Nat} → BitSetN N → Option (BitSetN N)
  | _, word set => if set = 0 then none else some (word ((set + 2 ^ 64 - 1) % 2 ^ 64))
  | _, @pair N set1 set2 =>
    if !empty set1 then (decrement set1).map (fun d => pair d set2)
    else if empty set2 then none
    else (decrement set2).map (fun d => pair (fill N (capacity N)) d)

/-- The operator `&` (and `&=`) on two bit-sets. -/
def land : {N : Nat} → BitSetN N → BitSetN N → BitSetN N
  | _, word a, word b => word (a &&& b)
  | _, pair a1 a2, pair b1 b2 => pair (land a1 b1) (land a2 b2)

/-- The operator `-=(unsigned index)`; `none` stands for a failed assertion. -/
def erase : {N : Nat} → BitSetN N → Nat → Option (BitSetN N)
  | _, word set, index =>
    if count (word set) index then some (word (set ^^^ ((1 <<< index) % 2 ^ 64))) else none
  | _, @pair N set1 set2, index =>
    if count (pair set1 set2) index = true ∧ index ≠ NIL then
      if index < capacity N then (erase set1 index).map (fun d => pair d set2)
      else (erase set2 (index - capacity N)).map (fun d => pair set1 d)
    else none

/-- The operator `!=`. -/
def ne : {N : Nat} → BitSetN N → BitSetN N → Bool
  | _, word a, word b => decide (a ≠ b)
  | _, pair a1 a2, pair b1 b2 => ne a1 b1 || ne a2 b2

/-- The iterator `end()` (and `rend()`): `iterator(0)` for `BitSet<0>`, and
`iterator(bitset_t::fill(0), bitset_t::fill(0))` otherwise. -/
def iterEnd : (N : Nat) → BitSetN N
  | 0 => word 0
  | N + 1 => pair (fill N 0) (fill N 0)

/-- The operator `++` of `iterator`, on the state of the iterator. -/
def iterNext : {N : Nat} → BitSetN N → Option (BitSetN N)
  | _, word set => some (word (set &&& ((set + 2 ^ 64 - 1) % 2 ^ 64)))
  | _, pair set1 set2 =>
    if !empty set1 then (decrement set1).map (fun d => pair (land set1 d) set2)
    else (decrement set2).map (fun d => pair set1 (land set2 d))

/-- The operator `++` of `reverse_iterator`, on the state of the iterator. -/
def reverseNext : {N : Nat} → BitSetN N → Option (BitSetN N)
  | _, word set => some (word (set ^^^ ((1 <<< (63 - clzll set)) % 2 ^ 64)))
  | _, pair set1 set2 =>
    if !empty set2 then
      match max set2 with
      | none => none
      | some index => (erase set2 index).map (fun d => pair set1 d)
    else
      match max set1 with
      | none => none
      | some index => (erase set1 index).map (fun d => pair d set2)

/-- The loop `for (it = begin(); it != end(); ++it)` collecting `*it`; `fuel` bounds the
number of rounds. -/
def forwardLoop {N : Nat} : Nat → BitSetN N → Option (List Nat)
  | 0, _ => none
  | fuel + 1, it =>
    if ne it (iterEnd N) then
      match min it, iterNext it with
      | some v, some it1 => (forwardLoop fuel it1).map (fun l => v :: l)
      | _, _ => none
    else some []

/-- The loop `for (it = rbegin(); it != rend(); ++it)` collecting `*it`. -/
def reverseLoop {N : Nat} : Nat → BitSetN N → Option (List Nat)
  | 0, _ => none
  | fuel + 1, it =>
    if ne it (iterEnd N) then
      match max it, reverseNext it with
      | some v, some it1 => (reverseLoop fuel it1).map (fun l => v :: l)
      | _, _ => none
    else some []

/-- Forward iteration over `s`, from `begin()` to `end()`. -/
def forward {N : Nat} (s : BitSetN N) : Option (List Nat) := forwardLoop (capacity N + 1) s

/-- Reverse iteration over `s`, from `rbegin()` to `rend()`. -/
def reverse {N : Nat} (s : BitSetN N) : Option (List Nat) := reverseLoop (capacity N + 1) s

/-- Every stored word is a `uint64_t`. -/
def Valid : {N : Nat} → BitSetN N → Prop
  | _, word set => set < 2 ^ 64
  | _, pair set1 set2 => Valid set1 ∧ Valid set2

/-- The numeral whose binary digits are the membership flags. -/
def toNat : {N : Nat} → BitSetN N → Nat
  | _, word set => set
  | _, @pair N set1 set2 => toNat set1 + 2 ^ capacity N * toNat set2

end BitSetN
/-- The bit `k` is the lowest set bit of `v`. -/
def IsLowest (v k : Nat) : Prop := v.testBit k = true ∧ ∀ j, j < k → v.testBit j = false

/-- The bit `k` is the highest set bit of `v`. -/
def IsHighest (v k : Nat) : Prop := v.testBit k = true ∧ ∀ j, k < j → v.testBit j = false

theorem ctzAux_spec : ∀ (fuel v : Nat), v ≠ 0 → v < 2 ^ fuel →
    IsLowest v (BitSetN.ctzAux fuel v) := by
  intro fuel
  induction fuel with
  | zero => intro v h0 hlt; simp at hlt; exact absurd hlt h0
  | succ fuel ih =>
    intro v h0 hlt
    rw [BitSetN.ctzAux]
    by_cases hodd : v % 2 = 1
    · rw [if_pos hodd]
      exact ⟨by rw [Nat.testBit_zero]; simp [hodd], fun j hj => absurd hj (Nat.not_lt_zero j)⟩
    · rw [if_neg hodd]
      have h2 : v / 2 ≠ 0 := by omega
      have hlt2 : v / 2 < 2 ^ fuel := by rw [pow_succ] at hlt; omega
      obtain ⟨h1, hlow⟩ := ih (v / 2) h2 hlt2
      refine ⟨?_, ?_⟩
      · rw [Nat.add_comm, Nat.testBit_succ]; exact h1
      · intro j hj
        cases j with
        | zero => rw [Nat.testBit_zero]; simp [hodd]
        | succ j => rw [Nat.testBit_succ]; exact hlow j (by omega)

theorem testBit_pred : ∀ (k v : Nat), v ≠ 0 → IsLowest v k → ∀ i,
    (v - 1).testBit i = if i < k then true else if i = k then false else v.testBit i := by
  intro k
  induction k with
  | zero =>
    intro v h0 ⟨h1, _⟩ i
    rw [Nat.testBit_zero, decide_eq_true_eq] at h1
    cases i with
    | zero => rw [Nat.testBit_zero]; simp; omega
    | succ i =>
      rw [Nat.testBit_succ, Nat.testBit_succ]
      have : (v - 1) / 2 = v / 2 := by omega
      rw [this]; simp
  | succ k ih =>
    intro v h0 ⟨h1, hlow⟩ i
    have heven : v % 2 = 0 := by
      have := hlow 0 (by omega)
      rw [Nat.testBit_zero] at this
      simp at this
      omega
    have hw0 : v / 2 ≠ 0 := by omega
    have hw : IsLowest (v / 2) k := by
      refine ⟨by rw [← Nat.testBit_succ]; exact h1, fun j hj => ?_⟩
      rw [← Nat.testBit_succ]; exact hlow (j + 1) (by omega)
    cases i with
    | zero => rw [Nat.testBit_zero]; simp; omega
    | succ i =>
      rw [Nat.testBit_succ, Nat.testBit_succ]
      have : (v - 1) / 2 = v / 2 - 1 := by omega
      rw [this, ih (v / 2) hw0 hw i]
      simp only [Nat.add_lt_add_iff_right, Nat.add_right_cancel_iff]

/-- The operation `x & (x - 1)` clears the lowest set bit. -/
theorem testBit_land_pred {v k : Nat} (h0 : v ≠ 0) (hk : IsLowest v k) (i : Nat) :
    (v &&& (v - 1)).testBit i = (v.testBit i && decide (i ≠ k)) := by
  rw [Nat.testBit_land, testBit_pred k v h0 hk i]
  by_cases h1 : i < k
  · rw [if_pos h1, hk.2 i h1]; rfl
  · rw [if_neg h1]
    by_cases h2 : i = k
    · rw [if_pos h2]; simp [h2]
    · rw [if_neg h2]; simp [h2]

/-- The operation `x ^ (1 << k)` clears the set bit `k`. -/
theorem testBit_xor_two_pow {v k : Nat} (hk : v.testBit k = true) (i : Nat) :
    (v ^^^ 2 ^ k).testBit i = (v.testBit i && decide (i ≠ k)) := by
  rw [Nat.testBit_xor, Nat.testBit_two_pow]
  by_cases h : k = i
  · subst h; simp [hk]
  · have h' : ¬ i = k := fun e => h e.symm
    simp [h, h']

theorem bitLength_zero (fuel : Nat) : BitSetN.bitLength fuel 0 = 0 := by
  cases fuel <;> simp [BitSetN.bitLength]

theorem bitLength_spec : ∀ (fuel v : Nat), v ≠ 0 → v < 2 ^ fuel →
    1 ≤ BitSetN.bitLength fuel v ∧ BitSetN.bitLength fuel v ≤ fuel ∧
      v.testBit (BitSetN.bitLength fuel v - 1) = true ∧ v < 2 ^ BitSetN.bitLength fuel v := by
  intro fuel
  induction fuel with
  | zero => intro v h0 hlt; simp at hlt; exact absurd hlt h0
  | succ fuel ih =>
    intro v h0 hlt
    rw [BitSetN.bitLength, if_neg h0]
    by_cases h2 : v / 2 = 0
    · have hv1 : v = 1 := by omega
      subst hv1
      simp [bitLength_zero]
    · have hlt2 : v / 2 < 2 ^ fuel := by rw [pow_succ] at hlt; omega
      obtain ⟨hb1, hb2, hb3, hb4⟩ := ih (v / 2) h2 hlt2
      refine ⟨by omega, by omega, ?_, ?_⟩
      · have : 1 + BitSetN.bitLength fuel (v / 2) - 1 =
            (BitSetN.bitLength fuel (v / 2) - 1) + 1 := by omega
        rw [this, Nat.testBit_succ]; exact hb3
      · rw [Nat.add_comm, pow_succ]; omega

/-- The value `63 - clzll(v)` is the highest set bit of a non-zero word. -/
theorem clzll_spec {v : Nat} (h0 : v ≠ 0) (hlt : v < 2 ^ 64) :
    IsHighest v (63 - BitSetN.clzll v) ∧ 63 - BitSetN.clzll v < 64 := by
  obtain ⟨hb1, hb2, hb3, hb4⟩ := bitLength_spec 64 v h0 hlt
  have : 63 - BitSetN.clzll v = BitSetN.bitLength 64 v - 1 := by
    unfold BitSetN.clzll; omega
  rw [this]
  refine ⟨⟨hb3, fun j hj => ?_⟩, by omega⟩
  apply Nat.testBit_lt_two_pow
  exact lt_of_lt_of_le hb4 (Nat.pow_le_pow_right (by omega) (by omega))

theorem size_le_of_lt_two_pow {v c : Nat} (h : v < 2 ^ c) : BitSet.size v ≤ c := by
  rw [BitSet.size_eq_card]
  have : BitSet.toFinset v ⊆ Finset.range c := by
    intro x hx
    rw [BitSet.mem_toFinset] at hx
    rw [Finset.mem_range]
    by_contra hge
    have := Nat.testBit_lt_two_pow (lt_of_lt_of_le h (Nat.pow_le_pow_right (by omega)
      (not_lt.1 hge)))
    rw [hx] at this; cases this
  calc (BitSet.toFinset v).card ≤ (Finset.range c).card := Finset.card_le_card this
    _ = c := Finset.card_range c

/-- Removing the lowest member: the ascending list of the members starts with it. -/
theorem toList_of_lowest {v v' k : Nat} (hk : IsLowest v k)
    (hbits : ∀ i, v'.testBit i = (v.testBit i && decide (i ≠ k))) :
    BitSet.toList v = k :: BitSet.toList v' := by
  apply BitSet.toList_eq_of_mem
  · rw [List.pairwise_cons]
    refine ⟨?_, BitSet.toList_sorted v'⟩
    intro x hx
    rw [BitSet.mem_toList, hbits] at hx
    simp only [Bool.and_eq_true, decide_eq_true_eq] at hx
    by_contra hle
    have hlt : x < k := by omega
    rw [hk.2 x hlt] at hx
    exact absurd hx.1 (by simp)
  · intro x
    rw [List.mem_cons, BitSet.mem_toList, hbits]
    simp only [Bool.and_eq_true, decide_eq_true_eq]
    constructor
    · rintro (rfl | h)
      · exact hk.1
      · exact h.1
    · intro h
      by_cases hxk : x = k
      · exact Or.inl hxk
      · exact Or.inr ⟨h, hxk⟩

/-- Removing the highest member: the descending list of the members starts with it. -/
theorem toList_of_highest {v v' k : Nat} (hk : IsHighest v k)
    (hbits : ∀ i, v'.testBit i = (v.testBit i && decide (i ≠ k))) :
    (BitSet.toList v).reverse = k :: (BitSet.toList v').reverse := by
  have : BitSet.toList v = BitSet.toList v' ++ [k] := by
    apply BitSet.toList_eq_of_mem
    · rw [List.pairwise_append]
      refine ⟨BitSet.toList_sorted v', List.pairwise_singleton _ _, ?_⟩
      intro x hx y hy
      rw [List.mem_singleton] at hy
      subst hy
      rw [BitSet.mem_toList, hbits] at hx
      simp only [Bool.and_eq_true, decide_eq_true_eq] at hx
      by_contra hle
      have hlt : y < x := by omega
      rw [hk.2 x hlt] at hx
      exact absurd hx.1 (by simp)
    · intro x
      rw [List.mem_append, List.mem_singleton, BitSet.mem_toList, hbits]
      simp only [Bool.and_eq_true, decide_eq_true_eq]
      constructor
      · rintro (h | rfl)
        · exact h.1
        · exact hk.1
      · intro h
        by_cases hxk : x = k
        · exact Or.inr hxk
        · exact Or.inl ⟨h, hxk⟩
  rw [this, List.reverse_append]
  rfl
namespace BitSetN

theorem capacity_succ (N : Nat) : capacity (N + 1) = capacity N + capacity N := by
  unfold capacity
  rw [show N + 1 + 6 = (N + 6) + 1 from by omega, pow_succ]
  omega

theorem capacity_pos (N : Nat) : 0 < capacity N := by
  unfold capacity; positivity

theorem toNat_lt {N : Nat} (s : BitSetN N) : s.Valid → s.toNat < 2 ^ capacity N := by
  induction s with
  | word set => intro h; exact h
  | @pair N a b iha ihb =>
    intro h
    have ha := iha h.1
    have hb := ihb h.2
    rw [capacity_succ, pow_add]
    show a.toNat + 2 ^ capacity N * b.toNat < _
    have : 2 ^ capacity N * (b.toNat + 1) ≤ 2 ^ capacity N * 2 ^ capacity N :=
      Nat.mul_le_mul_left _ hb
    rw [Nat.mul_succ] at this
    omega

theorem testBit_toNat_pair {N : Nat} (a b : BitSetN N) (ha : a.Valid) (i : Nat) :
    (toNat (pair a b)).testBit i =
      if i < capacity N then a.toNat.testBit i else b.toNat.testBit (i - capacity N) := by
  show (a.toNat + 2 ^ capacity N * b.toNat).testBit i = _
  rw [Nat.add_comm]
  exact Nat.testBit_mul_pow_two_add _ (toNat_lt a ha) i

theorem empty_iff {N : Nat} (s : BitSetN N) : s.empty = true ↔ s.toNat = 0 := by
  induction s with
  | word set => simp [empty, toNat]
  | @pair N a b iha ihb =>
    simp only [empty, toNat, Bool.and_eq_true, iha, ihb, Nat.add_eq_zero_iff, mul_eq_zero]
    constructor
    · rintro ⟨h1, h2⟩; exact ⟨h1, Or.inr h2⟩
    · rintro ⟨h1, h2 | h2⟩
      · exact absurd h2 (by positivity)
      · exact ⟨h1, h2⟩

theorem empty_eq_false_iff {N : Nat} (s : BitSetN N) : s.empty = false ↔ s.toNat ≠ 0 := by
  rw [Ne, ← empty_iff]; simp

theorem fill_spec : ∀ (N n : Nat), n ≤ capacity N →
    (fill N n).Valid ∧ (fill N n).toNat = 2 ^ n - 1 := by
  intro N
  induction N with
  | zero =>
    intro n hn
    have hn' : n ≤ 64 := hn
    simp only [fill, Valid, toNat]
    by_cases h : n ≥ 64
    · rw [if_pos h]
      have : n = 64 := by omega
      subst this
      exact ⟨by norm_num, rfl⟩
    · rw [if_neg h, Nat.one_shiftLeft]
      refine ⟨?_, rfl⟩
      have : 2 ^ n < 2 ^ 64 := Nat.pow_lt_pow_right (by omega) (by omega)
      omega
  | succ N ih =>
    intro n hn
    rw [capacity_succ] at hn
    simp only [fill, Valid, toNat]
    by_cases h : n ≥ capacity N
    · rw [if_pos h, if_pos h]
      obtain ⟨h1, h2⟩ := ih (capacity N) (le_refl _)
      obtain ⟨h3, h4⟩ := ih (n - capacity N) (by omega)
      refine ⟨⟨h1, h3⟩, ?_⟩
      rw [h2, h4]
      have hp : 2 ^ n = 2 ^ capacity N * 2 ^ (n - capacity N) := by
        rw [← pow_add]; congr 1; omega
      have h5 : 0 < 2 ^ (n - capacity N) := by positivity
      have h6 : 0 < 2 ^ capacity N := by positivity
      rw [hp, Nat.mul_sub, Nat.mul_one]
      have h7 : 2 ^ capacity N ≤ 2 ^ capacity N * 2 ^ (n - capacity N) :=
        Nat.le_mul_of_pos_right _ h5
      omega
    · rw [if_neg h, if_neg h]
      obtain ⟨h1, h2⟩ := ih n (by omega)
      obtain ⟨h3, h4⟩ := ih 0 (by omega)
      refine ⟨⟨h1, h3⟩, ?_⟩
      rw [h2, h4]
      simp

theorem ne_fill_zero {N : Nat} (s : BitSetN N) : ne s (fill N 0) = !empty s := by
  induction s with
  | word set => simp [ne, fill, empty]
  | @pair N a b iha ihb =>
    have hc := capacity_pos N
    have h : ¬ 0 ≥ capacity N := by omega
    simp only [fill, if_neg h, ne, iha, ihb, empty, Bool.not_and]

theorem ne_iterEnd {N : Nat} (s : BitSetN N) : ne s (iterEnd N) = !empty s := by
  cases s with
  | word set => simp [ne, iterEnd, empty]
  | @pair N a b => simp only [iterEnd, ne, ne_fill_zero, empty, Bool.not_and]

theorem land_two_pow_ne_zero (w v : Nat) : w &&& 2 ^ v ≠ 0 ↔ w.testBit v = true := by
  constructor
  · intro h
    by_contra hf
    apply h
    apply Nat.eq_of_testBit_eq
    intro i
    rw [Nat.testBit_land, Nat.testBit_two_pow, Nat.zero_testBit]
    by_cases hvi : v = i
    · subst hvi; simp [hf]
    · simp [hvi]
  · intro h h0
    have := congrArg (fun x => Nat.testBit x v) h0
    simp [Nat.testBit_land, h] at this

theorem two_pow_mod_word {v : Nat} (hv : v < 64) : (1 <<< v) % 2 ^ 64 = 2 ^ v := by
  rw [Nat.one_shiftLeft]
  exact Nat.mod_eq_of_lt (Nat.pow_lt_pow_right (by omega) hv)

theorem count_eq {N : Nat} (s : BitSetN N) : s.Valid → ∀ v, v < capacity N →
    s.count v = s.toNat.testBit v := by
  induction s with
  | word set =>
    intro _ v hv
    have hv' : v < 64 := hv
    simp only [count, toNat, two_pow_mod_word hv']
    rw [Bool.eq_iff_iff, decide_eq_true_eq]
    exact land_two_pow_ne_zero set v
  | @pair N a b iha ihb =>
    intro h v hv
    rw [capacity_succ] at hv
    rw [testBit_toNat_pair a b h.1]
    simp only [count]
    by_cases hlt : v < capacity N
    · rw [if_pos hlt, if_pos hlt]; exact iha h.1 v hlt
    · rw [if_neg hlt, if_neg hlt]; exact ihb h.2 _ (by omega)

end BitSetN
namespace BitSetN

theorem lowest_lt {v k c : Nat} (hv : v < 2 ^ c) (hk : v.testBit k = true) : k < c := by
  by_contra hge
  have := Nat.testBit_lt_two_pow (lt_of_lt_of_le hv (Nat.pow_le_pow_right (by omega)
    (not_lt.1 hge)))
  rw [hk] at this; cases this

theorem min_spec {N : Nat} (s : BitSetN N) : s.Valid → s.toNat ≠ 0 →
    ∃ k, s.min = some k ∧ IsLowest s.toNat k := by
  induction s with
  | word set =>
    intro h h0
    exact ⟨_, rfl, ctzAux_spec 64 set h0 h⟩
  | @pair N a b iha ihb =>
    intro h h0
    have hne : (empty a && empty b) = false := by
      have := (empty_eq_false_iff (pair a b)).2 h0
      exact this
    simp only [min, hne, Bool.false_eq_true, if_false]
    by_cases ha : a.toNat = 0
    · have hea : empty a = true := (empty_iff a).2 ha
      have hb0 : b.toNat ≠ 0 := by
        intro hb
        apply h0
        show a.toNat + 2 ^ capacity N * b.toNat = 0
        rw [ha, hb]; simp
      obtain ⟨k, hk, hlow⟩ := ihb h.2 hb0
      simp only [hea, Bool.not_true, Bool.false_eq_true, if_false, hk, Option.map_some']
      refine ⟨_, rfl, ?_, ?_⟩
      · rw [testBit_toNat_pair a b h.1, if_neg (by omega)]
        simpa using hlow.1
      · intro j hj
        rw [testBit_toNat_pair a b h.1]
        by_cases hjc : j < capacity N
        · rw [if_pos hjc, ha, Nat.zero_testBit]
        · rw [if_neg hjc]; exact hlow.2 _ (by omega)
    · have hea : empty a = false := (empty_eq_false_iff a).2 ha
      obtain ⟨k, hk, hlow⟩ := iha h.1 ha
      simp only [hea, Bool.not_false, if_true, hk]
      have hkc : k < capacity N := lowest_lt (toNat_lt a h.1) hlow.1
      refine ⟨_, rfl, ?_, ?_⟩
      · rw [testBit_toNat_pair a b h.1, if_pos hkc]; exact hlow.1
      · intro j hj
        rw [testBit_toNat_pair a b h.1, if_pos (by omega)]
        exact hlow.2 j hj

theorem decrement_spec {N : Nat} (s : BitSetN N) : s.Valid → s.toNat ≠ 0 →
    ∃ d, s.decrement = some d ∧ d.Valid ∧ d.toNat = s.toNat - 1 := by
  induction s with
  | word set =>
    intro h h0
    have h' : set < 2 ^ 64 := h
    have h0' : set ≠ 0 := h0
    have hval : (set + 2 ^ 64 - 1) % 2 ^ 64 = set - 1 := by omega
    refine ⟨word (set - 1), ?_, ?_, ?_⟩
    · simp only [decrement, if_neg h0', hval]
    · show set - 1 < 2 ^ 64
      omega
    · simp only [toNat]
  | @pair N a b iha ihb =>
    intro h h0
    by_cases ha : a.toNat = 0
    · have hea : empty a = true := (empty_iff a).2 ha
      have hb0 : b.toNat ≠ 0 := by
        intro hb
        apply h0
        show a.toNat + 2 ^ capacity N * b.toNat = 0
        rw [ha, hb]; simp
      have heb : empty b = false := (empty_eq_false_iff b).2 hb0
      obtain ⟨d, hd, hdv, hdn⟩ := ihb h.2 hb0
      obtain ⟨hfv, hfn⟩ := fill_spec N (capacity N) (le_refl _)
      refine ⟨pair (fill N (capacity N)) d, ?_, ⟨hfv, hdv⟩, ?_⟩
      · simp only [decrement, hea, heb, Bool.not_true, Bool.false_eq_true, if_false, hd,
          Option.map_some']
      · show (fill N (capacity N)).toNat + 2 ^ capacity N * d.toNat =
          a.toNat + 2 ^ capacity N * b.toNat - 1
        rw [hfn, hdn, ha]
        obtain ⟨B, hB⟩ : ∃ B, b.toNat = B + 1 := ⟨b.toNat - 1, by omega⟩
        rw [hB, Nat.add_sub_cancel, Nat.mul_succ]
        have : 0 < 2 ^ capacity N := by positivity
        omega
    · have hea : empty a = false := (empty_eq_false_iff a).2 ha
      obtain ⟨d, hd, hdv, hdn⟩ := iha h.1 ha
      refine ⟨pair d b, ?_, ⟨hdv, h.2⟩, ?_⟩
      · simp only [decrement, hea, Bool.not_false, if_true, hd, Option.map_some']
      · show d.toNat + 2 ^ capacity N * b.toNat = a.toNat + 2 ^ capacity N * b.toNat - 1
        rw [hdn]; omega

theorem land_spec {N : Nat} (a : BitSetN N) : ∀ b : BitSetN N, a.Valid → b.Valid →
    (land a b).Valid ∧ (land a b).toNat = a.toNat &&& b.toNat := by
  induction a with
  | word x =>
    intro b ha hb
    cases b with
    | word y =>
      exact ⟨Nat.and_lt_two_pow x hb, rfl⟩
  | @pair N a1 a2 ih1 ih2 =>
    intro b ha hb
    cases b with
    | pair b1 b2 =>
      obtain ⟨h1v, h1n⟩ := ih1 b1 ha.1 hb.1
      obtain ⟨h2v, h2n⟩ := ih2 b2 ha.2 hb.2
      refine ⟨⟨h1v, h2v⟩, ?_⟩
      apply Nat.eq_of_testBit_eq
      intro i
      rw [Nat.testBit_land]
      show (toNat (pair (land a1 b1) (land a2 b2))).testBit i =
        ((toNat (pair a1 a2)).testBit i && (toNat (pair b1 b2)).testBit i)
      rw [testBit_toNat_pair _ _ h1v, testBit_toNat_pair _ _ ha.1, testBit_toNat_pair _ _ hb.1,
        h1n, h2n]
      by_cases hi : i < capacity N
      · simp only [if_pos hi, Nat.testBit_land]
      · simp only [if_neg hi, Nat.testBit_land]

/-- The operator `++` of `iterator` removes the lowest member. -/
theorem iterNext_spec {N : Nat} (s : BitSetN N) (hs : s.Valid) (h0 : s.toNat ≠ 0) (k : Nat)
    (hk : IsLowest s.toNat k) :
    ∃ s', s.iterNext = some s' ∧ s'.Valid ∧
      ∀ i, s'.toNat.testBit i = (s.toNat.testBit i && decide (i ≠ k)) := by
  cases s with
  | word set =>
    have h' : set < 2 ^ 64 := hs
    have h0' : set ≠ 0 := h0
    have hval : (set + 2 ^ 64 - 1) % 2 ^ 64 = set - 1 := by omega
    refine ⟨word (set &&& (set - 1)), ?_, ?_, ?_⟩
    · simp only [iterNext, hval]
    · show set &&& (set - 1) < 2 ^ 64
      exact Nat.and_lt_two_pow set (by omega)
    · intro i
      exact testBit_land_pred h0' hk i
  | @pair N a b =>
    by_cases ha : a.toNat = 0
    · have hea : empty a = true := (empty_iff a).2 ha
      have hb0 : b.toNat ≠ 0 := by
        intro hb
        apply h0
        show a.toNat + 2 ^ capacity N * b.toNat = 0
        rw [ha, hb]; simp
      obtain ⟨d, hd, hdv, hdn⟩ := decrement_spec b hs.2 hb0
      obtain ⟨hlv, hln⟩ := land_spec b d hs.2 hdv
      have hkc : ¬ k < capacity N := by
        intro hlt
        have := hk.1
        rw [testBit_toNat_pair a b hs.1, if_pos hlt, ha, Nat.zero_testBit] at this
        cases this
      have hkb : IsLowest b.toNat (k - capacity N) := by
        refine ⟨?_, ?_⟩
        · have := hk.1
          rw [testBit_toNat_pair a b hs.1, if_neg hkc] at this
          exact this
        · intro j hj
          have := hk.2 (j + capacity N) (by omega)
          rw [testBit_toNat_pair a b hs.1, if_neg (by omega), Nat.add_sub_cancel] at this
          exact this
      refine ⟨pair a (land b d), ?_, ⟨hs.1, hlv⟩, ?_⟩
      · simp only [iterNext, hea, Bool.not_true, Bool.false_eq_true, if_false, hd,
          Option.map_some']
      · intro i
        rw [testBit_toNat_pair a (land b d) hs.1, testBit_toNat_pair a b hs.1]
        by_cases hi : i < capacity N
        · simp only [if_pos hi, ha, Nat.zero_testBit, Bool.false_and]
        · simp only [if_neg hi]
          rw [hln, hdn, testBit_land_pred hb0 hkb]
          congr 1
          rw [decide_eq_decide]
          omega
    · have hea : empty a = false := (empty_eq_false_iff a).2 ha
      obtain ⟨d, hd, hdv, hdn⟩ := decrement_spec a hs.1 ha
      obtain ⟨hlv, hln⟩ := land_spec a d hs.1 hdv
      have hkc : k < capacity N := by
        by_contra hge
        apply ha
        apply Nat.eq_of_testBit_eq
        intro i
        rw [Nat.zero_testBit]
        by_cases hi : i < capacity N
        · have := hk.2 i (by omega)
          rw [testBit_toNat_pair a b hs.1, if_pos hi] at this
          exact this
        · exact Nat.testBit_lt_two_pow (lt_of_lt_of_le (toNat_lt a hs.1)
            (Nat.pow_le_pow_right (by omega) (not_lt.1 hi)))
      have hka : IsLowest a.toNat k := by
        refine ⟨?_, ?_⟩
        · have := hk.1
          rw [testBit_toNat_pair a b hs.1, if_pos hkc] at this
          exact this
        · intro j hj
          have := hk.2 j hj
          rw [testBit_toNat_pair a b hs.1, if_pos (by omega)] at this
          exact this
      refine ⟨pair (land a d) b, ?_, ⟨hlv, hs.2⟩, ?_⟩
      · simp only [iterNext, hea, Bool.not_false, if_true, hd, Option.map_some']
      · intro i
        rw [testBit_toNat_pair (land a d) b hlv, testBit_toNat_pair a b hs.1]
        by_cases hi : i < capacity N
        · simp only [if_pos hi]
          rw [hln, hdn, testBit_land_pred ha hka]
        · simp only [if_neg hi]
          have : i ≠ k := by omega
          simp [this]

theorem forwardLoop_spec {N : Nat} : ∀ (fuel : Nat) (s : BitSetN N), s.Valid →
    BitSet.size s.toNat < fuel → forwardLoop fuel s = some (BitSet.toList s.toNat) := by
  intro fuel
  induction fuel with
  | zero => intro s _ h; omega
  | succ fuel ih =>
    intro s hs hsize
    rw [forwardLoop, ne_iterEnd]
    by_cases h0 : s.toNat = 0
    · rw [(empty_iff s).2 h0]
      simp only [Bool.not_true, Bool.false_eq_true, if_false]
      rw [h0, BitSet.toList_zero]
    · rw [(empty_eq_false_iff s).2 h0]
      simp only [Bool.not_false, if_true]
      obtain ⟨k, hk, hlow⟩ := min_spec s hs h0
      obtain ⟨s', hs', hv', hbits⟩ := iterNext_spec s hs h0 k hlow
      have hlist := toList_of_lowest hlow hbits
      have hsz : BitSet.size s'.toNat < fuel := by
        have : BitSet.size s.toNat = BitSet.size s'.toNat + 1 := by
          unfold BitSet.size; rw [hlist]; rfl
        omega
      rw [hk, hs']
      simp only [ih s' hv' hsz, Option.map_some', hlist]

end BitSetN

/-- C19 (forward iteration).  For every width and every set `s`, iterating from `begin()` to
`end()` ends and yields the members of `s`, each once, in strictly ascending order: the list
is the ascending list of the set bits of the numeral of `s`. -/
theorem forward_iteration (N : Nat) (s : BitSetN N) (hs : s.Valid) :
    ∃ l, s.forward = some l ∧ l.Pairwise (· < ·) ∧
      (∀ v, v ∈ l ↔ v < BitSetN.capacity N ∧ s.count v = true) ∧
      l = BitSet.toList s.toNat := by
  have hlt := BitSetN.toNat_lt s hs
  refine ⟨BitSet.toList s.toNat, ?_, BitSet.toList_sorted _, ?_, rfl⟩
  · unfold BitSetN.forward
    exact BitSetN.forwardLoop_spec _ s hs
      (Nat.lt_succ_of_le (size_le_of_lt_two_pow hlt))
  · intro v
    rw [BitSet.mem_toList]
    constructor
    · intro hv
      have hvc := BitSetN.lowest_lt hlt hv
      exact ⟨hvc, by rw [BitSetN.count_eq s hs v hvc]; exact hv⟩
    · rintro ⟨hvc, hv⟩
      rw [BitSetN.count_eq s hs v hvc] at hv
      exact hv

/-- The statement of `forward_iteration` on a `BitSet<1>` with members in both halves. -/
theorem forward_iteration_witness :
    ∃ l, (BitSetN.pair (BitSetN.word 5) (BitSetN.word 9)).forward = some l ∧
      l.Pairwise (· < ·) ∧
      (∀ v, v ∈ l ↔ v < BitSetN.capacity 1 ∧
        (BitSetN.pair (BitSetN.word 5) (BitSetN.word 9)).count v = true) ∧
      l = BitSet.toList (BitSetN.pair (BitSetN.word 5) (BitSetN.word 9)).toNat :=
  forward_iteration 1 (BitSetN.pair (BitSetN.word 5) (BitSetN.word 9))
    ⟨(by decide : (5 : Nat) < 2 ^ 64), (by decide : (9 : Nat) < 2 ^ 64)⟩
theorem isHighest_unique {v k k' : Nat} (h : IsHighest v k) (h' : IsHighest v k') : k = k' := by
  by_contra hne
  rcases Nat.lt_or_gt_of_ne hne with hlt | hgt
  · have := h.2 k' hlt
    rw [h'.1] at this; cases this
  · have := h'.2 k hgt
    rw [h.1] at this; cases this

namespace BitSetN

theorem isHighest_pair_high {N : Nat} (a b : BitSetN N) (ha : a.Valid) {k : Nat}
    (hk : IsHighest b.toNat k) : IsHighest (toNat (pair a b)) (k + capacity N) := by
  refine ⟨?_, ?_⟩
  · rw [testBit_toNat_pair a b ha, if_neg (by omega), Nat.add_sub_cancel]; exact hk.1
  · intro j hj
    rw [testBit_toNat_pair a b ha, if_neg (by omega)]
    exact hk.2 _ (by omega)

theorem isHighest_pair_low {N : Nat} (a b : BitSetN N) (ha : a.Valid) (hb : b.toNat = 0)
    {k : Nat} (hk : IsHighest a.toNat k) : IsHighest (toNat (pair a b)) k := by
  have hkc : k < capacity N := lowest_lt (toNat_lt a ha) hk.1
  refine ⟨?_, ?_⟩
  · rw [testBit_toNat_pair a b ha, if_pos hkc]; exact hk.1
  · intro j hj
    rw [testBit_toNat_pair a b ha]
    by_cases hjc : j < capacity N
    · rw [if_pos hjc]; exact hk.2 j hj
    · rw [if_neg hjc, hb, Nat.zero_testBit]

theorem max_spec {N : Nat} (s : BitSetN N) : s.Valid → s.toNat ≠ 0 →
    ∃ k, s.max = some k ∧ IsHighest s.toNat k ∧ k < capacity N := by
  induction s with
  | word set =>
    intro h h0
    exact ⟨_, rfl, clzll_spec h0 h⟩
  | @pair N a b iha ihb =>
    intro h h0
    have hne : (empty a && empty b) = false := (empty_eq_false_iff (pair a b)).2 h0
    simp only [max, hne, Bool.false_eq_true, if_false]
    rw [capacity_succ]
    by_cases hb : b.toNat = 0
    · have heb : empty b = true := (empty_iff b).2 hb
      have ha0 : a.toNat ≠ 0 := by
        intro ha
        apply h0
        show a.toNat + 2 ^ capacity N * b.toNat = 0
        rw [ha, hb]; simp
      obtain ⟨k, hk, hhigh, hkc⟩ := iha h.1 ha0
      simp only [heb, Bool.not_true, Bool.false_eq_true, if_false, hk]
      exact ⟨_, rfl, isHighest_pair_low a b h.1 hb hhigh, by omega⟩
    · have heb : empty b = false := (empty_eq_false_iff b).2 hb
      obtain ⟨k, hk, hhigh, hkc⟩ := ihb h.2 hb
      simp only [heb, Bool.not_false, if_true, hk, Option.map_some']
      exact ⟨_, rfl, isHighest_pair_high a b h.1 hhigh, by omega⟩

/-- The operator `-=(unsigned index)` removes a member. -/
theorem erase_spec {N : Nat} (s : BitSetN N) : s.Valid → capacity N ≤ NIL →
    ∀ index, index < capacity N → s.toNat.testBit index = true →
    ∃ s', s.erase index = some s' ∧ s'.Valid ∧
      ∀ i, s'.toNat.testBit i = (s.toNat.testBit i && decide (i ≠ index)) := by
  induction s with
  | word set =>
    intro h _ index hi hbit
    have hi' : index < 64 := hi
    have hcount : count (word set) index = true := by
      rw [count_eq (word set) h index hi]; exact hbit
    refine ⟨word (set ^^^ 2 ^ index), ?_, ?_, ?_⟩
    · simp only [erase, hcount, if_true, two_pow_mod_word hi']
    · exact Nat.xor_lt_two_pow h (Nat.pow_lt_pow_right (by omega) hi')
    · intro i
      exact testBit_xor_two_pow hbit i
  | @pair N a b iha ihb =>
    intro h hcap index hi hbit
    have hcount : count (pair a b) index = true := by
      rw [count_eq (pair a b) h index hi]; exact hbit
    have hnil : index ≠ NIL := by omega
    have hcapN : capacity N ≤ NIL := by rw [capacity_succ] at hcap; omega
    rw [capacity_succ] at hi
    rw [testBit_toNat_pair a b h.1] at hbit
    by_cases hlt : index < capacity N
    · rw [if_pos hlt] at hbit
      obtain ⟨a', ha', hv', hbits⟩ := iha h.1 hcapN index hlt hbit
      refine ⟨pair a' b, ?_, ⟨hv', h.2⟩, ?_⟩
      · simp only [erase, if_pos (And.intro hcount hnil), if_pos hlt, ha', Option.map_some']
      · intro i
        rw [testBit_toNat_pair a' b hv', testBit_toNat_pair a b h.1]
        by_cases hic : i < capacity N
        · simp only [if_pos hic]; exact hbits i
        · simp only [if_neg hic]
          have : i ≠ index := by omega
          simp [this]
    · rw [if_neg hlt] at hbit
      obtain ⟨b', hb', hv', hbits⟩ := ihb h.2 hcapN (index - capacity N) (by omega) hbit
      refine ⟨pair a b', ?_, ⟨h.1, hv'⟩, ?_⟩
      · simp only [erase, if_pos (And.intro hcount hnil), if_neg hlt, hb', Option.map_some']
      · intro i
        rw [testBit_toNat_pair a b' h.1, testBit_toNat_pair a b h.1]
        by_cases hic : i < capacity N
        · simp only [if_pos hic]
          have : i ≠ index := by omega
          simp [this]
        · simp only [if_neg hic]
          rw [hbits]
          congr 1
          rw [decide_eq_decide]
          omega

/-- The operator `++` of `reverse_iterator` removes the highest member. -/
theorem reverseNext_spec {N : Nat} (s : BitSetN N) (hs : s.Valid) (h0 : s.toNat ≠ 0)
    (hcap : capacity N ≤ NIL) (k : Nat) (hk : IsHighest s.toNat k) :
    ∃ s', s.reverseNext = some s' ∧ s'.Valid ∧
      ∀ i, s'.toNat.testBit i = (s.toNat.testBit i && decide (i ≠ k)) := by
  cases s with
  | word set =>
    have h' : set < 2 ^ 64 := hs
    have h0' : set ≠ 0 := h0
    obtain ⟨hhigh, hlt⟩ := clzll_spec h0' h'
    have hkk : 63 - clzll set = k := isHighest_unique hhigh hk
    refine ⟨word (set ^^^ 2 ^ k), ?_, ?_, ?_⟩
    · simp only [reverseNext, hkk, two_pow_mod_word (hkk ▸ hlt)]
    · exact Nat.xor_lt_two_pow h' (Nat.pow_lt_pow_right (by omega) (hkk ▸ hlt))
    · intro i
      exact testBit_xor_two_pow hk.1 i
  | @pair N a b =>
    have hcapN : capacity N ≤ NIL := by rw [capacity_succ] at hcap; omega
    by_cases hb : b.toNat = 0
    · have heb : empty b = true := (empty_iff b).2 hb
      have ha0 : a.toNat ≠ 0 := by
        intro ha
        apply h0
        show a.toNat + 2 ^ capacity N * b.toNat = 0
        rw [ha, hb]; simp
      obtain ⟨ka, hka, hhigh, hkc⟩ := max_spec a hs.1 ha0
      have hkk : ka = k := isHighest_unique (isHighest_pair_low a b hs.1 hb hhigh) hk
      subst hkk
      obtain ⟨a', ha', hv', hbits⟩ := erase_spec a hs.1 hcapN ka hkc hhigh.1
      refine ⟨pair a' b, ?_, ⟨hv', hs.2⟩, ?_⟩
      · simp only [reverseNext, heb, Bool.not_true, Bool.false_eq_true, if_false, hka, ha',
          Option.map_some']
      · intro i
        rw [testBit_toNat_pair a' b hv', testBit_toNat_pair a b hs.1]
        by_cases hic : i < capacity N
        · simp only [if_pos hic]; exact hbits i
        · simp only [if_neg hic]
          have : i ≠ ka := by omega
          simp [this]
    · have heb : empty b = false := (empty_eq_false_iff b).2 hb
      obtain ⟨kb, hkb, hhigh, hkc⟩ := max_spec b hs.2 hb
      have hkk : kb + capacity N = k :=
        isHighest_unique (isHighest_pair_high a b hs.1 hhigh) hk
      subst hkk
      obtain ⟨b', hb', hv', hbits⟩ := erase_spec b hs.2 hcapN kb hkc hhigh.1
      refine ⟨pair a b', ?_, ⟨hs.1, hv'⟩, ?_⟩
      · simp only [reverseNext, heb, Bool.not_false, if_true, hkb, hb', Option.map_some']
      · intro i
        rw [testBit_toNat_pair a b' hs.1, testBit_toNat_pair a b hs.1]
        by_cases hic : i < capacity N
        · simp only [if_pos hic]
          have : i ≠ kb + capacity N := by omega
          simp [this]
        · simp only [if_neg hic]
          rw [hbits]
          congr 1
          rw [decide_eq_decide]
          omega

theorem reverseLoop_spec {N : Nat} (hcap : capacity N ≤ NIL) :
    ∀ (fuel : Nat) (s : BitSetN N), s.Valid → BitSet.size s.toNat < fuel →
      reverseLoop fuel s = some (BitSet.toList s.toNat).reverse := by
  intro fuel
  induction fuel with
  | zero => intro s _ h; omega
  | succ fuel ih =>
    intro s hs hsize
    rw [reverseLoop, ne_iterEnd]
    by_cases h0 : s.toNat = 0
    · rw [(empty_iff s).2 h0]
      simp only [Bool.not_true, Bool.false_eq_true, if_false]
      rw [h0, BitSet.toList_zero]
      rfl
    · rw [(empty_eq_false_iff s).2 h0]
      simp only [Bool.not_false, if_true]
      obtain ⟨k, hk, hhigh, _⟩ := max_spec s hs h0
      obtain ⟨s', hs', hv', hbits⟩ := reverseNext_spec s hs h0 hcap k hhigh
      have hlist := toList_of_highest hhigh hbits
      have hsz : BitSet.size s'.toNat < fuel := by
        have : BitSet.size s.toNat = BitSet.size s'.toNat + 1 := by
          unfold BitSet.size
          rw [← List.length_reverse (BitSet.toList s.toNat), hlist, List.length_cons,
            List.length_reverse]
        omega
      rw [hk, hs']
      simp only [ih s' hv' hsz, Option.map_some', hlist]

theorem capacity_le_NIL {N : Nat} (hN : N ≤ 5) : capacity N ≤ NIL := by
  unfold capacity NIL
  calc 2 ^ (N + 6) ≤ 2 ^ 11 := Nat.pow_le_pow_right (by omega) (by omega)
    _ ≤ 2 ^ 32 - 1 := by norm_num

end BitSetN

/-- C20 (reverse iteration).  For every width from 64 to 2048 (`N ≤ 5`) and every set `s`,
iterating from `rbegin()` to `rend()` ends and yields the members of `s`, each once, in
strictly descending order: the list is the reverse of the list of the forward iteration. -/
theorem reverse_iteration (N : Nat) (hN : N ≤ 5) (s : BitSetN N) (hs : s.Valid) :
    ∃ l, s.reverse = some l ∧ l.Pairwise (· > ·) ∧
      (∀ v, v ∈ l ↔ v < BitSetN.capacity N ∧ s.count v = true) ∧
      s.forward = some l.reverse := by
  have hlt := BitSetN.toNat_lt s hs
  have hsize := Nat.lt_succ_of_le (size_le_of_lt_two_pow hlt)
  refine ⟨(BitSet.toList s.toNat).reverse, ?_, ?_, ?_, ?_⟩
  · unfold BitSetN.reverse
    exact BitSetN.reverseLoop_spec (BitSetN.capacity_le_NIL hN) _ s hs hsize
  · rw [List.pairwise_reverse]
    exact BitSet.toList_sorted _
  · intro v
    rw [List.mem_reverse, BitSet.mem_toList]
    constructor
    · intro hv
      have hvc := BitSetN.lowest_lt hlt hv
      exact ⟨hvc, by rw [BitSetN.count_eq s hs v hvc]; exact hv⟩
    · rintro ⟨hvc, hv⟩
      rw [BitSetN.count_eq s hs v hvc] at hv
      exact hv
  · rw [List.reverse_reverse]
    unfold BitSetN.forward
    exact BitSetN.forwardLoop_spec _ s hs hsize

/-- The statement of `reverse_iteration` on a `BitSet<1>` with members in both halves. -/
theorem reverse_iteration_witness :
    ∃ l, (BitSetN.pair (BitSetN.word 5) (BitSetN.word 9)).reverse = some l ∧
      l.Pairwise (· > ·) ∧
      (∀ v, v ∈ l ↔ v < BitSetN.capacity 1 ∧
        (BitSetN.pair (BitSetN.word 5) (BitSetN.word 9)).count v = true) ∧
      (BitSetN.pair (BitSetN.word 5) (BitSetN.word 9)).forward = some l.reverse :=
  reverse_iteration 1 (by decide) (BitSetN.pair (BitSetN.word 5) (BitSetN.word 9))
    ⟨(by decide : (5 : Nat) < 2 ^ 64), (by decide : (9 : Nat) < 2 ^ 64)⟩

/-! ## TensorIKKBZ -/

/-- The operator `set - index`: the assertion `count(index)`, then the bit is toggled. -/
def BitSet.minus (s : BitSet) (index : Nat) : Option BitSet :=
  if s.testBit index then some (s ^^^ BitSet.single index) else none

/-- The operator `set + index`: the assertion `!count(index)`, then the bit is set. -/
def BitSet.plus (s : BitSet) (index : Nat) : Option BitSet :=
  if s.testBit index then none else some (s ||| BitSet.single index)

/-- A node `PrecedenceGraph::Node` (without the back pointer `master`). -/
structure Node where
  vertexId : Nat
  incomingEdgeId : Nat
  openSize : ℚ
  outerLegs : BitSet
  acc : ℚ
  contracted : Nat
  children : List Nat
  chain : List Nat
  compound : List Nat
  deriving Repr

/-- A value-initialised node, as `tree.resize(n)` creates it. -/
def Node.init : Node := ⟨0, 0, 0, 0, 0, 0, [], [], []⟩

/-- The function `Node::computeRank`, read through the tree view `tv`; the assertion
`edgeId < m` of `fetchEdge` is `Node.rankDefined`, which the loops check where they compare
ranks. -/
def Node.computeRank (tv : TensorNetwork) (node : Node) : ℚ × ℚ :=
  (node.acc, tv.legDim node.incomingEdgeId - node.openSize * tv.computeLegDimProduct node.outerLegs)

/-- The assertion `edgeId < m` of `fetchEdge(incomingEdgeId)`, which `computeRank` reaches. -/
def Node.rankDefined (tv : TensorNetwork) (node : Node) : Bool :=
  decide (node.incomingEdgeId < tv.m)

/-- The operator `Node::operator<`. -/
def Node.lt (tv : TensorNetwork) (node o : Node) : Bool :=
  let r1 := node.computeRank tv
  let r2 := o.computeRank tv
  decide (r1.1 * r2.2 < r1.2 * r2.1)

/-- The function `Node::shouldMergeWith`. -/
def Node.shouldMergeWith (tv : TensorNetwork) (node o : Node) : Bool :=
  let r1 := node.computeRank tv
  let r2 := o.computeRank tv
  decide (r1.1 * r2.2 > r1.2 * r2.1)

/-- The lambda `addChild(parent, v, edgeId)` of the constructor of `PrecedenceGraph`, without
the push onto the queue. -/
def addChild (net tv : TensorNetwork) (tree : Nat → Node) (parent v edgeId : Nat) :
    Option (Nat → Node) :=
  let tree1 := Function.update tree parent
    { tree parent with children := (tree parent).children ++ [v] }
  match BitSet.minus (tv.collectVertexLegs v true) edgeId with
  | none => none
  | some outerLegs =>
    match BitSet.plus outerLegs edgeId with
    | none => none
    | some legs =>
      let openSize := net.openLegSize.getD v 1
      some (Function.update tree1 v
        { tree1 v with
          incomingEdgeId := edgeId
          openSize := openSize
          outerLegs := outerLegs
          acc := openSize * tv.computeLegDimProduct legs
          vertexId := v })

/-- The loop over the adjacency list of `curr` in the breadth-first search of the
constructor; the state is the tree and the queue. -/
def bfsCells (net tv : TensorNetwork) (seen : BitSet) (curr : Nat) :
    List Cell → (Nat → Node) × List Nat → Option ((Nat → Node) × List Nat)
  | [], st => some st
  | c :: rest, (tree, q) =>
    if seen.testBit c.v then bfsCells net tv seen curr rest (tree, q)
    else
      match addChild net tv tree curr c.v c.edgeId with
      | none => none
      | some tree1 => bfsCells net tv seen curr rest (tree1, q ++ [c.v])

/-- The loop `while (!q.empty())` of the constructor; the state is the tree, `bfs`, `seen`
and the queue, and `fuel` bounds the number of rounds. -/
def bfsLoop (net tv : TensorNetwork) :
    Nat → (Nat → Node) × List Nat × BitSet × List Nat → Option ((Nat → Node) × List Nat × BitSet)
  | 0, _ => none
  | _ + 1, (tree, bfs, seen, []) => some (tree, bfs, seen)
  | fuel + 1, (tree, bfs, seen, curr :: q) =>
    match BitSet.insert seen curr with
    | none => none
    | some seen1 =>
      match bfsCells net tv seen1 curr (tv.adj curr) (tree, q) with
      | none => none
      | some (tree1, q1) => bfsLoop net tv fuel (tree1, bfs ++ [curr], seen1, q1)

/-- The constructor `PrecedenceGraph(optimizer, root)`: the tree and the order `bfs`. -/
def precedenceGraph (net tv : TensorNetwork) (root : Nat) : Option ((Nat → Node) × List Nat) :=
  let legs := tv.collectVertexLegs root true
  let openSize := net.openLegSize.getD root 1
  let tree0 : Nat → Node := Function.update (fun _ => Node.init) root
    { Node.init with
      openSize := openSize
      outerLegs := legs
      acc := openSize * tv.computeLegDimProduct legs
      incomingEdgeId := NIL
      vertexId := root }
  match bfsLoop net tv (net.n + 1) (tree0, [], 0, [root]) with
  | none => none
  | some (tree, bfs, seen) =>
    if BitSet.size seen = net.n ∧ bfs.length = net.n then some (tree, bfs) else none

/-- The contract of `std::make_heap`, `std::pop_heap` and `std::push_heap` that the merge
relies on: each of them rearranges the range. -/
structure HeapOps where
  makeHeap : (Nat → Nat → Bool) → List Nat → List Nat
  popHeap : (Nat → Nat → Bool) → List Nat → List Nat
  pushHeap : (Nat → Nat → Bool) → List Nat → List Nat
  makeHeap_perm : ∀ cmp l, (makeHeap cmp l).Perm l
  popHeap_perm : ∀ cmp l, (popHeap cmp l).Perm l
  pushHeap_perm : ∀ cmp l, (pushHeap cmp l).Perm l

/-- The element a child index stands for in the merge: the child itself, or the entry of its
chain under its pointer. -/
def heapElem (tree : Nat → Node) (children : List Nat) (pointer : Nat → Option Nat)
    (a : Nat) : Nat :=
  match pointer a with
  | some p => (tree (children.getD a 0)).chain.getD p 0
  | none => children.getD a 0

/-- The lambda `cmp(a, b)` of `runLocalTensorIKKBZ`. -/
def ikkbzCmp (tv : TensorNetwork) (tree : Nat → Node) (children : List Nat)
    (pointer : Nat → Option Nat) (a b : Nat) : Bool :=
  let l := heapElem tree children pointer a
  let r := heapElem tree children pointer b
  (tree r).lt tv (tree l)

/-- The ranks `cmp` may compute on the range `heap` are defined: the assertion of `fetchEdge`
holds for the element of every member of the range. -/
def ranksDefined (tv : TensorNetwork) (tree : Nat → Node) (children : List Nat)
    (pointer : Nat → Option Nat) (heap : List Nat) : Bool :=
  heap.all (fun a => (tree (heapElem tree children pointer a)).rankDefined tv)

/-- The loop `while (!heap.empty())` of `runLocalTensorIKKBZ` for one node: the state is the
heap, the pointers and the chain built so far; the result is the chain. The check at the head
of a round stands for the assertion of `fetchEdge` in the calls of `cmp`: `pop_heap` compares
members of the range, and so did the `make_heap` or `push_heap` before it, on the same range
with the same pointers. -/
def mergeLoop (H : HeapOps) (tv : TensorNetwork) (tree : Nat → Node) (children : List Nat) :
    Nat → List Nat × (Nat → Option Nat) × List Nat → Option (List Nat)
  | 0, _ => none
  | fuel + 1, (heap, pointer, chain) =>
    if heap = [] then some chain
    else if ranksDefined tv tree children pointer heap = false then none
    else
      let heap1 := H.popHeap (ikkbzCmp tv tree children pointer) heap
      match heap1.getLast? with
      | none => none
      | some currChildIndex =>
        let child := children.getD currChildIndex 0
        let chain1 := chain ++ [heapElem tree children pointer currChildIndex]
        match pointer currChildIndex with
        | none =>
          if (tree child).chain = [] then
            if (tree child).children = [] then
              mergeLoop H tv tree children fuel (heap1.dropLast, pointer, chain1)
            else none
          else if (tree child).contracted = (tree child).chain.length then
            mergeLoop H tv tree children fuel (heap1.dropLast, pointer, chain1)
          else
            let pointer1 := Function.update pointer currChildIndex (some (tree child).contracted)
            if (tree child).contracted = (tree child).chain.length then
              mergeLoop H tv tree children fuel (heap1.dropLast, pointer1, chain1)
            else
              mergeLoop H tv tree children fuel
                (H.pushHeap (ikkbzCmp tv tree children pointer1) heap1, pointer1, chain1)
        | some p =>
          let pointer1 := Function.update pointer currChildIndex (some (p + 1))
          if p + 1 = (tree child).chain.length then
            mergeLoop H tv tree children fuel (heap1.dropLast, pointer1, chain1)
          else
            mergeLoop H tv tree children fuel
              (H.pushHeap (ikkbzCmp tv tree children pointer1) heap1, pointer1, chain1)

/-- A bound on the number of rounds of the merge: one round per child and per chain entry. -/
def mergeFuel (tree : Nat → Node) (children : List Nat) : Nat :=
  (children.map (fun c => 1 + (tree c).chain.length)).sum + 1

/-- The loop that computes the contracted vertex of `curr`, over the entries of its chain
that remain; `shouldMergeWith` computes the ranks of both nodes. -/
def contractLoop (tv : TensorNetwork) (curr : Nat) :
    List Nat → (Nat → Node) → Option (Nat → Node)
  | [], tree => some tree
  | next :: rest, tree =>
    if ((tree curr).rankDefined tv && (tree next).rankDefined tv) = false then none
    else if (tree curr).shouldMergeWith tv (tree next) then
      match BitSet.minus (tree curr).outerLegs (tree next).incomingEdgeId,
          BitSet.plus (tree next).outerLegs (tree next).incomingEdgeId with
      | some legs1, some legs2 =>
        let node := tree curr
        contractLoop tv curr rest (Function.update tree curr
          { node with
            acc := node.acc + node.openSize * tv.computeLegDimProduct legs1 * (tree next).acc
            outerLegs := node.outerLegs ^^^ legs2
            openSize := node.openSize * (tree next).openSize
            contracted := node.contracted + 1
            compound := node.compound ++ (tree next).compound })
      | _, _ => none
    else some tree

/-- The loop `for (index = n - 1; index < n; --index)` of `runLocalTensorIKKBZ`, over the
nodes `bfs[index]` that remain. -/
def ikkbzLoop (H : HeapOps) (tv : TensorNetwork) (root : Nat) :
    List Nat → (Nat → Node) → Option (Nat → Node)
  | [], tree => some tree
  | curr :: rest, tree =>
    let tree1 := Function.update tree curr
      { tree curr with compound := (tree curr).compound ++ [curr] }
    let children := (tree1 curr).children
    if children = [] then ikkbzLoop H tv root rest tree1
    else
      let heap := H.makeHeap (ikkbzCmp tv tree1 children (fun _ => none))
        (List.range children.length)
      match mergeLoop H tv tree1 children (mergeFuel tree1 children)
          (heap, fun _ => none, (tree1 curr).chain) with
      | none => none
      | some chain =>
        let tree2 := Function.update tree1 curr { tree1 curr with chain := chain }
        if curr = root then some tree2
        else
          let tree3 := Function.update tree2 curr { tree2 curr with contracted := 0 }
          match contractLoop tv curr chain tree3 with
          | none => none
          | some tree4 => ikkbzLoop H tv root rest tree4

/-- The function `PrecedenceGraph::runLocalTensorIKKBZ`, after the constructor: the cost and
the order; `none` stands for a failed assertion. -/
def runLocalTensorIKKBZ (H : HeapOps) (net tv : TensorNetwork) (root : Nat) :
    Option (ℚ × List Nat) :=
  match precedenceGraph net tv root with
  | none => none
  | some (tree, bfs) =>
    match ikkbzLoop H tv root bfs.reverse tree with
    | none => none
    | some tree1 =>
      let order := root :: (tree1 root).chain.flatMap (fun x => (tree1 x).compound)
      if order.length = net.n then some (net.computeLinearCost order, order) else none

/-- An implementation of the heap functions that keeps the range sorted, the greatest
element at the back. -/
def sortHeap : HeapOps where
  makeHeap := fun cmp l => l.insertionSort (fun a b => cmp a b = true)
  popHeap := fun cmp l => l.insertionSort (fun a b => cmp a b = true)
  pushHeap := fun cmp l => l.insertionSort (fun a b => cmp a b = true)
  makeHeap_perm := fun _ l => List.perm_insertionSort _ l
  popHeap_perm := fun _ l => List.perm_insertionSort _ l
  pushHeap_perm := fun _ l => List.perm_insertionSort _ l
/-- The tree view `tv` is a spanning tree: `n - 1` edges between vertices below `n`, and
connected. -/
def TensorNetwork.IsSpanningTree (tv : TensorNetwork) : Prop :=
  tv.m + 1 = tv.n ∧
  (∀ e, e < tv.m → (tv.endpoints e).1 < tv.n ∧ (tv.endpoints e).2 < tv.n) ∧
  tv.Connected

/-- A presentation of the tree `tv` rooted at `r`: every other vertex `v` has a parent, one
level up, to which the edge `eid v` joins it, and every edge is such an edge. -/
structure Rooted (tv : TensorNetwork) (r : Nat) where
  parent : Nat → Nat
  depth : Nat → Nat
  eid : Nat → Nat
  parent_lt : ∀ v, v < tv.n → v ≠ r → parent v < tv.n
  depth_parent : ∀ v, v < tv.n → v ≠ r → depth v = depth (parent v) + 1
  eid_lt : ∀ v, v < tv.n → v ≠ r → eid v < tv.m
  eid_ends : ∀ v, v < tv.n → v ≠ r →
    tv.endpoints (eid v) = (v, parent v) ∨ tv.endpoints (eid v) = (parent v, v)
  eid_surj : ∀ e, e < tv.m → ∃ v, v < tv.n ∧ v ≠ r ∧ eid v = e

/-- There is a path of `k` edges from `r` to `v`. -/
inductive PathLen (tv : TensorNetwork) (r : Nat) : Nat → Nat → Prop where
  | zero : PathLen tv r 0 r
  | step {k u v : Nat} : PathLen tv r k u → tv.Adjacent u v → PathLen tv r (k + 1) v

theorem exists_pathLen (tv : TensorNetwork) (r v : Nat)
    (h : Relation.ReflTransGen tv.Adjacent r v) : ∃ k, PathLen tv r k v := by
  induction h with
  | refl => exact ⟨0, PathLen.zero⟩
  | tail _ hbc ih =>
    obtain ⟨k, hk⟩ := ih
    exact ⟨k + 1, PathLen.step hk hbc⟩

theorem Rooted.parent_ne {tv : TensorNetwork} {r : Nat} (R : Rooted tv r) (v : Nat)
    (hv : v < tv.n) (hr : v ≠ r) : R.parent v ≠ v := by
  intro h
  have := R.depth_parent v hv hr
  rw [h] at this
  omega

theorem Rooted.eid_inj {tv : TensorNetwork} {r : Nat} (R : Rooted tv r) {v w : Nat}
    (hv : v < tv.n) (hvr : v ≠ r) (hw : w < tv.n) (hwr : w ≠ r) (h : R.eid v = R.eid w) :
    v = w := by
  by_contra hne
  have h1 := R.eid_ends v hv hvr
  have h2 := R.eid_ends w hw hwr
  rw [h] at h1
  have hd1 := R.depth_parent v hv hvr
  have hd2 := R.depth_parent w hw hwr
  rcases h1 with h1 | h1 <;> rcases h2 with h2 | h2 <;> rw [h1] at h2 <;>
    simp only [Prod.mk.injEq] at h2
  · exact hne h2.1
  · obtain ⟨e1, e2⟩ := h2
    have a1 := congrArg R.depth e1
    have a2 := congrArg R.depth e2
    omega
  · obtain ⟨e1, e2⟩ := h2
    have a1 := congrArg R.depth e1
    have a2 := congrArg R.depth e2
    omega
  · exact hne h2.2

/-- A connected network with `n - 1` edges has a rooted presentation at every vertex. -/
theorem exists_rooted (tv : TensorNetwork) (h : tv.IsSpanningTree) (r : Nat) (hr : r < tv.n) :
    Nonempty (Rooted tv r) := by
  classical
  obtain ⟨hm, hends, hconn⟩ := h
  have hex : ∀ v, v < tv.n → ∃ k, PathLen tv r k v :=
    fun v hv => exists_pathLen tv r v (hconn r v hr hv)
  let d : Nat → Nat := fun v => if hv : v < tv.n then Nat.find (hex v hv) else 0
  have hd_spec : ∀ v (hv : v < tv.n), PathLen tv r (d v) v := by
    intro v hv
    simp only [d, dif_pos hv]
    exact Nat.find_spec (hex v hv)
  have hd_min : ∀ v (hv : v < tv.n) k, PathLen tv r k v → d v ≤ k := by
    intro v hv k hk
    simp only [d, dif_pos hv]
    exact Nat.find_min' (hex v hv) hk
  have hadj_lt : ∀ u v, tv.Adjacent u v → u < tv.n ∧ v < tv.n := by
    rintro u v ⟨e, he, hcase⟩
    have := hends e he
    rcases hcase with h | h <;> rw [h] at this
    · exact this
    · exact ⟨this.2, this.1⟩
  have hstep : ∀ v, v < tv.n → v ≠ r →
      ∃ u e, u < tv.n ∧ d v = d u + 1 ∧ e < tv.m ∧
        (tv.endpoints e = (v, u) ∨ tv.endpoints e = (u, v)) := by
    intro v hv hvr
    have hp := hd_spec v hv
    generalize hk : d v = k at hp
    cases hp with
    | zero => exact absurd rfl hvr
    | @step k u _ hku huv =>
      have hu := (hadj_lt u v huv).1
      have h1 : d u ≤ k := hd_min u hu k hku
      have h2 : d v ≤ d u + 1 := hd_min v hv _ (PathLen.step (hd_spec u hu) huv)
      obtain ⟨e, he, hcase⟩ := huv
      refine ⟨u, e, hu, by omega, he, hcase.symm⟩
  let par : Nat → Nat := fun v =>
    if hv : v < tv.n ∧ v ≠ r then Classical.choose (hstep v hv.1 hv.2) else 0
  let eid : Nat → Nat := fun v =>
    if hv : v < tv.n ∧ v ≠ r then
      Classical.choose (Classical.choose_spec (hstep v hv.1 hv.2)) else 0
  have hspec : ∀ v, v < tv.n → v ≠ r →
      par v < tv.n ∧ d v = d (par v) + 1 ∧ eid v < tv.m ∧
        (tv.endpoints (eid v) = (v, par v) ∨ tv.endpoints (eid v) = (par v, v)) := by
    intro v hv hvr
    have hc : v < tv.n ∧ v ≠ r := ⟨hv, hvr⟩
    simp only [par, eid, dif_pos hc]
    exact Classical.choose_spec (Classical.choose_spec (hstep v hv hvr))
  have hinj : ∀ v w, v < tv.n → v ≠ r → w < tv.n → w ≠ r → eid v = eid w → v = w := by
    intro v w hv hvr hw hwr h
    by_contra hne
    obtain ⟨_, hd1, _, h1⟩ := hspec v hv hvr
    obtain ⟨_, hd2, _, h2⟩ := hspec w hw hwr
    rw [h] at h1
    rcases h1 with h1 | h1 <;> rcases h2 with h2 | h2 <;> rw [h1] at h2 <;>
      simp only [Prod.mk.injEq] at h2
    · exact hne h2.1
    · obtain ⟨e1, e2⟩ := h2
      have a1 := congrArg d e1
      have a2 := congrArg d e2
      omega
    · obtain ⟨e1, e2⟩ := h2
      have a1 := congrArg d e1
      have a2 := congrArg d e2
      omega
    · exact hne h2.2
  have hsurj : ∀ e, e < tv.m → ∃ v, v < tv.n ∧ v ≠ r ∧ eid v = e := by
    intro e he
    have hcard : (Finset.range tv.m).card ≤ ((Finset.range tv.n).erase r).card := by
      rw [Finset.card_range, Finset.card_erase_of_mem (Finset.mem_range.2 hr),
        Finset.card_range]
      omega
    obtain ⟨v, hv, hve⟩ := Finset.surj_on_of_inj_on_of_card_le
      (s := (Finset.range tv.n).erase r) (t := Finset.range tv.m)
      (fun v _ => eid v)
      (fun v hv => by
        rw [Finset.mem_erase, Finset.mem_range] at hv
        exact Finset.mem_range.2 (hspec v hv.2 hv.1).2.2.1)
      (fun v w hv hw hvw => by
        rw [Finset.mem_erase, Finset.mem_range] at hv hw
        exact hinj v w hv.2 hv.1 hw.2 hw.1 hvw)
      hcard e (Finset.mem_range.2 he)
    rw [Finset.mem_erase, Finset.mem_range] at hv
    exact ⟨v, hv.2, hv.1, hve.symm⟩
  exact ⟨{
    parent := par
    depth := d
    eid := eid
    parent_lt := fun v hv hvr => (hspec v hv hvr).1
    depth_parent := fun v hv hvr => (hspec v hv hvr).2.1
    eid_lt := fun v hv hvr => (hspec v hv hvr).2.2.1
    eid_ends := fun v hv hvr => (hspec v hv hvr).2.2.2
    eid_surj := hsurj }⟩

theorem adj_aux_nodup (tv : TensorNetwork)
    (hloop : ∀ e, e < tv.m → (tv.endpoints e).1 ≠ (tv.endpoints e).2) (k : Nat) (hk : k ≤ tv.m)
    (u : Nat) :
    ((((List.range k).foldl
      (fun a index =>
        TensorNetwork.addEdge
          (TensorNetwork.addEdge a (tv.endpoints index).1 (tv.endpoints index).2 index)
          (tv.endpoints index).2 (tv.endpoints index).1 index)
      (fun _ => [])) u).map Cell.edgeId).Nodup := by
  induction k generalizing u with
  | zero => simp
  | succ k ih =>
    have hmem := fun (c : Cell) => mem_adj_aux tv k u c
    have hne := hloop k (by omega)
    rw [List.range_succ, List.foldl_append]
    simp only [List.foldl_cons, List.foldl_nil, TensorNetwork.addEdge]
    have hfresh : ∀ w, k ∉ (((List.range k).foldl
        (fun a index =>
          TensorNetwork.addEdge
            (TensorNetwork.addEdge a (tv.endpoints index).1 (tv.endpoints index).2 index)
            (tv.endpoints index).2 (tv.endpoints index).1 index)
        (fun _ => [])) w).map Cell.edgeId := by
      intro w hin
      rw [List.mem_map] at hin
      obtain ⟨c, hc, hce⟩ := hin
      rw [mem_adj_aux] at hc
      obtain ⟨e, he, hce', _⟩ := hc
      omega
    by_cases hb : u = (tv.endpoints k).2
    · have ha : ¬ (tv.endpoints k).2 = (tv.endpoints k).1 := fun h => hne h.symm
      rw [if_pos hb, if_neg ha, List.map_cons, List.nodup_cons]
      exact ⟨hfresh _, ih (by omega) _⟩
    · rw [if_neg hb]
      by_cases ha : u = (tv.endpoints k).1
      · rw [if_pos ha, List.map_cons, List.nodup_cons]
        exact ⟨hfresh _, ih (by omega) _⟩
      · rw [if_neg ha]
        exact ih (by omega) u

/-- Without self-loops the cells of an adjacency list carry distinct edge ids. -/
theorem adj_edgeId_nodup (tv : TensorNetwork)
    (hloop : ∀ e, e < tv.m → (tv.endpoints e).1 ≠ (tv.endpoints e).2) (u : Nat) :
    ((tv.adj u).map Cell.edgeId).Nodup :=
  adj_aux_nodup tv hloop tv.m (le_refl _) u

theorem Rooted.no_loop {tv : TensorNetwork} {r : Nat} (R : Rooted tv r) (e : Nat)
    (he : e < tv.m) : (tv.endpoints e).1 ≠ (tv.endpoints e).2 := by
  obtain ⟨v, hv, hvr, rfl⟩ := R.eid_surj e he
  have hp := R.parent_ne v hv hvr
  rcases R.eid_ends v hv hvr with h | h <;> rw [h]
  · exact fun h' => hp h'.symm
  · exact hp

/-- The cells of the adjacency list of `u` in a rooted tree: the cell of the parent of `u`
and the cells of the children of `u`. -/
theorem Rooted.cell_cases {tv : TensorNetwork} {r : Nat} (R : Rooted tv r) (u : Nat) (c : Cell)
    (hc : c ∈ tv.adj u) :
    (u < tv.n ∧ u ≠ r ∧ c.v = R.parent u ∧ c.edgeId = R.eid u) ∨
    (c.v < tv.n ∧ c.v ≠ r ∧ R.parent c.v = u ∧ c.edgeId = R.eid c.v) := by
  rw [Netzwerk.mem_adj] at hc
  obtain ⟨e, he, hce, hcase⟩ := hc
  obtain ⟨w, hw, hwr, hwe⟩ := R.eid_surj e he
  have hends := R.eid_ends w hw hwr
  rw [hwe] at hends
  rcases hcase with ⟨h1, h2⟩ | ⟨h1, h2⟩ <;> rcases hends with h | h <;> rw [h] at h1 h2 <;>
    simp only at h1 h2
  · left
    subst h1
    exact ⟨hw, hwr, h2, by rw [hce, hwe]⟩
  · right
    rw [h2]
    exact ⟨hw, hwr, h1, by rw [hce, hwe]⟩
  · right
    rw [h2]
    exact ⟨hw, hwr, h1, by rw [hce, hwe]⟩
  · left
    subst h1
    exact ⟨hw, hwr, h2, by rw [hce, hwe]⟩

theorem Rooted.child_mem_adj {tv : TensorNetwork} {r : Nat} (R : Rooted tv r) (c : Nat)
    (hc : c < tv.n) (hcr : c ≠ r) : (⟨c, R.eid c⟩ : Cell) ∈ tv.adj (R.parent c) := by
  rw [Netzwerk.mem_adj]
  refine ⟨R.eid c, R.eid_lt c hc hcr, rfl, ?_⟩
  rcases R.eid_ends c hc hcr with h | h <;> rw [h]
  · exact Or.inr ⟨rfl, rfl⟩
  · exact Or.inl ⟨rfl, rfl⟩

/-- The strict legs of the vertex `u`: the internal edges with an endpoint `u`. -/
theorem testBit_collectVertexLegs_strict (net : TensorNetwork) (u x : Nat) :
    (net.collectVertexLegs u true).testBit x = true ↔
      x < net.m ∧ ((net.endpoints x).1 = u ∨ (net.endpoints x).2 = u) := by
  unfold TensorNetwork.collectVertexLegs
  simp only [if_true, testBit_foldl_lor_single, Nat.zero_testBit, Bool.false_eq_true, false_or]
  constructor
  · rintro ⟨c, hc, rfl⟩
    rw [Netzwerk.mem_adj] at hc
    obtain ⟨e, he, hce, h⟩ := hc
    subst hce
    exact ⟨he, by tauto⟩
  · rintro ⟨hx, h⟩
    rcases h with h | h
    · exact ⟨⟨(net.endpoints x).2, x⟩,
        (Netzwerk.mem_adj net u _).2 ⟨x, hx, rfl, Or.inl ⟨h, rfl⟩⟩, rfl⟩
    · exact ⟨⟨(net.endpoints x).1, x⟩,
        (Netzwerk.mem_adj net u _).2 ⟨x, hx, rfl, Or.inr ⟨h, rfl⟩⟩, rfl⟩

/-- The toggled strict legs of a list of vertices. -/
def strictLegs (tv : TensorNetwork) (l : List Nat) : BitSet :=
  l.foldl (fun acc v => acc ^^^ tv.collectVertexLegs v true) 0

theorem strictLegs_append (tv : TensorNetwork) (l l' : List Nat) :
    strictLegs tv (l ++ l') = strictLegs tv l ^^^ strictLegs tv l' := by
  unfold strictLegs
  rw [List.foldl_append, foldl_xor_init (fun v => tv.collectVertexLegs v true)]

theorem strictLegs_singleton (tv : TensorNetwork) (v : Nat) :
    strictLegs tv [v] = tv.collectVertexLegs v true := by
  simp [strictLegs]

/-- In a rooted tree the edge of `w` is a toggled leg of a list of distinct vertices iff
exactly one of `w` and its parent is in the list. -/
theorem Rooted.testBit_strictLegs {tv : TensorNetwork} {r : Nat} (R : Rooted tv r)
    {l : List Nat} (hl : l.Nodup) (w : Nat) (hw : w < tv.n) (hwr : w ≠ r) :
    (strictLegs tv l).testBit (R.eid w) = (decide (w ∈ l) ^^ decide (R.parent w ∈ l)) := by
  have hf : ∀ u, (tv.collectVertexLegs u true).testBit (R.eid w) =
      decide (u = w ∨ u = R.parent w) := by
    intro u
    rw [Bool.eq_iff_iff, testBit_collectVertexLegs_strict, decide_eq_true_eq]
    have he := R.eid_lt w hw hwr
    rcases R.eid_ends w hw hwr with h | h <;> rw [h] <;> simp only <;> constructor
    · rintro ⟨_, h1 | h1⟩
      · exact Or.inl h1.symm
      · exact Or.inr h1.symm
    · rintro (h1 | h1)
      · exact ⟨he, Or.inl h1.symm⟩
      · exact ⟨he, Or.inr h1.symm⟩
    · rintro ⟨_, h1 | h1⟩
      · exact Or.inr h1.symm
      · exact Or.inl h1.symm
    · rintro (h1 | h1)
      · exact ⟨he, Or.inr h1.symm⟩
      · exact ⟨he, Or.inl h1.symm⟩
  unfold strictLegs
  rw [testBit_foldl_xor_two (fun u => tv.collectVertexLegs u true) (R.eid w) w (R.parent w)
    (fun h => R.parent_ne w hw hwr h.symm) hf l hl 0]
  simp

/-! ### The breadth-first search of the constructor -/

theorem addChild_spec (net tv : TensorNetwork) (tree : Nat → Node) (parent v edgeId : Nat)
    (hvp : v ≠ parent) (hbit : (tv.collectVertexLegs v true).testBit edgeId = true) :
    ∃ tree', addChild net tv tree parent v edgeId = some tree' ∧
      (tree' parent).children = (tree parent).children ++ [v] ∧
      (∀ x, x ≠ parent → (tree' x).children = (tree x).children) ∧
      (∀ x, (tree' x).chain = (tree x).chain ∧ (tree' x).compound = (tree x).compound ∧
        (tree' x).contracted = (tree x).contracted) ∧
      (∀ x, x ≠ v → (tree' x).incomingEdgeId = (tree x).incomingEdgeId ∧
        (tree' x).outerLegs = (tree x).outerLegs) ∧
      (tree' v).incomingEdgeId = edgeId ∧
      (tree' v).outerLegs = tv.collectVertexLegs v true ^^^ BitSet.single edgeId := by
  have hclear : (tv.collectVertexLegs v true ^^^ BitSet.single edgeId).testBit edgeId = false := by
    rw [Nat.testBit_xor, hbit, BitSet.testBit_single]; simp
  refine ⟨Function.update
      (Function.update tree parent { tree parent with children := (tree parent).children ++ [v] })
      v
      { (Function.update tree parent
          { tree parent with children := (tree parent).children ++ [v] }) v with
        incomingEdgeId := edgeId
        openSize := net.openLegSize.getD v 1
        outerLegs := tv.collectVertexLegs v true ^^^ BitSet.single edgeId
        acc := net.openLegSize.getD v 1 * tv.computeLegDimProduct
          (tv.collectVertexLegs v true ^^^ BitSet.single edgeId ||| BitSet.single edgeId)
        vertexId := v }, ?_, ?_, ?_, ?_, ?_, ?_, ?_⟩
  · unfold addChild
    simp only [BitSet.minus, hbit, if_true, BitSet.plus, hclear, Bool.false_eq_true, if_false]
  · simp only [Function.update_noteq hvp.symm, Function.update_same]
  · intro x hx
    by_cases hxv : x = v
    · subst hxv
      simp only [Function.update_same, Function.update_noteq hx]
    · simp only [Function.update_noteq hxv, Function.update_noteq hx]
  · intro x
    by_cases hxv : x = v
    · subst hxv
      simp [Function.update_same, Function.update_noteq hvp]
    · by_cases hxp : x = parent
      · subst hxp
        simp [Function.update_noteq hxv, Function.update_same]
      · simp [Function.update_noteq hxv, Function.update_noteq hxp]
  · intro x hxv
    by_cases hxp : x = parent
    · subst hxp
      simp [Function.update_noteq hxv, Function.update_same]
    · simp [Function.update_noteq hxv, Function.update_noteq hxp]
  · simp only [Function.update_same]
  · simp only [Function.update_same]

/-- The vertices the loop over the cells pushes onto the queue. -/
def freshCells (seen : BitSet) (cells : List Cell) : List Nat :=
  (cells.filter (fun c => !seen.testBit c.v)).map Cell.v

theorem bfsCells_spec (net tv : TensorNetwork) {root : Nat} (R : Rooted tv root)
    (seen : BitSet) (curr : Nat) :
    ∀ (cells : List Cell) (tree : Nat → Node) (q : List Nat),
      (∀ c, c ∈ cells → seen.testBit c.v = true ∨
        (c.v < tv.n ∧ c.v ≠ root ∧ R.parent c.v = curr ∧ c.edgeId = R.eid c.v)) →
      ∃ tree', bfsCells net tv seen curr cells (tree, q) =
          some (tree', q ++ freshCells seen cells) ∧
        (tree' curr).children = (tree curr).children ++ freshCells seen cells ∧
        (∀ x, x ≠ curr → (tree' x).children = (tree x).children) ∧
        (∀ x, (tree' x).chain = (tree x).chain ∧ (tree' x).compound = (tree x).compound ∧
          (tree' x).contracted = (tree x).contracted) ∧
        (∀ x, x ∉ freshCells seen cells →
          (tree' x).incomingEdgeId = (tree x).incomingEdgeId ∧
          (tree' x).outerLegs = (tree x).outerLegs) ∧
        (∀ x, x ∈ freshCells seen cells → (tree' x).incomingEdgeId = R.eid x ∧
          (tree' x).outerLegs = tv.collectVertexLegs x true ^^^ BitSet.single (R.eid x)) := by
  intro cells
  induction cells with
  | nil =>
    intro tree q _
    refine ⟨tree, by simp [bfsCells, freshCells], by simp [freshCells], fun _ _ => rfl,
      fun _ => ⟨rfl, rfl, rfl⟩, fun _ _ => ⟨rfl, rfl⟩, fun x hx => by simp [freshCells] at hx⟩
  | cons c rest ih =>
    intro tree q hcells
    have hrest : ∀ c', c' ∈ rest → seen.testBit c'.v = true ∨
        (c'.v < tv.n ∧ c'.v ≠ root ∧ R.parent c'.v = curr ∧ c'.edgeId = R.eid c'.v) :=
      fun c' h => hcells c' (by simp [h])
    rw [bfsCells]
    by_cases hseen : seen.testBit c.v = true
    · rw [if_pos hseen]
      have hF : freshCells seen (c :: rest) = freshCells seen rest := by
        simp [freshCells, List.filter_cons, hseen]
      rw [hF]
      exact ih tree q hrest
    · rw [if_neg hseen]
      have hF : freshCells seen (c :: rest) = c.v :: freshCells seen rest := by
        simp [freshCells, List.filter_cons, hseen]
      obtain ⟨hlt, hcr, hpar, heid⟩ := (hcells c (by simp)).resolve_left hseen
      have hvp : c.v ≠ curr := by
        intro h
        exact R.parent_ne c.v hlt hcr (by rw [hpar]; exact h.symm)
      have hbit : (tv.collectVertexLegs c.v true).testBit c.edgeId = true := by
        rw [testBit_collectVertexLegs_strict, heid]
        refine ⟨R.eid_lt c.v hlt hcr, ?_⟩
        rcases R.eid_ends c.v hlt hcr with h | h <;> rw [h]
        · exact Or.inl rfl
        · exact Or.inr rfl
      obtain ⟨tree1, h1, h2, h3, h4, h5, h6, h7⟩ :=
        addChild_spec net tv tree curr c.v c.edgeId hvp hbit
      obtain ⟨tree', g1, g2, g3, g4, g5, g6⟩ := ih tree1 (q ++ [c.v]) hrest
      rw [h1, hF]
      refine ⟨tree', ?_, ?_, ?_, ?_, ?_, ?_⟩
      · simp only [g1, List.append_assoc, List.singleton_append]
      · rw [g2, h2, List.append_assoc, List.singleton_append]
      · intro x hx; rw [g3 x hx, h3 x hx]
      · intro x
        obtain ⟨a1, a2, a3⟩ := g4 x
        obtain ⟨b1, b2, b3⟩ := h4 x
        exact ⟨a1.trans b1, a2.trans b2, a3.trans b3⟩
      · intro x hx
        rw [List.mem_cons, not_or] at hx
        obtain ⟨a1, a2⟩ := g5 x hx.2
        obtain ⟨b1, b2⟩ := h5 x hx.1
        exact ⟨a1.trans b1, a2.trans b2⟩
      · intro x hx
        by_cases hxr : x ∈ freshCells seen rest
        · exact g6 x hxr
        · have hxc : x = c.v := by
            rcases List.mem_cons.1 hx with h | h
            · exact h
            · exact absurd h hxr
          obtain ⟨a1, a2⟩ := g5 x hxr
          rw [a1, a2, hxc, h6, h7, heid]
          exact ⟨rfl, rfl⟩
/-- The invariant of the breadth-first search: `P` is `bfs`, `Q` the queue. -/
structure BfsInv (tv : TensorNetwork) (root : Nat) (R : Rooted tv root) (tree : Nat → Node)
    (P Q : List Nat) (seen : BitSet) : Prop where
  nodup : (P ++ Q).Nodup
  lt : ∀ v, v ∈ P ++ Q → v < tv.n
  seen_eq : ∀ v, seen.testBit v = true ↔ v ∈ P
  root_mem : root ∈ P ++ Q
  head : (P ++ Q).head? = some root
  disc : ∀ c, c < tv.n → c ≠ root → (c ∈ P ++ Q ↔ R.parent c ∈ P)
  before : ∀ c, c ∈ P → c ≠ root → List.Sublist [R.parent c, c] P
  fresh : ∀ v, (tree v).chain = [] ∧ (tree v).compound = [] ∧ (tree v).contracted = 0
  fields : ∀ v, v ∈ P ++ Q → v ≠ root → (tree v).incomingEdgeId = R.eid v ∧
    (tree v).outerLegs = tv.collectVertexLegs v true ^^^ BitSet.single (R.eid v)
  children_nodup : ∀ v, (tree v).children.Nodup
  children_mem : ∀ v c, c ∈ (tree v).children ↔ (v ∈ P ∧ c < tv.n ∧ c ≠ root ∧ R.parent c = v)
  root_fields : (tree root).incomingEdgeId = NIL ∧
    (tree root).outerLegs = tv.collectVertexLegs root true

theorem length_le_of_nodup_lt {l : List Nat} {n : Nat} (hnd : l.Nodup) (hlt : ∀ v, v ∈ l → v < n) :
    l.length ≤ n := by
  have : l.toFinset ⊆ Finset.range n := by
    intro x hx
    rw [List.mem_toFinset] at hx
    exact Finset.mem_range.2 (hlt x hx)
  calc l.length = l.toFinset.card := (List.toFinset_card_of_nodup hnd).symm
    _ ≤ (Finset.range n).card := Finset.card_le_card this
    _ = n := Finset.card_range n

theorem freshCells_mem (tv : TensorNetwork) {root : Nat} (R : Rooted tv root) (seen : BitSet)
    (curr : Nat)
    (hpar : ∀ c, c ∈ tv.adj curr → curr ≠ root → c.v = R.parent curr → seen.testBit c.v = true)
    (hchild : ∀ c, c < tv.n → c ≠ root → R.parent c = curr → seen.testBit c = false) (x : Nat) :
    x ∈ freshCells seen (tv.adj curr) ↔ (x < tv.n ∧ x ≠ root ∧ R.parent x = curr) := by
  unfold freshCells
  rw [List.mem_map]
  constructor
  · rintro ⟨c, hc, rfl⟩
    rw [List.mem_filter] at hc
    obtain ⟨hc1, hc2⟩ := hc
    rcases R.cell_cases curr c hc1 with ⟨_, h0, h3, _⟩ | ⟨h1, h2, h3, _⟩
    · rw [hpar c hc1 h0 h3] at hc2; simp at hc2
    · exact ⟨h1, h2, h3⟩
  · rintro ⟨h1, h2, h3⟩
    refine ⟨⟨x, R.eid x⟩, ?_, rfl⟩
    rw [List.mem_filter]
    refine ⟨?_, by simp [hchild x h1 h2 h3]⟩
    rw [← h3]
    exact R.child_mem_adj x h1 h2

theorem freshCells_nodup (tv : TensorNetwork) {root : Nat} (R : Rooted tv root) (seen : BitSet)
    (curr : Nat)
    (hpar : ∀ c, c ∈ tv.adj curr → curr ≠ root → c.v = R.parent curr → seen.testBit c.v = true) :
    (freshCells seen (tv.adj curr)).Nodup := by
  unfold freshCells
  have hnd : (tv.adj curr).Nodup := List.Nodup.of_map _ (adj_edgeId_nodup tv R.no_loop curr)
  apply List.Nodup.map_on _ (hnd.filter _)
  intro a ha b hb hab
  rw [List.mem_filter] at ha hb
  have ea : a.edgeId = R.eid a.v := by
    rcases R.cell_cases curr a ha.1 with ⟨_, h0, h3, _⟩ | ⟨_, _, _, h4⟩
    · have := hpar a ha.1 h0 h3
      rw [this] at ha; simp at ha
    · exact h4
  have eb : b.edgeId = R.eid b.v := by
    rcases R.cell_cases curr b hb.1 with ⟨_, h0, h3, _⟩ | ⟨_, _, _, h4⟩
    · have := hpar b hb.1 h0 h3
      rw [this] at hb; simp at hb
    · exact h4
  cases a; cases b
  simp only at hab ea eb
  subst hab
  rw [ea, eb]

theorem bfsLoop_spec (net tv : TensorNetwork) {root : Nat} (R : Rooted tv root) :
    ∀ (fuel : Nat) (tree : Nat → Node) (P Q : List Nat) (seen : BitSet),
      BfsInv tv root R tree P Q seen → tv.n - P.length < fuel →
      ∃ tree' P' seen', bfsLoop net tv fuel (tree, P, seen, Q) = some (tree', P', seen') ∧
        BfsInv tv root R tree' P' [] seen' := by
  intro fuel
  induction fuel with
  | zero => intro _ _ _ _ _ h; omega
  | succ fuel ih =>
    intro tree P Q seen inv hfuel
    cases Q with
    | nil => exact ⟨tree, P, seen, by simp [bfsLoop], inv⟩
    | cons curr q =>
      have hnd := inv.nodup
      have hcurrP : curr ∉ P := by
        intro h
        rw [List.nodup_append] at hnd
        exact hnd.2.2 h (by simp)
      have hcurrq : curr ∉ q := by
        rw [List.nodup_append, List.nodup_cons] at hnd
        exact hnd.2.1.1
      have hcurr_lt : curr < tv.n := inv.lt curr (by simp)
      have hseen0 : seen.testBit curr = false := by
        cases h : seen.testBit curr with
        | false => rfl
        | true => exact absurd ((inv.seen_eq curr).1 h) hcurrP
      have hseen1 : ∀ v, (seen ||| BitSet.single curr).testBit v = true ↔ v ∈ P ++ [curr] := by
        intro v
        rw [Nat.testBit_lor, Bool.or_eq_true, inv.seen_eq, BitSet.testBit_single,
          decide_eq_true_eq, List.mem_append, List.mem_singleton]
        constructor
        · rintro (h | h)
          · exact Or.inl h
          · exact Or.inr h.symm
        · rintro (h | h)
          · exact Or.inl h
          · exact Or.inr h.symm
      have hpar : ∀ c, c ∈ tv.adj curr → curr ≠ root → c.v = R.parent curr →
          (seen ||| BitSet.single curr).testBit c.v = true := by
        intro c _ hcr hcv
        rw [hseen1, hcv]
        exact List.mem_append_left _ ((inv.disc curr hcurr_lt hcr).1 (by simp))
      have hchild : ∀ c, c < tv.n → c ≠ root → R.parent c = curr →
          (seen ||| BitSet.single curr).testBit c = false := by
        intro c h1 h2 h3
        cases h : (seen ||| BitSet.single curr).testBit c with
        | false => rfl
        | true =>
          exfalso
          rw [hseen1, List.mem_append, List.mem_singleton] at h
          rcases h with h | h
          · have := (inv.disc c h1 h2).1 (List.mem_append_left _ h)
            rw [h3] at this
            exact hcurrP this
          · exact R.parent_ne c h1 h2 (by rw [h3, h])
      have hFmem := freshCells_mem tv R (seen ||| BitSet.single curr) curr hpar hchild
      have hFnd := freshCells_nodup tv R (seen ||| BitSet.single curr) curr hpar
      have hcells : ∀ c, c ∈ tv.adj curr →
          (seen ||| BitSet.single curr).testBit c.v = true ∨
          (c.v < tv.n ∧ c.v ≠ root ∧ R.parent c.v = curr ∧ c.edgeId = R.eid c.v) := by
        intro c hc
        rcases R.cell_cases curr c hc with ⟨_, h0, h3, _⟩ | h
        · exact Or.inl (hpar c hc h0 h3)
        · exact Or.inr h
      obtain ⟨tree1, g1, g2, g3, g4, g5, g6⟩ :=
        bfsCells_spec net tv R (seen ||| BitSet.single curr) curr (tv.adj curr) tree q hcells
      set F := freshCells (seen ||| BitSet.single curr) (tv.adj curr) with hF
      have hFnot : ∀ x, x ∈ F → x ∉ P ++ curr :: q := by
        intro x hx hin
        obtain ⟨h1, h2, h3⟩ := (hFmem x).1 hx
        have := (inv.disc x h1 h2).1 hin
        rw [h3] at this
        exact hcurrP this
      have hold_children : (tree curr).children = [] := by
        apply List.eq_nil_iff_forall_not_mem.2
        intro c hc
        exact hcurrP ((inv.children_mem curr c).1 hc).1
      have inv1 : BfsInv tv root R tree1 (P ++ [curr]) (q ++ F) (seen ||| BitSet.single curr) := by
        refine ⟨?_, ?_, hseen1, ?_, ?_, ?_, ?_, ?_, ?_, ?_, ?_, ?_⟩
        · rw [List.append_assoc, List.singleton_append, ← List.cons_append, ← List.append_assoc,
            List.nodup_append]
          refine ⟨hnd, hFnd, ?_⟩
          intro x hx hxF
          exact hFnot x hxF hx
        · intro v hv
          rw [List.append_assoc, List.singleton_append, ← List.cons_append, ← List.append_assoc,
            List.mem_append] at hv
          rcases hv with h | h
          · exact inv.lt v h
          · exact ((hFmem v).1 h).1
        · have := inv.root_mem
          rw [List.append_assoc, List.singleton_append, ← List.cons_append, ← List.append_assoc]
          exact List.mem_append_left _ this
        · have := inv.head
          rw [List.append_assoc, List.singleton_append, ← List.cons_append, ← List.append_assoc]
          cases hPQ : P ++ curr :: q with
          | nil => simp at hPQ
          | cons a b => rw [hPQ] at this; simpa using this
        · intro c h1 h2
          rw [List.append_assoc, List.singleton_append, ← List.cons_append, ← List.append_assoc,
            List.mem_append, inv.disc c h1 h2, List.mem_append, List.mem_singleton, hFmem]
          constructor
          · rintro (h | ⟨_, _, h⟩)
            · exact Or.inl h
            · exact Or.inr h
          · rintro (h | h)
            · exact Or.inl h
            · exact Or.inr ⟨h1, h2, h⟩
        · intro c hc hcr
          rw [List.mem_append, List.mem_singleton] at hc
          rcases hc with h | h
          · exact (inv.before c h hcr).trans (List.sublist_append_left _ _)
          · subst h
            have hp : R.parent c ∈ P := (inv.disc c hcurr_lt hcr).1 (by simp)
            have h1 : List.Sublist [R.parent c] P := List.singleton_sublist.2 hp
            exact List.Sublist.append h1 (List.Sublist.refl [c])
        · intro v
          obtain ⟨a1, a2, a3⟩ := g4 v
          obtain ⟨b1, b2, b3⟩ := inv.fresh v
          exact ⟨a1.trans b1, a2.trans b2, a3.trans b3⟩
        · intro v hv hvr
          rw [List.append_assoc, List.singleton_append, ← List.cons_append, ← List.append_assoc,
            List.mem_append] at hv
          by_cases hvF : v ∈ F
          · exact g6 v hvF
          · obtain ⟨a1, a2⟩ := g5 v hvF
            rw [a1, a2]
            exact inv.fields v (hv.resolve_right hvF) hvr
        · intro v
          by_cases hvc : v = curr
          · subst hvc
            rw [g2, hold_children, List.nil_append]
            exact hFnd
          · rw [g3 v hvc]
            exact inv.children_nodup v
        · intro v c
          by_cases hvc : v = curr
          · subst hvc
            rw [g2, hold_children, List.nil_append, hFmem]
            constructor
            · rintro ⟨h1, h2, h3⟩
              exact ⟨by simp, h1, h2, h3⟩
            · rintro ⟨_, h1, h2, h3⟩
              exact ⟨h1, h2, h3⟩
          · rw [g3 v hvc, inv.children_mem, List.mem_append, List.mem_singleton]
            constructor
            · rintro ⟨h0, h⟩; exact ⟨Or.inl h0, h⟩
            · rintro ⟨h0 | h0, h⟩
              · exact ⟨h0, h⟩
              · exact absurd h0 hvc
        · have hrF : root ∉ F := fun h => ((hFmem root).1 h).2.1 rfl
          obtain ⟨a1, a2⟩ := g5 root hrF
          rw [a1, a2]
          exact inv.root_fields
      have hlen : P.length + (curr :: q).length ≤ tv.n := by
        have := length_le_of_nodup_lt hnd inv.lt
        rwa [List.length_append] at this
      obtain ⟨tree', P', seen', hloop, inv'⟩ := ih tree1 (P ++ [curr]) (q ++ F)
        (seen ||| BitSet.single curr) inv1 (by
          rw [List.length_append, List.length_singleton]
          simp only [List.length_cons] at hlen
          omega)
      refine ⟨tree', P', seen', ?_, inv'⟩
      rw [bfsLoop]
      simp only [BitSet.insert, hseen0, Bool.false_eq_true, if_false, g1]
      exact hloop
/-- What the constructor of `PrecedenceGraph` leaves: `bfs` lists every vertex once, the root
first and every parent before its children; the nodes carry their children and incoming
edges, and empty chains and compounds. -/
structure BfsSpec (tv : TensorNetwork) (root : Nat) (R : Rooted tv root) (tree : Nat → Node)
    (bfs : List Nat) : Prop where
  perm : bfs.Perm (List.range tv.n)
  head : bfs.head? = some root
  before : ∀ c, c ∈ bfs → c ≠ root → List.Sublist [R.parent c, c] bfs
  fresh : ∀ v, (tree v).chain = [] ∧ (tree v).compound = [] ∧ (tree v).contracted = 0
  fields : ∀ v, v < tv.n → v ≠ root → (tree v).incomingEdgeId = R.eid v ∧
    (tree v).outerLegs = tv.collectVertexLegs v true ^^^ BitSet.single (R.eid v)
  children_nodup : ∀ v, (tree v).children.Nodup
  children_mem : ∀ v c, c ∈ (tree v).children ↔ (v < tv.n ∧ c < tv.n ∧ c ≠ root ∧ R.parent c = v)
  root_fields : (tree root).incomingEdgeId = NIL ∧
    (tree root).outerLegs = tv.collectVertexLegs root true

theorem precedenceGraph_spec (net tv : TensorNetwork) (hn : net.n = tv.n) {root : Nat}
    (R : Rooted tv root) (hroot : root < tv.n) :
    ∃ tree bfs, precedenceGraph net tv root = some (tree, bfs) ∧ BfsSpec tv root R tree bfs := by
  set tree0 : Nat → Node := Function.update (fun _ => Node.init) root
    { Node.init with
      openSize := net.openLegSize.getD root 1
      outerLegs := tv.collectVertexLegs root true
      acc := net.openLegSize.getD root 1 * tv.computeLegDimProduct
        (tv.collectVertexLegs root true)
      incomingEdgeId := NIL
      vertexId := root } with htree0
  have hinit : ∀ v, (tree0 v).chain = [] ∧ (tree0 v).compound = [] ∧
      (tree0 v).contracted = 0 ∧ (tree0 v).children = [] := by
    intro v
    by_cases hv : v = root
    · subst hv; simp [htree0, Node.init]
    · simp [htree0, Function.update_noteq hv, Node.init]
  have inv0 : BfsInv tv root R tree0 [] [root] 0 := by
    refine ⟨by simp, ?_, ?_, by simp, by simp, ?_, ?_, ?_, ?_, ?_, ?_, ?_⟩
    · intro v hv
      simp only [List.nil_append, List.mem_singleton] at hv
      rw [hv]; exact hroot
    · intro v; simp
    · intro c _ hc
      simp [hc]
    · intro c hc; simp at hc
    · intro v
      exact ⟨(hinit v).1, (hinit v).2.1, (hinit v).2.2.1⟩
    · intro v hv hvr
      simp only [List.nil_append, List.mem_singleton] at hv
      exact absurd hv hvr
    · intro v; rw [(hinit v).2.2.2]; exact List.nodup_nil
    · intro v c; rw [(hinit v).2.2.2]; simp
    · simp [htree0]
  obtain ⟨tree, bfs, seen, hloop, inv⟩ := bfsLoop_spec net tv R (net.n + 1) tree0 [] [root] 0 inv0
    (by rw [hn]; simp)
  have hnd : bfs.Nodup := by simpa using inv.nodup
  have hall : ∀ d v, v < tv.n → R.depth v ≤ d → v ∈ bfs := by
    intro d
    induction d with
    | zero =>
      intro v hv hd
      by_cases hvr : v = root
      · rw [hvr]; simpa using inv.root_mem
      · have := R.depth_parent v hv hvr
        omega
    | succ d ih =>
      intro v hv hd
      by_cases hvr : v = root
      · rw [hvr]; simpa using inv.root_mem
      · have hdp := R.depth_parent v hv hvr
        have hp := ih (R.parent v) (R.parent_lt v hv hvr) (by omega)
        have := (inv.disc v hv hvr).2 hp
        simpa using this
  have hmem : ∀ v, v ∈ bfs ↔ v < tv.n := by
    intro v
    constructor
    · intro h; exact inv.lt v (by simpa using h)
    · intro h; exact hall _ v h (le_refl _)
  have hperm : bfs.Perm (List.range tv.n) := by
    rw [List.perm_ext_iff_of_nodup hnd (List.nodup_range _)]
    intro v
    rw [hmem, List.mem_range]
  have hseen : seen = BitSet.fill tv.n := by
    apply Nat.eq_of_testBit_eq
    intro i
    rw [BitSet.testBit_fill, Bool.eq_iff_iff, inv.seen_eq, hmem, decide_eq_true_eq]
  refine ⟨tree, bfs, ?_, hperm, by simpa using inv.head, inv.before, inv.fresh, ?_,
    inv.children_nodup, ?_, inv.root_fields⟩
  · unfold precedenceGraph
    simp only [← htree0, hloop]
    rw [if_pos]
    rw [hseen, BitSet.size_fill, hperm.length_eq, List.length_range, hn]
    exact ⟨rfl, rfl⟩
  · intro v hv hvr
    exact inv.fields v (by simpa using (hmem v).2 hv) hvr
  · intro v c
    rw [inv.children_mem, hmem]

/-! ### The merge of the chains of the children -/

/-- The entries a processed node hands to its parent: the node itself and the part of its
chain behind the contracted prefix. -/
def exposed (tree : Nat → Node) (c : Nat) : List Nat :=
  c :: (tree c).chain.drop (tree c).contracted

theorem sum_map_range_lt (f g : Nat → Nat) (m ci : Nat) (hci : ci < m)
    (hle : ∀ i, i < m → g i ≤ f i) (hlt : g ci < f ci) :
    ((List.range m).map g).sum < ((List.range m).map f).sum := by
  induction m with
  | zero => omega
  | succ m ih =>
    rw [List.range_succ, List.map_append, List.map_append, List.sum_append, List.sum_append]
    simp only [List.map_cons, List.map_nil, List.sum_cons, List.sum_nil, Nat.add_zero]
    by_cases h : ci = m
    · subst h
      have : ((List.range ci).map g).sum ≤ ((List.range ci).map f).sum := by
        apply List.sum_le_sum
        intro i hi
        exact hle i (by rw [List.mem_range] at hi; omega)
      omega
    · have := ih (by omega) (fun i hi => hle i (by omega))
      have := hle m (by omega)
      omega

theorem flatMap_cons_at (D D' : Nat → List Nat) (elem ci : Nat) :
    ∀ l : List Nat, l.Nodup → ci ∈ l → (∀ j, j ∈ l → j ≠ ci → D j = D' j) →
      D ci = elem :: D' ci → (l.flatMap D).Perm (elem :: l.flatMap D') := by
  intro l
  induction l with
  | nil => intro _ h; simp at h
  | cons a l ih =>
    intro hnd hmem hsame hci
    rw [List.nodup_cons] at hnd
    simp only [List.flatMap_cons]
    by_cases ha : a = ci
    · subst ha
      have hrest : l.flatMap D = l.flatMap D' := by
        apply List.flatMap_congr
        intro j hj
        exact hsame j (by simp [hj]) (fun h => hnd.1 (h ▸ hj))
      rw [hci, hrest]
      rfl
    · have hmem' : ci ∈ l := by
        rcases List.mem_cons.1 hmem with h | h
        · exact absurd h.symm ha
        · exact h
      have := ih hnd.2 hmem' (fun j hj hne => hsame j (by simp [hj]) hne) hci
      rw [hsame a (by simp) ha]
      exact (List.Perm.append_left _ this).trans List.perm_middle

/-- The state of the merge: `taken i` entries of the child `i` have been moved to the chain;
a child index stays in the heap as long as entries remain, its pointer telling where. -/
structure MergeInv (tree : Nat → Node) (cs : List Nat) (heap : List Nat)
    (pointer : Nat → Option Nat) (taken : Nat → Nat) : Prop where
  nodup : heap.Nodup
  inHeap : ∀ i, i ∈ heap → i < cs.length ∧ taken i < (exposed tree (cs.getD i 0)).length ∧
    ((pointer i = none ∧ taken i = 0) ∨
      ∃ p, pointer i = some p ∧ (tree (cs.getD i 0)).contracted ≤ p ∧
        taken i = p - (tree (cs.getD i 0)).contracted + 1)
  notInHeap : ∀ i, i < cs.length → i ∉ heap → taken i = (exposed tree (cs.getD i 0)).length

theorem exposed_length (tree : Nat → Node) (c : Nat) :
    (exposed tree c).length = 1 + ((tree c).chain.length - (tree c).contracted) := by
  simp [exposed, Nat.add_comm]

/-- The element of a member of the heap is an exposed entry of its child. -/
theorem heapElem_mem_exposed {tree : Nat → Node} {cs heap : List Nat}
    {pointer : Nat → Option Nat} {taken : Nat → Nat} (inv : MergeInv tree cs heap pointer taken)
    {i : Nat} (hi : i ∈ heap) :
    heapElem tree cs pointer i ∈ exposed tree (cs.getD i 0) := by
  obtain ⟨_, htaken, hptr⟩ := inv.inHeap i hi
  rw [exposed_length] at htaken
  rcases hptr with ⟨hp, _⟩ | ⟨p, hp, hkp, ht⟩
  · simp only [heapElem, hp]
    exact List.mem_cons_self _ _
  · have hplt : p < (tree (cs.getD i 0)).chain.length := by omega
    simp only [heapElem, hp]
    rw [List.getD_eq_getElem _ _ hplt]
    apply List.mem_cons_of_mem
    rw [List.mem_drop_iff_getElem]
    refine ⟨p - (tree (cs.getD i 0)).contracted, by omega, ?_⟩
    congr 1
    omega

theorem mergeLoop_spec (H : HeapOps) (tv : TensorNetwork) (tree : Nat → Node) (cs : List Nat)
    (hk : ∀ c, c ∈ cs → (tree c).contracted ≤ (tree c).chain.length)
    (hleaf : ∀ c, c ∈ cs → (tree c).chain = [] → (tree c).children = [])
    (hvalid : ∀ c, c ∈ cs → ∀ x, x ∈ exposed tree c → (tree x).rankDefined tv = true) :
    ∀ (fuel : Nat) (heap : List Nat) (pointer : Nat → Option Nat) (chain : List Nat)
      (taken : Nat → Nat),
      MergeInv tree cs heap pointer taken →
      ((List.range cs.length).map
        (fun i => (exposed tree (cs.getD i 0)).length - taken i)).sum < fuel →
      ∃ merged, mergeLoop H tv tree cs fuel (heap, pointer, chain) = some (chain ++ merged) ∧
        (∀ i, i < cs.length →
          List.Sublist ((exposed tree (cs.getD i 0)).drop (taken i)) merged) ∧
        merged.Perm ((List.range cs.length).flatMap
          (fun i => (exposed tree (cs.getD i 0)).drop (taken i))) := by
  intro fuel
  induction fuel with
  | zero => intro _ _ _ _ _ h; omega
  | succ fuel ih =>
    intro heap pointer chain taken inv hfuel
    rw [mergeLoop]
    by_cases hempty : heap = []
    · rw [if_pos hempty]
      have hall : ∀ i, i < cs.length →
          (exposed tree (cs.getD i 0)).drop (taken i) = [] := by
        intro i hi
        rw [inv.notInHeap i hi (by rw [hempty]; simp)]
        exact List.drop_length _
      refine ⟨[], by simp, ?_, ?_⟩
      · intro i hi; rw [hall i hi]
      · have : (List.range cs.length).flatMap
            (fun i => (exposed tree (cs.getD i 0)).drop (taken i)) = [] := by
          rw [List.flatMap_eq_nil_iff]
          intro i hi
          exact hall i (List.mem_range.1 hi)
        rw [this]
    · rw [if_neg hempty]
      have hranks : ranksDefined tv tree cs pointer heap = true := by
        unfold ranksDefined
        rw [List.all_eq_true]
        intro i hi
        have hlt := (inv.inHeap i hi).1
        refine hvalid (cs.getD i 0) ?_ _ (heapElem_mem_exposed inv hi)
        rw [List.getD_eq_getElem _ _ hlt]
        exact List.getElem_mem hlt
      rw [if_neg (by rw [hranks]; simp)]
      have hperm1 := H.popHeap_perm (ikkbzCmp tv tree cs pointer) heap
      set heap1 := H.popHeap (ikkbzCmp tv tree cs pointer) heap with hheap1
      have hne1 : heap1 ≠ [] := by
        intro h
        rw [h] at hperm1
        exact hempty hperm1.symm.eq_nil
      obtain ⟨ci, hci⟩ : ∃ ci, heap1.getLast? = some ci := by
        cases h : heap1.getLast? with
        | none => exact absurd (List.getLast?_eq_none_iff.1 h) hne1
        | some x => exact ⟨x, rfl⟩
      have hsplit : heap1.dropLast ++ [ci] = heap1 := List.dropLast_append_getLast? ci hci
      have hnd1 : heap1.Nodup := hperm1.nodup_iff.2 inv.nodup
      have hci1 : ci ∈ heap1 := by rw [← hsplit]; simp
      have hciH : ci ∈ heap := hperm1.mem_iff.1 hci1
      have hdrop_mem : ∀ i, i ∈ heap1.dropLast ↔ (i ∈ heap ∧ i ≠ ci) := by
        intro i
        have hnd' := hnd1
        rw [← hsplit, List.nodup_append] at hnd'
        constructor
        · intro h
          refine ⟨hperm1.mem_iff.1 (by rw [← hsplit]; exact List.mem_append_left _ h), ?_⟩
          intro he
          exact hnd'.2.2 h (by rw [he]; simp)
        · rintro ⟨h1, h2⟩
          have := hperm1.mem_iff.2 h1
          rw [← hsplit, List.mem_append, List.mem_singleton] at this
          exact this.resolve_right h2
      have hdrop_nd : heap1.dropLast.Nodup := by
        have hnd' := hnd1
        rw [← hsplit, List.nodup_append] at hnd'
        exact hnd'.1
      obtain ⟨hcilt, htaken, hptr⟩ := inv.inHeap ci hciH
      set c := cs.getD ci 0 with hc
      have hcmem : c ∈ cs := by
        rw [hc, List.getD_eq_getElem _ _ hcilt]
        exact List.getElem_mem hcilt
      have hkc := hk c hcmem
      have hElen := exposed_length tree c
      rw [hElen] at htaken
      set taken1 := Function.update taken ci (taken ci + 1) with htaken1
      -- the emitted element heads the remaining part of the child
      have helem : (exposed tree c).drop (taken ci) =
          heapElem tree cs pointer ci :: (exposed tree c).drop (taken ci + 1) := by
        rcases hptr with ⟨hp, ht⟩ | ⟨p, hp, hkp, ht⟩
        · rw [ht]
          simp only [heapElem, hp, ← hc]
          rfl
        · have hplt : p < (tree c).chain.length := by omega
          have h1 : (exposed tree c).drop (taken ci) = (tree c).chain.drop p := by
            rw [ht]
            show (c :: (tree c).chain.drop (tree c).contracted).drop
              (p - (tree c).contracted + 1) = _
            rw [List.drop_succ_cons, List.drop_drop]
            congr 1
            omega
          have h2 : (exposed tree c).drop (taken ci + 1) = (tree c).chain.drop (p + 1) := by
            rw [ht]
            show (c :: (tree c).chain.drop (tree c).contracted).drop
              (p - (tree c).contracted + 1 + 1) = _
            rw [List.drop_succ_cons, List.drop_drop]
            congr 1
            omega
          rw [h1, h2]
          simp only [heapElem, hp, ← hc]
          rw [List.getD_eq_getElem _ _ hplt]
          exact List.drop_eq_getElem_cons hplt
      have hsum : ((List.range cs.length).map
            (fun i => (exposed tree (cs.getD i 0)).length - taken1 i)).sum < fuel := by
        have := sum_map_range_lt
          (fun i => (exposed tree (cs.getD i 0)).length - taken i)
          (fun i => (exposed tree (cs.getD i 0)).length - taken1 i) cs.length ci hcilt
          (by
            intro i _
            by_cases hi : i = ci
            · subst hi; simp only [htaken1, Function.update_same]; omega
            · simp only [htaken1, Function.update_noteq hi]; exact le_refl _)
          (by
            simp only [htaken1, Function.update_same, ← hc, hElen]
            omega)
        omega
      -- wrap up a recursive call made on the state with `taken1`
      have hfinish : ∀ (heap' : List Nat) (pointer' : Nat → Option Nat),
          MergeInv tree cs heap' pointer' taken1 →
          ∃ merged, mergeLoop H tv tree cs fuel
              (heap', pointer', chain ++ [heapElem tree cs pointer ci]) = some (chain ++ merged) ∧
            (∀ i, i < cs.length →
              List.Sublist ((exposed tree (cs.getD i 0)).drop (taken i)) merged) ∧
            merged.Perm ((List.range cs.length).flatMap
              (fun i => (exposed tree (cs.getD i 0)).drop (taken i))) := by
        intro heap' pointer' inv'
        obtain ⟨merged', hm1, hm2, hm3⟩ :=
          ih heap' pointer' (chain ++ [heapElem tree cs pointer ci]) taken1 inv' hsum
        refine ⟨heapElem tree cs pointer ci :: merged', ?_, ?_, ?_⟩
        · rw [hm1, List.append_assoc, List.singleton_append]
        · intro i hi
          by_cases hici : i = ci
          · subst hici
            rw [← hc, helem]
            have := hm2 i hi
            simp only [htaken1, Function.update_same, ← hc] at this
            exact List.Sublist.cons₂ _ this
          · have := hm2 i hi
            simp only [htaken1, Function.update_noteq hici] at this
            exact List.Sublist.cons _ this
        · refine (List.Perm.cons _ hm3).trans (flatMap_cons_at _ _ _ ci _ (List.nodup_range _)
            (List.mem_range.2 hcilt) ?_ ?_).symm
          · intro j _ hj
            simp only [htaken1, Function.update_noteq hj]
          · simp only [htaken1, Function.update_same, ← hc]
            exact helem
      -- the two ways the heap goes on
      have inv_remove : ∀ (pointer' : Nat → Option Nat),
          (∀ i, i ≠ ci → pointer' i = pointer i) →
          taken ci + 1 = (exposed tree c).length →
          MergeInv tree cs heap1.dropLast pointer' taken1 := by
        intro pointer' hsame hfull
        refine ⟨hdrop_nd, ?_, ?_⟩
        · intro i hi
          obtain ⟨hiH, hici⟩ := (hdrop_mem i).1 hi
          simp only [htaken1, Function.update_noteq hici, hsame i hici]
          exact inv.inHeap i hiH
        · intro i hi hnot
          by_cases hici : i = ci
          · subst hici
            simp only [htaken1, Function.update_same, ← hc]
            exact hfull
          · simp only [htaken1, Function.update_noteq hici]
            apply inv.notInHeap i hi
            intro hiH
            exact hnot ((hdrop_mem i).2 ⟨hiH, hici⟩)
      have inv_keep : ∀ (pointer' : Nat → Option Nat) (heap' : List Nat),
          heap'.Perm heap1 →
          (∀ i, i ≠ ci → pointer' i = pointer i) →
          taken ci + 1 < (exposed tree c).length →
          (∃ p, pointer' ci = some p ∧ (tree c).contracted ≤ p ∧
            taken ci + 1 = p - (tree c).contracted + 1) →
          MergeInv tree cs heap' pointer' taken1 := by
        intro pointer' heap' hperm hsame hlt hp
        refine ⟨hperm.nodup_iff.2 hnd1, ?_, ?_⟩
        · intro i hi
          have hiH : i ∈ heap := hperm1.mem_iff.1 (hperm.mem_iff.1 hi)
          by_cases hici : i = ci
          · subst hici
            simp only [htaken1, Function.update_same, ← hc]
            exact ⟨hcilt, hlt, Or.inr hp⟩
          · simp only [htaken1, Function.update_noteq hici, hsame i hici]
            exact inv.inHeap i hiH
        · intro i hi hnot
          have hnotH : i ∉ heap := fun h => hnot (hperm.mem_iff.2 (hperm1.mem_iff.2 h))
          have hici : i ≠ ci := fun h => hnotH (h ▸ hciH)
          simp only [htaken1, Function.update_noteq hici]
          exact inv.notInHeap i hi hnotH
      simp only [hci]
      rcases hptr with ⟨hp, ht⟩ | ⟨p, hp, hkp, ht⟩
      · -- first extraction of this child
        simp only [hp, ← hc]
        by_cases hch : (tree c).chain = []
        · rw [if_pos hch, if_pos (hleaf c hcmem hch)]
          apply hfinish
          apply inv_remove pointer (fun _ _ => rfl)
          rw [hElen, ht, hch]; simp
        · rw [if_neg hch]
          by_cases hfull : (tree c).contracted = (tree c).chain.length
          · rw [if_pos hfull]
            apply hfinish
            apply inv_remove pointer (fun _ _ => rfl)
            rw [hElen, ht, hfull]; simp
          · rw [if_neg hfull, if_neg hfull]
            apply hfinish
            apply inv_keep _ _ (H.pushHeap_perm _ _)
              (fun i hi => Function.update_noteq hi _ _)
            · rw [hElen, ht]; omega
            · exact ⟨(tree c).contracted, Function.update_same _ _ _, le_refl _, by rw [ht]; omega⟩
      · -- the pointer moves on
        simp only [hp, ← hc]
        by_cases hend : p + 1 = (tree c).chain.length
        · rw [if_pos hend]
          apply hfinish
          apply inv_remove _ (fun i hi => Function.update_noteq hi _ _)
          rw [hElen, ht]; omega
        · rw [if_neg hend]
          apply hfinish
          apply inv_keep _ _ (H.pushHeap_perm _ _)
            (fun i hi => Function.update_noteq hi _ _)
          · rw [hElen, ht]; omega
          · exact ⟨p + 1, Function.update_same _ _ _, by omega, by rw [ht]; omega⟩

/-- The merge for one node: the chain it appends interleaves the exposed entries of the
children, keeping the order inside each of them. -/
theorem merge_spec (H : HeapOps) (tv : TensorNetwork) (tree : Nat → Node) (cs : List Nat)
    (hk : ∀ c, c ∈ cs → (tree c).contracted ≤ (tree c).chain.length)
    (hleaf : ∀ c, c ∈ cs → (tree c).chain = [] → (tree c).children = [])
    (hvalid : ∀ c, c ∈ cs → ∀ x, x ∈ exposed tree c → (tree x).rankDefined tv = true)
    (chain0 : List Nat) :
    ∃ merged, mergeLoop H tv tree cs (mergeFuel tree cs)
        (H.makeHeap (ikkbzCmp tv tree cs (fun _ => none)) (List.range cs.length),
          fun _ => none, chain0) = some (chain0 ++ merged) ∧
      (∀ c, c ∈ cs → List.Sublist (exposed tree c) merged) ∧
      merged.Perm (cs.flatMap (exposed tree)) := by
  have hperm := H.makeHeap_perm (ikkbzCmp tv tree cs (fun _ => none)) (List.range cs.length)
  have inv0 : MergeInv tree cs
      (H.makeHeap (ikkbzCmp tv tree cs (fun _ => none)) (List.range cs.length))
      (fun _ => none) (fun _ => 0) := by
    refine ⟨hperm.nodup_iff.2 (List.nodup_range _), ?_, ?_⟩
    · intro i hi
      have := List.mem_range.1 (hperm.mem_iff.1 hi)
      refine ⟨this, ?_, Or.inl ⟨rfl, rfl⟩⟩
      rw [exposed_length]; omega
    · intro i hi hnot
      exact absurd (hperm.mem_iff.2 (List.mem_range.2 hi)) hnot
  have hmap : (List.range cs.length).map (fun i => cs.getD i 0) = cs := map_getD_range cs
  have hfuel : ((List.range cs.length).map
      (fun i => (exposed tree (cs.getD i 0)).length - (fun _ => 0) i)).sum <
      mergeFuel tree cs := by
    unfold mergeFuel
    have h1 : (cs.map (fun c => 1 + (tree c).chain.length)).sum =
        ((List.range cs.length).map
          (fun i => 1 + (tree (cs.getD i 0)).chain.length)).sum := by
      conv_lhs => rw [← hmap]
      rw [List.map_map]
      rfl
    rw [h1, Nat.lt_succ_iff]
    apply List.sum_le_sum
    intro i _
    simp only [Nat.sub_zero, exposed_length]
    omega
  obtain ⟨merged, h1, h2, h3⟩ := mergeLoop_spec H tv tree cs hk hleaf hvalid
    (mergeFuel tree cs) _ _ chain0 (fun _ => 0) inv0 hfuel
  refine ⟨merged, h1, ?_, ?_⟩
  · intro c hc
    obtain ⟨i, hi, rfl⟩ := List.getElem_of_mem hc
    have := h2 i hi
    rw [List.getD_eq_getElem _ _ hi] at this
    simpa using this
  · refine h3.trans ?_
    have : cs.flatMap (exposed tree) =
        ((List.range cs.length).map (fun i => cs.getD i 0)).flatMap (exposed tree) := by
      rw [hmap]
    rw [this, List.flatMap_map]
    simp only [List.drop_zero]
    exact List.Perm.refl _

/-! ### The contracted prefix of a chain -/

theorem sublist_pair_mem_left {a b : Nat} {l1 l2 : List Nat} (hnd : (l1 ++ b :: l2).Nodup)
    (h : List.Sublist [a, b] (l1 ++ b :: l2)) : a ∈ l1 := by
  rw [List.nodup_append] at hnd
  obtain ⟨_, hnd2, hdisj⟩ := hnd
  rw [List.nodup_cons] at hnd2
  rw [List.sublist_append_iff] at h
  obtain ⟨a1, a2, hsplit, h1, h2⟩ := h
  cases a1 with
  | nil =>
    simp only [List.nil_append] at hsplit
    subst hsplit
    exfalso
    cases h2 with
    | cons _ h3 => exact hnd2.1 (h3.subset (by simp))
    | cons₂ _ h3 => exact hnd2.1 (h3.subset (by simp))
  | cons x a1 =>
    simp only [List.cons_append, List.cons.injEq] at hsplit
    obtain ⟨rfl, hrest⟩ := hsplit
    have ha : a ∈ l1 := h1.subset (by simp)
    exact ha

/-- The loop that computes the contracted vertex: it stops after some `k` entries, whose
compounds it has appended to the compound of `curr`, and the outer legs of `curr` stay the
toggled strict legs of its compound without the incoming edge; no assertion fails. -/
theorem contractLoop_spec (tv : TensorNetwork) {root : Nat} (R : Rooted tv root)
    (T : Nat → Node) (curr : Nat) (ch : List Nat) (hcurr : curr < tv.n) (hcr : curr ≠ root)
    (hch : ∀ x, x ∈ ch → x ≠ curr ∧ x < tv.n ∧ x ≠ root ∧ (T x).incomingEdgeId = R.eid x ∧
      (T x).outerLegs = strictLegs tv (T x).compound ^^^ BitSet.single (R.eid x) ∧
      ∃ tl, (T x).compound = x :: tl)
    (hnd : (curr :: ch.flatMap (fun x => (T x).compound)).Nodup)
    (hprec : ∀ x, x ∈ ch →
      List.Sublist [R.parent x, x] (curr :: ch.flatMap (fun x => (T x).compound))) :
    ∀ (rest pre : List Nat) (tree : Nat → Node), ch = pre ++ rest →
      (∀ x, x ≠ curr → tree x = T x) →
      (tree curr).compound = curr :: pre.flatMap (fun x => (T x).compound) →
      (tree curr).outerLegs =
        strictLegs tv (tree curr).compound ^^^ BitSet.single (R.eid curr) →
      (tree curr).incomingEdgeId = R.eid curr →
      ∃ tree' k, contractLoop tv curr rest tree = some tree' ∧
        (∀ x, x ≠ curr → tree' x = T x) ∧ k ≤ rest.length ∧
        (tree' curr).contracted = (tree curr).contracted + k ∧
        (tree' curr).compound =
          curr :: (pre ++ rest.take k).flatMap (fun x => (T x).compound) ∧
        (tree' curr).outerLegs =
          strictLegs tv (tree' curr).compound ^^^ BitSet.single (R.eid curr) ∧
        (tree' curr).chain = (tree curr).chain ∧
        (tree' curr).children = (tree curr).children ∧
        (tree' curr).incomingEdgeId = (tree curr).incomingEdgeId := by
  intro rest
  induction rest with
  | nil =>
    intro pre tree _ hframe hcomp houter _
    exact ⟨tree, 0, rfl, hframe, le_refl _, rfl, by simpa using hcomp, houter, rfl, rfl, rfl⟩
  | cons next rest ih =>
    intro pre tree hsplit hframe hcomp houter hcinc
    rw [contractLoop]
    have hnext_mem : next ∈ ch := by rw [hsplit]; simp
    obtain ⟨hne, hlt, hnr, hinc, hout, tl, htl⟩ := hch next hnext_mem
    have hTn : tree next = T next := hframe next hne
    have hrank : ((tree curr).rankDefined tv && (tree next).rankDefined tv) = true := by
      unfold Node.rankDefined
      rw [hcinc, hTn, hinc, decide_eq_true (R.eid_lt curr hcurr hcr),
        decide_eq_true (R.eid_lt next hlt hnr)]
      rfl
    rw [if_neg (by rw [hrank]; simp)]
    by_cases hshould : (tree curr).shouldMergeWith tv (tree next) = true
    · rw [if_pos hshould]
      -- the flat list splits around the compound of `next`
      have hFL : curr :: ch.flatMap (fun x => (T x).compound) =
          (tree curr).compound ++ next :: (tl ++ rest.flatMap (fun x => (T x).compound)) := by
        rw [hcomp, hsplit, List.flatMap_append, List.flatMap_cons, htl]
        simp
      have hnd' := hnd
      rw [hFL] at hnd'
      have hpar : R.parent next ∈ (tree curr).compound := by
        have := hprec next hnext_mem
        rw [hFL] at this
        exact sublist_pair_mem_left hnd' this
      obtain ⟨hndC, hndR, hdisj⟩ := List.nodup_append.1 hnd'
      have hnextC : next ∉ (tree curr).compound := fun h => hdisj h (by simp)
      have hndN : (T next).compound.Nodup := by
        rw [htl]
        have : (next :: tl ++ rest.flatMap (fun x => (T x).compound)).Nodup := by
          simpa using hndR
        exact (List.nodup_append.1 this).1
      have hparN : R.parent next ∉ (T next).compound := by
        intro h
        rw [htl] at h
        exact hdisj hpar (by
          rcases List.mem_cons.1 h with h | h
          · rw [h]; simp
          · simp [h])
      have hbitC : (strictLegs tv (tree curr).compound).testBit (R.eid next) = true := by
        rw [R.testBit_strictLegs hndC next hlt hnr]
        simp [hnextC, hpar]
      have hbitN : (strictLegs tv (T next).compound).testBit (R.eid next) = true := by
        rw [R.testBit_strictLegs hndN next hlt hnr]
        have h1 : next ∈ (T next).compound := by rw [htl]; simp
        simp [hparN, h1]
      have heid : R.eid curr ≠ R.eid next := fun h => hne (R.eid_inj hcurr hcr hlt hnr h).symm
      have hbitO : (tree curr).outerLegs.testBit (R.eid next) = true := by
        rw [houter, Nat.testBit_xor, hbitC, BitSet.testBit_single]
        simp [heid]
      have hbitN' : (T next).outerLegs.testBit (R.eid next) = false := by
        rw [hout, Nat.testBit_xor, hbitN, BitSet.testBit_single]
        simp
      have hlegs2 : (T next).outerLegs ||| BitSet.single (R.eid next) =
          strictLegs tv (T next).compound := by
        apply Nat.eq_of_testBit_eq
        intro i
        rw [Nat.testBit_lor, hout, Nat.testBit_xor, BitSet.testBit_single]
        by_cases hi : R.eid next = i
        · subst hi; simp [hbitN]
        · simp [hi]
      simp only [hTn, hinc, BitSet.minus, hbitO, if_true, BitSet.plus, hbitN',
        Bool.false_eq_true, if_false, hlegs2]
      obtain ⟨tree', k, h1, h2, h3, h4, h5, h6, h7, h8, h9⟩ := ih (pre ++ [next])
        (Function.update tree curr
          { tree curr with
            acc := (tree curr).acc + (tree curr).openSize *
              tv.computeLegDimProduct ((tree curr).outerLegs ^^^ BitSet.single (R.eid next)) *
              (T next).acc
            outerLegs := (tree curr).outerLegs ^^^ strictLegs tv (T next).compound
            openSize := (tree curr).openSize * (T next).openSize
            contracted := (tree curr).contracted + 1
            compound := (tree curr).compound ++ (T next).compound })
        (by rw [hsplit]; simp)
        (fun x hx => by rw [Function.update_noteq hx]; exact hframe x hx)
        (by
          simp only [Function.update_same]
          rw [hcomp, List.flatMap_append]
          simp)
        (by
          simp only [Function.update_same]
          rw [strictLegs_append, houter, Nat.xor_assoc, Nat.xor_assoc,
            Nat.xor_comm (BitSet.single (R.eid curr))])
        (by simp only [Function.update_same]; exact hcinc)
      refine ⟨tree', k + 1, h1, h2, by simp; omega, ?_, ?_, h6, ?_, ?_, ?_⟩
      · rw [h4]; simp only [Function.update_same]; omega
      · rw [h5]; simp
      · rw [h7]; simp only [Function.update_same]
      · rw [h8]; simp only [Function.update_same]
      · rw [h9]; simp only [Function.update_same]
    · rw [if_neg hshould]
      exact ⟨tree, 0, rfl, hframe, Nat.zero_le _, rfl, by simpa using hcomp, houter, rfl, rfl,
        rfl⟩

/-! ## Increment and decrement -/

namespace BitSetN

/-- The function `size()`: `__builtin_popcountll` on a word, the sum over the halves otherwise. -/
def size : {N : Nat} → BitSetN N → Nat
  | _, word set => BitSet.size set
  | _, pair set1 set2 => size set1 + size set2

/-- The function `increment()`: `set + 1` on a word (unsigned wrap-around); otherwise the
empty set when all `2 * half` bits are set, a carry into `set2` when `set1` is full, and the
increment of `set1` in the remaining case. -/
def increment : {N : Nat} → BitSetN N → BitSetN N
  | _, word set => word ((set + 1) % 2 ^ 64)
  | _, @pair N set1 set2 =>
    if size set1 + size set2 = 2 * capacity N then pair (fill N 0) (fill N 0)
    else if size set1 = capacity N then pair (fill N 0) (increment set2)
    else pair (increment set1) set2

/-- The numeral `Σ_{x ∈ s} 2^x` over the members `x` below the capacity, read with `count`. -/
def value {N : Nat} (s : BitSetN N) : Nat :=
  (((List.range (capacity N)).filter (fun x => s.count x)).map (fun x => 2 ^ x)).sum

end BitSetN

theorem size_shift_add {a h : Nat} (b : Nat) (ha : a < 2 ^ h) :
    BitSet.size (a + 2 ^ h * b) = BitSet.size a + BitSet.size b := by
  rw [BitSet.size_eq_card, BitSet.size_eq_card, BitSet.size_eq_card]
  have hset : BitSet.toFinset (a + 2 ^ h * b) =
      BitSet.toFinset a ∪ (BitSet.toFinset b).image (fun x => x + h) := by
    ext x
    rw [BitSet.mem_toFinset, Finset.mem_union, BitSet.mem_toFinset, Finset.mem_image,
      Nat.add_comm, Nat.testBit_mul_pow_two_add _ ha]
    by_cases hx : x < h
    · rw [if_pos hx]
      constructor
      · exact Or.inl
      · rintro (h1 | ⟨y, _, hy⟩)
        · exact h1
        · omega
    · rw [if_neg hx]
      constructor
      · intro h1
        exact Or.inr ⟨x - h, BitSet.mem_toFinset.2 h1, by omega⟩
      · rintro (h1 | ⟨y, hy, hyx⟩)
        · exact absurd (BitSetN.lowest_lt ha h1) hx
        · have : x - h = y := by omega
          rw [this]; exact BitSet.mem_toFinset.1 hy
  rw [hset, Finset.card_union_of_disjoint, Finset.card_image_of_injective]
  · intro x y hxy
    exact Nat.add_right_cancel hxy
  · rw [Finset.disjoint_left]
    intro x hx hx2
    rw [BitSet.mem_toFinset] at hx
    have := BitSetN.lowest_lt ha hx
    rw [Finset.mem_image] at hx2
    obtain ⟨y, _, hy⟩ := hx2
    omega

/-- A numeral below `2 ^ c` has `c` set bits only if it is `2 ^ c - 1`. -/
theorem size_eq_iff_full {v c : Nat} (h : v < 2 ^ c) : BitSet.size v = c ↔ v = 2 ^ c - 1 := by
  constructor
  · intro hsz
    apply BitSet.toFinset_inj
    have hsub : BitSet.toFinset v ⊆ Finset.range c := by
      intro x hx
      rw [BitSet.mem_toFinset] at hx
      exact Finset.mem_range.2 (BitSetN.lowest_lt h hx)
    have heq : BitSet.toFinset v = Finset.range c := by
      apply Finset.eq_of_subset_of_card_le hsub
      rw [Finset.card_range, ← BitSet.size_eq_card, hsz]
    rw [heq]
    ext x
    rw [BitSet.mem_toFinset, Finset.mem_range, Nat.testBit_two_pow_sub_one]
    simp
  · intro hv
    rw [hv]
    exact BitSet.size_fill c

namespace BitSetN

theorem size_toNat {N : Nat} (s : BitSetN N) : s.Valid → size s = BitSet.size s.toNat := by
  induction s with
  | word set => intro _; rfl
  | @pair N a b iha ihb =>
    intro h
    show size a + size b = BitSet.size (a.toNat + 2 ^ capacity N * b.toNat)
    rw [size_shift_add _ (toNat_lt a h.1), iha h.1, ihb h.2]

theorem size_eq_capacity_iff {N : Nat} (s : BitSetN N) (hs : s.Valid) :
    size s = capacity N ↔ s.toNat = 2 ^ capacity N - 1 := by
  rw [size_toNat s hs]
  exact size_eq_iff_full (toNat_lt s hs)

theorem size_le_capacity {N : Nat} (s : BitSetN N) (hs : s.Valid) : size s ≤ capacity N := by
  rw [size_toNat s hs]
  exact size_le_of_lt_two_pow (toNat_lt s hs)

theorem fill_zero_spec (N : Nat) : (fill N 0).Valid ∧ (fill N 0).toNat = 0 := by
  have := fill_spec N 0 (Nat.zero_le _)
  simpa using this

theorem carry_full {P a b : Nat} (hP : 0 < P) (ha : a = P - 1) (hb : b = P - 1) :
    (a + P * b + 1) % (P * P) = 0 := by
  subst ha hb
  have e : P - 1 + P * (P - 1) + 1 = P * P := by
    have : P * (P - 1) = P * P - P := by rw [Nat.mul_sub, Nat.mul_one]
    have : P ≤ P * P := Nat.le_mul_of_pos_right _ hP
    omega
  rw [e]; simp

theorem carry_high {P a b : Nat} (hP : 0 < P) (ha : a = P - 1) (hb : b + 1 < P) :
    (a + P * b + 1) % (P * P) = P * (b + 1) := by
  subst ha
  have e : P - 1 + P * b + 1 = P * (b + 1) := by rw [Nat.mul_succ]; omega
  rw [e]
  exact Nat.mod_eq_of_lt (Nat.mul_lt_mul_of_pos_left hb hP)

theorem carry_low {P a b : Nat} (ha : a + 1 < P) (hb : b < P) :
    (a + P * b + 1) % (P * P) = a + 1 + P * b := by
  have : P * (b + 1) ≤ P * P := Nat.mul_le_mul_left _ hb
  rw [Nat.mul_succ] at this
  rw [Nat.mod_eq_of_lt (by omega)]
  omega

theorem increment_spec {N : Nat} (s : BitSetN N) : s.Valid →
    s.increment.Valid ∧ s.increment.toNat = (s.toNat + 1) % 2 ^ capacity N := by
  induction s with
  | word set =>
    intro h
    exact ⟨Nat.mod_lt _ (by positivity), rfl⟩
  | @pair N a b iha ihb =>
    intro h
    have ha := toNat_lt a h.1
    have hb := toNat_lt b h.2
    have hsa := size_le_capacity a h.1
    have hsb := size_le_capacity b h.2
    have hP : 0 < 2 ^ capacity N := by positivity
    have hcap : (2 : Nat) ^ capacity (N + 1) = 2 ^ capacity N * 2 ^ capacity N := by
      rw [capacity_succ, pow_add]
    obtain ⟨hz1, hz2⟩ := fill_zero_spec N
    have hfa := size_eq_capacity_iff a h.1
    have hfb := size_eq_capacity_iff b h.2
    rw [increment, hcap]
    show _ ∧ _ = (a.toNat + 2 ^ capacity N * b.toNat + 1) % _
    by_cases hfull : size a + size b = 2 * capacity N
    · rw [if_pos hfull]
      have h1 : size a = capacity N := by omega
      have h2 : size b = capacity N := by omega
      refine ⟨⟨hz1, hz1⟩, ?_⟩
      rw [carry_full hP (hfa.1 h1) (hfb.1 h2)]
      show (fill N 0).toNat + _ * (fill N 0).toNat = _
      rw [hz2]; simp
    · rw [if_neg hfull]
      by_cases hlow : size a = capacity N
      · rw [if_pos hlow]
        have hbn : ¬ b.toNat = 2 ^ capacity N - 1 := fun e => hfull (by rw [hfb.2 e]; omega)
        obtain ⟨hv, hn⟩ := ihb h.2
        refine ⟨⟨hz1, hv⟩, ?_⟩
        have hb1 : b.toNat + 1 < 2 ^ capacity N := by omega
        rw [carry_high hP (hfa.1 hlow) hb1]
        show (fill N 0).toNat + _ * b.increment.toNat = _
        rw [hz2, hn, Nat.mod_eq_of_lt hb1, Nat.zero_add]
      · rw [if_neg hlow]
        have han : ¬ a.toNat = 2 ^ capacity N - 1 := fun e => hlow (hfa.2 e)
        obtain ⟨hv, hn⟩ := iha h.1
        refine ⟨⟨hv, h.2⟩, ?_⟩
        have ha1 : a.toNat + 1 < 2 ^ capacity N := by omega
        rw [carry_low ha1 hb]
        show a.increment.toNat + _ * b.toNat = _
        rw [hn, Nat.mod_eq_of_lt ha1]

/-- Valid bit-sets are determined by their numeral. -/
theorem toNat_inj {N : Nat} (s : BitSetN N) : ∀ t : BitSetN N, s.Valid → t.Valid →
    s.toNat = t.toNat → s = t := by
  induction s with
  | word x =>
    intro t _ _ h
    cases t with
    | word y => exact congrArg word h
  | @pair N a b iha ihb =>
    intro t hs ht h
    cases t with
    | pair c d =>
      have ha := toNat_lt a hs.1
      have hc := toNat_lt c ht.1
      have h' : a.toNat + 2 ^ capacity N * b.toNat = c.toNat + 2 ^ capacity N * d.toNat := h
      have h1 : a.toNat = c.toNat := by
        have := congrArg (fun x => x % 2 ^ capacity N) h'
        simpa [Nat.add_mul_mod_self_left, Nat.mod_eq_of_lt ha, Nat.mod_eq_of_lt hc] using this
      have h2 : b.toNat = d.toNat := by
        rw [h1] at h'
        have := Nat.add_left_cancel h'
        exact Nat.eq_of_mul_eq_mul_left (by positivity) this
      rw [iha c hs.1 ht.1 h1, ihb d hs.2 ht.2 h2]

end BitSetN

/-- The members below `c` of a numeral sum up to its `c` lowest digits. -/
theorem sum_two_pow_bits (v : Nat) : ∀ c : Nat,
    (((List.range c).filter (fun x => v.testBit x)).map (fun x => 2 ^ x)).sum = v % 2 ^ c := by
  intro c
  induction c with
  | zero => simp [Nat.mod_one]
  | succ c ih =>
    rw [List.range_succ, List.filter_append, List.map_append, List.sum_append, ih,
      Nat.mod_pow_succ]
    congr 1
    by_cases hb : v / 2 ^ c % 2 = 1
    · have ht : v.testBit c = true := by rw [Nat.testBit_to_div_mod]; simp [hb]
      simp [ht, hb]
    · have ht : v.testBit c = false := by rw [Nat.testBit_to_div_mod]; simp [hb]
      have : v / 2 ^ c % 2 = 0 := by omega
      simp [ht, this]

theorem BitSetN.value_eq {N : Nat} (s : BitSetN N) (hs : s.Valid) : s.value = s.toNat := by
  unfold BitSetN.value
  have : (List.range (capacity N)).filter (fun x => s.count x) =
      (List.range (capacity N)).filter (fun x => s.toNat.testBit x) := by
    apply List.filter_congr
    intro x hx
    rw [BitSetN.count_eq s hs x (List.mem_range.1 hx)]
  rw [this, sum_two_pow_bits, Nat.mod_eq_of_lt (BitSetN.toNat_lt s hs)]
/-- C21: `increment` treats the set as a binary numeral. For every width `N` (capacity
`C = 64 * 2 ^ N`) and every set `s`, the numeral `Σ_{x ∈ s} 2 ^ x` of `s.increment()` is the
numeral of `s` plus one modulo `2 ^ C`; in particular `increment({0, 1}) = {2}` and the
increment of the full set `fill(C)` is the empty set. -/
theorem increment_numeral (N : Nat) (s : BitSetN N) (hs : s.Valid) :
    s.increment.Valid ∧
    s.increment.value = (s.value + 1) % 2 ^ BitSetN.capacity N ∧
    (∀ v, v < BitSetN.capacity N → (BitSetN.fill N 2).increment.count v = decide (v = 2)) ∧
    (BitSetN.fill N (BitSetN.capacity N)).increment = BitSetN.fill N 0 := by
  obtain ⟨hv, hn⟩ := BitSetN.increment_spec s hs
  have hc64 : 64 ≤ BitSetN.capacity N := by
    unfold BitSetN.capacity
    calc 64 = 2 ^ 6 := by norm_num
      _ ≤ 2 ^ (N + 6) := Nat.pow_le_pow_right (by omega) (by omega)
  have hbig : (2 : Nat) ^ 64 ≤ 2 ^ BitSetN.capacity N := Nat.pow_le_pow_right (by omega) hc64
  refine ⟨hv, ?_, ?_, ?_⟩
  · rw [BitSetN.value_eq _ hv, BitSetN.value_eq s hs, hn]
  · intro v hvc
    obtain ⟨h1, h2⟩ := BitSetN.fill_spec N 2 (by omega)
    obtain ⟨h3, h4⟩ := BitSetN.increment_spec _ h1
    rw [BitSetN.count_eq _ h3 v hvc, h4, h2]
    have : (2 ^ 2 - 1 + 1) % 2 ^ BitSetN.capacity N = 2 ^ 2 := by
      apply Nat.mod_eq_of_lt
      have : (2 : Nat) ^ 2 - 1 + 1 < 2 ^ 64 := by norm_num
      omega
    rw [this, Nat.testBit_two_pow]
    by_cases h : v = 2
    · simp [h]
    · have h' : ¬ 2 = v := fun e => h e.symm
      simp [h, h']
  · obtain ⟨h1, h2⟩ := BitSetN.fill_spec N (BitSetN.capacity N) (le_refl _)
    obtain ⟨h3, h4⟩ := BitSetN.increment_spec _ h1
    obtain ⟨h5, h6⟩ := BitSetN.fill_zero_spec N
    apply BitSetN.toNat_inj _ _ h3 h5
    rw [h4, h2, h6]
    have : 0 < 2 ^ BitSetN.capacity N := by positivity
    rw [Nat.sub_add_cancel this]
    exact Nat.mod_self _

/-- The statement of `increment_numeral` on a `BitSet<1>` whose low word is full: the carry
moves into the high word. -/
theorem increment_numeral_witness :
    (BitSetN.pair (BitSetN.word (2 ^ 64 - 1)) (BitSetN.word 5)).Valid ∧
    (BitSetN.pair (BitSetN.word (2 ^ 64 - 1)) (BitSetN.word 5)).increment =
      BitSetN.pair (BitSetN.word 0) (BitSetN.word 6) ∧
    (BitSetN.pair (BitSetN.word (2 ^ 64 - 1)) (BitSetN.word 5)).increment.value =
      ((BitSetN.pair (BitSetN.word (2 ^ 64 - 1)) (BitSetN.word 5)).value + 1) %
        2 ^ BitSetN.capacity 1 :=
  ⟨⟨(by decide : (2 ^ 64 - 1 : Nat) < 2 ^ 64), (by decide : (5 : Nat) < 2 ^ 64)⟩,
   by decide,
   (increment_numeral 1 (BitSetN.pair (BitSetN.word (2 ^ 64 - 1)) (BitSetN.word 5))
    (show BitSetN.Valid (BitSetN.pair (BitSetN.word (2 ^ 64 - 1)) (BitSetN.word 5)) from
      ⟨(by decide : (2 ^ 64 - 1 : Nat) < 2 ^ 64), (by decide : (5 : Nat) < 2 ^ 64)⟩)).2.1⟩

/-- C22: for every width and every set `s` other than the full set `fill(C)`,
`s.increment().decrement()` returns `s`; no assertion of `decrement` fails. -/
theorem increment_decrement (N : Nat) (s : BitSetN N) (hs : s.Valid)
    (hne : s ≠ BitSetN.fill N (BitSetN.capacity N)) :
    s.increment.decrement = some s := by
  obtain ⟨hv, hn⟩ := BitSetN.increment_spec s hs
  obtain ⟨h1, h2⟩ := BitSetN.fill_spec N (BitSetN.capacity N) (le_refl _)
  have hlt := BitSetN.toNat_lt s hs
  have hnf : s.toNat ≠ 2 ^ BitSetN.capacity N - 1 := by
    intro e
    exact hne (BitSetN.toNat_inj _ _ hs h1 (by rw [e, h2]))
  have hlt1 : s.toNat + 1 < 2 ^ BitSetN.capacity N := by omega
  rw [Nat.mod_eq_of_lt hlt1] at hn
  obtain ⟨d, hd, hdv, hdn⟩ := BitSetN.decrement_spec s.increment hv (by omega)
  rw [hd]
  congr 1
  apply BitSetN.toNat_inj _ _ hdv hs
  rw [hdn, hn]
  omega

/-- The statement of `increment_decrement` on a `BitSet<1>` whose low word is full. -/
theorem increment_decrement_witness :
    (BitSetN.pair (BitSetN.word (2 ^ 64 - 1)) (BitSetN.word 5)).increment.decrement =
      some (BitSetN.pair (BitSetN.word (2 ^ 64 - 1)) (BitSetN.word 5)) :=
  increment_decrement 1 (BitSetN.pair (BitSetN.word (2 ^ 64 - 1)) (BitSetN.word 5))
    ⟨(by decide : (2 ^ 64 - 1 : Nat) < 2 ^ 64), (by decide : (5 : Nat) < 2 ^ 64)⟩
    (by decide)

/-! ## The hash function -/

/-- The table `primes` of `BitSet.hpp`. -/
def primes : List Nat :=
  [1, 10007, 10009, 10037, 10039, 10061, 10067, 10069, 10079, 10091, 10093, 10099, 10103,
    10111, 10133, 10139, 10141, 10151, 10159, 10163, 10169]

namespace BitSetN

/-- The function `hash(primeIndex)`, over `stdHash = std::hash<uint64_t>()`. In `BitSet<0>`
the parameter is `unsigned primeIndex` and the result is `stdHash(primes[primeIndex] * set)`
with the product taken in `uint64_t`. In the wider variants the parameter is declared
`bool primeIndex`: the argument it receives is converted to `bool` before
`set1.hash(2 * primeIndex) ^ set2.hash(2 * primeIndex + 1)` is computed. -/
def hash (stdHash : Nat → Nat) : {N : Nat} → BitSetN N → Nat → Nat
  | _, word set, primeIndex => stdHash ((primes.getD primeIndex 0 * set) % 2 ^ 64)
  | _, pair set1 set2, primeIndex =>
    let b := if primeIndex = 0 then 0 else 1
    hash stdHash set1 (2 * b) ^^^ hash stdHash set2 (2 * b + 1)

/-- A `BitSet<3>` (the type `BitSet512`) given by its eight 64-bit lanes, lane 0 lowest. -/
def ofLanes8 (l0 l1 l2 l3 l4 l5 l6 l7 : Nat) : BitSetN 3 :=
  pair (pair (pair (word l0) (word l1)) (pair (word l2) (word l3)))
    (pair (pair (word l4) (word l5)) (pair (word l6) (word l7)))

end BitSetN

/-- C25: in `BitSet512` the lanes 2, 4 and 6 are all multiplied by `primes[2] = 10009` and the
lanes 3, 5 and 7 by `primes[3] = 10037` (lane 0 by `primes[0] = 1`), so exchanging the
contents of the lanes 2 and 4 leaves the hash unchanged, whatever `std::hash` is; the sets
`{128}` and `{256}` get the same hash. -/
theorem hash_repeats_prime (stdHash : Nat → Nat) (l0 l1 l2 l3 l4 l5 l6 l7 : Nat) :
    (BitSetN.ofLanes8 l0 l1 l2 l3 l4 l5 l6 l7).hash stdHash 0 =
      ((stdHash (1 * l0 % 2 ^ 64) ^^^ stdHash (10007 * l1 % 2 ^ 64)) ^^^
        (stdHash (10009 * l2 % 2 ^ 64) ^^^ stdHash (10037 * l3 % 2 ^ 64))) ^^^
      ((stdHash (10009 * l4 % 2 ^ 64) ^^^ stdHash (10037 * l5 % 2 ^ 64)) ^^^
        (stdHash (10009 * l6 % 2 ^ 64) ^^^ stdHash (10037 * l7 % 2 ^ 64))) ∧
    (BitSetN.ofLanes8 l0 l1 l2 l3 l4 l5 l6 l7).hash stdHash 0 =
      (BitSetN.ofLanes8 l0 l1 l4 l3 l2 l5 l6 l7).hash stdHash 0 ∧
    (BitSetN.ofLanes8 0 0 1 0 0 0 0 0).hash stdHash 0 =
      (BitSetN.ofLanes8 0 0 0 0 1 0 0 0).hash stdHash 0 ∧
    BitSetN.ofLanes8 0 0 1 0 0 0 0 0 ≠ BitSetN.ofLanes8 0 0 0 0 1 0 0 0 ∧
    (BitSetN.ofLanes8 0 0 1 0 0 0 0 0).toNat = 2 ^ 128 ∧
    (BitSetN.ofLanes8 0 0 0 0 1 0 0 0).toNat = 2 ^ 256 := by
  have key : ∀ a0 a1 a2 a3 a4 a5 a6 a7 : Nat,
      (BitSetN.ofLanes8 a0 a1 a2 a3 a4 a5 a6 a7).hash stdHash 0 =
      ((stdHash (1 * a0 % 2 ^ 64) ^^^ stdHash (10007 * a1 % 2 ^ 64)) ^^^
        (stdHash (10009 * a2 % 2 ^ 64) ^^^ stdHash (10037 * a3 % 2 ^ 64))) ^^^
      ((stdHash (10009 * a4 % 2 ^ 64) ^^^ stdHash (10037 * a5 % 2 ^ 64)) ^^^
        (stdHash (10009 * a6 % 2 ^ 64) ^^^ stdHash (10037 * a7 % 2 ^ 64))) := by
    intro a0 a1 a2 a3 a4 a5 a6 a7
    rfl
  refine ⟨key _ _ _ _ _ _ _ _, ?_, ?_, by decide, by decide, by decide⟩
  · rw [key, key]
    ac_rfl
  · rw [key, key]
    ac_rfl

/-! ## Insertion and its checks -/

/-- The outcome of a call: a value, a failed `assert`, or a shift `1ull << v` with `v ≥ 64`,
whose behaviour C++ leaves undefined. -/
inductive Outcome (α : Type) where
  | ok (a : α)
  | assertFailed
  | undefinedShift
  deriving DecidableEq

namespace BitSetN

/-- The membership test `count(v)` with the range of the shift made explicit: `none` stands
for the undefined `1ull << v` with `v ≥ 64`, which is what `BitSet<0>::count` evaluates. -/
def countChecked : {N : Nat} → BitSetN N → Nat → Option Bool
  | _, word set, v => if v < 64 then some (decide (set &&& 2 ^ v ≠ 0)) else none
  | _, @pair N set1 set2, v =>
    if v < capacity N then countChecked set1 v else countChecked set2 (v - capacity N)

/-- The function `insert(v)`. `BitSet<0>::insert` is `set |= 1ull << v` and asserts nothing.
`BitSet<N>::insert` evaluates `assert(!count(v))`, then `assert(v != -1)`, and then inserts
into the half that holds `v`. -/
def insert : {N : Nat} → BitSetN N → Nat → Outcome (BitSetN N)
  | _, word set, v =>
    if v < 64 then Outcome.ok (word (set ||| 2 ^ v)) else Outcome.undefinedShift
  | _, @pair N set1 set2, v =>
    match countChecked (pair set1 set2) v with
    | none => Outcome.undefinedShift
    | some true => Outcome.assertFailed
    | some false =>
      if v = NIL then Outcome.assertFailed
      else if v < capacity N then
        match insert set1 v with
        | Outcome.ok s => Outcome.ok (pair s set2)
        | Outcome.assertFailed => Outcome.assertFailed
        | Outcome.undefinedShift => Outcome.undefinedShift
      else
        match insert set2 (v - capacity N) with
        | Outcome.ok s => Outcome.ok (pair set1 s)
        | Outcome.assertFailed => Outcome.assertFailed
        | Outcome.undefinedShift => Outcome.undefinedShift

theorem countChecked_lt {N : Nat} (s : BitSetN N) : ∀ v, v < capacity N →
    countChecked s v = some (count s v) := by
  induction s with
  | word set =>
    intro v hv
    have hv' : v < 64 := hv
    simp only [countChecked, if_pos hv', count, two_pow_mod_word hv']
  | @pair N a b iha ihb =>
    intro v hv
    rw [capacity_succ] at hv
    simp only [countChecked, count]
    by_cases h : v < capacity N
    · rw [if_pos h, if_pos h]; exact iha v h
    · rw [if_neg h, if_neg h]; exact ihb _ (by omega)

theorem countChecked_ge {N : Nat} (s : BitSetN N) : ∀ v, capacity N ≤ v →
    countChecked s v = none := by
  induction s with
  | word set =>
    intro v hv
    have hv' : ¬ v < 64 := not_lt.2 hv
    simp only [countChecked, if_neg hv']
  | @pair N a b iha ihb =>
    intro v hv
    rw [capacity_succ] at hv
    have h : ¬ v < capacity N := by omega
    simp only [countChecked, if_neg h]
    exact ihb _ (by omega)

/-- Inserting an absent element below the capacity succeeds and sets exactly its bit
(`v` is an `unsigned` other than `-1`). -/
theorem insert_absent {N : Nat} (s : BitSetN N) : s.Valid → ∀ v, v < capacity N → v < NIL →
    count s v = false →
    ∃ s', insert s v = Outcome.ok s' ∧ s'.Valid ∧ s'.toNat = s.toNat ||| 2 ^ v := by
  induction s with
  | word set =>
    intro hs v hv _ _
    have hv' : v < 64 := hv
    have hs' : set < 2 ^ 64 := hs
    refine ⟨word (set ||| 2 ^ v), by simp only [insert, if_pos hv'], ?_, by simp only [toNat]⟩
    exact Nat.or_lt_two_pow hs' (Nat.pow_lt_pow_right (by omega) hv')
  | @pair N a b iha ihb =>
    intro hs v hv hnil hc
    have hck := countChecked_lt (pair a b) v hv
    rw [hc] at hck
    rw [capacity_succ] at hv
    have ha := toNat_lt a hs.1
    have hnil' : v ≠ NIL := by omega
    simp only [insert, hck, if_neg hnil']
    simp only [count] at hc
    by_cases h : v < capacity N
    · rw [if_pos h] at hc
      obtain ⟨s', h1, h2, h3⟩ := iha hs.1 v h hnil hc
      rw [if_pos h, h1]
      refine ⟨pair s' b, rfl, ⟨h2, hs.2⟩, ?_⟩
      apply Nat.eq_of_testBit_eq
      intro i
      rw [testBit_toNat_pair s' b h2, Nat.testBit_lor, testBit_toNat_pair a b hs.1, h3,
        Nat.testBit_two_pow]
      by_cases hi : i < capacity N
      · simp only [if_pos hi, Nat.testBit_lor, Nat.testBit_two_pow]
      · have : ¬ v = i := by omega
        simp [if_neg hi, this]
    · rw [if_neg h] at hc
      obtain ⟨s', h1, h2, h3⟩ := ihb hs.2 _ (by omega) (by omega) hc
      rw [if_neg h, h1]
      refine ⟨pair a s', rfl, ⟨hs.1, h2⟩, ?_⟩
      apply Nat.eq_of_testBit_eq
      intro i
      rw [testBit_toNat_pair a s' hs.1, Nat.testBit_lor, testBit_toNat_pair a b hs.1, h3,
        Nat.testBit_two_pow]
      by_cases hi : i < capacity N
      · have : ¬ v = i := by omega
        simp [if_pos hi, this]
      · simp only [if_neg hi, Nat.testBit_lor, Nat.testBit_two_pow]
        congr 2
        apply propext
        constructor <;> intro e <;> omega

theorem insert_ge {N : Nat} (s : BitSetN N) (v : Nat) (hv : capacity N ≤ v) :
    insert s v = Outcome.undefinedShift := by
  cases s with
  | word set =>
    have hv' : ¬ v < 64 := not_lt.2 hv
    simp only [insert, if_neg hv']
  | @pair N a b =>
    simp only [insert, countChecked_ge (pair a b) v hv]

end BitSetN

/-- C26, as the code has it: `BitSet<N>::insert` for `N ≥ 1` fails `assert(!count(v))` on a
member `v < C` and inserts an absent `v < C` (an `unsigned` other than `-1`);
`BitSet<0>::insert` inserts an absent `v < 64`; and no width compares `v` with the capacity
`C`: a call with `v ≥ C` reaches the shift `1ull << v'` with `v' ≥ 64` before any assertion
fails. -/
theorem insert_checks (N : Nat) (s : BitSetN (N + 1)) (hs : s.Valid) (v : Nat) :
    (v < BitSetN.capacity (N + 1) → s.count v = true → s.insert v = Outcome.assertFailed) ∧
    (v < BitSetN.capacity (N + 1) → v < NIL → s.count v = false →
      ∃ s', s.insert v = Outcome.ok s' ∧ s'.Valid ∧ s'.toNat = s.toNat ||| 2 ^ v) ∧
    (BitSetN.capacity (N + 1) ≤ v → s.insert v = Outcome.undefinedShift) ∧
    (∀ set, v < 64 → (BitSetN.word set).count v = false →
      (BitSetN.word set).insert v = Outcome.ok (BitSetN.word (set ||| 2 ^ v))) ∧
    (∀ set, 64 ≤ v → (BitSetN.word set).insert v = Outcome.undefinedShift) := by
  refine ⟨?_, BitSetN.insert_absent s hs v, BitSetN.insert_ge s v, ?_, ?_⟩
  · intro hv hc
    have hck := BitSetN.countChecked_lt s v hv
    rw [hc] at hck
    cases s with
    | pair a b => simp only [BitSetN.insert, hck]
  · intro set hv _
    simp only [BitSetN.insert, if_pos hv]
  · intro set hv
    exact BitSetN.insert_ge (BitSetN.word set) v hv

/-- The statement of `insert_checks` on the `BitSet<1>` holding `{3, 64}`: inserting 3 or 64
again fails the assertion, inserting 5 succeeds, and inserting 128 is not checked. -/
theorem insert_checks_witness :
    (BitSetN.pair (BitSetN.word 8) (BitSetN.word 1)).insert 3 = Outcome.assertFailed ∧
    (BitSetN.pair (BitSetN.word 8) (BitSetN.word 1)).insert 64 = Outcome.assertFailed ∧
    (BitSetN.pair (BitSetN.word 8) (BitSetN.word 1)).insert 5 =
      Outcome.ok (BitSetN.pair (BitSetN.word 40) (BitSetN.word 1)) ∧
    (BitSetN.pair (BitSetN.word 8) (BitSetN.word 1)).insert 128 = Outcome.undefinedShift :=
  ⟨(insert_checks 0 (BitSetN.pair (BitSetN.word 8) (BitSetN.word 1))
      (show BitSetN.Valid (BitSetN.pair (BitSetN.word 8) (BitSetN.word 1)) from
        ⟨(by decide : (8 : Nat) < 2 ^ 64), (by decide : (1 : Nat) < 2 ^ 64)⟩) 3).1
      (by decide) (by decide),
   by decide, by decide, by decide⟩

/-- C26, the claim as stated, fails: `BitSet<0>::insert(3)` on `{3}` is not rejected (it
returns `{3}`), and `insert(64)` on a `BitSet<0>`, as `insert(128)` on a `BitSet<1>`, is not
rejected by a precondition check either: the only thing in its way is the undefined shift. -/
theorem insert_unchecked :
    (BitSetN.word 8).count 3 = true ∧
    (BitSetN.word 8).insert 3 = Outcome.ok (BitSetN.word 8) ∧
    (BitSetN.word 8).insert 3 ≠ Outcome.assertFailed ∧
    (BitSetN.word 8).insert 64 ≠ Outcome.assertFailed ∧
    (BitSetN.pair (BitSetN.word 8) (BitSetN.word 1)).insert 128 ≠ Outcome.assertFailed := by
  decide

/-! ## Enumeration of subsets -/

/-- The successor of the subset `c` of `t` in numeral order: `x` is the least subset of `t`
above `c`, and `0` after the last subset, which is `t` itself. -/
def IsNext (t c x : Nat) : Prop :=
  (c = t ∧ x = 0) ∨ (c ≠ t ∧ x &&& t = x ∧ c < x ∧ ∀ y, y &&& t = y → c < y → x ≤ y)

/-- The step `((c | ~t) + 1) & t` on numerals of `C` binary digits. -/
def knuthNext (C t c : Nat) : Nat := (((c ||| (2 ^ C - 1 - t)) + 1) % 2 ^ C) &&& t

theorem land_eq_iff {c t : Nat} :
    c &&& t = c ↔ ∀ i, c.testBit i = true → t.testBit i = true := by
  constructor
  · intro h i hi
    have := congrArg (fun x => Nat.testBit x i) h
    simp only [Nat.testBit_and, hi, Bool.true_and] at this
    exact this
  · intro h
    apply Nat.eq_of_testBit_eq
    intro i
    rw [Nat.testBit_and]
    cases hc : c.testBit i with
    | false => rfl
    | true => rw [h i hc]; rfl

theorem le_of_land_eq {c t : Nat} (h : c &&& t = c) : c ≤ t := by
  rw [← h]; exact Nat.and_le_right

theorem isNext_unique {t c x y : Nat} (hx : IsNext t c x) (hy : IsNext t c y) : x = y := by
  rcases hx with ⟨h1, h2⟩ | ⟨h1, h2, h3, h4⟩
  · rcases hy with ⟨_, h6⟩ | ⟨h5, _⟩
    · rw [h2, h6]
    · exact absurd h1 h5
  · rcases hy with ⟨h5, _⟩ | ⟨_, h6, h7, h8⟩
    · exact absurd h5 h1
    · exact le_antisymm (h4 y h6 h7) (h8 x h2 h3)

theorem exists_isLowest {v : Nat} (h0 : v ≠ 0) : ∃ k, IsLowest v k :=
  ⟨_, ctzAux_spec (v + 1) v h0 (lt_trans (Nat.lt_succ_self v) (Nat.lt_two_pow _))⟩

/-- The bits of `w + 1` when `j` is the lowest clear bit of `w`. -/
theorem testBit_succ_of_lowest_clear {w j : Nat} (hj : w.testBit j = false)
    (hlow : ∀ i, i < j → w.testBit i = true) (i : Nat) :
    (w + 1).testBit i = if i < j then false else if i = j then true else w.testBit i := by
  obtain ⟨k, hk⟩ := exists_isLowest (Nat.succ_ne_zero w)
  have hp := testBit_pred k (w + 1) (Nat.succ_ne_zero w) hk
  rw [Nat.add_sub_cancel] at hp
  have hkj : k = j := by
    rcases Nat.lt_trichotomy k j with h | h | h
    · have := hp k
      rw [if_neg (lt_irrefl k), if_pos rfl, hlow k h] at this
      cases this
    · exact h
    · have := hp j
      rw [if_pos h, hj] at this
      cases this
  subst hkj
  by_cases h1 : i < k
  · rw [if_pos h1]; exact hk.2 i h1
  · rw [if_neg h1]
    by_cases h2 : i = k
    · rw [if_pos h2, h2]; exact hk.1
    · rw [if_neg h2]
      have := hp i
      rw [if_neg h1, if_neg h2] at this
      exact this.symm

theorem testBit_compl {C t : Nat} (ht : t < 2 ^ C) (i : Nat) :
    (2 ^ C - 1 - t).testBit i = (decide (i < C) && !t.testBit i) := by
  rw [Nat.sub_sub, Nat.add_comm 1 t]
  exact Nat.testBit_two_pow_sub_succ ht i

/-- The step `((c | ~t) + 1) & t` moves from a subset `c` of `t` to the next one. -/
theorem knuthNext_isNext {C t c : Nat} (ht : t < 2 ^ C) (hc : c &&& t = c) :
    IsNext t c (knuthNext C t c) := by
  have hct := land_eq_iff.1 hc
  have hclt : c < 2 ^ C := lt_of_le_of_lt (le_of_land_eq hc) ht
  have hwbits : ∀ i, (c ||| (2 ^ C - 1 - t)).testBit i =
      (c.testBit i || (decide (i < C) && !t.testBit i)) := by
    intro i
    rw [Nat.testBit_or, testBit_compl ht]
  by_cases hEq : c = t
  · left
    refine ⟨hEq, ?_⟩
    subst hEq
    have hw : c ||| (2 ^ C - 1 - c) = 2 ^ C - 1 := by
      apply Nat.eq_of_testBit_eq
      intro i
      rw [hwbits, Nat.testBit_two_pow_sub_one]
      by_cases hi : i < C
      · cases h : c.testBit i <;> simp [hi]
      · have : c.testBit i = false :=
          Nat.testBit_lt_two_pow (lt_of_lt_of_le hclt (Nat.pow_le_pow_right (by omega)
            (not_lt.1 hi)))
        simp [hi, this]
    have hpos : 0 < 2 ^ C := by positivity
    unfold knuthNext
    rw [hw, Nat.sub_add_cancel hpos, Nat.mod_self, Nat.zero_and]
  · right
    have hd0 : t ^^^ c ≠ 0 := by
      intro h
      apply hEq
      have := Nat.xor_eq_zero.1 h
      exact this.symm
    obtain ⟨j, hj⟩ := exists_isLowest hd0
    have hjt : t.testBit j = true ∧ c.testBit j = false := by
      have := hj.1
      rw [Nat.testBit_xor] at this
      cases h1 : t.testBit j with
      | false =>
        cases h2 : c.testBit j with
        | false => rw [h1, h2] at this; cases this
        | true => rw [hct j h2] at h1; cases h1
      | true =>
        cases h2 : c.testBit j with
        | false => exact ⟨rfl, rfl⟩
        | true => rw [h1, h2] at this; cases this
    have hjC : j < C := BitSetN.lowest_lt ht hjt.1
    have hbelow : ∀ i, i < j → t.testBit i = c.testBit i := by
      intro i hi
      have := hj.2 i hi
      rw [Nat.testBit_xor] at this
      cases h1 : t.testBit i <;> cases h2 : c.testBit i <;> simp [h1, h2] at this ⊢
    have hwj : (c ||| (2 ^ C - 1 - t)).testBit j = false := by
      rw [hwbits, hjt.1, hjt.2]; simp
    have hwlow : ∀ i, i < j → (c ||| (2 ^ C - 1 - t)).testBit i = true := by
      intro i hi
      rw [hwbits, hbelow i hi]
      have : i < C := by omega
      cases h : c.testBit i <;> simp [this]
    have hv := testBit_succ_of_lowest_clear hwj hwlow
    have hvlt : (c ||| (2 ^ C - 1 - t)) + 1 < 2 ^ C := by
      apply Nat.lt_pow_two_of_testBit
      intro i hi
      have h1 : ¬ i < j := by omega
      have h2 : ¬ i = j := by omega
      have h3 : ¬ i < C := by omega
      rw [hv, if_neg h1, if_neg h2, hwbits]
      have : c.testBit i = false :=
        Nat.testBit_lt_two_pow (lt_of_lt_of_le hclt (Nat.pow_le_pow_right (by omega) hi))
      simp [this, h3]
    have hxbits : ∀ i, (knuthNext C t c).testBit i =
        if i < j then false else if i = j then true else c.testBit i := by
      intro i
      unfold knuthNext
      rw [Nat.mod_eq_of_lt hvlt, Nat.testBit_and, hv]
      by_cases h1 : i < j
      · simp [h1]
      · by_cases h2 : i = j
        · simp [h2, hjt.1]
        · rw [if_neg h1, if_neg h2, if_neg h1, if_neg h2, hwbits]
          cases h3 : c.testBit i with
          | true => simp [hct i h3]
          | false => cases h4 : t.testBit i <;> simp
    refine ⟨hEq, ?_, ?_, ?_⟩
    · unfold knuthNext
      rw [Nat.and_assoc, Nat.and_self]
    · apply Nat.lt_of_testBit j hjt.2
      · rw [hxbits, if_neg (lt_irrefl j), if_pos rfl]
      · intro i hi
        rw [hxbits, if_neg (by omega), if_neg (by omega)]
    · intro y hy hcy
      have hyt := land_eq_iff.1 hy
      have hne : c ^^^ y ≠ 0 := by
        intro h
        have := Nat.xor_eq_zero.1 h
        omega
      obtain ⟨m, hm1, hm2⟩ := Nat.exists_most_significant_bit hne
      have hagree : ∀ i, m < i → c.testBit i = y.testBit i := by
        intro i hi
        have := hm2 i hi
        rw [Nat.testBit_xor] at this
        cases h1 : c.testBit i <;> cases h2 : y.testBit i <;> simp [h1, h2] at this ⊢
      have hmy : y.testBit m = true ∧ c.testBit m = false := by
        rw [Nat.testBit_xor] at hm1
        cases h1 : c.testBit m with
        | false =>
          cases h2 : y.testBit m with
          | false => rw [h1, h2] at hm1; cases hm1
          | true => exact ⟨rfl, rfl⟩
        | true =>
          cases h2 : y.testBit m with
          | false =>
            have := Nat.lt_of_testBit m h2 h1 (fun i hi => (hagree i hi).symm)
            omega
          | true => rw [h1, h2] at hm1; cases hm1
      have hjm : j ≤ m := by
        by_contra hlt
        have := hbelow m (by omega)
        rw [hyt m hmy.1, hmy.2] at this
        cases this
      rcases Nat.lt_or_eq_of_le hjm with hlt | heq
      · apply le_of_lt
        apply Nat.lt_of_testBit m _ hmy.1
        · intro i hi
          rw [hxbits, if_neg (by omega), if_neg (by omega)]
          exact hagree i hi
        · rw [hxbits, if_neg (by omega), if_neg (by omega)]
          exact hmy.2
      · subst heq
        apply le_of_land_eq
        apply land_eq_iff.2
        intro i hi
        rw [hxbits] at hi
        by_cases h1 : i < j
        · rw [if_pos h1] at hi; cases hi
        · rw [if_neg h1] at hi
          by_cases h2 : i = j
          · rw [h2]; exact hmy.1
          · rw [if_neg h2] at hi
            rw [← hagree i (by omega)]
            exact hi
theorem testBit_pair {h a1 : Nat} (a2 : Nat) (ha : a1 < 2 ^ h) (i : Nat) :
    (a1 + 2 ^ h * a2).testBit i = if i < h then a1.testBit i else a2.testBit (i - h) := by
  rw [Nat.add_comm]
  exact Nat.testBit_mul_pow_two_add _ ha i

theorem land_eq_pair {h a1 a2 b1 b2 : Nat} (ha : a1 < 2 ^ h) (hb : b1 < 2 ^ h) :
    (a1 + 2 ^ h * a2) &&& (b1 + 2 ^ h * b2) = a1 + 2 ^ h * a2 ↔
      a1 &&& b1 = a1 ∧ a2 &&& b2 = a2 := by
  rw [land_eq_iff, land_eq_iff, land_eq_iff]
  constructor
  · intro hall
    constructor
    · intro i hi
      have hih : i < h := BitSetN.lowest_lt ha hi
      have := hall i
      rw [testBit_pair _ ha, testBit_pair _ hb, if_pos hih, if_pos hih] at this
      exact this hi
    · intro i hi
      have := hall (i + h)
      rw [testBit_pair _ ha, testBit_pair _ hb, if_neg (by omega), if_neg (by omega),
        Nat.add_sub_cancel] at this
      exact this hi
  · rintro ⟨h1, h2⟩ i hi
    rw [testBit_pair _ ha] at hi
    rw [testBit_pair _ hb]
    by_cases hih : i < h
    · rw [if_pos hih] at hi ⊢; exact h1 i hi
    · rw [if_neg hih] at hi ⊢; exact h2 _ hi

/-- Splitting a subset of `t1 + 2 ^ h * t2` into its two halves. -/
theorem land_eq_split {h t1 t2 y : Nat} (ht : t1 < 2 ^ h)
    (hy : y &&& (t1 + 2 ^ h * t2) = y) :
    (y % 2 ^ h) &&& t1 = y % 2 ^ h ∧ (y / 2 ^ h) &&& t2 = y / 2 ^ h := by
  have hP : 0 < 2 ^ h := by positivity
  have hy1 : y % 2 ^ h < 2 ^ h := Nat.mod_lt _ hP
  have e : y % 2 ^ h + 2 ^ h * (y / 2 ^ h) = y := Nat.mod_add_div y (2 ^ h)
  rw [← e] at hy
  exact (land_eq_pair hy1 ht).1 hy

/-- The successor on a numeral of two halves: the low half steps, and when it wraps to `0`
the high half steps. -/
theorem isNext_pair {h t1 t2 c1 c2 x1 x2 : Nat} (ht1 : t1 < 2 ^ h) (hc1 : c1 &&& t1 = c1)
    (hc2 : c2 &&& t2 = c2) (h1 : IsNext t1 c1 x1) (h2 : IsNext t2 c2 x2) :
    IsNext (t1 + 2 ^ h * t2) (c1 + 2 ^ h * c2)
      (x1 + 2 ^ h * (if x1 = 0 then x2 else c2)) := by
  have hP : 0 < 2 ^ h := by positivity
  have hc1lt : c1 < 2 ^ h := lt_of_le_of_lt (le_of_land_eq hc1) ht1
  have hsplit : ∀ y, y &&& (t1 + 2 ^ h * t2) = y →
      y % 2 ^ h ≤ t1 ∧ (y / 2 ^ h) &&& t2 = y / 2 ^ h ∧
        (y % 2 ^ h) &&& t1 = y % 2 ^ h ∧ y % 2 ^ h + 2 ^ h * (y / 2 ^ h) = y := by
    intro y hy
    obtain ⟨a, b⟩ := land_eq_split ht1 hy
    exact ⟨le_of_land_eq a, b, a, Nat.mod_add_div y (2 ^ h)⟩
  rcases h1 with ⟨e1, z1⟩ | ⟨n1, s1, l1, m1⟩
  · subst z1
    rw [if_pos rfl, Nat.zero_add]
    rcases h2 with ⟨e2, z2⟩ | ⟨n2, s2, l2, m2⟩
    · left
      subst z2
      exact ⟨by rw [e1, e2], by simp⟩
    · right
      have hmul : 2 ^ h * (c2 + 1) ≤ 2 ^ h * x2 := Nat.mul_le_mul_left _ l2
      rw [Nat.mul_succ] at hmul
      refine ⟨?_, ?_, ?_, ?_⟩
      · intro e
        apply n2
        rw [e1] at e
        exact Nat.eq_of_mul_eq_mul_left hP (Nat.add_left_cancel e)
      · have := (@land_eq_pair h 0 x2 t1 t2 hP ht1).2 ⟨by simp, s2⟩
        simpa using this
      · omega
      · intro y hy hcy
        obtain ⟨a, b, _, e⟩ := hsplit y hy
        have hy2 : c2 < y / 2 ^ h := by
          by_contra hle
          have hle' : y / 2 ^ h ≤ c2 := not_lt.1 hle
          have : 2 ^ h * (y / 2 ^ h) ≤ 2 ^ h * c2 := Nat.mul_le_mul_left _ hle'
          rcases Nat.lt_or_eq_of_le hle' with hlt | heq
          · have : 2 ^ h * (y / 2 ^ h + 1) ≤ 2 ^ h * c2 := Nat.mul_le_mul_left _ hlt
            rw [Nat.mul_succ] at this
            have := Nat.mod_lt y hP
            omega
          · rw [heq] at e
            omega
        have := m2 _ b hy2
        have : 2 ^ h * x2 ≤ 2 ^ h * (y / 2 ^ h) := Nat.mul_le_mul_left _ this
        omega
  · have hx0 : x1 ≠ 0 := by omega
    rw [if_neg hx0]
    right
    have hx1lt : x1 < 2 ^ h := lt_of_le_of_lt (le_of_land_eq s1) ht1
    refine ⟨?_, ?_, ?_, ?_⟩
    · intro e
      apply n1
      have := congrArg (fun z => z % 2 ^ h) e
      simpa [Nat.add_mul_mod_self_left, Nat.mod_eq_of_lt hc1lt, Nat.mod_eq_of_lt ht1] using this
    · exact (land_eq_pair hx1lt ht1).2 ⟨s1, hc2⟩
    · omega
    · intro y hy hcy
      obtain ⟨a, b, a', e⟩ := hsplit y hy
      rcases Nat.lt_trichotomy (y / 2 ^ h) c2 with hlt | heq | hgt
      · have : 2 ^ h * (y / 2 ^ h + 1) ≤ 2 ^ h * c2 := Nat.mul_le_mul_left _ hlt
        rw [Nat.mul_succ] at this
        have := Nat.mod_lt y hP
        omega
      · rw [heq] at e
        have : c1 < y % 2 ^ h := by omega
        have := m1 _ a' this
        omega
      · have : 2 ^ h * (c2 + 1) ≤ 2 ^ h * (y / 2 ^ h) := Nat.mul_le_mul_left _ hgt
        rw [Nat.mul_succ] at this
        omega
namespace BitSetN

/-- The operator `~`. -/
def compl : {N : Nat} → BitSetN N → BitSetN N
  | _, word set => word (2 ^ 64 - 1 - set)
  | _, pair set1 set2 => pair (compl set1) (compl set2)

/-- The operator `+` (and `+=`) on two bit-sets: the union. -/
def lor : {N : Nat} → BitSetN N → BitSetN N → BitSetN N
  | _, word a, word b => word (a ||| b)
  | _, pair a1 a2, pair b1 b2 => pair (lor a1 b1) (lor a2 b2)

/-- The unary operator `-`: `BitSet(-set)` on a word and `(~(*this)).increment()` on the
wider variants. -/
def neg : {N : Nat} → BitSetN N → BitSetN N
  | _, word set => word ((2 ^ 64 - set) % 2 ^ 64)
  | _, pair set1 set2 => increment (compl (pair set1 set2))

/-- The function `isSubsetOf(o)`. -/
def isSubsetOf : {N : Nat} → BitSetN N → BitSetN N → Bool
  | _, word a, word b => decide (a &&& b = a)
  | _, pair a1 a2, pair b1 b2 => isSubsetOf a1 b1 && isSubsetOf a2 b2

/-- The operator `++` of `subset_iterator`, on `current` for the host set `total`:
`((current | ~total) + 1) & total` on a word; on the wider variants the low half steps and,
when it has become empty, the high half steps. -/
def subsetNext : {N : Nat} → BitSetN N → BitSetN N → BitSetN N
  | _, word total, word current =>
    word ((((current ||| (2 ^ 64 - 1 - total)) + 1) % 2 ^ 64) &&& total)
  | _, pair total1 total2, pair current1 current2 =>
    let c1 := land (increment (lor current1 (compl total1))) total1
    if empty c1 then pair c1 (land (increment (lor current2 (compl total2))) total2)
    else pair c1 current2

/-- The iterator `subsets().begin()`: `set & -set` on a word; on the wider variants
`c1 = set1 & -set1` and `c2 = fill(0)` unless `c1` is empty, in which case `c2 = set2 & -set2`. -/
def subsetBegin : {N : Nat} → BitSetN N → BitSetN N
  | _, word set => word (set &&& ((2 ^ 64 - set) % 2 ^ 64))
  | _, @pair N set1 set2 =>
    let c1 := land set1 (neg set1)
    pair c1 (if !empty c1 then fill N 0 else land set2 (neg set2))

/-- The loop `for (it = subsets().begin(); it != subsets().end(); ++it)` collecting `*it`;
`fuel` bounds the number of rounds. -/
def subsetsLoop {N : Nat} (total : BitSetN N) : Nat → BitSetN N → Option (List (BitSetN N))
  | 0, _ => none
  | fuel + 1, it =>
    if ne it (iterEnd N) then
      (subsetsLoop total fuel (subsetNext total it)).map (fun l => it :: l)
    else some []

/-- The iteration over `s.subsets()`, from `begin()` to `end()`. -/
def subsets {N : Nat} (s : BitSetN N) : Option (List (BitSetN N)) :=
  subsetsLoop s (2 ^ size s) (subsetBegin s)

theorem compl_arith {P a b : Nat} (ha : a < P) (hb : b < P) :
    P - 1 - a + P * (P - 1 - b) = P * P - 1 - (a + P * b) := by
  have h1 : P * (P - 1 - b) = P * P - P * (b + 1) := by
    rw [Nat.sub_sub, Nat.add_comm 1 b, Nat.mul_sub]
  have h2 : P * (b + 1) ≤ P * P := Nat.mul_le_mul_left _ hb
  rw [Nat.mul_succ] at h1 h2
  omega

theorem compl_spec {N : Nat} (s : BitSetN N) : s.Valid →
    (compl s).Valid ∧ (compl s).toNat = 2 ^ capacity N - 1 - s.toNat := by
  induction s with
  | word set =>
    intro h
    have h' : set < 2 ^ 64 := h
    refine ⟨?_, rfl⟩
    show 2 ^ 64 - 1 - set < 2 ^ 64
    omega
  | @pair N a b iha ihb =>
    intro h
    obtain ⟨h1, h2⟩ := iha h.1
    obtain ⟨h3, h4⟩ := ihb h.2
    refine ⟨⟨h1, h3⟩, ?_⟩
    show (compl a).toNat + 2 ^ capacity N * (compl b).toNat =
      2 ^ capacity (N + 1) - 1 - (a.toNat + 2 ^ capacity N * b.toNat)
    rw [h2, h4, capacity_succ, pow_add]
    exact compl_arith (toNat_lt a h.1) (toNat_lt b h.2)

theorem lor_spec {N : Nat} (a : BitSetN N) : ∀ b : BitSetN N, a.Valid → b.Valid →
    (lor a b).Valid ∧ (lor a b).toNat = a.toNat ||| b.toNat := by
  induction a with
  | word x =>
    intro b ha hb
    cases b with
    | word y =>
      exact ⟨Nat.or_lt_two_pow ha hb, rfl⟩
  | @pair N a1 a2 ih1 ih2 =>
    intro b ha hb
    cases b with
    | pair b1 b2 =>
      obtain ⟨h1v, h1n⟩ := ih1 b1 ha.1 hb.1
      obtain ⟨h2v, h2n⟩ := ih2 b2 ha.2 hb.2
      refine ⟨⟨h1v, h2v⟩, ?_⟩
      apply Nat.eq_of_testBit_eq
      intro i
      rw [Nat.testBit_lor]
      show (toNat (pair (lor a1 b1) (lor a2 b2))).testBit i =
        ((toNat (pair a1 a2)).testBit i || (toNat (pair b1 b2)).testBit i)
      rw [testBit_toNat_pair _ _ h1v, testBit_toNat_pair _ _ ha.1, testBit_toNat_pair _ _ hb.1,
        h1n, h2n]
      by_cases hi : i < capacity N
      · simp only [if_pos hi, Nat.testBit_lor]
      · simp only [if_neg hi, Nat.testBit_lor]

theorem neg_spec {N : Nat} (s : BitSetN N) (hs : s.Valid) :
    (neg s).Valid ∧ (neg s).toNat = (2 ^ capacity N - s.toNat) % 2 ^ capacity N := by
  cases s with
  | word set => exact ⟨Nat.mod_lt _ (by positivity), rfl⟩
  | @pair N a b =>
    obtain ⟨h1, h2⟩ := compl_spec (pair a b) hs
    obtain ⟨h3, h4⟩ := increment_spec _ h1
    refine ⟨h3, ?_⟩
    show (increment (compl (pair a b))).toNat = _
    rw [h4, h2]
    have := toNat_lt (pair a b) hs
    congr 1
    omega

theorem isSubsetOf_iff {N : Nat} (a : BitSetN N) : ∀ b : BitSetN N, a.Valid → b.Valid →
    (isSubsetOf a b = true ↔ a.toNat &&& b.toNat = a.toNat) := by
  induction a with
  | word x =>
    intro b _ _
    cases b with
    | word y => simp [isSubsetOf, toNat]
  | @pair N a1 a2 ih1 ih2 =>
    intro b ha hb
    cases b with
    | pair b1 b2 =>
      simp only [isSubsetOf, Bool.and_eq_true, ih1 b1 ha.1 hb.1, ih2 b2 ha.2 hb.2]
      exact (land_eq_pair (toNat_lt a1 ha.1) (toNat_lt b1 hb.1)).symm

/-- The step `((c | ~t).increment()) & t` on a bit-set of any width. -/
theorem step_spec {N : Nat} (t c : BitSetN N) (ht : t.Valid) (hc : c.Valid) :
    (land (increment (lor c (compl t))) t).Valid ∧
    (land (increment (lor c (compl t))) t).toNat = knuthNext (capacity N) t.toNat c.toNat := by
  obtain ⟨h1, h2⟩ := compl_spec t ht
  obtain ⟨h3, h4⟩ := lor_spec c (compl t) hc h1
  obtain ⟨h5, h6⟩ := increment_spec _ h3
  obtain ⟨h7, h8⟩ := land_spec _ t h5 ht
  refine ⟨h7, ?_⟩
  rw [h8, h6, h4, h2]
  rfl

/-- The operator `++` of `subset_iterator` moves to the next subset of the host set. -/
theorem subsetNext_spec {N : Nat} (t : BitSetN N) : ∀ c : BitSetN N, t.Valid → c.Valid →
    c.toNat &&& t.toNat = c.toNat →
    (subsetNext t c).Valid ∧ IsNext t.toNat c.toNat (subsetNext t c).toNat := by
  cases t with
  | word total =>
    intro c ht hc hsub
    cases c with
    | word current =>
      have ht' : total < 2 ^ 64 := ht
      refine ⟨Nat.and_lt_two_pow _ ht', ?_⟩
      exact @knuthNext_isNext 64 total current ht' hsub
  | @pair N t1 t2 =>
    intro c ht hc hsub
    cases c with
    | pair c1 c2 =>
      have hs := (land_eq_pair (toNat_lt c1 hc.1) (toNat_lt t1 ht.1)).1 hsub
      obtain ⟨v1, n1⟩ := step_spec t1 c1 ht.1 hc.1
      obtain ⟨v2, n2⟩ := step_spec t2 c2 ht.2 hc.2
      have i1 := knuthNext_isNext (toNat_lt t1 ht.1) hs.1
      have i2 := knuthNext_isNext (toNat_lt t2 ht.2) hs.2
      rw [← n1] at i1
      rw [← n2] at i2
      have key := isNext_pair (toNat_lt t1 ht.1) hs.1 hs.2 i1 i2
      simp only [subsetNext]
      by_cases he : empty (land (increment (lor c1 (compl t1))) t1) = true
      · rw [if_pos he]
        have hz := (empty_iff _).1 he
        rw [if_pos hz] at key
        exact ⟨⟨v1, v2⟩, key⟩
      · rw [if_neg he]
        have hz : ¬ (land (increment (lor c1 (compl t1))) t1).toNat = 0 :=
          fun e => he ((empty_iff _).2 e)
        rw [if_neg hz] at key
        exact ⟨⟨v1, hc.2⟩, key⟩

theorem knuthNext_zero {C t : Nat} (ht : t < 2 ^ C) :
    knuthNext C t 0 = t &&& ((2 ^ C - t) % 2 ^ C) := by
  unfold knuthNext
  rw [Nat.zero_or, Nat.and_comm]
  congr 2
  omega

/-- The iterator `begin()` holds the first non-empty subset: the successor of the empty one. -/
theorem subsetBegin_spec {N : Nat} (s : BitSetN N) (hs : s.Valid) :
    (subsetBegin s).Valid ∧ IsNext s.toNat 0 (subsetBegin s).toNat := by
  have low : ∀ {M : Nat} (t : BitSetN M), t.Valid →
      (land t (neg t)).Valid ∧ IsNext t.toNat 0 (land t (neg t)).toNat := by
    intro M t ht
    obtain ⟨h1, h2⟩ := neg_spec t ht
    obtain ⟨h3, h4⟩ := land_spec t (neg t) ht h1
    refine ⟨h3, ?_⟩
    rw [h4, h2, ← knuthNext_zero (toNat_lt t ht)]
    exact knuthNext_isNext (toNat_lt t ht) (Nat.zero_and _)
  cases s with
  | word set =>
    have hs' : set < 2 ^ 64 := hs
    refine ⟨Nat.and_lt_two_pow _ (Nat.mod_lt _ (by positivity)), ?_⟩
    show IsNext set 0 (set &&& ((2 ^ 64 - set) % 2 ^ 64))
    rw [← @knuthNext_zero 64 set hs']
    exact knuthNext_isNext hs' (Nat.zero_and _)
  | @pair N a b =>
    obtain ⟨v1, i1⟩ := low a hs.1
    obtain ⟨v2, i2⟩ := low b hs.2
    obtain ⟨hz1, hz2⟩ := fill_zero_spec N
    have key := isNext_pair (toNat_lt a hs.1) (Nat.zero_and _) (Nat.zero_and _) i1 i2
    simp only [Nat.mul_zero, Nat.add_zero] at key
    simp only [subsetBegin]
    by_cases he : empty (land a (neg a)) = true
    · have hz := (empty_iff _).1 he
      rw [if_pos hz] at key
      simp only [he, Bool.not_true, Bool.false_eq_true, if_false]
      exact ⟨⟨v1, v2⟩, key⟩
    · have hz : ¬ (land a (neg a)).toNat = 0 := fun e => he ((empty_iff _).2 e)
      rw [if_neg hz] at key
      have he' : empty (land a (neg a)) = false := by
        cases h : empty (land a (neg a)) with
        | true => exact absurd h he
        | false => rfl
      simp only [he', Bool.not_false, if_true]
      refine ⟨⟨v1, hz1⟩, ?_⟩
      show IsNext _ 0 ((land a (neg a)).toNat + 2 ^ capacity N * (fill N 0).toNat)
      rw [hz2]
      exact key

end BitSetN
/-- The union of two disjoint numerals is their sum. -/
theorem lor_eq_add : ∀ (n a b : Nat), a < 2 ^ n → b < 2 ^ n → a &&& b = 0 → a ||| b = a + b := by
  intro n
  induction n with
  | zero =>
    intro a b ha hb _
    have ha0 : a = 0 := by simpa using ha
    have hb0 : b = 0 := by simpa using hb
    subst ha0 hb0
    rfl
  | succ n ih =>
    intro a b ha hb hab
    rw [pow_succ] at ha hb
    have hd : a / 2 &&& b / 2 = 0 := by rw [← Nat.and_div_two, hab]
    have hrec := ih (a / 2) (b / 2) (by omega) (by omega) hd
    have hdiv : (a ||| b) / 2 = a / 2 + b / 2 := by rw [Nat.or_div_two, hrec]
    have hand : ¬ (a % 2 = 1 ∧ b % 2 = 1) := by
      rw [← Nat.and_mod_two_eq_one, hab]; simp
    have hor := @Nat.or_mod_two_eq_one a b
    have e := Nat.mod_add_div (a ||| b) 2
    have ea := Nat.mod_add_div a 2
    have eb := Nat.mod_add_div b 2
    have hm : (a ||| b) % 2 < 2 := Nat.mod_lt _ (by omega)
    by_cases h1 : (a ||| b) % 2 = 1
    · have := hor.1 h1
      omega
    · have h2 : ¬ (a % 2 = 1 ∨ b % 2 = 1) := fun h => h1 (hor.2 h)
      omega

/-- The step `((c | ~t) + 1) & t` is Knuth's `(c - t) & t` in arithmetic modulo `2 ^ C`. -/
theorem knuthNext_eq_sub {C t c : Nat} (ht : t < 2 ^ C) (hc : c &&& t = c) :
    knuthNext C t c = ((c + 2 ^ C - t) % 2 ^ C) &&& t := by
  have hclt : c < 2 ^ C := lt_of_le_of_lt (le_of_land_eq hc) ht
  have hdis : c &&& (2 ^ C - 1 - t) = 0 := by
    apply Nat.eq_of_testBit_eq
    intro i
    rw [Nat.testBit_and, testBit_compl ht, Nat.zero_testBit]
    cases h : c.testBit i with
    | false => rfl
    | true => rw [land_eq_iff.1 hc i h]; simp
  have hlt : 2 ^ C - 1 - t < 2 ^ C := by omega
  unfold knuthNext
  rw [lor_eq_add C c _ hclt hlt hdis]
  congr 2
  omega

/-- The subsets of `t` among the numerals below `2 ^ C`, in increasing order. -/
def subsetsBelow (t : Nat) : Nat → List Nat
  | 0 => [0]
  | C + 1 =>
    if t.testBit C then subsetsBelow t C ++ (subsetsBelow t C).map (fun y => y + 2 ^ C)
    else subsetsBelow t C

theorem testBit_add_two_pow {C z : Nat} (hz : z < 2 ^ C) (i : Nat) :
    (z + 2 ^ C).testBit i = if i < C then z.testBit i else decide (i = C) := by
  have := testBit_pair 1 hz i
  rw [Nat.mul_one] at this
  rw [this]
  by_cases h : i < C
  · rw [if_pos h, if_pos h]
  · rw [if_neg h, if_neg h]
    by_cases h2 : i = C
    · subst h2; simp
    · have : i - C = (i - C - 1) + 1 := by omega
      rw [this, Nat.testBit_succ]
      simp [h2]

theorem mem_subsetsBelow (t : Nat) : ∀ (C y : Nat),
    y ∈ subsetsBelow t C ↔ y < 2 ^ C ∧ y &&& t = y := by
  intro C
  induction C with
  | zero =>
    intro y
    simp only [subsetsBelow, List.mem_singleton, pow_zero, Nat.lt_one_iff]
    constructor
    · intro h; subst h; exact ⟨rfl, Nat.zero_and _⟩
    · exact fun h => h.1
  | succ C ih =>
    intro y
    have hpow : (2 : Nat) ^ (C + 1) = 2 ^ C + 2 ^ C := by rw [pow_succ]; omega
    rw [subsetsBelow]
    by_cases htc : t.testBit C = true
    · rw [if_pos htc, List.mem_append, List.mem_map]
      constructor
      · rintro (h | ⟨z, hz, rfl⟩)
        · obtain ⟨h1, h2⟩ := (ih y).1 h
          exact ⟨by omega, h2⟩
        · obtain ⟨h1, h2⟩ := (ih z).1 hz
          refine ⟨by omega, land_eq_iff.2 ?_⟩
          intro i hi
          rw [testBit_add_two_pow h1] at hi
          by_cases hiC : i < C
          · rw [if_pos hiC] at hi; exact land_eq_iff.1 h2 i hi
          · rw [if_neg hiC] at hi
            have : i = C := by simpa using hi
            rw [this]; exact htc
      · rintro ⟨h1, h2⟩
        by_cases hyC : y.testBit C = true
        · right
          have hge := Nat.testBit_implies_ge hyC
          refine ⟨y - 2 ^ C, (ih _).2 ⟨by omega, land_eq_iff.2 ?_⟩, by omega⟩
          intro i hi
          have hzlt : y - 2 ^ C < 2 ^ C := by omega
          have hiC : i < C := BitSetN.lowest_lt hzlt hi
          have := testBit_add_two_pow hzlt i
          rw [if_pos hiC, Nat.sub_add_cancel hge] at this
          exact land_eq_iff.1 h2 i (by rw [this]; exact hi)
        · left
          refine (ih y).2 ⟨?_, h2⟩
          apply Nat.lt_pow_two_of_testBit
          intro i hi
          rcases Nat.lt_or_eq_of_le hi with hlt | heq
          · exact Nat.testBit_lt_two_pow
              (lt_of_lt_of_le h1 (Nat.pow_le_pow_right (by omega) hlt))
          · rw [← heq]; simpa using hyC
    · rw [if_neg htc]
      constructor
      · intro h
        obtain ⟨h1, h2⟩ := (ih y).1 h
        exact ⟨by omega, h2⟩
      · rintro ⟨h1, h2⟩
        refine (ih y).2 ⟨?_, h2⟩
        apply Nat.lt_pow_two_of_testBit
        intro i hi
        rcases Nat.lt_or_eq_of_le hi with hlt | heq
        · exact Nat.testBit_lt_two_pow
            (lt_of_lt_of_le h1 (Nat.pow_le_pow_right (by omega) hlt))
        · rw [← heq]
          cases hy : y.testBit C with
          | false => rfl
          | true => exact absurd (land_eq_iff.1 h2 C hy) htc

theorem subsetsBelow_sorted (t : Nat) : ∀ C : Nat, (subsetsBelow t C).Pairwise (· < ·) := by
  intro C
  induction C with
  | zero => simp [subsetsBelow]
  | succ C ih =>
    rw [subsetsBelow]
    by_cases htc : t.testBit C = true
    · rw [if_pos htc, List.pairwise_append]
      refine ⟨ih, ?_, ?_⟩
      · rw [List.pairwise_map]
        exact ih.imp (fun h => Nat.add_lt_add_right h _)
      · intro a ha b hb
        rw [List.mem_map] at hb
        obtain ⟨z, _, rfl⟩ := hb
        have := ((mem_subsetsBelow t C a).1 ha).1
        omega
    · rw [if_neg htc]; exact ih

theorem subsetsBelow_length (t : Nat) : ∀ C : Nat,
    (subsetsBelow t C).length = 2 ^ ((List.range C).filter (fun i => t.testBit i)).length := by
  intro C
  induction C with
  | zero => simp [subsetsBelow]
  | succ C ih =>
    rw [subsetsBelow, List.range_succ, List.filter_append, List.length_append]
    by_cases htc : t.testBit C = true
    · rw [if_pos htc, List.length_append, List.length_map, ih]
      simp [htc, pow_succ]
      omega
    · rw [if_neg htc, ih]
      simp [htc]

theorem subsetsBelow_head (t : Nat) : ∀ C : Nat, ∃ l, subsetsBelow t C = 0 :: l := by
  intro C
  induction C with
  | zero => exact ⟨[], rfl⟩
  | succ C ih =>
    obtain ⟨l, hl⟩ := ih
    rw [subsetsBelow]
    by_cases htc : t.testBit C = true
    · rw [if_pos htc, hl]; exact ⟨_, rfl⟩
    · rw [if_neg htc]; exact ⟨l, hl⟩

theorem filter_range_eq_toList {t C : Nat} (ht : t < 2 ^ C) :
    (List.range C).filter (fun i => t.testBit i) = BitSet.toList t := by
  symm
  apply BitSet.toList_eq_of_mem
  · exact (List.pairwise_lt_range C).sublist (List.filter_sublist _)
  · intro i
    rw [List.mem_filter, List.mem_range]
    constructor
    · exact fun h => h.2
    · exact fun h => ⟨BitSetN.lowest_lt ht h, h⟩

/-- What follows a subset in the increasing list of all subsets is its successor. -/
theorem isNext_in_list {T C : Nat} (hT : T < 2 ^ C) {pre suf : List Nat} {x z : Nat}
    (hL : subsetsBelow T C = pre ++ x :: suf) (hz : IsNext T x z) :
    (suf = [] → z = 0) ∧ (∀ y0 suf', suf = y0 :: suf' → z = y0) := by
  have hsorted := subsetsBelow_sorted T C
  rw [hL, List.pairwise_append] at hsorted
  obtain ⟨_, hs2, hs3⟩ := hsorted
  rw [List.pairwise_cons] at hs2
  have hmem : ∀ y, y ∈ pre ++ x :: suf ↔ y < 2 ^ C ∧ y &&& T = y := by
    intro y; rw [← hL]; exact mem_subsetsBelow T C y
  have hxT : x &&& T = x := ((hmem x).1 (by simp)).2
  constructor
  · intro hnil
    rcases hz with ⟨_, h⟩ | ⟨hne, _, _, _⟩
    · exact h
    · exfalso
      have hTmem : T ∈ pre ++ x :: suf := (hmem T).2 ⟨hT, Nat.and_self T⟩
      rw [hnil, List.mem_append, List.mem_singleton] at hTmem
      have hle := le_of_land_eq hxT
      rcases hTmem with h | h
      · have := hs3 T h x (by simp)
        omega
      · exact hne h.symm
  · intro y0 suf' hsuf
    have hy0mem : y0 ∈ pre ++ x :: suf := by rw [hsuf]; simp
    have hy0 := (hmem y0).1 hy0mem
    have hxy0 : x < y0 := hs2.1 y0 (by rw [hsuf]; simp)
    rcases hz with ⟨he, _⟩ | ⟨_, hzT, hxz, hmin⟩
    · have := le_of_land_eq hy0.2
      omega
    · have hzle := hmin y0 hy0.2 hxy0
      have hzmem : z ∈ pre ++ x :: suf :=
        (hmem z).2 ⟨lt_of_le_of_lt (le_of_land_eq hzT) hT, hzT⟩
      rw [List.mem_append, List.mem_cons] at hzmem
      rcases hzmem with h | h | h
      · have := hs3 z h x (by simp)
        omega
      · omega
      · rw [hsuf, List.mem_cons] at h
        rcases h with h | h
        · exact h
        · have hs2' := hs2.2
          rw [hsuf, List.pairwise_cons] at hs2'
          have := hs2'.1 z h
          omega
namespace BitSetN

/-- The loop over `subsets()` walks through the increasing list of the subsets of the host
set, from the iterator on. -/
theorem subsetsLoop_spec {N : Nat} (s : BitSetN N) (hs : s.Valid) :
    ∀ (suf pre : List Nat) (x : Nat) (it : BitSetN N) (fuel : Nat), it.Valid →
      subsetsBelow s.toNat (capacity N) = pre ++ x :: suf → IsNext s.toNat x it.toNat →
      suf.length < fuel →
      ∃ l, subsetsLoop s fuel it = some l ∧ l.map toNat = suf ∧ (∀ c, c ∈ l → c.Valid) ∧
        l.Chain' (fun a b => b = subsetNext s a) ∧ (∀ c, c ∈ l.head? → c = it) := by
  have hT := toNat_lt s hs
  intro suf
  induction suf with
  | nil =>
    intro pre x it fuel hv hL hz hf
    have h0 := (isNext_in_list hT hL hz).1 rfl
    cases fuel with
    | zero => omega
    | succ f =>
      refine ⟨[], ?_, rfl, by simp, by simp, by simp⟩
      rw [subsetsLoop, ne_iterEnd, (empty_iff it).2 h0]
      rfl
  | cons y0 suf ih =>
    intro pre x it fuel hv hL hz hf
    have h0 := (isNext_in_list hT hL hz).2 y0 suf rfl
    cases fuel with
    | zero => simp at hf
    | succ f =>
      have hmem : y0 ∈ subsetsBelow s.toNat (capacity N) := by rw [hL]; simp
      have hy0 := (mem_subsetsBelow _ _ _).1 hmem
      have hpos : y0 ≠ 0 := by
        have hsorted := subsetsBelow_sorted s.toNat (capacity N)
        rw [hL, List.pairwise_append] at hsorted
        have := (List.pairwise_cons.1 hsorted.2.1).1 y0 (by simp)
        omega
      have hne : empty it = false := by
        rw [empty_eq_false_iff, h0]; exact hpos
      obtain ⟨hv1, hn1⟩ := subsetNext_spec s it hs hv (by rw [h0]; exact hy0.2)
      rw [h0] at hn1
      have hL' : subsetsBelow s.toNat (capacity N) = (pre ++ [x]) ++ y0 :: suf := by
        rw [hL]; simp
      obtain ⟨l, hl, hmap, hval, hchain, hhead⟩ :=
        ih (pre ++ [x]) y0 (subsetNext s it) f hv1 hL' hn1 (by simpa using hf)
      refine ⟨it :: l, ?_, ?_, ?_, ?_, ?_⟩
      · rw [subsetsLoop, ne_iterEnd, hne, hl]
        rfl
      · rw [List.map_cons, hmap, h0]
      · intro c hc
        rcases List.mem_cons.1 hc with h | h
        · rw [h]; exact hv
        · exact hval c h
      · rw [List.chain'_cons']
        exact ⟨fun y hy => hhead y hy, hchain⟩
      · intro c hc
        simpa using hc.symm

/-- The iteration over `subsets()` ends and yields the non-zero subsets of the host set in
increasing order of their numerals. -/
theorem subsets_spec {N : Nat} (s : BitSetN N) (hs : s.Valid) :
    ∃ l tl, subsets s = some l ∧ subsetsBelow s.toNat (capacity N) = 0 :: tl ∧
      l.map toNat = tl ∧ (∀ c, c ∈ l → c.Valid) ∧
      l.Chain' (fun a b => b = subsetNext s a) ∧ (∀ c, c ∈ l.head? → c = subsetBegin s) ∧
      l.length + 1 = 2 ^ size s := by
  obtain ⟨tl, htl⟩ := subsetsBelow_head s.toNat (capacity N)
  obtain ⟨hbv, hbn⟩ := subsetBegin_spec s hs
  have hlen := subsetsBelow_length s.toNat (capacity N)
  rw [filter_range_eq_toList (toNat_lt s hs), htl] at hlen
  have hsz : (BitSet.toList s.toNat).length = size s := by
    rw [size_toNat s hs]; rfl
  rw [hsz, List.length_cons] at hlen
  obtain ⟨l, hl, hmap, hval, hchain, hhead⟩ :=
    subsetsLoop_spec s hs tl [] 0 (subsetBegin s) (2 ^ size s) hbv (by rw [htl]; rfl) hbn
      (by omega)
  refine ⟨l, tl, hl, htl, hmap, hval, hchain, hhead, ?_⟩
  rw [← hlen, ← hmap, List.length_map]

end BitSetN

/-- C23: for every width and every set `s`, the iteration over `s.subsets()` from `begin()`
until `end()` terminates; it yields exactly the non-empty subsets of `s`, in strictly
increasing order of their numerals (so each exactly once); it starts at `begin()`, every
further element is `operator++` of the one before, and `operator++` is Knuth's successor
`(c - s) & s` in arithmetic modulo `2 ^ C`. -/
theorem subsets_enumeration (N : Nat) (s : BitSetN N) (hs : s.Valid) :
    ∃ l, s.subsets = some l ∧
      (l.map BitSetN.toNat).Pairwise (· < ·) ∧
      (∀ c : BitSetN N, c ∈ l ↔ c.Valid ∧ c.empty = false ∧ c.isSubsetOf s = true) ∧
      (∀ c, c ∈ l.head? → c = s.subsetBegin) ∧
      l.Chain' (fun a b => b = s.subsetNext a) ∧
      (∀ c : BitSetN N, c.Valid → c.isSubsetOf s = true →
        (s.subsetNext c).toNat =
          ((c.toNat + 2 ^ BitSetN.capacity N - s.toNat) % 2 ^ BitSetN.capacity N) &&&
            s.toNat) := by
  obtain ⟨l, tl, hl, htl, hmap, hval, hchain, hhead, _⟩ := BitSetN.subsets_spec s hs
  have hT := BitSetN.toNat_lt s hs
  have hsorted := subsetsBelow_sorted s.toNat (BitSetN.capacity N)
  rw [htl, List.pairwise_cons] at hsorted
  refine ⟨l, hl, ?_, ?_, hhead, hchain, ?_⟩
  · rw [hmap]; exact hsorted.2
  · intro c
    constructor
    · intro hc
      have hcv := hval c hc
      have hmem : c.toNat ∈ tl := by rw [← hmap]; exact List.mem_map_of_mem _ hc
      have h1 := (mem_subsetsBelow s.toNat (BitSetN.capacity N) c.toNat).1
        (by rw [htl]; exact List.mem_cons_of_mem _ hmem)
      have h2 := hsorted.1 _ hmem
      refine ⟨hcv, ?_, ?_⟩
      · rw [BitSetN.empty_eq_false_iff]; omega
      · exact (BitSetN.isSubsetOf_iff c s hcv hs).2 h1.2
    · rintro ⟨hcv, hne, hsub⟩
      rw [BitSetN.empty_eq_false_iff] at hne
      have h1 := (BitSetN.isSubsetOf_iff c s hcv hs).1 hsub
      have hmem := (mem_subsetsBelow s.toNat (BitSetN.capacity N) c.toNat).2
        ⟨BitSetN.toNat_lt c hcv, h1⟩
      rw [htl, List.mem_cons] at hmem
      rcases hmem with h | h
      · exact absurd h hne
      · rw [← hmap, List.mem_map] at h
        obtain ⟨c', hc', heq⟩ := h
        rw [← BitSetN.toNat_inj c' c (hval c' hc') hcv heq]
        exact hc'
  · intro c hcv hsub
    have h1 := (BitSetN.isSubsetOf_iff c s hcv hs).1 hsub
    obtain ⟨_, hn⟩ := BitSetN.subsetNext_spec s c hs hcv h1
    rw [← knuthNext_eq_sub hT h1]
    exact isNext_unique hn (knuthNext_isNext hT h1)

/-- The statement of `subsets_enumeration` on the `BitSet<1>` holding `{0, 2, 64, 65}`. -/
theorem subsets_enumeration_witness :
    ∃ l, (BitSetN.pair (BitSetN.word 5) (BitSetN.word 3)).subsets = some l ∧
      (l.map BitSetN.toNat).Pairwise (· < ·) ∧
      (∀ c : BitSetN 1, c ∈ l ↔ c.Valid ∧ c.empty = false ∧
        c.isSubsetOf (BitSetN.pair (BitSetN.word 5) (BitSetN.word 3)) = true) ∧
      (∀ c, c ∈ l.head? → c = (BitSetN.pair (BitSetN.word 5) (BitSetN.word 3)).subsetBegin) ∧
      l.Chain' (fun a b => b = (BitSetN.pair (BitSetN.word 5) (BitSetN.word 3)).subsetNext a) ∧
      (∀ c : BitSetN 1, c.Valid →
        c.isSubsetOf (BitSetN.pair (BitSetN.word 5) (BitSetN.word 3)) = true →
        ((BitSetN.pair (BitSetN.word 5) (BitSetN.word 3)).subsetNext c).toNat =
          ((c.toNat + 2 ^ BitSetN.capacity 1 -
              (BitSetN.pair (BitSetN.word 5) (BitSetN.word 3)).toNat) %
            2 ^ BitSetN.capacity 1) &&&
            (BitSetN.pair (BitSetN.word 5) (BitSetN.word 3)).toNat) :=
  subsets_enumeration 1 (BitSetN.pair (BitSetN.word 5) (BitSetN.word 3))
    ⟨(by decide : (5 : Nat) < 2 ^ 64), (by decide : (3 : Nat) < 2 ^ 64)⟩

/-- C24, as the code has it: the iteration over `s.subsets()` yields exactly `2 ^ |s| - 1`
subsets, pairwise distinct and all non-empty; the empty set is the state of `end()` and is
not yielded. -/
theorem subsets_count (N : Nat) (s : BitSetN N) (hs : s.Valid) :
    ∃ l, s.subsets = some l ∧ l.length = 2 ^ s.size - 1 ∧ l.Nodup ∧
      ∀ c, c ∈ l → c.empty = false := by
  obtain ⟨l, tl, hl, htl, hmap, hval, _, _, hlen⟩ := BitSetN.subsets_spec s hs
  have hsorted := subsetsBelow_sorted s.toNat (BitSetN.capacity N)
  rw [htl, List.pairwise_cons] at hsorted
  refine ⟨l, hl, by omega, ?_, ?_⟩
  · have : (l.map BitSetN.toNat).Nodup := by
      rw [hmap]; exact hsorted.2.imp (fun h => Nat.ne_of_lt h)
    exact List.Nodup.of_map _ this
  · intro c hc
    have hmem : c.toNat ∈ tl := by rw [← hmap]; exact List.mem_map_of_mem _ hc
    have := hsorted.1 _ hmem
    rw [BitSetN.empty_eq_false_iff]; omega

/-- The statement of `subsets_count` on the `BitSet<1>` holding `{0, 2, 64, 65}`. -/
theorem subsets_count_witness :
    ∃ l, (BitSetN.pair (BitSetN.word 5) (BitSetN.word 3)).subsets = some l ∧
      l.length = 2 ^ (BitSetN.pair (BitSetN.word 5) (BitSetN.word 3)).size - 1 ∧ l.Nodup ∧
      ∀ c, c ∈ l → c.empty = false :=
  subsets_count 1 (BitSetN.pair (BitSetN.word 5) (BitSetN.word 3))
    ⟨(by decide : (5 : Nat) < 2 ^ 64), (by decide : (3 : Nat) < 2 ^ 64)⟩

/-- C24, the claim as stated, fails: on `{0, 1}` the iteration yields the three subsets
`{0}`, `{1}`, `{0, 1}`, not `2 ^ 2 = 4`, and the empty set is not among them; on the empty
set it yields nothing. -/
theorem subsets_skips_empty :
    (BitSetN.word 3).size = 2 ∧
    (BitSetN.word 3).subsets = some [BitSetN.word 1, BitSetN.word 2, BitSetN.word 3] ∧
    (BitSetN.word 0).subsets = some [] ∧
    ¬ ∃ l, (BitSetN.word 3).subsets = some l ∧
      (l.length = 2 ^ (BitSetN.word 3).size ∨ BitSetN.word 0 ∈ l) := by
  have h : (BitSetN.word 3).subsets = some [BitSetN.word 1, BitSetN.word 2, BitSetN.word 3] := by
    decide
  refine ⟨by decide, h, by decide, ?_⟩
  rintro ⟨l, hl, hor⟩
  rw [h] at hl
  cases hl
  revert hor
  decide

/-! ## Contracting a subgraph in place -/

/-- The call `std::vector::resize(k)`; new entries are value-initialised to `d`. -/
def resize {α : Type} (l : List α) (k : Nat) (d : α) : List α :=
  l.take k ++ List.replicate (k - l.length) d

/-- The call `N[u].insert(v)` of `initGraphStructure`. On `BitSet64` (`wide = false`) `insert`
checks nothing; on the wider variants it asserts that `v` is not yet a member. -/
def insertNeighbor (wide : Bool) (N : Nat → BitSet) (u v : Nat) : Option (Nat → BitSet) :=
  if wide then (BitSet.insert (N u) v).map (fun s => Function.update N u s)
  else some (Function.update N u (N u ||| BitSet.single v))

/-- What the lambda `addEdge(u, v, edgeId)` of `initGraphStructure` does with the neighbour
sets: `N[u].insert(v)` when they are built, `assert(N[u].count(v))` otherwise. -/
def addEdgeNeighbors (wide initNeighborSets : Bool) (N : Nat → BitSet) (u v : Nat) :
    Option (Nat → BitSet) :=
  if initNeighborSets then insertNeighbor wide N u v
  else if (N u).count v then some N else none

/-- The loop `for (index = 0; index != m; ++index)` of `initGraphStructure` over the internal
edges that remain, for the neighbour sets. -/
def initNeighbors (wide initNeighborSets : Bool) :
    List EdgeInfo → (Nat → BitSet) → Option (Nat → BitSet)
  | [], N => some N
  | e :: rest, N =>
    match addEdgeNeighbors wide initNeighborSets N e.edge.1 e.edge.2 with
    | none => none
    | some N1 =>
      match addEdgeNeighbors wide initNeighborSets N1 e.edge.2 e.edge.1 with
      | none => none
      | some N2 => initNeighbors wide initNeighborSets rest N2

/-- The loop of `initGraphStructure` over the open legs:
`assert(openLegSize[index] > epsilon); edgeInfo[m + index].cost = openLegSize[index]`. -/
def initOpenLegs (m : Nat) (openLegSize : List ℚ) :
    List Nat → List EdgeInfo → Option (List EdgeInfo)
  | [], edgeInfo => some edgeInfo
  | index :: rest, edgeInfo =>
    if openLegSize.getD index 0 > epsilon then
      initOpenLegs m openLegSize rest
        (edgeInfo.set (m + index)
          ⟨openLegSize.getD index 0, (edgeInfo.getD (m + index) ⟨0, (0, 0)⟩).edge⟩)
    else none

/-- The function `initGraphStructure(initNeighborSets)` on the fields `n`, `m`, `edgeInfo`,
`openLegSize` and the neighbour sets `N`; the adjacency lists it links are those `adj`
computes from `edgeInfo`. -/
def initGraphStructure (wide : Bool) (net : TensorNetwork) (N : Nat → BitSet)
    (initNeighborSets : Bool) : Option (TensorNetwork × (Nat → BitSet)) :=
  let N0 := if initNeighborSets then fun _ => 0 else N
  if net.edgeInfo.length = net.m + net.n then
    match initNeighbors wide initNeighborSets (net.edgeInfo.take net.m) N0 with
    | none => none
    | some N1 =>
      match initOpenLegs net.m net.openLegSize (List.range net.n) net.edgeInfo with
      | none => none
      | some edgeInfo => some (⟨net.n, net.m, edgeInfo, net.openLegSize⟩, N1)
  else none

/-- The function `min()` of a set; `none` on the empty set (a failed assertion in the wide
variants, an undefined `__builtin_ctzll(0)` in `BitSet64`). -/
def BitSet.min (s : BitSet) : Option Nat := (BitSet.toList s).head?

/-- The variables `edgeInfo`, `currPtr` and `incomingCost` of `updateSubgraph`. -/
structure ContractState where
  edgeInfo : List EdgeInfo
  currPtr : Nat
  incomingCost : Nat → ℚ

/-- The body of the first loop of `updateSubgraph`, for the edge `index`. -/
def contractEdge (ids : BitSet) (st : ContractState) (index : Nat) : ContractState :=
  let e := st.edgeInfo.getD index ⟨0, (0, 0)⟩
  let u := e.edge.1
  let v := e.edge.2
  if ids.count u && ids.count v then st
  else if ids.count u then
    let c := if st.incomingCost v < 0 then 1 else st.incomingCost v
    { st with incomingCost := Function.update st.incomingCost v (c * e.cost) }
  else if ids.count v then
    let c := if st.incomingCost u < 0 then 1 else st.incomingCost u
    { st with incomingCost := Function.update st.incomingCost u (c * e.cost) }
  else { st with edgeInfo := st.edgeInfo.set st.currPtr e, currPtr := st.currPtr + 1 }

/-- The second loop of `updateSubgraph`, over the vertices that remain; `none` stands for the
failed `assert(index != repr)`. -/
def contractIncoming (repr : Nat) : List Nat → ContractState → Option ContractState
  | [], st => some st
  | index :: rest, st =>
    if st.incomingCost index > 0 then
      if index ≠ repr then
        contractIncoming repr rest
          { st with
            edgeInfo := st.edgeInfo.set st.currPtr ⟨st.incomingCost index, (index, repr)⟩,
            currPtr := st.currPtr + 1 }
      else none
    else contractIncoming repr rest st

/-- The loop over `u` in `ids` that skips `repr` and otherwise performs
`openLegSize[repr] *= openLegSize[u]`. -/
def contractOpenLegs (repr : Nat) (ids : BitSet) (openLegSize : List ℚ) : List ℚ :=
  (BitSet.toList ids).foldl
    (fun legs u =>
      if u = repr then legs else legs.set repr (legs.getD repr 0 * legs.getD u 0))
    openLegSize

/-- The function `updateSubgraph(ids)` (the active `#else` arm). -/
def updateSubgraph (wide : Bool) (net : TensorNetwork) (ids : BitSet) : Option TensorNetwork :=
  match BitSet.min ids with
  | none => none
  | some repr =>
    let st1 := (List.range net.m).foldl (contractEdge ids) ⟨net.edgeInfo, 0, fun _ => -1⟩
    match contractIncoming repr (List.range net.n) st1 with
    | none => none
    | some st2 =>
      let m := st2.currPtr
      let edgeInfo := resize st2.edgeInfo (m + net.n) ⟨0, (0, 0)⟩
      let openLegSize := contractOpenLegs repr ids net.openLegSize
      (initGraphStructure wide ⟨net.n, m, edgeInfo, openLegSize⟩ (fun _ => 0) true).map Prod.fst
/-- Both endpoints of the edge lie outside `ids`. -/
def EdgeInfo.outside (ids : BitSet) (e : EdgeInfo) : Bool :=
  !ids.count e.edge.1 && !ids.count e.edge.2

/-- The edge has exactly one endpoint in `ids`, and `v` is the other one. -/
def EdgeInfo.touches (ids : BitSet) (v : Nat) (e : EdgeInfo) : Bool :=
  (ids.count e.edge.1 && !ids.count e.edge.2 && decide (e.edge.2 = v)) ||
    (!ids.count e.edge.1 && ids.count e.edge.2 && decide (e.edge.1 = v))

/-- The product of the dimensions of a list of edges. -/
def dimProduct (l : List EdgeInfo) : ℚ := (l.map (fun e => e.cost)).prod

theorem dimProduct_pos {l : List EdgeInfo} (h : ∀ e, e ∈ l → 0 < e.cost) : 0 < dimProduct l := by
  unfold dimProduct
  apply List.prod_pos
  intro a ha
  rw [List.mem_map] at ha
  obtain ⟨e, he, rfl⟩ := ha
  exact h e he

theorem dimProduct_append (l1 l2 : List EdgeInfo) :
    dimProduct (l1 ++ l2) = dimProduct l1 * dimProduct l2 := by
  simp [dimProduct]

/-- The state of the first loop of `updateSubgraph` after the edges below `k`. -/
structure ContractInv (ids : BitSet) (E : List EdgeInfo) (k : Nat) (st : ContractState) :
    Prop where
  edges : st.edgeInfo = (E.take k).filter (EdgeInfo.outside ids) ++
    E.drop ((E.take k).filter (EdgeInfo.outside ids)).length
  ptr : st.currPtr = ((E.take k).filter (EdgeInfo.outside ids)).length
  incoming : ∀ v, st.incomingCost v =
    if (E.take k).filter (EdgeInfo.touches ids v) = [] then -1
    else dimProduct ((E.take k).filter (EdgeInfo.touches ids v))

theorem getD_append_drop {α : Type} (l E : List α) (k : Nat) (d : α) (h : l.length ≤ k) :
    (l ++ E.drop l.length).getD k d = E.getD k d := by
  rw [List.getD_eq_getElem?_getD, List.getD_eq_getElem?_getD, List.getElem?_append_right h,
    List.getElem?_drop]
  congr 2
  omega

theorem set_append_drop {α : Type} (l E : List α) (e : α) (h : l.length < E.length) :
    (l ++ E.drop l.length).set l.length e = (l ++ [e]) ++ E.drop (l ++ [e]).length := by
  rw [List.set_append_right _ _ (le_refl _), Nat.sub_self, List.append_assoc]
  congr 1
  rw [List.length_append, List.length_singleton]
  have : E.drop l.length = E[l.length] :: E.drop (l.length + 1) := by
    rw [List.drop_eq_getElem_cons h]
  rw [this]
  rfl

theorem take_succ_getD {α : Type} (E : List α) (k : Nat) (d : α) (h : k < E.length) :
    E.take (k + 1) = E.take k ++ [E.getD k d] := by
  rw [List.take_succ, List.getD_eq_getElem?_getD, List.getElem?_eq_getElem h]
  rfl

theorem contractEdge_inv (ids : BitSet) (E : List EdgeInfo) (m : Nat) (hm : m ≤ E.length)
    (hpos : ∀ e, e ∈ E.take m → 0 < e.cost) :
    ∀ k, k ≤ m → ContractInv ids E k
      ((List.range k).foldl (contractEdge ids) ⟨E, 0, fun _ => -1⟩) := by
  intro k
  induction k with
  | zero =>
    intro _
    exact ⟨by simp, by simp, by intro v; simp⟩
  | succ k ih =>
    intro hk
    have inv := ih (by omega)
    rw [List.range_succ, List.foldl_append]
    simp only [List.foldl_cons, List.foldl_nil]
    generalize (List.range k).foldl (contractEdge ids) ⟨E, 0, fun _ => -1⟩ = st at inv
    have hkE : k < E.length := by omega
    have hklen : ((E.take k).filter (EdgeInfo.outside ids)).length ≤ k := by
      calc ((E.take k).filter (EdgeInfo.outside ids)).length ≤ (E.take k).length :=
            List.length_filter_le _ _
        _ ≤ k := by rw [List.length_take]; omega
    have hread : st.edgeInfo.getD k ⟨0, (0, 0)⟩ = E.getD k ⟨0, (0, 0)⟩ := by
      rw [inv.edges]; exact getD_append_drop _ E k _ hklen
    have htake := take_succ_getD E k ⟨0, (0, 0)⟩ hkE
    have hmemk : E.getD k ⟨0, (0, 0)⟩ ∈ E.take m := by
      have : E.getD k ⟨0, (0, 0)⟩ ∈ E.take (k + 1) := by rw [htake]; simp
      exact (List.take_subset_take_left E hk) this
    have hcost := hpos _ hmemk
    have hprev : ∀ v, 0 < st.incomingCost v ∨ st.incomingCost v = -1 := by
      intro v
      rw [inv.incoming v]
      by_cases h : (E.take k).filter (EdgeInfo.touches ids v) = []
      · right; rw [if_pos h]
      · left
        rw [if_neg h]
        apply dimProduct_pos
        intro e he
        exact hpos e (List.take_subset_take_left E (by omega) (List.mem_of_mem_filter he))
    have hstart : ∀ v, (if st.incomingCost v < 0 then 1 else st.incomingCost v) =
        dimProduct ((E.take k).filter (EdgeInfo.touches ids v)) := by
      intro v
      rw [inv.incoming v]
      by_cases h : (E.take k).filter (EdgeInfo.touches ids v) = []
      · rw [if_pos h, h]
        simp [dimProduct]
      · rw [if_neg h]
        have : 0 < dimProduct ((E.take k).filter (EdgeInfo.touches ids v)) := by
          apply dimProduct_pos
          intro e he
          exact hpos e (List.take_subset_take_left E (by omega) (List.mem_of_mem_filter he))
        rw [if_neg (not_lt.2 (le_of_lt this))]
    unfold contractEdge
    simp only [hread]
    generalize hE : E.getD k ⟨0, (0, 0)⟩ = e at *
    cases h1 : ids.count e.edge.1 <;> cases h2 : ids.count e.edge.2
    · -- neither endpoint in `ids`: the edge is kept
      have ho : EdgeInfo.outside ids e = true := by simp [EdgeInfo.outside, h1, h2]
      have ht : ∀ v, EdgeInfo.touches ids v e = false := by
        intro v; simp [EdgeInfo.touches, h1, h2]
      simp only [Bool.false_and, Bool.false_eq_true, if_false]
      refine ⟨?_, ?_, ?_⟩
      · simp only [htake, List.filter_append, List.filter_cons, ho, if_true, List.filter_nil]
        rw [inv.ptr, inv.edges]
        exact set_append_drop _ E e (lt_of_le_of_lt hklen hkE)
      · simp only [htake, List.filter_append, List.filter_cons, ho, if_true, List.filter_nil, List.length_append,
          List.length_singleton]
        rw [inv.ptr]
      · intro v
        simp only [htake, List.filter_append, List.filter_cons, ht v, Bool.false_eq_true, if_false, List.filter_nil,
          List.append_nil]
        exact inv.incoming v
    · -- only the second endpoint in `ids`
      have ho : EdgeInfo.outside ids e = false := by simp [EdgeInfo.outside, h1, h2]
      simp only [Bool.false_and, Bool.false_eq_true, if_false, if_true]
      refine ⟨?_, ?_, ?_⟩
      · simp only [htake, List.filter_append, List.filter_cons, ho, Bool.false_eq_true, if_false, List.filter_nil,
          List.append_nil]
        exact inv.edges
      · simp only [htake, List.filter_append, List.filter_cons, ho, Bool.false_eq_true, if_false, List.filter_nil,
          List.append_nil]
        exact inv.ptr
      · intro v
        by_cases hv : e.edge.1 = v
        · subst hv
          have ht : EdgeInfo.touches ids e.edge.1 e = true := by
            simp [EdgeInfo.touches, h1, h2]
          simp only [htake, List.filter_append, List.filter_cons, ht, if_true, List.filter_nil]
          rw [Function.update_same, hstart, if_neg (by simp), dimProduct_append]
          simp [dimProduct]
        · have ht : EdgeInfo.touches ids v e = false := by simp [EdgeInfo.touches, h1, h2, hv]
          simp only [htake, List.filter_append, List.filter_cons, ht, Bool.false_eq_true, if_false, List.filter_nil,
            List.append_nil]
          rw [Function.update_noteq (fun h => hv h.symm)]
          exact inv.incoming v
    · -- only the first endpoint in `ids`
      have ho : EdgeInfo.outside ids e = false := by simp [EdgeInfo.outside, h1, h2]
      simp only [Bool.true_and, Bool.false_eq_true, if_false, if_true]
      refine ⟨?_, ?_, ?_⟩
      · simp only [htake, List.filter_append, List.filter_cons, ho, Bool.false_eq_true, if_false, List.filter_nil,
          List.append_nil]
        exact inv.edges
      · simp only [htake, List.filter_append, List.filter_cons, ho, Bool.false_eq_true, if_false, List.filter_nil,
          List.append_nil]
        exact inv.ptr
      · intro v
        by_cases hv : e.edge.2 = v
        · subst hv
          have ht : EdgeInfo.touches ids e.edge.2 e = true := by
            simp [EdgeInfo.touches, h1, h2]
          simp only [htake, List.filter_append, List.filter_cons, ht, if_true, List.filter_nil]
          rw [Function.update_same, hstart, if_neg (by simp), dimProduct_append]
          simp [dimProduct]
        · have ht : EdgeInfo.touches ids v e = false := by simp [EdgeInfo.touches, h1, h2, hv]
          simp only [htake, List.filter_append, List.filter_cons, ht, Bool.false_eq_true, if_false, List.filter_nil,
            List.append_nil]
          rw [Function.update_noteq (fun h => hv h.symm)]
          exact inv.incoming v
    · -- both endpoints in `ids`: the edge is dropped
      have ho : EdgeInfo.outside ids e = false := by simp [EdgeInfo.outside, h1, h2]
      have ht : ∀ v, EdgeInfo.touches ids v e = false := by
        intro v; simp [EdgeInfo.touches, h1, h2]
      simp only [Bool.and_self, if_true]
      refine ⟨?_, ?_, ?_⟩
      · simp only [htake, List.filter_append, List.filter_cons, ho, Bool.false_eq_true, if_false, List.filter_nil,
          List.append_nil]
        exact inv.edges
      · simp only [htake, List.filter_append, List.filter_cons, ho, Bool.false_eq_true, if_false, List.filter_nil,
          List.append_nil]
        exact inv.ptr
      · intro v
        simp only [htake, List.filter_append, List.filter_cons, ht v, Bool.false_eq_true, if_false, List.filter_nil,
          List.append_nil]
        exact inv.incoming v
theorem take_set_succ {α : Type} (x : α) : ∀ (l : List α) (c : Nat), c < l.length →
    (l.set c x).take (c + 1) = l.take c ++ [x] := by
  intro l
  induction l with
  | nil => intro c h; simp at h
  | cons a l ih =>
    intro c h
    cases c with
    | zero => simp
    | succ c =>
      simp only [List.set_cons_succ, List.take_succ_cons, List.cons_append]
      rw [ih c (by simpa using h)]

/-- The second loop of `updateSubgraph` appends one edge `(v, repr)` for every vertex `v`
with a positive `incomingCost`. -/
theorem contractIncoming_spec (repr : Nat) (ic : Nat → ℚ) (hrepr : ¬ 0 < ic repr) :
    ∀ (l : List Nat) (st : ContractState), ic = st.incomingCost →
      st.currPtr + l.length ≤ st.edgeInfo.length →
      ∃ st', contractIncoming repr l st = some st' ∧
        st'.edgeInfo.length = st.edgeInfo.length ∧
        st'.currPtr = st.currPtr + (l.filter (fun v => decide (0 < ic v))).length ∧
        st'.edgeInfo.take st'.currPtr = st.edgeInfo.take st.currPtr ++
          (l.filter (fun v => decide (0 < ic v))).map (fun v => ⟨ic v, (v, repr)⟩) := by
  intro l
  induction l with
  | nil =>
    intro st _ _
    exact ⟨st, rfl, rfl, by simp, by simp⟩
  | cons index rest ih =>
    intro st hic hlen
    rw [List.length_cons] at hlen
    subst hic
    rw [contractIncoming]
    by_cases hpos : 0 < st.incomingCost index
    · have hne : index ≠ repr := fun e => hrepr (e ▸ hpos)
      rw [if_pos hpos, if_pos hne]
      obtain ⟨st', h1, h2, hp, h3⟩ := ih
        { st with
          edgeInfo := st.edgeInfo.set st.currPtr ⟨st.incomingCost index, (index, repr)⟩,
          currPtr := st.currPtr + 1 } rfl (by simp only [List.length_set]; omega)
      refine ⟨st', h1, ?_, ?_, ?_⟩
      · rw [h2, List.length_set]
      · rw [hp, List.filter_cons, if_pos (by simpa using hpos)]
        simp only [List.length_cons]
        omega
      · rw [h3]
        simp only
        rw [take_set_succ _ _ _ (by omega), List.filter_cons, if_pos (by simpa using hpos)]
        simp
    · rw [if_neg hpos]
      obtain ⟨st', h1, h2, hp, h3⟩ := ih st rfl (by omega)
      refine ⟨st', h1, h2, ?_, ?_⟩
      · rw [hp, List.filter_cons, if_neg (by simpa using hpos)]
      · rw [h3, List.filter_cons, if_neg (by simpa using hpos)]

/-- The loop of `initGraphStructure` over the open legs writes the cost of the entries
`m + index` and nothing else. -/
theorem initOpenLegs_spec (m : Nat) (openLegSize : List ℚ) :
    ∀ (l : List Nat) (E : List EdgeInfo), (∀ i, i ∈ l → epsilon < openLegSize.getD i 0) →
      ∃ E', initOpenLegs m openLegSize l E = some E' ∧ E'.length = E.length ∧
        ∀ j, E'.getD j ⟨0, (0, 0)⟩ =
          if j < E.length ∧ ∃ i, i ∈ l ∧ j = m + i then
            ⟨openLegSize.getD (j - m) 0, (E.getD j ⟨0, (0, 0)⟩).edge⟩
          else E.getD j ⟨0, (0, 0)⟩ := by
  intro l
  induction l with
  | nil =>
    intro E _
    exact ⟨E, rfl, rfl, by intro j; simp⟩
  | cons index rest ih =>
    intro E hl
    rw [initOpenLegs, if_pos (hl index (by simp))]
    obtain ⟨E', h1, h2, h3⟩ := ih
      (E.set (m + index) ⟨openLegSize.getD index 0, (E.getD (m + index) ⟨0, (0, 0)⟩).edge⟩)
      (fun i hi => hl i (by simp [hi]))
    refine ⟨E', h1, by rw [h2, List.length_set], ?_⟩
    intro j
    rw [h3, List.length_set]
    have hset : ∀ x : EdgeInfo, (E.set (m + index) x).getD j ⟨0, (0, 0)⟩ =
        if j = m + index ∧ j < E.length then x else E.getD j ⟨0, (0, 0)⟩ := by
      intro x
      rw [List.getD_eq_getElem?_getD, List.getD_eq_getElem?_getD, List.getElem?_set]
      by_cases hj : m + index = j
      · subst hj
        by_cases hlt : m + index < E.length
        · simp [hlt]
        · simp [hlt, List.getElem?_eq_none (not_lt.1 hlt)]
      · have hj' : ¬ j = m + index := fun e => hj e.symm
        simp [hj, hj']
    by_cases hjl : j < E.length
    · by_cases hr : ∃ i, i ∈ rest ∧ j = m + i
      · have hc : ∃ i, i ∈ index :: rest ∧ j = m + i := by
          obtain ⟨i, hi, e⟩ := hr
          exact ⟨i, by simp [hi], e⟩
        rw [if_pos ⟨hjl, hr⟩, if_pos ⟨hjl, hc⟩, hset]
        by_cases hj : j = m + index
        · rw [if_pos ⟨hj, hjl⟩]
          rw [hj]
        · rw [if_neg (fun h => hj h.1)]
      · rw [if_neg (fun h => hr h.2), hset]
        by_cases hj : j = m + index
        · rw [if_pos ⟨hj, hjl⟩, if_pos ⟨hjl, index, by simp, hj⟩]
          rw [hj]; simp
        · rw [if_neg (fun h => hj h.1), if_neg]
          rintro ⟨_, i, hi, e⟩
          rcases List.mem_cons.1 hi with h | h
          · exact hj (by rw [e, h])
          · exact hr ⟨i, h, e⟩
    · rw [if_neg (fun h => hjl h.1), if_neg (fun h => hjl h.1), hset,
        if_neg (fun h => hjl h.2)]

/-- No edge of the list is a self-loop and no two of its edges join the same two vertices:
what `N[u].insert(v)` asserts, in the wide variants, when the neighbour sets are built. -/
def SimpleEdges (l : List EdgeInfo) : Prop :=
  (∀ e, e ∈ l → e.edge.1 ≠ e.edge.2) ∧
  l.Pairwise (fun e f => ¬ (f.edge = e.edge ∨ f.edge = (e.edge.2, e.edge.1)))

theorem initNeighbors_narrow : ∀ (l : List EdgeInfo) (N : Nat → BitSet),
    ∃ N', initNeighbors false true l N = some N' := by
  intro l
  induction l with
  | nil => intro N; exact ⟨N, rfl⟩
  | cons e rest ih =>
    intro N
    simp only [initNeighbors, addEdgeNeighbors, insertNeighbor, if_true, Bool.false_eq_true,
      if_false]
    exact ih _

theorem initNeighbors_wide : ∀ (l done : List EdgeInfo) (N : Nat → BitSet),
    (∀ a b, (N a).testBit b = true →
      ∃ f, f ∈ done ∧ (f.edge = (a, b) ∨ f.edge = (b, a))) →
    SimpleEdges (done ++ l) → ∃ N', initNeighbors true true l N = some N' := by
  intro l
  induction l with
  | nil => intro done N _ _; exact ⟨N, rfl⟩
  | cons e rest ih =>
    intro done N hN hs
    have hloop : e.edge.1 ≠ e.edge.2 := hs.1 e (by simp)
    have hpw := hs.2
    rw [List.pairwise_append] at hpw
    have hnew : ∀ f, f ∈ done → ¬ (e.edge = f.edge ∨ e.edge = (f.edge.2, f.edge.1)) :=
      fun f hf => hpw.2.2 f hf e (by simp)
    have h1 : (N e.edge.1).testBit e.edge.2 = false := by
      by_contra h
      obtain ⟨f, hf, hfe⟩ := hN _ _ (by simpa using h)
      apply hnew f hf
      rcases hfe with h | h
      · left; rw [h]
      · right; rw [h]
    have h2 : (N e.edge.2).testBit e.edge.1 = false := by
      by_contra h
      obtain ⟨f, hf, hfe⟩ := hN _ _ (by simpa using h)
      apply hnew f hf
      rcases hfe with h | h
      · right; rw [h]
      · left; rw [h]
    simp only [initNeighbors, addEdgeNeighbors, insertNeighbor, if_true, BitSet.insert, h1,
      Bool.false_eq_true, if_false, Option.map_some', Function.update_noteq (Ne.symm hloop),
      h2]
    apply ih (done ++ [e])
    · intro a b hab
      by_cases ha2 : a = e.edge.2
      · subst ha2
        rw [Function.update_same, Nat.testBit_or, BitSet.testBit_single] at hab
        by_cases hb : e.edge.1 = b
        · exact ⟨e, by simp, Or.inr (by rw [← hb])⟩
        · simp only [hb, decide_False, Bool.or_false] at hab
          obtain ⟨f, hf, hfe⟩ := hN _ _ hab
          exact ⟨f, by simp [hf], hfe⟩
      · rw [Function.update_noteq ha2] at hab
        by_cases ha1 : a = e.edge.1
        · subst ha1
          rw [Function.update_same, Nat.testBit_or, BitSet.testBit_single] at hab
          by_cases hb : e.edge.2 = b
          · exact ⟨e, by simp, Or.inl (by rw [← hb])⟩
          · simp only [hb, decide_False, Bool.or_false] at hab
            obtain ⟨f, hf, hfe⟩ := hN _ _ hab
            exact ⟨f, by simp [hf], hfe⟩
        · rw [Function.update_noteq ha1] at hab
          obtain ⟨f, hf, hfe⟩ := hN _ _ hab
          exact ⟨f, by simp [hf], hfe⟩
    · rw [List.append_assoc]
      exact hs

/-- The loop that multiplies the open legs of the absorbed vertices into `openLegSize[repr]`. -/
theorem contractOpenLegs_fold (repr : Nat) : ∀ (rest : List Nat) (legs : List ℚ),
    repr ∉ rest → repr < legs.length →
    (rest.foldl (fun legs u =>
        if u = repr then legs else legs.set repr (legs.getD repr 0 * legs.getD u 0))
      legs).length = legs.length ∧
    (rest.foldl (fun legs u =>
        if u = repr then legs else legs.set repr (legs.getD repr 0 * legs.getD u 0))
      legs).getD repr 0 = legs.getD repr 0 * (rest.map (fun u => legs.getD u 0)).prod ∧
    ∀ v, v ≠ repr →
      (rest.foldl (fun legs u =>
        if u = repr then legs else legs.set repr (legs.getD repr 0 * legs.getD u 0))
      legs).getD v 0 = legs.getD v 0 := by
  intro rest
  induction rest with
  | nil => intro legs _ _; simp
  | cons u rest ih =>
    intro legs hr hlt
    have hu : u ≠ repr := fun e => hr (by simp [e])
    have hr' : repr ∉ rest := fun h => hr (by simp [h])
    simp only [List.foldl_cons, if_neg hu]
    obtain ⟨h1, h2, h3⟩ := ih (legs.set repr (legs.getD repr 0 * legs.getD u 0)) hr'
      (by rw [List.length_set]; exact hlt)
    have hget : ∀ v, v ≠ repr →
        (legs.set repr (legs.getD repr 0 * legs.getD u 0)).getD v 0 = legs.getD v 0 := by
      intro v hv
      rw [List.getD_eq_getElem?_getD, List.getElem?_set_ne (fun e => hv e.symm),
        ← List.getD_eq_getElem?_getD]
    have hsame : (legs.set repr (legs.getD repr 0 * legs.getD u 0)).getD repr 0 =
        legs.getD repr 0 * legs.getD u 0 := by
      rw [List.getD_eq_getElem?_getD, List.getElem?_set_self hlt]
      rfl
    refine ⟨by rw [h1, List.length_set], ?_, ?_⟩
    · rw [h2, hsame, List.map_cons, List.prod_cons, mul_assoc]
      congr 3
      apply List.map_congr_left
      intro w hw
      exact hget w (fun e => hr' (e ▸ hw))
    · intro v hv
      rw [h3 v hv, hget v hv]
theorem length_resize {α : Type} (l : List α) (k : Nat) (d : α) : (resize l k d).length = k := by
  unfold resize
  rw [List.length_append, List.length_take, List.length_replicate]
  omega

theorem take_resize {α : Type} (l : List α) (k j : Nat) (d : α) (hj : j ≤ k)
    (hl : j ≤ l.length) : (resize l k d).take j = l.take j := by
  unfold resize
  rw [List.take_append_of_le_length (by rw [List.length_take]; omega), List.take_take,
    Nat.min_eq_left hj]

theorem take_eq_of_getD {α : Type} (d : α) (A B : List α) (k : Nat) (hlen : A.length = B.length)
    (h : ∀ j, j < k → A.getD j d = B.getD j d) : A.take k = B.take k := by
  apply List.ext_getElem?
  intro j
  rw [List.getElem?_take, List.getElem?_take]
  by_cases hj : j < k
  · rw [if_pos hj, if_pos hj]
    have := h j hj
    rw [List.getD_eq_getElem?_getD, List.getD_eq_getElem?_getD] at this
    by_cases hjA : j < A.length
    · have hjB : j < B.length := by omega
      rw [List.getElem?_eq_getElem hjA, List.getElem?_eq_getElem hjB] at this ⊢
      simpa using this
    · rw [List.getElem?_eq_none (by omega), List.getElem?_eq_none (by omega)]
  · rw [if_neg hj, if_neg hj]

/-- The vertex `v` is joined to `ids` by an edge among the first `m` entries. -/
def touched (ids : BitSet) (E : List EdgeInfo) (m v : Nat) : Bool :=
  !((E.take m).filter (EdgeInfo.touches ids v)).isEmpty

/-- The edges `(v, repr)` that the second loop of `updateSubgraph` appends. -/
def mergedEdges (ids : BitSet) (E : List EdgeInfo) (m n repr : Nat) : List EdgeInfo :=
  ((List.range n).filter (touched ids E m)).map
    (fun v => ⟨dimProduct ((E.take m).filter (EdgeInfo.touches ids v)), (v, repr)⟩)

theorem touches_member {ids : BitSet} {v : Nat} {e : EdgeInfo}
    (h : EdgeInfo.touches ids v e = true) : ids.count v = false := by
  unfold EdgeInfo.touches at h
  simp only [Bool.or_eq_true, Bool.and_eq_true, Bool.not_eq_true', decide_eq_true_eq] at h
  rcases h with ⟨⟨_, h2⟩, h3⟩ | ⟨⟨h1, _⟩, h3⟩
  · rw [← h3]; exact h2
  · rw [← h3]; exact h1

/-- What `updateSubgraph` returns: the kept edges followed by the merged ones, and the open
legs with the absorbed ones multiplied into the representative. -/
theorem updateSubgraph_spec (wide : Bool) (net : TensorNetwork) (ids : BitSet)
    (hlen : net.edgeInfo.length = net.m + net.n) (holen : net.openLegSize.length = net.n)
    (hpos : ∀ e, e ∈ net.edgeInfo.take net.m → 0 < e.cost)
    (hids : ids ≠ 0) (hsub : ∀ v, ids.testBit v = true → v < net.n)
    (hsimple : wide = true → SimpleEdges (net.edgeInfo.take net.m))
    (hopen : ∀ v, v < net.n → epsilon < net.openLegSize.getD v 0)
    (hprod : epsilon < ((BitSet.toList ids).map (fun u => net.openLegSize.getD u 0)).prod) :
    ∃ net' repr, BitSet.min ids = some repr ∧ ids.testBit repr = true ∧
      (∀ v, ids.testBit v = true → repr ≤ v) ∧
      updateSubgraph wide net ids = some net' ∧ net'.n = net.n ∧
      net'.edgeInfo.length = net'.m + net.n ∧
      net'.edgeInfo.take net'.m =
        (net.edgeInfo.take net.m).filter (EdgeInfo.outside ids) ++
          mergedEdges ids net.edgeInfo net.m net.n repr ∧
      net'.openLegSize.length = net.n ∧
      net'.openLegSize.getD repr 0 =
        ((BitSet.toList ids).map (fun u => net.openLegSize.getD u 0)).prod ∧
      (∀ v, v ≠ repr → net'.openLegSize.getD v 0 = net.openLegSize.getD v 0) ∧
      ∀ v, v < net.n →
        (net'.edgeInfo.getD (net'.m + v) ⟨0, (0, 0)⟩).cost = net'.openLegSize.getD v 0 := by
  -- the representative
  obtain ⟨repr, rest, hL⟩ : ∃ repr rest, BitSet.toList ids = repr :: rest := by
    cases h : BitSet.toList ids with
    | nil => exact absurd (BitSet.eq_zero_of_toList h) hids
    | cons a l => exact ⟨a, l, rfl⟩
  have hmin : BitSet.min ids = some repr := by unfold BitSet.min; rw [hL]; rfl
  have hrmem : ids.testBit repr = true := BitSet.mem_toList.1 (by rw [hL]; simp)
  have hrn : repr < net.n := hsub repr hrmem
  have hrleast : ∀ v, ids.testBit v = true → repr ≤ v := by
    intro v hv
    have hvm : v ∈ repr :: rest := by rw [← hL]; exact BitSet.mem_toList.2 hv
    have hsorted := BitSet.toList_sorted ids
    rw [hL, List.pairwise_cons] at hsorted
    rcases List.mem_cons.1 hvm with h | h
    · omega
    · exact le_of_lt (hsorted.1 v h)
  have hrest : repr ∉ rest := by
    have := BitSet.toList_nodup ids
    rw [hL, List.nodup_cons] at this
    exact this.1
  -- the first loop
  have inv := contractEdge_inv ids net.edgeInfo net.m (by omega) hpos net.m (le_refl _)
  generalize hst1 : (List.range net.m).foldl (contractEdge ids)
    ⟨net.edgeInfo, 0, fun _ => -1⟩ = st1 at inv
  have hKlen : ((net.edgeInfo.take net.m).filter (EdgeInfo.outside ids)).length ≤ net.m := by
    calc _ ≤ (net.edgeInfo.take net.m).length := List.length_filter_le _ _
      _ ≤ net.m := by rw [List.length_take]; omega
  have hst1len : st1.edgeInfo.length = net.m + net.n := by
    rw [inv.edges, List.length_append, List.length_drop]; omega
  have hic : ∀ v, (decide (0 < st1.incomingCost v)) = touched ids net.edgeInfo net.m v := by
    intro v
    rw [inv.incoming v]
    unfold touched
    by_cases h : (net.edgeInfo.take net.m).filter (EdgeInfo.touches ids v) = []
    · rw [if_pos h, h]; simp
    · rw [if_neg h]
      have : 0 < dimProduct ((net.edgeInfo.take net.m).filter (EdgeInfo.touches ids v)) := by
        apply dimProduct_pos
        intro e he
        exact hpos e (List.mem_of_mem_filter he)
      have hne : ((net.edgeInfo.take net.m).filter (EdgeInfo.touches ids v)).isEmpty = false := by
        cases hl : (net.edgeInfo.take net.m).filter (EdgeInfo.touches ids v) with
        | nil => exact absurd hl h
        | cons a l => rfl
      simp [this, hne]
  have hrepr : ¬ 0 < st1.incomingCost repr := by
    intro h
    have h1 : touched ids net.edgeInfo net.m repr = true := by rw [← hic]; simpa using h
    unfold touched at h1
    cases hl : (net.edgeInfo.take net.m).filter (EdgeInfo.touches ids repr) with
    | nil => rw [hl] at h1; simp at h1
    | cons a l =>
      have ha : a ∈ (net.edgeInfo.take net.m).filter (EdgeInfo.touches ids repr) := by
        rw [hl]; simp
      have := touches_member (List.mem_filter.1 ha).2
      unfold BitSet.count at this
      rw [hrmem] at this
      cases this
  -- the second loop
  obtain ⟨st2, hc2, hlen2, hptr2, htake2⟩ := contractIncoming_spec repr st1.incomingCost hrepr
    (List.range net.n) st1 rfl (by rw [hst1len, inv.ptr, List.length_range]; omega)
  have hnew : (List.filter (fun v => decide (0 < st1.incomingCost v)) (List.range net.n)).map
      (fun v => (⟨st1.incomingCost v, (v, repr)⟩ : EdgeInfo)) =
      mergedEdges ids net.edgeInfo net.m net.n repr := by
    unfold mergedEdges
    have hf : List.filter (fun v => decide (0 < st1.incomingCost v)) (List.range net.n) =
        List.filter (touched ids net.edgeInfo net.m) (List.range net.n) :=
      List.filter_congr (fun v _ => hic v)
    rw [hf]
    apply List.map_congr_left
    intro v hv
    have hv2 := (List.mem_filter.1 hv).2
    rw [inv.incoming v]
    unfold touched at hv2
    rw [if_neg]
    intro h
    rw [h] at hv2
    simp at hv2
  rw [hnew] at htake2
  have hK : st1.edgeInfo.take st1.currPtr =
      (net.edgeInfo.take net.m).filter (EdgeInfo.outside ids) := by
    rw [inv.ptr, inv.edges, List.take_left]
  rw [hK] at htake2
  have hm2 : st2.currPtr ≤ net.m + net.n := by
    rw [hptr2, inv.ptr]
    have : (List.filter (fun v => decide (0 < st1.incomingCost v)) (List.range net.n)).length ≤
        net.n := by
      calc _ ≤ (List.range net.n).length := List.length_filter_le _ _
        _ = net.n := List.length_range _
    omega
  -- the open legs
  have hlegs := contractOpenLegs_fold repr rest net.openLegSize hrest (by omega)
  have hcol : contractOpenLegs repr ids net.openLegSize =
      rest.foldl (fun legs u =>
        if u = repr then legs else legs.set repr (legs.getD repr 0 * legs.getD u 0))
      net.openLegSize := by
    unfold contractOpenLegs
    rw [hL, List.foldl_cons, if_pos rfl]
  rw [← hcol] at hlegs
  obtain ⟨hl1, hl2, hl3⟩ := hlegs
  have hl2' : (contractOpenLegs repr ids net.openLegSize).getD repr 0 =
      ((BitSet.toList ids).map (fun u => net.openLegSize.getD u 0)).prod := by
    rw [hl2, hL, List.map_cons, List.prod_cons]
  have heps : ∀ i, i ∈ List.range net.n →
      epsilon < (contractOpenLegs repr ids net.openLegSize).getD i 0 := by
    intro i hi
    by_cases hir : i = repr
    · rw [hir, hl2']; exact hprod
    · rw [hl3 i hir]; exact hopen i (List.mem_range.1 hi)
  -- `initGraphStructure`
  obtain ⟨E', hE1, hE2, hE3⟩ := initOpenLegs_spec st2.currPtr
    (contractOpenLegs repr ids net.openLegSize) (List.range net.n)
    (resize st2.edgeInfo (st2.currPtr + net.n) ⟨0, (0, 0)⟩) heps
  have hRtake : (resize st2.edgeInfo (st2.currPtr + net.n) ⟨0, (0, 0)⟩).take st2.currPtr =
      (net.edgeInfo.take net.m).filter (EdgeInfo.outside ids) ++
        mergedEdges ids net.edgeInfo net.m net.n repr := by
    rw [take_resize _ _ _ _ (by omega) (by omega), htake2]
  have hN : ∃ N', initNeighbors wide true
      ((resize st2.edgeInfo (st2.currPtr + net.n) ⟨0, (0, 0)⟩).take st2.currPtr)
      (fun _ => 0) = some N' := by
    cases wide with
    | false => exact initNeighbors_narrow _ _
    | true =>
      apply initNeighbors_wide _ [] _ (by intro a b h; simp at h)
      rw [List.nil_append, hRtake]
      obtain ⟨hs1, hs2⟩ := hsimple rfl
      have hKout : ∀ e, e ∈ (net.edgeInfo.take net.m).filter (EdgeInfo.outside ids) →
          ids.count e.edge.1 = false ∧ ids.count e.edge.2 = false := by
        intro e he
        have := (List.mem_filter.1 he).2
        unfold EdgeInfo.outside at this
        simpa using this
      have hNew : ∀ f, f ∈ mergedEdges ids net.edgeInfo net.m net.n repr →
          f.edge.2 = repr ∧ f.edge.1 ≠ repr := by
        intro f hf
        unfold mergedEdges at hf
        rw [List.mem_map] at hf
        obtain ⟨v, hv, rfl⟩ := hf
        refine ⟨rfl, ?_⟩
        intro e
        have hv2 := (List.mem_filter.1 hv).2
        rw [← hic] at hv2
        simp only at e
        rw [e] at hv2
        exact hrepr (by simpa using hv2)
      constructor
      · intro e he
        rcases List.mem_append.1 he with h | h
        · exact hs1 e (List.mem_of_mem_filter h)
        · obtain ⟨h1, h2⟩ := hNew e h
          rw [h1]; exact h2
      · rw [List.pairwise_append]
        refine ⟨hs2.sublist (List.filter_sublist _), ?_, ?_⟩
        · unfold mergedEdges
          rw [List.pairwise_map]
          have hnd : (List.filter (touched ids net.edgeInfo net.m) (List.range net.n)).Nodup :=
            (List.nodup_range net.n).filter _
          refine List.Pairwise.imp_of_mem ?_ hnd
          intro a b ha hb hab
          have hb2 := (List.mem_filter.1 hb).2
          rw [← hic] at hb2
          have hbr : b ≠ repr := fun e => hrepr (by rw [← e]; simpa using hb2)
          rintro (h | h)
          · exact hab (by simpa using (congrArg Prod.fst h).symm)
          · exact hbr (by simpa using congrArg Prod.fst h)
        · intro e he f hf
          obtain ⟨h1, h2⟩ := hKout e he
          obtain ⟨h3, _⟩ := hNew f hf
          have hrc : ids.count repr = true := hrmem
          rintro (h | h)
          · rw [← h, h3, hrc] at h2; cases h2
          · have := congrArg Prod.snd h
            simp only at this
            rw [← this, h3, hrc] at h1; cases h1
  obtain ⟨N', hN'⟩ := hN
  refine ⟨⟨net.n, st2.currPtr, E', contractOpenLegs repr ids net.openLegSize⟩, repr, hmin,
    hrmem, hrleast, ?_, rfl, ?_, ?_, ?_, hl2', hl3, ?_⟩
  · unfold updateSubgraph
    rw [hmin]
    simp only [hst1, hc2]
    unfold initGraphStructure
    simp only [if_true, length_resize, hN', hE1, Option.map_some']
  · show E'.length = st2.currPtr + net.n
    rw [hE2, length_resize]
  · show E'.take st2.currPtr = _
    rw [← hRtake]
    apply take_eq_of_getD ⟨0, (0, 0)⟩ _ _ _ hE2
    intro j hj
    rw [hE3, if_neg]
    rintro ⟨_, i, _, e⟩
    omega
  · show (contractOpenLegs repr ids net.openLegSize).length = net.n
    rw [hl1, holen]
  · intro v hv
    show (E'.getD (st2.currPtr + v) ⟨0, (0, 0)⟩).cost = _
    rw [hE3, if_pos ⟨by rw [length_resize]; omega, v, List.mem_range.2 hv, rfl⟩]
    simp
/-- The edge joins `v` and a member of `ids`. -/
def EdgeInfo.joins (ids : BitSet) (v : Nat) (e : EdgeInfo) : Bool :=
  (ids.count e.edge.1 && decide (e.edge.2 = v)) || (ids.count e.edge.2 && decide (e.edge.1 = v))

/-- The edge joins the vertices `v` and `r`. -/
def EdgeInfo.between (v r : Nat) (e : EdgeInfo) : Bool :=
  decide (e.edge = (v, r)) || decide (e.edge = (r, v))

theorem filter_map_single {α β : Type} [DecidableEq α] (g : α → β) (P : β → Bool) (v : α) :
    ∀ l : List α, l.Nodup → (∀ w, w ∈ l → (P (g w) = true ↔ w = v)) →
    (l.map g).filter P = if v ∈ l then [g v] else [] := by
  intro l
  induction l with
  | nil => intro _ _; simp
  | cons a l ih =>
    intro hnd hP
    rw [List.nodup_cons] at hnd
    have hrec := ih hnd.2 (fun w hw => hP w (by simp [hw]))
    rw [List.map_cons, List.filter_cons]
    by_cases hav : a = v
    · subst hav
      rw [if_pos ((hP a (by simp)).2 rfl), hrec, if_neg hnd.1, if_pos (by simp)]
    · have : ¬ P (g a) = true := fun h => hav ((hP a (by simp)).1 h)
      rw [if_neg this, hrec]
      by_cases hvl : v ∈ l
      · rw [if_pos hvl, if_pos (by simp [hvl])]
      · rw [if_neg hvl, if_neg]
        simp only [List.mem_cons, not_or]
        exact ⟨fun e => hav e.symm, hvl⟩

/-- C29: after `updateSubgraph(S)` with representative `r = min(S)` no edge has an endpoint
in `S` other than `r`; the edges with neither endpoint in `S` are those of the original
network, in their original order and with their dimensions; and a vertex `v` outside `S` has
exactly one edge `(v, r)`, whose dimension is the product of the dimensions of all original
edges between `v` and `S`, when there is such an edge, and no edge `(v, r)` otherwise. -/
theorem updateSubgraph_edges (wide : Bool) (net : TensorNetwork) (ids : BitSet)
    (hlen : net.edgeInfo.length = net.m + net.n) (holen : net.openLegSize.length = net.n)
    (hpos : ∀ e, e ∈ net.edgeInfo.take net.m → 0 < e.cost)
    (hids : ids ≠ 0) (hsub : ids < 2 ^ net.n)
    (hsimple : wide = true → SimpleEdges (net.edgeInfo.take net.m))
    (hopen : ∀ v, v < net.n → epsilon < net.openLegSize.getD v 0)
    (hprod : epsilon < ((BitSet.toList ids).map (fun u => net.openLegSize.getD u 0)).prod) :
    ∃ net' r, BitSet.min ids = some r ∧ updateSubgraph wide net ids = some net' ∧
      (∀ e, e ∈ net'.edgeInfo.take net'.m →
        (ids.count e.edge.1 = true → e.edge.1 = r) ∧
        (ids.count e.edge.2 = true → e.edge.2 = r)) ∧
      (net'.edgeInfo.take net'.m).filter (EdgeInfo.outside ids) =
        (net.edgeInfo.take net.m).filter (EdgeInfo.outside ids) ∧
      ∀ v, v < net.n → ids.count v = false →
        (net'.edgeInfo.take net'.m).filter (EdgeInfo.between v r) =
          if (net.edgeInfo.take net.m).filter (EdgeInfo.joins ids v) = [] then []
          else [⟨dimProduct ((net.edgeInfo.take net.m).filter (EdgeInfo.joins ids v)), (v, r)⟩] := by
  obtain ⟨net', r, hmin, hrmem, _, hupd, _, _, htake, _⟩ :=
    updateSubgraph_spec wide net ids hlen holen hpos hids
      (fun v hv => BitSetN.lowest_lt hsub hv) hsimple hopen hprod
  have hrc : ids.count r = true := hrmem
  have hKout : ∀ e, e ∈ (net.edgeInfo.take net.m).filter (EdgeInfo.outside ids) →
      ids.count e.edge.1 = false ∧ ids.count e.edge.2 = false := by
    intro e he
    have := (List.mem_filter.1 he).2
    unfold EdgeInfo.outside at this
    simpa using this
  have hNew : ∀ f, f ∈ mergedEdges ids net.edgeInfo net.m net.n r →
      f.edge.2 = r ∧ ids.count f.edge.1 = false := by
    intro f hf
    unfold mergedEdges at hf
    rw [List.mem_map] at hf
    obtain ⟨v, hv, rfl⟩ := hf
    refine ⟨rfl, ?_⟩
    have hv2 := (List.mem_filter.1 hv).2
    unfold touched at hv2
    cases hl : (net.edgeInfo.take net.m).filter (EdgeInfo.touches ids v) with
    | nil => rw [hl] at hv2; simp at hv2
    | cons a l =>
      have ha : a ∈ (net.edgeInfo.take net.m).filter (EdgeInfo.touches ids v) := by
        rw [hl]; simp
      exact touches_member (List.mem_filter.1 ha).2
  refine ⟨net', r, hmin, hupd, ?_, ?_, ?_⟩
  · intro e he
    rw [htake] at he
    rcases List.mem_append.1 he with h | h
    · obtain ⟨h1, h2⟩ := hKout e h
      exact ⟨fun c => (by rw [h1] at c; cases c), fun c => (by rw [h2] at c; cases c)⟩
    · obtain ⟨h1, h2⟩ := hNew e h
      exact ⟨fun c => (by rw [h2] at c; cases c), fun _ => h1⟩
  · rw [htake, List.filter_append, List.filter_filter]
    have h1 : (mergedEdges ids net.edgeInfo net.m net.n r).filter (EdgeInfo.outside ids) = [] := by
      rw [List.filter_eq_nil_iff]
      intro f hf
      obtain ⟨h1, _⟩ := hNew f hf
      unfold EdgeInfo.outside
      rw [h1, hrc]
      simp
    rw [h1, List.append_nil]
    apply List.filter_congr
    intro e _
    simp
  · intro v hv hvc
    rw [htake, List.filter_append]
    have h1 : ((net.edgeInfo.take net.m).filter (EdgeInfo.outside ids)).filter
        (EdgeInfo.between v r) = [] := by
      rw [List.filter_eq_nil_iff]
      intro e he
      obtain ⟨h1, h2⟩ := hKout e he
      unfold EdgeInfo.between
      simp only [Bool.or_eq_true, decide_eq_true_eq, not_or]
      constructor
      · intro h
        rw [h] at h2
        rw [hrc] at h2
        cases h2
      · intro h
        rw [h] at h1
        rw [hrc] at h1
        cases h1
    have hcongr : (net.edgeInfo.take net.m).filter (EdgeInfo.touches ids v) =
        (net.edgeInfo.take net.m).filter (EdgeInfo.joins ids v) := by
      apply List.filter_congr
      intro e _
      unfold EdgeInfo.touches EdgeInfo.joins
      by_cases h2 : e.edge.2 = v
      · by_cases h3 : e.edge.1 = v
        · simp [h2, h3, hvc]
        · rw [h2]; simp [h3, hvc]
      · by_cases h3 : e.edge.1 = v
        · rw [h3]; simp [h2, hvc]
        · simp [h2, h3]
    rw [h1, List.nil_append]
    unfold mergedEdges
    rw [filter_map_single _ _ v _ ((List.nodup_range net.n).filter _)]
    · rw [← hcongr]
      by_cases ht : (net.edgeInfo.take net.m).filter (EdgeInfo.touches ids v) = []
      · rw [if_pos ht, if_neg]
        rw [List.mem_filter]
        unfold touched
        rw [ht]
        simp
      · rw [if_neg ht, if_pos]
        rw [List.mem_filter, List.mem_range]
        refine ⟨hv, ?_⟩
        unfold touched
        cases hl : (net.edgeInfo.take net.m).filter (EdgeInfo.touches ids v) with
        | nil => exact absurd hl ht
        | cons a l => rfl
    · intro w hw
      unfold EdgeInfo.between
      simp only [Bool.or_eq_true, decide_eq_true_eq, Prod.mk.injEq]
      constructor
      · rintro (⟨h, _⟩ | ⟨_, h⟩)
        · exact h
        · rw [← h] at hvc
          rw [hrc] at hvc
          cases hvc
      · intro h
        exact Or.inl ⟨h, trivial⟩

/-- C30: after `updateSubgraph(S)` with representative `r = min(S)` the open-leg dimension of
`r` is the product of the original open-leg dimensions over `S`, every other open-leg
dimension and the number of vertices are unchanged, and `edgeInfo[m' + v].cost` is
`openLegSize[v]` for every vertex `v`, `m'` being the new number of edges. -/
theorem updateSubgraph_openLegs (wide : Bool) (net : TensorNetwork) (ids : BitSet)
    (hlen : net.edgeInfo.length = net.m + net.n) (holen : net.openLegSize.length = net.n)
    (hpos : ∀ e, e ∈ net.edgeInfo.take net.m → 0 < e.cost)
    (hids : ids ≠ 0) (hsub : ids < 2 ^ net.n)
    (hsimple : wide = true → SimpleEdges (net.edgeInfo.take net.m))
    (hopen : ∀ v, v < net.n → epsilon < net.openLegSize.getD v 0)
    (hprod : epsilon < ((BitSet.toList ids).map (fun u => net.openLegSize.getD u 0)).prod) :
    ∃ net' r, BitSet.min ids = some r ∧ updateSubgraph wide net ids = some net' ∧
      net'.n = net.n ∧ net'.openLegSize.length = net.n ∧
      net'.openLegSize.getD r 0 =
        ((BitSet.toList ids).map (fun u => net.openLegSize.getD u 0)).prod ∧
      (∀ v, v ≠ r → net'.openLegSize.getD v 0 = net.openLegSize.getD v 0) ∧
      net'.edgeInfo.length = net'.m + net'.n ∧
      ∀ v, v < net.n →
        (net'.edgeInfo.getD (net'.m + v) ⟨0, (0, 0)⟩).cost = net'.openLegSize.getD v 0 := by
  obtain ⟨net', r, hmin, _, _, hupd, hn, hl, _, hol, hr, hother, hcost⟩ :=
    updateSubgraph_spec wide net ids hlen holen hpos hids
      (fun v hv => BitSetN.lowest_lt hsub hv) hsimple hopen hprod
  exact ⟨net', r, hmin, hupd, hn, hol, hr, hother, by rw [hl, hn], hcost⟩
theorem greedyNet_edges_pos : ∀ e, e ∈ greedyNet.edgeInfo.take greedyNet.m → 0 < e.cost := by
  decide!

theorem greedyNet_simple : SimpleEdges (greedyNet.edgeInfo.take greedyNet.m) := by
  unfold SimpleEdges
  decide!

theorem greedyNet_open : ∀ v, v < greedyNet.n → epsilon < greedyNet.openLegSize.getD v 0 := by
  decide!

theorem greedyNet_prod :
    epsilon < ((BitSet.toList 3).map (fun u => greedyNet.openLegSize.getD u 0)).prod := by
  decide!

/-- The statement of `updateSubgraph_edges` on `greedyNet` with `S = {0, 1}`: the edge `(0, 1)`
disappears and the edges `(0, 2)` and `(1, 3)` become `(2, 0)` and `(3, 0)`. -/
theorem updateSubgraph_edges_witness :
    ∃ net' r, BitSet.min 3 = some r ∧ updateSubgraph true greedyNet 3 = some net' ∧
      (∀ e, e ∈ net'.edgeInfo.take net'.m →
        (BitSet.count 3 e.edge.1 = true → e.edge.1 = r) ∧
        (BitSet.count 3 e.edge.2 = true → e.edge.2 = r)) ∧
      (net'.edgeInfo.take net'.m).filter (EdgeInfo.outside 3) =
        (greedyNet.edgeInfo.take greedyNet.m).filter (EdgeInfo.outside 3) ∧
      ∀ v, v < greedyNet.n → BitSet.count 3 v = false →
        (net'.edgeInfo.take net'.m).filter (EdgeInfo.between v r) =
          if (greedyNet.edgeInfo.take greedyNet.m).filter (EdgeInfo.joins 3 v) = [] then []
          else [⟨dimProduct ((greedyNet.edgeInfo.take greedyNet.m).filter (EdgeInfo.joins 3 v)),
            (v, r)⟩] :=
  updateSubgraph_edges true greedyNet 3 (by decide) (by decide) greedyNet_edges_pos (by decide)
    (by decide) (fun _ => greedyNet_simple) greedyNet_open greedyNet_prod

/-- The statement of `updateSubgraph_openLegs` on `greedyNet` with `S = {0, 1}`. -/
theorem updateSubgraph_openLegs_witness :
    ∃ net' r, BitSet.min 3 = some r ∧ updateSubgraph true greedyNet 3 = some net' ∧
      net'.n = greedyNet.n ∧ net'.openLegSize.length = greedyNet.n ∧
      net'.openLegSize.getD r 0 =
        ((BitSet.toList 3).map (fun u => greedyNet.openLegSize.getD u 0)).prod ∧
      (∀ v, v ≠ r → net'.openLegSize.getD v 0 = greedyNet.openLegSize.getD v 0) ∧
      net'.edgeInfo.length = net'.m + net'.n ∧
      ∀ v, v < greedyNet.n →
        (net'.edgeInfo.getD (net'.m + v) ⟨0, (0, 0)⟩).cost = net'.openLegSize.getD v 0 :=
  updateSubgraph_openLegs true greedyNet 3 (by decide) (by decide) greedyNet_edges_pos
    (by decide) (by decide) (fun _ => greedyNet_simple) greedyNet_open greedyNet_prod

/-! ## Slicing -/

/-- The fields of the network `slice` that `TensorNetwork::slice` fills in its loops. -/
structure SliceState where
  N : Nat → BitSet
  edgeInfo : List EdgeInfo
  openLegSize : List ℚ

/-- The loop of `slice` that numbers the members of `ids` and copies their open legs:
`mapping[elem] = index; slice.openLegSize[index] = openLegSize[elem]; ++index`. -/
def sliceInit (net : TensorNetwork) :
    List Nat → Nat → (Nat → Nat) × List ℚ → (Nat → Nat) × List ℚ
  | [], _, st => st
  | elem :: rest, index, st =>
    sliceInit net rest (index + 1)
      (Function.update st.1 elem index, st.2.set index (net.openLegSize.getD elem 0))

/-- The body of the inner loop of `slice`, for the cell `c` of `adj[u]`; `none` stands for a
failed assertion. -/
def sliceCell (wide : Bool) (net : TensorNetwork) (ids : BitSet) (mapping : Nat → Nat)
    (u : Nat) (st : SliceState) (c : Cell) : Option SliceState :=
  let v := c.v
  let edgeCost := net.legDim c.edgeId
  if ids.count v then
    let v1 := mapping u
    let v2 := mapping v
    if v1 = v2 then none
    else if (st.N v1).count v2 then
      if (st.N v2).count v1 then some st else none
    else
      match insertNeighbor wide st.N v1 v2 with
      | none => none
      | some N1 =>
        match insertNeighbor wide N1 v2 v1 with
        | none => none
        | some N2 => some ⟨N2, st.edgeInfo ++ [⟨edgeCost, (v1, v2)⟩], st.openLegSize⟩
  else
    some { st with
      openLegSize :=
        st.openLegSize.set (mapping u) (st.openLegSize.getD (mapping u) 0 * edgeCost) }

/-- The inner loop `for (pos = adj[u]; pos; pos = list[pos].next)` of `slice`. -/
def sliceCells (wide : Bool) (net : TensorNetwork) (ids : BitSet) (mapping : Nat → Nat)
    (u : Nat) : List Cell → SliceState → Option SliceState
  | [], st => some st
  | c :: rest, st =>
    match sliceCell wide net ids mapping u st c with
    | none => none
    | some st1 => sliceCells wide net ids mapping u rest st1

/-- The outer loop `for (auto u : ids)` of `slice`. -/
def sliceVertices (wide : Bool) (net : TensorNetwork) (ids : BitSet) (mapping : Nat → Nat) :
    List Nat → SliceState → Option SliceState
  | [], st => some st
  | u :: rest, st =>
    match sliceCells wide net ids mapping u (net.adj u) st with
    | none => none
    | some st1 => sliceVertices wide net ids mapping rest st1

/-- The function `slice(slice, ids)` for a freshly constructed `slice`: the network it
builds, with its neighbour sets. -/
def slice (wide : Bool) (net : TensorNetwork) (ids : BitSet) :
    Option (TensorNetwork × (Nat → BitSet)) :=
  let n := BitSet.size ids
  let init := sliceInit net (BitSet.toList ids) 0 (fun _ => NIL, List.replicate n 1)
  match sliceVertices wide net ids init.1 (BitSet.toList ids) ⟨fun _ => 0, [], init.2⟩ with
  | none => none
  | some st =>
    let m := st.edgeInfo.length
    initGraphStructure wide ⟨n, m, resize st.edgeInfo (m + n) ⟨0, (0, 0)⟩, st.openLegSize⟩
      st.N false

/-- A network over `BitSet64` with two parallel edges between its two vertices. -/
def parallelNet : TensorNetwork :=
  ⟨2, 2, [⟨2, (0, 1)⟩, ⟨3, (0, 1)⟩, ⟨1, (0, 0)⟩, ⟨1, (0, 0)⟩], [1, 1]⟩
theorem mem_getD_of_lt {α : Type} (l : List α) (d : α) (j : Nat) (h : j < l.length) :
    l.getD j d ∈ l := by
  rw [List.getD_eq_getElem _ _ h]
  exact List.getElem_mem h

theorem exists_getD_of_mem {α : Type} {l : List α} (d : α) {a : α} (h : a ∈ l) :
    ∃ j, j < l.length ∧ l.getD j d = a := by
  obtain ⟨j, hj, e⟩ := List.mem_iff_getElem.1 h
  exact ⟨j, hj, by rw [List.getD_eq_getElem _ _ hj]; exact e⟩

theorem getD_inj_of_nodup {l : List Nat} (hnd : l.Nodup) {i j : Nat} (hi : i < l.length)
    (hj : j < l.length) (h : l.getD i 0 = l.getD j 0) : i = j := by
  rw [List.getD_eq_getElem _ _ hi, List.getD_eq_getElem _ _ hj] at h
  exact (List.Nodup.getElem_inj_iff hnd).1 h

/-- The first loop of `slice`: member number `j` of `ids` is mapped to `index + j`, and its
open leg is copied to that position. -/
theorem sliceInit_spec (net : TensorNetwork) : ∀ (L : List Nat) (index : Nat)
    (st : (Nat → Nat) × List ℚ), L.Nodup → index + L.length ≤ st.2.length →
    (sliceInit net L index st).2.length = st.2.length ∧
    (∀ j, j < L.length → (sliceInit net L index st).1 (L.getD j 0) = index + j) ∧
    (∀ j, j < L.length →
      (sliceInit net L index st).2.getD (index + j) 0 = net.openLegSize.getD (L.getD j 0) 0) ∧
    (∀ j, j < index → (sliceInit net L index st).2.getD j 0 = st.2.getD j 0) ∧
    (∀ v, v ∉ L → (sliceInit net L index st).1 v = st.1 v) := by
  intro L
  induction L with
  | nil =>
    intro index st _ _
    exact ⟨rfl, by intro j hj; simp at hj, by intro j hj; simp at hj, fun _ _ => rfl,
      fun _ _ => rfl⟩
  | cons elem rest ih =>
    intro index st hnd hlen
    rw [List.nodup_cons] at hnd
    rw [List.length_cons] at hlen
    obtain ⟨h1, h2, h3, h4, h5⟩ := ih (index + 1)
      (Function.update st.1 elem index, st.2.set index (net.openLegSize.getD elem 0)) hnd.2
      (by simp only [List.length_set]; omega)
    simp only [List.length_set] at h1
    simp only [sliceInit]
    refine ⟨h1, ?_, ?_, ?_, ?_⟩
    · intro j hj
      cases j with
      | zero =>
        show _ = index + 0
        rw [List.getD_cons_zero, h5 elem hnd.1]
        simp
      | succ j =>
        rw [List.getD_cons_succ, h2 j (by simpa using hj)]
        omega
    · intro j hj
      cases j with
      | zero =>
        show (sliceInit net rest (index + 1) _).2.getD index 0 = _
        rw [List.getD_cons_zero, h4 index (by omega)]
        simp only
        rw [List.getD_eq_getElem?_getD, List.getElem?_set_self (by omega)]
        rfl
      | succ j =>
        rw [List.getD_cons_succ, ← h3 j (by simpa using hj)]
        congr 1
        omega
    · intro j hj
      rw [h4 j (by omega)]
      simp only
      rw [List.getD_eq_getElem?_getD, List.getElem?_set_ne (by omega),
        ← List.getD_eq_getElem?_getD]
    · intro v hv
      simp only [List.mem_cons, not_or] at hv
      rw [h5 v hv.2]
      simp only
      rw [Function.update_noteq hv.1]

/-- The edge leaves `ids` at the member `u`: one endpoint is `u`, the other is outside. -/
def EdgeInfo.leaves (ids : BitSet) (u : Nat) (e : EdgeInfo) : Bool :=
  (decide (e.edge.1 = u) && !ids.count e.edge.2) || (decide (e.edge.2 = u) && !ids.count e.edge.1)

theorem legDim_eq_getD (net : TensorNetwork) (k : Nat) (d : EdgeInfo)
    (hk : k < net.edgeInfo.length) :
    net.legDim k = (net.edgeInfo.getD k d).cost ∧ net.endpoints k = (net.edgeInfo.getD k d).edge := by
  unfold TensorNetwork.legDim TensorNetwork.endpoints
  rw [List.getD_eq_getElem _ _ hk, List.getD_eq_getElem _ _ hk]
  exact ⟨rfl, rfl⟩

/-- The cells of `adj[u]` that lead out of `ids` carry the dimensions of the edges that
leave `ids` at `u`, parallel edges included. -/
theorem adj_boundary_prod (net : TensorNetwork) (ids : BitSet) (u : Nat)
    (hu : ids.count u = true) (hm : net.m ≤ net.edgeInfo.length) :
    ∀ k, k ≤ net.m →
    (((((List.range k).foldl
      (fun a index =>
        TensorNetwork.addEdge
          (TensorNetwork.addEdge a (net.endpoints index).1 (net.endpoints index).2 index)
          (net.endpoints index).2 (net.endpoints index).1 index)
      (fun _ => [])) u).filter (fun c => !ids.count c.v)).map
        (fun c => net.legDim c.edgeId)).prod =
      dimProduct ((net.edgeInfo.take k).filter (EdgeInfo.leaves ids u)) := by
  intro k
  induction k with
  | zero => intro _; simp [dimProduct]
  | succ k ih =>
    intro hk
    have hrec := ih (by omega)
    have hkE : k < net.edgeInfo.length := by omega
    obtain ⟨hdim, hep⟩ := legDim_eq_getD net k ⟨0, (0, 0)⟩ hkE
    rw [List.range_succ, List.foldl_append, take_succ_getD _ _ ⟨0, (0, 0)⟩ hkE,
      List.filter_append, dimProduct_append, ← hrec]
    simp only [List.foldl_cons, List.foldl_nil, TensorNetwork.addEdge]
    generalize (List.foldl
          (fun a index =>
            TensorNetwork.addEdge (TensorNetwork.addEdge a (net.endpoints index).1
              (net.endpoints index).2 index)
              (net.endpoints index).2 (net.endpoints index).1 index)
          (fun _ => []) (List.range k)) = old
    generalize hE : net.edgeInfo.getD k ⟨0, (0, 0)⟩ = e at *
    rw [hep]
    unfold EdgeInfo.leaves
    have hcu : ∀ w, w = u → ids.count w = true := fun w h => h ▸ hu
    by_cases hb : u = e.edge.2
    · by_cases ha : u = e.edge.1
      · have h1 : ids.count e.edge.1 = true := hcu _ ha.symm
        have h2 : ids.count e.edge.2 = true := hcu _ hb.symm
        have hba : e.edge.2 = e.edge.1 := by rw [← hb, ← ha]
        simp [hb.symm, ha.symm, h1, h2, hba, dimProduct, hu]
      · have ha' : ¬ e.edge.1 = u := fun h => ha h.symm
        have hba : ¬ e.edge.2 = e.edge.1 := fun h => ha (by rw [hb, h])
        have h2 : ids.count e.edge.2 = true := hcu _ hb.symm
        cases h1 : ids.count e.edge.1 <;>
          simp [hb.symm, ha, ha', hba, h1, h2, dimProduct, hdim, mul_comm]
    · have hb' : ¬ e.edge.2 = u := fun h => hb h.symm
      by_cases ha : u = e.edge.1
      · have h1 : ids.count e.edge.1 = true := hcu _ ha.symm
        cases h2 : ids.count e.edge.2 <;>
          simp [hb, hb', ha.symm, h1, h2, dimProduct, hdim, mul_comm]
      · have ha' : ¬ e.edge.1 = u := fun h => ha h.symm
        simp [hb, hb', ha, ha', dimProduct]

/-- Without a self-loop at `u` the cells of `adj[u]` carry distinct edge ids. -/
theorem adj_nodup_at (net : TensorNetwork) (u : Nat)
    (hloop : ∀ e, e < net.m → ¬ ((net.endpoints e).1 = u ∧ (net.endpoints e).2 = u)) :
    ∀ k, k ≤ net.m →
    ((((List.range k).foldl
      (fun a index =>
        TensorNetwork.addEdge
          (TensorNetwork.addEdge a (net.endpoints index).1 (net.endpoints index).2 index)
          (net.endpoints index).2 (net.endpoints index).1 index)
      (fun _ => [])) u).map Cell.edgeId).Nodup := by
  intro k
  induction k with
  | zero => intro _; simp
  | succ k ih =>
    intro hk
    have hne := hloop k (by omega)
    have hrec := ih (by omega)
    have hfresh : k ∉ (((List.range k).foldl
        (fun a index =>
          TensorNetwork.addEdge
            (TensorNetwork.addEdge a (net.endpoints index).1 (net.endpoints index).2 index)
            (net.endpoints index).2 (net.endpoints index).1 index)
        (fun _ => [])) u).map Cell.edgeId := by
      intro hin
      rw [List.mem_map] at hin
      obtain ⟨c, hc, hce⟩ := hin
      rw [mem_adj_aux] at hc
      obtain ⟨e, he, hce', _⟩ := hc
      omega
    rw [List.range_succ, List.foldl_append]
    simp only [List.foldl_cons, List.foldl_nil, TensorNetwork.addEdge]
    by_cases hb : u = (net.endpoints k).2
    · have ha : ¬ (net.endpoints k).2 = (net.endpoints k).1 := by
        intro h
        exact hne ⟨by rw [← h, ← hb], hb.symm⟩
      rw [if_pos hb, if_neg ha, List.map_cons, List.nodup_cons]
      rw [← hb]
      exact ⟨hfresh, hrec⟩
    · rw [if_neg hb]
      by_cases ha : u = (net.endpoints k).1
      · rw [if_pos ha, List.map_cons, List.nodup_cons, ← ha]
        exact ⟨hfresh, hrec⟩
      · rw [if_neg ha]
        exact hrec
/-- The pairs `(u, cell)` that the two loops of `slice` visit, in order. -/
def slicePairs (net : TensorNetwork) (L : List Nat) : List (Nat × Cell) :=
  L.flatMap (fun u => (net.adj u).map (fun c => (u, c)))

/-- The two loops of `slice` as one loop over the visited pairs. -/
def sliceLoop (wide : Bool) (net : TensorNetwork) (ids : BitSet) (mapping : Nat → Nat) :
    List (Nat × Cell) → SliceState → Option SliceState
  | [], st => some st
  | p :: rest, st =>
    match sliceCell wide net ids mapping p.1 st p.2 with
    | none => none
    | some st1 => sliceLoop wide net ids mapping rest st1

theorem sliceLoop_append (wide : Bool) (net : TensorNetwork) (ids : BitSet)
    (mapping : Nat → Nat) : ∀ (a b : List (Nat × Cell)) (st : SliceState),
    sliceLoop wide net ids mapping (a ++ b) st =
      (sliceLoop wide net ids mapping a st).bind (sliceLoop wide net ids mapping b) := by
  intro a
  induction a with
  | nil => intro b st; rfl
  | cons p a ih =>
    intro b st
    simp only [List.cons_append, sliceLoop]
    cases sliceCell wide net ids mapping p.1 st p.2 with
    | none => rfl
    | some st1 => exact ih b st1

theorem sliceCells_eq (wide : Bool) (net : TensorNetwork) (ids : BitSet) (mapping : Nat → Nat)
    (u : Nat) : ∀ (cells : List Cell) (st : SliceState),
    sliceCells wide net ids mapping u cells st =
      sliceLoop wide net ids mapping (cells.map (fun c => (u, c))) st := by
  intro cells
  induction cells with
  | nil => intro st; rfl
  | cons c cells ih =>
    intro st
    simp only [sliceCells, List.map_cons, sliceLoop]
    cases sliceCell wide net ids mapping u st c with
    | none => rfl
    | some st1 => exact ih st1

theorem sliceVertices_eq (wide : Bool) (net : TensorNetwork) (ids : BitSet)
    (mapping : Nat → Nat) : ∀ (L : List Nat) (st : SliceState),
    sliceVertices wide net ids mapping L st =
      sliceLoop wide net ids mapping (slicePairs net L) st := by
  intro L
  induction L with
  | nil => intro st; rfl
  | cons u L ih =>
    intro st
    have : slicePairs net (u :: L) = (net.adj u).map (fun c => (u, c)) ++ slicePairs net L := by
      simp [slicePairs]
    rw [this, sliceLoop_append, ← sliceCells_eq]
    simp only [sliceVertices]
    cases sliceCells wide net ids mapping u (net.adj u) st with
    | none => rfl
    | some st1 => exact ih st1

theorem mem_slicePairs {net : TensorNetwork} {L : List Nat} {p : Nat × Cell} :
    p ∈ slicePairs net L ↔ p.1 ∈ L ∧ p.2 ∈ net.adj p.1 := by
  unfold slicePairs
  rw [List.mem_flatMap]
  constructor
  · rintro ⟨u, hu, hp⟩
    rw [List.mem_map] at hp
    obtain ⟨c, hc, rfl⟩ := hp
    exact ⟨hu, hc⟩
  · rintro ⟨h1, h2⟩
    exact ⟨p.1, h1, List.mem_map.2 ⟨p.2, h2, rfl⟩⟩

theorem slicePairs_sorted (net : TensorNetwork) {L : List Nat} (hL : L.Pairwise (· < ·)) :
    (slicePairs net L).Pairwise (fun p q => p.1 ≤ q.1) := by
  unfold slicePairs
  rw [List.pairwise_flatMap]
  constructor
  · intro u _
    rw [List.pairwise_map]
    exact List.pairwise_of_forall (fun _ _ => le_refl _)
  · refine hL.imp ?_
    intro a b hab x hx y hy
    rw [List.mem_map] at hx hy
    obtain ⟨_, _, rfl⟩ := hx
    obtain ⟨_, _, rfl⟩ := hy
    exact le_of_lt hab

theorem slicePairs_nodup (net : TensorNetwork) {L : List Nat} (hL : L.Nodup)
    (hadj : ∀ u, u ∈ L → (net.adj u).Nodup) : (slicePairs net L).Nodup := by
  unfold slicePairs
  rw [List.nodup_flatMap]
  constructor
  · intro u hu
    exact (hadj u hu).map (fun a b h => by simpa using h)
  · refine hL.imp ?_
    intro a b hab
    show List.Disjoint _ _
    intro x hx hy
    rw [List.mem_map] at hx hy
    obtain ⟨_, _, rfl⟩ := hx
    obtain ⟨_, _, e⟩ := hy
    exact hab (by simpa using (congrArg Prod.fst e).symm)

theorem insertNeighbor_absent (wide : Bool) (N : Nat → BitSet) (u v : Nat)
    (h : (N u).testBit v = false) :
    insertNeighbor wide N u v = some (Function.update N u (N u ||| BitSet.single v)) := by
  unfold insertNeighbor BitSet.insert
  cases wide <;> simp [h]
/-- The edge that `slice` appends at the cell `p.2` of `adj[p.1]`, when the neighbour lies in
`ids` and after `p.1`. -/
def sliceKeep (net : TensorNetwork) (ids : BitSet) (mapping : Nat → Nat) (p : Nat × Cell) :
    Option EdgeInfo :=
  if ids.count p.2.v && decide (p.1 < p.2.v) then
    some ⟨net.legDim p.2.edgeId, (mapping p.1, mapping p.2.v)⟩
  else none

/-- No two edges of the network join the same two vertices of `ids`. -/
def NoParallelIn (net : TensorNetwork) (ids : BitSet) : Prop :=
  ∀ e e', e < net.m → e' < net.m → ids.count (net.endpoints e).1 = true →
    ids.count (net.endpoints e).2 = true →
    (net.endpoints e' = net.endpoints e ∨
      net.endpoints e' = ((net.endpoints e).2, (net.endpoints e).1)) → e' = e

/-- The state of the loops of `slice` after the pairs `done`. -/
structure SliceInv (net : TensorNetwork) (ids : BitSet) (mapping : Nat → Nat) (legs0 : List ℚ)
    (done : List (Nat × Cell)) (st : SliceState) : Prop where
  len : st.openLegSize.length = legs0.length
  legs : ∀ k, k < (BitSet.toList ids).length → st.openLegSize.getD k 0 =
    legs0.getD k 0 *
      ((done.filter (fun p => decide (p.1 = (BitSet.toList ids).getD k 0) &&
        !ids.count p.2.v)).map (fun p => net.legDim p.2.edgeId)).prod
  nchar : ∀ a b, (st.N a).testBit b = true ↔
    ∃ e, e ∈ st.edgeInfo ∧ (e.edge = (a, b) ∨ e.edge = (b, a))
  edges : NoParallelIn net ids → st.edgeInfo = done.filterMap (sliceKeep net ids mapping)

theorem cell_ext {a b : Cell} (h1 : a.v = b.v) (h2 : a.edgeId = b.edgeId) : a = b := by
  cases a
  cases b
  simp only at h1 h2
  rw [h1, h2]

theorem getD_set_self {l : List ℚ} {k : Nat} (x : ℚ) (h : k < l.length) :
    (l.set k x).getD k 0 = x := by
  rw [List.getD_eq_getElem?_getD, List.getElem?_set_self h]
  rfl

theorem getD_set_ne {l : List ℚ} {k j : Nat} (x : ℚ) (h : k ≠ j) :
    (l.set k x).getD j 0 = l.getD j 0 := by
  rw [List.getD_eq_getElem?_getD, List.getElem?_set_ne h, ← List.getD_eq_getElem?_getD]

/-- One round of the inner loop of `slice` keeps the invariant and fails no assertion. -/
theorem sliceCell_inv (wide : Bool) (net : TensorNetwork) (ids : BitSet) (mapping : Nat → Nat)
    (legs0 : List ℚ) (hlegs0 : legs0.length = (BitSet.toList ids).length)
    (hmap : ∀ j, j < (BitSet.toList ids).length → mapping ((BitSet.toList ids).getD j 0) = j)
    (hloop : ∀ e, e < net.m → ids.count (net.endpoints e).1 = true →
      (net.endpoints e).1 ≠ (net.endpoints e).2)
    (done rest : List (Nat × Cell)) (p : Nat × Cell)
    (hpre : slicePairs net (BitSet.toList ids) = done ++ p :: rest)
    (st : SliceState) (inv : SliceInv net ids mapping legs0 done st) :
    ∃ st', sliceCell wide net ids mapping p.1 st p.2 = some st' ∧
      SliceInv net ids mapping legs0 (done ++ [p]) st' := by
  have hLnd := BitSet.toList_nodup ids
  have hLsorted := BitSet.toList_sorted ids
  have hidx : ∀ w, ids.count w = true →
      ∃ k, k < (BitSet.toList ids).length ∧ (BitSet.toList ids).getD k 0 = w ∧ mapping w = k := by
    intro w hw
    obtain ⟨k, hk, e⟩ := exists_getD_of_mem 0 (BitSet.mem_toList.2 hw)
    exact ⟨k, hk, e, by rw [← e]; exact hmap k hk⟩
  have hinj : ∀ a b, ids.count a = true → ids.count b = true → mapping a = mapping b →
      a = b := by
    intro a b ha hb hab
    obtain ⟨i, _, e1, m1⟩ := hidx a ha
    obtain ⟨j, _, e2, m2⟩ := hidx b hb
    rw [← e1, ← e2]
    congr 1
    omega
  have hmemP : ∀ q, q ∈ slicePairs net (BitSet.toList ids) →
      ids.count q.1 = true ∧ q.2 ∈ net.adj q.1 := by
    intro q hq
    obtain ⟨h1, h2⟩ := mem_slicePairs.1 hq
    exact ⟨BitSet.mem_toList.1 h1, h2⟩
  have hp := hmemP p (by rw [hpre]; simp)
  obtain ⟨hpu, hpc⟩ := hp
  obtain ⟨k0, hk0, hLk0, hmk0⟩ := hidx p.1 hpu
  -- a neighbour inside `ids` differs from the vertex itself
  have hneq : ∀ q : Nat × Cell, ids.count q.1 = true → q.2 ∈ net.adj q.1 →
      ids.count q.2.v = true → q.2.v ≠ q.1 := by
    intro q hq1 hq2 _ heq
    rw [mem_adj] at hq2
    obtain ⟨e, he, _, hcase⟩ := hq2
    rcases hcase with ⟨h1, h2⟩ | ⟨h1, h2⟩
    · exact hloop e he (by rw [h1]; exact hq1) (by rw [h1, ← h2, heq])
    · exact hloop e he (by rw [← h2, heq]; exact hq1) (by rw [h1, ← h2, heq])
  have hfilter : done.filterMap (sliceKeep net ids mapping) ++
      (sliceKeep net ids mapping p).toList =
      (done ++ [p]).filterMap (sliceKeep net ids mapping) := by
    have h1 : [p].filterMap (sliceKeep net ids mapping) =
        (sliceKeep net ids mapping p).toList := by
      cases h : sliceKeep net ids mapping p <;> simp [List.filterMap_cons, h]
    rw [List.filterMap_append, h1]
  have hlegsStep : ∀ k, k < (BitSet.toList ids).length →
      ((List.filter (fun q => decide (q.1 = (BitSet.toList ids).getD k 0) &&
        !ids.count q.2.v) (done ++ [p])).map (fun q => net.legDim q.2.edgeId)).prod =
      ((List.filter (fun q => decide (q.1 = (BitSet.toList ids).getD k 0) &&
        !ids.count q.2.v) done).map (fun q => net.legDim q.2.edgeId)).prod *
        (if k = k0 ∧ ids.count p.2.v = false then net.legDim p.2.edgeId else 1) := by
    intro k hk
    rw [List.filter_append, List.map_append, List.prod_append]
    congr 1
    have hcond : (decide (p.1 = (BitSet.toList ids).getD k 0) && !ids.count p.2.v) = true ↔
        k = k0 ∧ ids.count p.2.v = false := by
      rw [Bool.and_eq_true, decide_eq_true_eq, Bool.not_eq_true']
      constructor
      · rintro ⟨e, hc⟩
        rw [← hLk0] at e
        exact ⟨(getD_inj_of_nodup hLnd hk0 hk e).symm, hc⟩
      · rintro ⟨e, hc⟩
        exact ⟨by rw [e, hLk0], hc⟩
    rw [List.filter_cons, List.filter_nil]
    by_cases h : k = k0 ∧ ids.count p.2.v = false
    · rw [if_pos (hcond.2 h), if_pos h]
      simp
    · rw [if_neg (fun c => h (hcond.1 c)), if_neg h]
      simp
  unfold sliceCell
  simp only
  cases hcv : ids.count p.2.v with
  | false =>
    simp only [Bool.false_eq_true, if_false]
    refine ⟨_, rfl, ?_, ?_, inv.nchar, ?_⟩
    · show (st.openLegSize.set _ _).length = _
      rw [List.length_set]; exact inv.len
    · intro k hk
      show (st.openLegSize.set _ _).getD k 0 = _
      rw [hlegsStep k hk, hmk0]
      by_cases hkk : k = k0
      · subst hkk
        rw [getD_set_self _ (by rw [inv.len, hlegs0]; exact hk), inv.legs k hk,
          if_pos ⟨rfl, hcv⟩, mul_assoc]
      · rw [getD_set_ne _ (fun e => hkk e.symm), inv.legs k hk, if_neg (fun h => hkk h.1),
          mul_one]
    · intro hnp
      show st.edgeInfo = _
      rw [← hfilter, inv.edges hnp]
      have : sliceKeep net ids mapping p = none := by
        unfold sliceKeep; simp [hcv]
      rw [this]; simp
  | true =>
    obtain ⟨k1, hk1, hLk1, hmk1⟩ := hidx p.2.v hcv
    have hvu : p.2.v ≠ p.1 := hneq p hpu hpc hcv
    have hk01 : k0 ≠ k1 := by
      intro e
      apply hvu
      rw [← hLk0, ← hLk1, e]
    have hsym : ∀ a b, (st.N a).testBit b = true → (st.N b).testBit a = true := by
      intro a b h
      obtain ⟨e, he, hor⟩ := (inv.nchar a b).1 h
      exact (inv.nchar b a).2 ⟨e, he, hor.symm⟩
    have hlegsSame : ∀ k, k < (BitSet.toList ids).length → st.openLegSize.getD k 0 =
        legs0.getD k 0 *
          ((List.filter (fun q => decide (q.1 = (BitSet.toList ids).getD k 0) &&
            !ids.count q.2.v) (done ++ [p])).map (fun q => net.legDim q.2.edgeId)).prod := by
      intro k hk
      rw [hlegsStep k hk, if_neg (fun h => by rw [hcv] at h; cases h.2), mul_one]
      exact inv.legs k hk
    -- the pairs already visited that produced an edge
    have hvisited : ∀ q, q ∈ done → ids.count q.2.v = true → q.1 < q.2.v →
        (st.N (mapping q.1)).testBit (mapping q.2.v) = true ∨ ¬ NoParallelIn net ids := by
      intro q hq hqc hlt
      by_cases hnp : NoParallelIn net ids
      · left
        rw [inv.nchar]
        refine ⟨⟨net.legDim q.2.edgeId, (mapping q.1, mapping q.2.v)⟩, ?_, Or.inl rfl⟩
        rw [inv.edges hnp, List.mem_filterMap]
        refine ⟨q, hq, ?_⟩
        unfold sliceKeep
        simp [hqc, hlt]
      · exact Or.inr hnp
    have hpnd : (slicePairs net (BitSet.toList ids)).Nodup := by
      apply slicePairs_nodup net hLnd
      intro u hu
      apply List.Nodup.of_map Cell.edgeId
      apply adj_nodup_at net u _ net.m (le_refl _)
      intro e he ⟨h1, h2⟩
      exact hloop e he (by rw [h1]; exact BitSet.mem_toList.1 hu) (by rw [h1, h2])
    have hpsorted := slicePairs_sorted net hLsorted
    rw [hpre] at hpnd hpsorted
    have hkeep : NoParallelIn net ids →
        ((st.N k0).testBit k1 = true ↔ p.2.v < p.1) := by
      intro hnp
      constructor
      · intro hN
        by_contra hnlt
        have hlt : p.1 < p.2.v := by omega
        obtain ⟨e, he, hor⟩ := (inv.nchar k0 k1).1 hN
        rw [inv.edges hnp, List.mem_filterMap] at he
        obtain ⟨q, hq, hqk⟩ := he
        unfold sliceKeep at hqk
        by_cases hcond : (ids.count q.2.v && decide (q.1 < q.2.v)) = true
        · rw [if_pos hcond] at hqk
          simp only [Bool.and_eq_true, decide_eq_true_eq] at hcond
          have hqe : e.edge = (mapping q.1, mapping q.2.v) := by
            have := Option.some.inj hqk
            rw [← this]
          have hqP := hmemP q (by rw [hpre]; simp [hq])
          have hq1 : q.1 = p.1 ∧ q.2.v = p.2.v := by
            rcases hor with h | h
            · rw [hqe] at h
              have h1 := congrArg Prod.fst h
              have h2 := congrArg Prod.snd h
              simp only at h1 h2
              exact ⟨hinj _ _ hqP.1 hpu (by rw [h1, hmk0]),
                hinj _ _ hcond.1 hcv (by rw [h2, hmk1])⟩
            · rw [hqe] at h
              have h1 := congrArg Prod.fst h
              have h2 := congrArg Prod.snd h
              simp only at h1 h2
              have e1 := hinj _ _ hqP.1 hcv (by rw [h1, hmk1])
              have e2 := hinj _ _ hcond.1 hpu (by rw [h2, hmk0])
              omega
          -- two different cells of `adj[p.1]` lead to the same neighbour
          have hqne : q ≠ p := by
            intro e
            rw [List.nodup_append] at hpnd
            subst e
            exact hpnd.2.2 hq (by simp)
          have hq2 := hqP.2
          rw [hq1.1] at hq2
          rw [mem_adj] at hq2
          obtain ⟨e1, he1, hid1, hc1⟩ := hq2
          have hpc' := hpc
          rw [mem_adj] at hpc'
          obtain ⟨e2, he2, hid2, hc2⟩ := hpc'
          have hsame : e1 = e2 := by
            apply hnp e2 e1 he2 he1
            · rcases hc2 with ⟨h1, h2⟩ | ⟨h1, h2⟩
              · rw [h1]; exact hpu
              · rw [← h2]; exact hcv
            · rcases hc2 with ⟨h1, h2⟩ | ⟨h1, h2⟩
              · rw [← h2]; exact hcv
              · rw [h1]; exact hpu
            · rcases hc1 with ⟨a1, a2⟩ | ⟨a1, a2⟩ <;> rcases hc2 with ⟨b1, b2⟩ | ⟨b1, b2⟩
              · left; ext
                · rw [a1, b1]
                · rw [← a2, ← b2, hq1.2]
              · right; ext
                · simp only; rw [a1, b1]
                · simp only; rw [← a2, ← b2, hq1.2]
              · right; ext
                · simp only; rw [← a2, ← b2, hq1.2]
                · simp only; rw [a1, b1]
              · left; ext
                · rw [← a2, ← b2, hq1.2]
                · rw [a1, b1]
          apply hqne
          exact Prod.ext hq1.1 (cell_ext hq1.2 (by rw [hid1, hid2, hsame]))
        · rw [if_neg hcond] at hqk
          cases hqk
      · intro hlt
        -- the mirror cell has been visited
        have hmirror : (⟨p.1, p.2.edgeId⟩ : Cell) ∈ net.adj p.2.v := by
          have hpc' := hpc
          rw [mem_adj] at hpc' ⊢
          obtain ⟨e, he, hid, hc⟩ := hpc'
          refine ⟨e, he, hid, ?_⟩
          rcases hc with ⟨h1, h2⟩ | ⟨h1, h2⟩
          · exact Or.inr ⟨h2.symm, h1.symm⟩
          · exact Or.inl ⟨h2.symm, h1.symm⟩
        have hqmem : ((p.2.v, ⟨p.1, p.2.edgeId⟩) : Nat × Cell) ∈
            slicePairs net (BitSet.toList ids) :=
          mem_slicePairs.2 ⟨BitSet.mem_toList.2 hcv, hmirror⟩
        rw [hpre, List.mem_append] at hqmem
        have hqdone : ((p.2.v, ⟨p.1, p.2.edgeId⟩) : Nat × Cell) ∈ done := by
          rcases hqmem with h | h
          · exact h
          · exfalso
            rw [List.pairwise_append] at hpsorted
            rcases List.mem_cons.1 h with h' | h'
            · have := congrArg Prod.fst h'
              simp only at this
              omega
            · have := (List.pairwise_cons.1 hpsorted.2.1).1 _ h'
              simp only at this
              omega
        rcases hvisited _ hqdone hpu hlt with h | h
        · simp only at h
          rw [hmk0, hmk1] at h
          exact hsym _ _ h
        · exact absurd hnp h
    simp only [if_true, hmk0, hmk1, if_neg hk01]
    by_cases hN : (st.N k0).testBit k1 = true
    · have hN' : (st.N k1).testBit k0 = true := hsym _ _ hN
      simp only [BitSet.count, hN, hN', if_true]
      refine ⟨st, rfl, inv.len, hlegsSame, inv.nchar, ?_⟩
      intro hnp
      rw [← hfilter, inv.edges hnp]
      have hlt := (hkeep hnp).1 hN
      have : sliceKeep net ids mapping p = none := by
        unfold sliceKeep
        have : ¬ p.1 < p.2.v := by omega
        simp [this]
      rw [this]; simp
    · have hN0 : (st.N k0).testBit k1 = false := by simpa using hN
      have hN1 : (st.N k1).testBit k0 = false := by
        by_contra h
        exact hN (hsym _ _ (by simpa using h))
      have hins1 := insertNeighbor_absent wide st.N k0 k1 hN0
      have hN1' : (Function.update st.N k0 (st.N k0 ||| BitSet.single k1) k1).testBit k0 =
          false := by
        rw [Function.update_noteq (Ne.symm hk01)]; exact hN1
      have hins2 := insertNeighbor_absent wide
        (Function.update st.N k0 (st.N k0 ||| BitSet.single k1)) k1 k0 hN1'
      simp only [BitSet.count, hN0, Bool.false_eq_true, if_false, hins1, hins2]
      refine ⟨_, rfl, inv.len, hlegsSame, ?_, ?_⟩
      · intro a b
        simp only [List.mem_append, List.mem_singleton]
        rw [Function.update_noteq (Ne.symm hk01)]
        by_cases ha1 : a = k1
        · subst ha1
          rw [Function.update_same, Nat.testBit_or, BitSet.testBit_single, Bool.or_eq_true,
            inv.nchar]
          constructor
          · rintro (⟨e, he, hor⟩ | h)
            · exact ⟨e, Or.inl he, hor⟩
            · have : k0 = b := by simpa using h
              exact ⟨_, Or.inr rfl, Or.inr (by rw [this])⟩
          · rintro ⟨e, he | he, hor⟩
            · exact Or.inl ⟨e, he, hor⟩
            · right
              rw [he] at hor
              rcases hor with h | h
              · have := congrArg Prod.fst h
                simp only at this
                exact absurd this hk01
              · have := congrArg Prod.fst h
                simp only at this
                simp [this]
        · rw [Function.update_noteq ha1]
          by_cases ha0 : a = k0
          · subst ha0
            rw [Function.update_same, Nat.testBit_or, BitSet.testBit_single, Bool.or_eq_true,
              inv.nchar]
            constructor
            · rintro (⟨e, he, hor⟩ | h)
              · exact ⟨e, Or.inl he, hor⟩
              · have : k1 = b := by simpa using h
                exact ⟨_, Or.inr rfl, Or.inl (by rw [this])⟩
            · rintro ⟨e, he | he, hor⟩
              · exact Or.inl ⟨e, he, hor⟩
              · right
                rw [he] at hor
                rcases hor with h | h
                · have := congrArg Prod.snd h
                  simp only at this
                  simp [this]
                · have := congrArg Prod.snd h
                  simp only at this
                  exact absurd this.symm ha1
          · rw [Function.update_noteq ha0, inv.nchar]
            constructor
            · rintro ⟨e, he, hor⟩
              exact ⟨e, Or.inl he, hor⟩
            · rintro ⟨e, he | he, hor⟩
              · exact ⟨e, he, hor⟩
              · exfalso
                rw [he] at hor
                rcases hor with h | h
                · exact ha0 (congrArg Prod.fst h).symm
                · exact ha1 (congrArg Prod.snd h).symm
      · intro hnp
        show st.edgeInfo ++ _ = _
        rw [← hfilter, inv.edges hnp]
        have hlt : p.1 < p.2.v := by
          have := (hkeep hnp).not.1 hN
          omega
        have : sliceKeep net ids mapping p =
            some ⟨net.legDim p.2.edgeId, (mapping p.1, mapping p.2.v)⟩ := by
          unfold sliceKeep
          simp [hcv, hlt]
        rw [this, hmk0, hmk1]
        rfl
theorem sliceLoop_inv (wide : Bool) (net : TensorNetwork) (ids : BitSet) (mapping : Nat → Nat)
    (legs0 : List ℚ) (hlegs0 : legs0.length = (BitSet.toList ids).length)
    (hmap : ∀ j, j < (BitSet.toList ids).length → mapping ((BitSet.toList ids).getD j 0) = j)
    (hloop : ∀ e, e < net.m → ids.count (net.endpoints e).1 = true →
      (net.endpoints e).1 ≠ (net.endpoints e).2) :
    ∀ (rest done : List (Nat × Cell)) (st : SliceState),
      slicePairs net (BitSet.toList ids) = done ++ rest →
      SliceInv net ids mapping legs0 done st →
      ∃ st', sliceLoop wide net ids mapping rest st = some st' ∧
        SliceInv net ids mapping legs0 (slicePairs net (BitSet.toList ids)) st' := by
  intro rest
  induction rest with
  | nil =>
    intro done st hpre inv
    rw [List.append_nil] at hpre
    rw [hpre]
    exact ⟨st, rfl, inv⟩
  | cons p rest ih =>
    intro done st hpre inv
    obtain ⟨st1, h1, inv1⟩ :=
      sliceCell_inv wide net ids mapping legs0 hlegs0 hmap hloop done rest p hpre st inv
    obtain ⟨st', h2, inv'⟩ := ih (done ++ [p]) st1 (by rw [hpre]; simp) inv1
    refine ⟨st', ?_, inv'⟩
    rw [sliceLoop, h1]
    exact h2

/-- The pairs of the member `u` are the cells of `adj[u]`. -/
theorem slicePairs_filter (net : TensorNetwork) (f : Cell → Bool) (u : Nat) :
    ∀ L : List Nat, L.Nodup → u ∈ L →
    (slicePairs net L).filter (fun p => decide (p.1 = u) && f p.2) =
      ((net.adj u).filter f).map (fun c => (u, c)) := by
  intro L
  induction L with
  | nil => intro _ h; simp at h
  | cons a L ih =>
    intro hnd hu
    rw [List.nodup_cons] at hnd
    have hsplit : slicePairs net (a :: L) =
        (net.adj a).map (fun c => (a, c)) ++ slicePairs net L := by
      simp [slicePairs]
    rw [hsplit, List.filter_append, List.filter_map]
    by_cases hau : a = u
    · subst hau
      have h2 : (slicePairs net L).filter (fun p => decide (p.1 = a) && f p.2) = [] := by
        rw [List.filter_eq_nil_iff]
        intro p hp
        have := (mem_slicePairs.1 hp).1
        have hne : ¬ p.1 = a := fun e => hnd.1 (e ▸ this)
        simp [hne]
      rw [h2, List.append_nil]
      congr 1
      apply List.filter_congr
      intro c _
      simp
    · have h1 : (net.adj a).filter ((fun p : Nat × Cell => decide (p.1 = u) && f p.2) ∘
          (fun c => (a, c))) = [] := by
        rw [List.filter_eq_nil_iff]
        intro c _
        simp [hau]
      have hul : u ∈ L := by
        rcases List.mem_cons.1 hu with h | h
        · exact absurd h.symm hau
        · exact h
      rw [h1, List.map_nil, List.nil_append]
      exact ih hnd.2 hul

theorem initNeighbors_check (wide : Bool) (N : Nat → BitSet) : ∀ l : List EdgeInfo,
    (∀ e, e ∈ l → (N e.edge.1).testBit e.edge.2 = true ∧ (N e.edge.2).testBit e.edge.1 = true) →
    initNeighbors wide false l N = some N := by
  intro l
  induction l with
  | nil => intro _; rfl
  | cons e rest ih =>
    intro h
    obtain ⟨h1, h2⟩ := h e (by simp)
    simp only [initNeighbors, addEdgeNeighbors, Bool.false_eq_true, if_false, BitSet.count, h1,
      h2, if_true]
    exact ih (fun f hf => h f (by simp [hf]))

/-- The numbering `mapping` of `slice`: the position of a member in the ascending
enumeration of `ids` (and `NIL` for the other vertices). -/
def sliceMapping (net : TensorNetwork) (ids : BitSet) : Nat → Nat :=
  (sliceInit net (BitSet.toList ids) 0 (fun _ => NIL, List.replicate (BitSet.size ids) 1)).1

/-- What `slice` returns. -/
theorem slice_spec (wide : Bool) (net : TensorNetwork) (ids : BitSet)
    (hm : net.m ≤ net.edgeInfo.length)
    (hloop : ∀ e, e < net.m → ids.count (net.endpoints e).1 = true →
      (net.endpoints e).1 ≠ (net.endpoints e).2)
    (heps : ∀ k, k < BitSet.size ids →
      epsilon < net.openLegSize.getD ((BitSet.toList ids).getD k 0) 0 *
        dimProduct ((net.edgeInfo.take net.m).filter
          (EdgeInfo.leaves ids ((BitSet.toList ids).getD k 0)))) :
    ∃ sl N', slice wide net ids = some (sl, N') ∧ sl.n = BitSet.size ids ∧
      sl.openLegSize.length = BitSet.size ids ∧
      sl.edgeInfo.length = sl.m + sl.n ∧
      (∀ k, k < BitSet.size ids → sliceMapping net ids ((BitSet.toList ids).getD k 0) = k) ∧
      (∀ k, k < BitSet.size ids →
        sl.openLegSize.getD k 0 = net.openLegSize.getD ((BitSet.toList ids).getD k 0) 0 *
          dimProduct ((net.edgeInfo.take net.m).filter
            (EdgeInfo.leaves ids ((BitSet.toList ids).getD k 0)))) ∧
      (∀ k, k < BitSet.size ids →
        (sl.edgeInfo.getD (sl.m + k) ⟨0, (0, 0)⟩).cost = sl.openLegSize.getD k 0) ∧
      (NoParallelIn net ids → sl.edgeInfo.take sl.m =
        (slicePairs net (BitSet.toList ids)).filterMap
          (sliceKeep net ids (sliceMapping net ids))) := by
  have hLnd := BitSet.toList_nodup ids
  have hsize : BitSet.size ids = (BitSet.toList ids).length := rfl
  obtain ⟨i1, i2, i3, _, _⟩ := sliceInit_spec net (BitSet.toList ids) 0
    (fun _ => NIL, List.replicate (BitSet.size ids) 1) hLnd
    (by simp only [List.length_replicate]; omega)
  simp only [List.length_replicate, Nat.zero_add] at i1 i2 i3
  generalize hinit : sliceInit net (BitSet.toList ids) 0
    (fun _ => NIL, List.replicate (BitSet.size ids) 1) = init at i1 i2 i3
  have hmapEq : sliceMapping net ids = init.1 := by unfold sliceMapping; rw [hinit]
  have inv0 : SliceInv net ids init.1 init.2 [] ⟨fun _ => 0, [], init.2⟩ := by
    refine ⟨rfl, ?_, ?_, ?_⟩
    · intro k _; simp
    · intro a b; simp
    · intro _; rfl
  obtain ⟨st, hst, inv⟩ := sliceLoop_inv wide net ids init.1 init.2 (by rw [i1, hsize]) i2
    hloop (slicePairs net (BitSet.toList ids)) [] ⟨fun _ => 0, [], init.2⟩ rfl inv0
  -- the open legs
  have hlegs : ∀ k, k < BitSet.size ids →
      st.openLegSize.getD k 0 = net.openLegSize.getD ((BitSet.toList ids).getD k 0) 0 *
        dimProduct ((net.edgeInfo.take net.m).filter
          (EdgeInfo.leaves ids ((BitSet.toList ids).getD k 0))) := by
    intro k hk
    have hu := mem_getD_of_lt (BitSet.toList ids) 0 k hk
    rw [inv.legs k hk, i3 k hk,
      slicePairs_filter net (fun c => !ids.count c.v) _ _ hLnd hu, List.map_map]
    congr 1
    have := adj_boundary_prod net ids _ (BitSet.mem_toList.1 hu) hm net.m (le_refl _)
    rw [← this]
    rfl
  have hlen : st.openLegSize.length = BitSet.size ids := by rw [inv.len, i1]
  obtain ⟨E', hE1, hE2, hE3⟩ := initOpenLegs_spec st.edgeInfo.length st.openLegSize
    (List.range (BitSet.size ids))
    (resize st.edgeInfo (st.edgeInfo.length + BitSet.size ids) ⟨0, (0, 0)⟩)
    (fun i hi => by rw [hlegs i (List.mem_range.1 hi)]; exact heps i (List.mem_range.1 hi))
  have hRtake : (resize st.edgeInfo (st.edgeInfo.length + BitSet.size ids)
      ⟨0, (0, 0)⟩).take st.edgeInfo.length = st.edgeInfo := by
    rw [take_resize _ _ _ _ (by omega) (le_refl _), List.take_length]
  have hcheck : initNeighbors wide false
      ((resize st.edgeInfo (st.edgeInfo.length + BitSet.size ids)
        ⟨0, (0, 0)⟩).take st.edgeInfo.length) st.N = some st.N := by
    rw [hRtake]
    apply initNeighbors_check
    intro e he
    exact ⟨(inv.nchar _ _).2 ⟨e, he, Or.inl rfl⟩, (inv.nchar _ _).2 ⟨e, he, Or.inr rfl⟩⟩
  have hE'take : E'.take st.edgeInfo.length = st.edgeInfo := by
    have h := take_eq_of_getD ⟨0, (0, 0)⟩ E' _ st.edgeInfo.length hE2 (by
      intro j hj
      rw [hE3, if_neg]
      rintro ⟨_, i, _, e⟩
      omega)
    rw [h, hRtake]
  refine ⟨⟨BitSet.size ids, st.edgeInfo.length, E', st.openLegSize⟩, st.N, ?_, rfl, hlen, ?_,
    ?_, hlegs, ?_, ?_⟩
  · unfold slice
    simp only [hinit, sliceVertices_eq, hst]
    unfold initGraphStructure
    simp only [length_resize, if_true, Bool.false_eq_true, if_false, hcheck, hE1]
  · show E'.length = _
    rw [hE2, length_resize]
  · intro k hk
    rw [hmapEq]
    exact i2 k hk
  · intro k hk
    show (E'.getD (st.edgeInfo.length + k) ⟨0, (0, 0)⟩).cost = st.openLegSize.getD k 0
    rw [hE3, if_pos ⟨by rw [length_resize]; omega, k, List.mem_range.2 hk, rfl⟩]
    simp
  · intro hnp
    show E'.take st.edgeInfo.length = _
    rw [hE'take, hmapEq]
    exact inv.edges hnp
/-- C27: `slice(S)` produces a network with `|S|` vertices; member number `k` of `S` in
ascending order becomes vertex `k`, and its open-leg dimension is `openLegSize[u]` times the
product of the dimensions of all edges, parallel ones included, that join `u` to a vertex
outside `S`. -/
theorem slice_openLegs (wide : Bool) (net : TensorNetwork) (ids : BitSet)
    (hm : net.m ≤ net.edgeInfo.length)
    (hloop : ∀ e, e < net.m → ids.count (net.endpoints e).1 = true →
      (net.endpoints e).1 ≠ (net.endpoints e).2)
    (heps : ∀ k, k < BitSet.size ids →
      epsilon < net.openLegSize.getD ((BitSet.toList ids).getD k 0) 0 *
        dimProduct ((net.edgeInfo.take net.m).filter
          (EdgeInfo.leaves ids ((BitSet.toList ids).getD k 0)))) :
    ∃ sl N', slice wide net ids = some (sl, N') ∧ sl.n = BitSet.size ids ∧
      sl.openLegSize.length = BitSet.size ids ∧
      (∀ k, k < BitSet.size ids → sliceMapping net ids ((BitSet.toList ids).getD k 0) = k) ∧
      (∀ k, k < BitSet.size ids →
        sl.openLegSize.getD k 0 = net.openLegSize.getD ((BitSet.toList ids).getD k 0) 0 *
          dimProduct ((net.edgeInfo.take net.m).filter
            (EdgeInfo.leaves ids ((BitSet.toList ids).getD k 0)))) ∧
      (∀ k, k < BitSet.size ids →
        (sl.edgeInfo.getD (sl.m + k) ⟨0, (0, 0)⟩).cost = sl.openLegSize.getD k 0) := by
  obtain ⟨sl, N', h1, h2, h3, _, h5, h6, h7, _⟩ := slice_spec wide net ids hm hloop heps
  exact ⟨sl, N', h1, h2, h3, h5, h6, h7⟩

theorem triangle_no_loop (ids : BitSet) : ∀ e, e < triangle.m →
    ids.count (triangle.endpoints e).1 = true →
    (triangle.endpoints e).1 ≠ (triangle.endpoints e).2 := by
  intro e he _
  have h : ∀ e, e < triangle.m → (triangle.endpoints e).1 ≠ (triangle.endpoints e).2 := by
    decide
  exact h e he

theorem triangle_slice_eps : ∀ k, k < BitSet.size 3 →
    epsilon < triangle.openLegSize.getD ((BitSet.toList 3).getD k 0) 0 *
      dimProduct ((triangle.edgeInfo.take triangle.m).filter
        (EdgeInfo.leaves 3 ((BitSet.toList 3).getD k 0))) := by
  decide!

/-- The statement of `slice_openLegs` on the triangle with `S = {0, 1}`: the edges `(1, 2)`
and `(0, 2)` are folded into the open legs of the vertices 1 and 0. -/
theorem slice_openLegs_witness :
    ∃ sl N', slice true triangle 3 = some (sl, N') ∧ sl.n = BitSet.size 3 ∧
      sl.openLegSize.length = BitSet.size 3 ∧
      (∀ k, k < BitSet.size 3 → sliceMapping triangle 3 ((BitSet.toList 3).getD k 0) = k) ∧
      (∀ k, k < BitSet.size 3 →
        sl.openLegSize.getD k 0 = triangle.openLegSize.getD ((BitSet.toList 3).getD k 0) 0 *
          dimProduct ((triangle.edgeInfo.take triangle.m).filter
            (EdgeInfo.leaves 3 ((BitSet.toList 3).getD k 0)))) ∧
      (∀ k, k < BitSet.size 3 →
        (sl.edgeInfo.getD (sl.m + k) ⟨0, (0, 0)⟩).cost = sl.openLegSize.getD k 0) :=
  slice_openLegs true triangle 3 (by decide) (triangle_no_loop 3) triangle_slice_eps

/-- The internal edges of `ids`: the edge ids with both endpoints in `ids`. -/
def internalEdges (net : TensorNetwork) (ids : BitSet) : List Nat :=
  (List.range net.m).filter
    (fun e => ids.count (net.endpoints e).1 && ids.count (net.endpoints e).2)

/-- The entry of the slice for the internal edge `e`: its dimension and its endpoints,
renumbered, the lower one first. -/
def sliceEdge (net : TensorNetwork) (ids : BitSet) (e : Nat) : EdgeInfo :=
  ⟨net.legDim e,
    (sliceMapping net ids (Nat.min (net.endpoints e).1 (net.endpoints e).2),
      sliceMapping net ids (Nat.max (net.endpoints e).1 (net.endpoints e).2))⟩

theorem filterMap_sliceKeep (net : TensorNetwork) (ids : BitSet) (mapping : Nat → Nat) :
    ∀ l : List (Nat × Cell), l.filterMap (sliceKeep net ids mapping) =
      (l.filter (fun p => ids.count p.2.v && decide (p.1 < p.2.v))).map
        (fun p => ⟨net.legDim p.2.edgeId, (mapping p.1, mapping p.2.v)⟩) := by
  intro l
  induction l with
  | nil => rfl
  | cons p l ih =>
    by_cases h : (ids.count p.2.v && decide (p.1 < p.2.v)) = true
    · have hk : sliceKeep net ids mapping p =
          some ⟨net.legDim p.2.edgeId, (mapping p.1, mapping p.2.v)⟩ := by
        unfold sliceKeep; rw [if_pos h]
      simp only [List.filterMap_cons, hk]
      rw [List.filter_cons, if_pos h, List.map_cons, ih]
    · have hk : sliceKeep net ids mapping p = none := by
        unfold sliceKeep; rw [if_neg h]
      simp only [List.filterMap_cons, hk]
      rw [List.filter_cons, if_neg h, ih]

/-- C28, as the code has it: when no two edges of the network join the same two vertices of
`S`, `slice(S)` keeps every edge internal to `S`: the edge count of the slice is the number of
edges with both endpoints in `S`, they occupy the entries `0..m-1`, and each keeps its
dimension and its renumbered endpoints. -/
theorem slice_internal_edges (wide : Bool) (net : TensorNetwork) (ids : BitSet)
    (hm : net.m ≤ net.edgeInfo.length)
    (hloop : ∀ e, e < net.m → ids.count (net.endpoints e).1 = true →
      (net.endpoints e).1 ≠ (net.endpoints e).2)
    (hnp : NoParallelIn net ids)
    (heps : ∀ k, k < BitSet.size ids →
      epsilon < net.openLegSize.getD ((BitSet.toList ids).getD k 0) 0 *
        dimProduct ((net.edgeInfo.take net.m).filter
          (EdgeInfo.leaves ids ((BitSet.toList ids).getD k 0)))) :
    ∃ sl N', slice wide net ids = some (sl, N') ∧
      sl.m = (internalEdges net ids).length ∧ sl.edgeInfo.length = sl.m + sl.n ∧
      (∀ k, k < BitSet.size ids → sliceMapping net ids ((BitSet.toList ids).getD k 0) = k) ∧
      (sl.edgeInfo.take sl.m).Perm ((internalEdges net ids).map (sliceEdge net ids)) := by
  obtain ⟨sl, N', h1, _, _, h4, h5, _, _, h8⟩ := slice_spec wide net ids hm hloop heps
  have hE := h8 hnp
  have hLnd := BitSet.toList_nodup ids
  -- the visited pairs that produce an edge
  have hpnd : (slicePairs net (BitSet.toList ids)).Nodup := by
    apply slicePairs_nodup net hLnd
    intro u hu
    apply List.Nodup.of_map Cell.edgeId
    apply adj_nodup_at net u _ net.m (le_refl _)
    intro e he ⟨a1, a2⟩
    exact hloop e he (by rw [a1]; exact BitSet.mem_toList.1 hu) (by rw [a1, a2])
  have hmemK : ∀ p, p ∈ (slicePairs net (BitSet.toList ids)).filter
      (fun p => ids.count p.2.v && decide (p.1 < p.2.v)) →
      p.2.edgeId < net.m ∧ ids.count p.1 = true ∧ ids.count p.2.v = true ∧ p.1 < p.2.v ∧
      Nat.min (net.endpoints p.2.edgeId).1 (net.endpoints p.2.edgeId).2 = p.1 ∧
      Nat.max (net.endpoints p.2.edgeId).1 (net.endpoints p.2.edgeId).2 = p.2.v := by
    intro p hp
    obtain ⟨hp1, hp2⟩ := List.mem_filter.1 hp
    obtain ⟨a1, a2⟩ := mem_slicePairs.1 hp1
    simp only [Bool.and_eq_true, decide_eq_true_eq] at hp2
    rw [mem_adj] at a2
    obtain ⟨e, he, hid, hc⟩ := a2
    rw [hid]
    refine ⟨he, BitSet.mem_toList.1 a1, hp2.1, hp2.2, ?_⟩
    rcases hc with ⟨b1, b2⟩ | ⟨b1, b2⟩
    · rw [b1, ← b2]
      exact ⟨Nat.min_eq_left (le_of_lt hp2.2), Nat.max_eq_right (le_of_lt hp2.2)⟩
    · rw [b1, ← b2]
      exact ⟨Nat.min_eq_right (le_of_lt hp2.2), Nat.max_eq_left (le_of_lt hp2.2)⟩
  have hmap : sl.edgeInfo.take sl.m =
      (((slicePairs net (BitSet.toList ids)).filter
        (fun p => ids.count p.2.v && decide (p.1 < p.2.v))).map
          (fun p => p.2.edgeId)).map (sliceEdge net ids) := by
    rw [hE, filterMap_sliceKeep, List.map_map]
    apply List.map_congr_left
    intro p hp
    obtain ⟨_, _, _, _, b1, b2⟩ := hmemK p hp
    unfold sliceEdge
    simp only [Function.comp]
    rw [b1, b2]
  have hperm : (((slicePairs net (BitSet.toList ids)).filter
      (fun p => ids.count p.2.v && decide (p.1 < p.2.v))).map (fun p => p.2.edgeId)).Perm
      (internalEdges net ids) := by
    rw [List.perm_ext_iff_of_nodup]
    · intro e
      unfold internalEdges
      rw [List.mem_map, List.mem_filter, List.mem_range]
      simp only [Bool.and_eq_true]
      constructor
      · rintro ⟨p, hp, rfl⟩
        obtain ⟨a1, a2, a3, a4, b1, b2⟩ := hmemK p hp
        refine ⟨a1, ?_⟩
        rcases Nat.le_total (net.endpoints p.2.edgeId).1 (net.endpoints p.2.edgeId).2 with h | h
        · have e1 : Nat.min (net.endpoints p.2.edgeId).1 (net.endpoints p.2.edgeId).2 =
              (net.endpoints p.2.edgeId).1 := Nat.min_eq_left h
          have e2 : Nat.max (net.endpoints p.2.edgeId).1 (net.endpoints p.2.edgeId).2 =
              (net.endpoints p.2.edgeId).2 := Nat.max_eq_right h
          rw [e1] at b1
          rw [e2] at b2
          rw [b1, b2]; exact ⟨a2, a3⟩
        · have e1 : Nat.min (net.endpoints p.2.edgeId).1 (net.endpoints p.2.edgeId).2 =
              (net.endpoints p.2.edgeId).2 := Nat.min_eq_right h
          have e2 : Nat.max (net.endpoints p.2.edgeId).1 (net.endpoints p.2.edgeId).2 =
              (net.endpoints p.2.edgeId).1 := Nat.max_eq_left h
          rw [e1] at b1
          rw [e2] at b2
          rw [b1, b2]; exact ⟨a3, a2⟩
      · rintro ⟨he, c1, c2⟩
        have hne := hloop e he c1
        rcases Nat.lt_or_gt_of_ne hne with hlt | hgt
        · refine ⟨((net.endpoints e).1, ⟨(net.endpoints e).2, e⟩), ?_, rfl⟩
          rw [List.mem_filter]
          refine ⟨mem_slicePairs.2 ⟨BitSet.mem_toList.2 c1, ?_⟩, by simp [c2, hlt]⟩
          rw [mem_adj]
          exact ⟨e, he, rfl, Or.inl ⟨rfl, rfl⟩⟩
        · refine ⟨((net.endpoints e).2, ⟨(net.endpoints e).1, e⟩), ?_, rfl⟩
          rw [List.mem_filter]
          refine ⟨mem_slicePairs.2 ⟨BitSet.mem_toList.2 c2, ?_⟩, by simp [c1, hgt]⟩
          rw [mem_adj]
          exact ⟨e, he, rfl, Or.inr ⟨rfl, rfl⟩⟩
    · apply List.Nodup.map_on _ (hpnd.filter _)
      intro p hp q hq hpq
      obtain ⟨_, _, _, _, b1, b2⟩ := hmemK p hp
      obtain ⟨_, _, _, _, d1, d2⟩ := hmemK q hq
      simp only at hpq
      rw [hpq] at b1 b2
      exact Prod.ext (by rw [← b1, ← d1]) (cell_ext (by rw [← b2, ← d2]) hpq)
    · unfold internalEdges
      exact (List.nodup_range net.m).filter _
  refine ⟨sl, N', h1, ?_, h4, h5, ?_⟩
  · have h := congrArg List.length hmap
    rw [List.length_take, List.length_map, List.length_map] at h
    rw [← hperm.length_eq, List.length_map, ← h]
    omega
  · rw [hmap]
    exact hperm.map _

theorem triangle_no_parallel : NoParallelIn triangle 7 := by
  have h : ∀ e, e < triangle.m → ∀ e', e' < triangle.m →
      (triangle.endpoints e' = triangle.endpoints e ∨
        triangle.endpoints e' = ((triangle.endpoints e).2, (triangle.endpoints e).1)) →
      e' = e := by
    decide
  intro e e' he he' _ _ hor
  exact h e he e' he' hor

theorem triangle_slice_eps_all : ∀ k, k < BitSet.size 7 →
    epsilon < triangle.openLegSize.getD ((BitSet.toList 7).getD k 0) 0 *
      dimProduct ((triangle.edgeInfo.take triangle.m).filter
        (EdgeInfo.leaves 7 ((BitSet.toList 7).getD k 0))) := by
  decide!

/-- The statement of `slice_internal_edges` on the triangle with `S = {0, 1, 2}`: the slice
has the three edges of the triangle. -/
theorem slice_internal_edges_witness :
    ∃ sl N', slice true triangle 7 = some (sl, N') ∧
      sl.m = (internalEdges triangle 7).length ∧ sl.edgeInfo.length = sl.m + sl.n ∧
      (∀ k, k < BitSet.size 7 → sliceMapping triangle 7 ((BitSet.toList 7).getD k 0) = k) ∧
      (sl.edgeInfo.take sl.m).Perm ((internalEdges triangle 7).map (sliceEdge triangle 7)) :=
  slice_internal_edges true triangle 7 (by decide) (triangle_no_loop 7) triangle_no_parallel
    triangle_slice_eps_all

/-- C28, the claim as stated, fails: in `parallelNet` two edges join the vertices 0 and 1,
both internal to `S = {0, 1}`, and the slice has one edge, the one of dimension 3. -/
theorem slice_drops_parallel_edge :
    (internalEdges parallelNet 3).length = 2 ∧
    (slice false parallelNet 3).map (fun r => r.1.m) = some 1 ∧
    (slice false parallelNet 3).map (fun r => r.1.edgeInfo.take r.1.m) =
      some [⟨3, (0, 1)⟩] := by
  decide!

/-! ### The invariant of the main loop -/

theorem sublist_flatMap {l1 l2 : List Nat} (f : Nat → List Nat) (h : List.Sublist l1 l2) :
    List.Sublist (l1.flatMap f) (l2.flatMap f) := by
  induction h with
  | slnil => exact List.Sublist.refl _
  | cons a _ ih =>
    rw [List.flatMap_cons]
    exact ih.trans (List.sublist_append_right _ _)
  | cons₂ a _ ih =>
    rw [List.flatMap_cons, List.flatMap_cons]
    exact List.Sublist.append (List.Sublist.refl _) ih

theorem sublist_pair_mem_right {a b : Nat} {l1 l2 : List Nat} (hnd : (l1 ++ b :: l2).Nodup)
    (h : List.Sublist [b, a] (l1 ++ b :: l2)) : a ∈ l2 := by
  rw [List.nodup_append] at hnd
  obtain ⟨_, hnd2, hdisj⟩ := hnd
  rw [List.nodup_cons] at hnd2
  rw [List.sublist_append_iff] at h
  obtain ⟨a1, a2, hsplit, h1, h2⟩ := h
  cases a1 with
  | nil =>
    simp only [List.nil_append] at hsplit
    subst hsplit
    cases h2 with
    | cons _ h3 => exact absurd (h3.subset (by simp)) hnd2.1
    | cons₂ _ h3 => exact h3.subset (by simp)
  | cons x a1 =>
    simp only [List.cons_append, List.cons.injEq] at hsplit
    obtain ⟨rfl, _⟩ := hsplit
    have hb1 : b ∈ l1 := h1.subset (List.mem_cons_self b a1)
    exact absurd (List.mem_cons_self b l2) (hdisj hb1)

/-- The linearisation of the subtree of a processed node: the node, then the compounds of the
entries of its chain. -/
def flat (tree : Nat → Node) (v : Nat) : List Nat :=
  v :: (tree v).chain.flatMap (fun x => (tree x).compound)

/-- The state of a processed node. -/
structure NodeOK (tv : TensorNetwork) (root : Nat) (R : Rooted tv root) (tree : Nat → Node)
    (done : List Nat) (v : Nat) : Prop where
  lt : v < tv.n
  ne_root : v ≠ root
  contracted_le : (tree v).contracted ≤ (tree v).chain.length
  compound_eq : (tree v).compound =
    v :: ((tree v).chain.take (tree v).contracted).flatMap (fun x => (tree x).compound)
  outer : (tree v).outerLegs = strictLegs tv (tree v).compound ^^^ BitSet.single (R.eid v)
  incoming : (tree v).incomingEdgeId = R.eid v
  leaf : (tree v).chain = [] → (tree v).children = []
  chain_done : ∀ x, x ∈ (tree v).chain → x ∈ done ∧ x ≠ v
  prec : ∀ u, u ∈ flat tree v → u ≠ v → List.Sublist [R.parent u, u] (flat tree v)
  flat_nodup : (flat tree v).Nodup
  parent_out : R.parent v ∉ flat tree v

theorem flat_congr {tree tree' : Nat → Node} {done : List Nat} (h : ∀ x, x ∈ done → tree' x = tree x)
    {v : Nat} (hv : v ∈ done) (hch : ∀ x, x ∈ (tree v).chain → x ∈ done) :
    flat tree' v = flat tree v := by
  unfold flat
  rw [h v hv]
  congr 1
  apply List.flatMap_congr
  intro x hx
  rw [h x (hch x hx)]

theorem NodeOK.congr {tv : TensorNetwork} {root : Nat} {R : Rooted tv root}
    {tree tree' : Nat → Node} {done done' : List Nat} {v : Nat}
    (ok : NodeOK tv root R tree done v) (hv : v ∈ done)
    (h : ∀ x, x ∈ done → tree' x = tree x) (hsub : ∀ x, x ∈ done → x ∈ done') :
    NodeOK tv root R tree' done' v := by
  have hflat : flat tree' v = flat tree v :=
    flat_congr h hv (fun x hx => (ok.chain_done x hx).1)
  have hcmp : ∀ l : List Nat, (∀ x, x ∈ l → x ∈ (tree v).chain) →
      l.flatMap (fun x => (tree' x).compound) = l.flatMap (fun x => (tree x).compound) := by
    intro l hl
    apply List.flatMap_congr
    intro x hx
    rw [h x (ok.chain_done x (hl x hx)).1]
  refine ⟨ok.lt, ok.ne_root, ?_, ?_, ?_, ?_, ?_, ?_, ?_, by rw [hflat]; exact ok.flat_nodup,
    by rw [hflat]; exact ok.parent_out⟩
  · rw [h v hv]; exact ok.contracted_le
  · rw [h v hv, hcmp _ (fun x hx => List.mem_of_mem_take hx)]; exact ok.compound_eq
  · rw [h v hv]; exact ok.outer
  · rw [h v hv]; exact ok.incoming
  · rw [h v hv]; exact ok.leaf
  · rw [h v hv]; intro x hx; exact ⟨hsub x (ok.chain_done x hx).1, (ok.chain_done x hx).2⟩
  · rw [hflat]; exact ok.prec

/-- The compounds of the exposed entries of a processed node make up its linearisation. -/
theorem exposed_flat {tv : TensorNetwork} {root : Nat} {R : Rooted tv root}
    {tree : Nat → Node} {done : List Nat} {c : Nat} (ok : NodeOK tv root R tree done c) :
    (exposed tree c).flatMap (fun x => (tree x).compound) = flat tree c := by
  unfold exposed flat
  rw [List.flatMap_cons, ok.compound_eq, List.cons_append, ← List.flatMap_append,
    List.take_append_drop]

theorem NodeOK.compound_head {tv : TensorNetwork} {root : Nat} {R : Rooted tv root}
    {tree : Nat → Node} {done : List Nat} {c : Nat} (ok : NodeOK tv root R tree done c) :
    ∃ tl, (tree c).compound = c :: tl := ⟨_, ok.compound_eq⟩

/-- The invariant of the loop of `runLocalTensorIKKBZ`: `done` lists the processed nodes,
`T0` is the tree the constructor left. -/
structure LoopInv (tv : TensorNetwork) (root : Nat) (R : Rooted tv root) (T0 tree : Nat → Node)
    (done : List Nat) : Prop where
  frame : ∀ v, v ∉ done → tree v = T0 v
  children : ∀ v, (tree v).children = (T0 v).children
  nodes : ∀ v, v ∈ done → NodeOK tv root R tree done v
  tops : ((done.filter (fun v => decide (R.parent v ∉ done))).flatMap (flat tree)).Perm done

theorem children_done {tv : TensorNetwork} {root : Nat} {R : Rooted tv root}
    {T0 : Nat → Node} {bfs : List Nat} (spec : BfsSpec tv root R T0 bfs)
    {done rest : List Nat} {curr : Nat} (hsplit : bfs.reverse = done ++ curr :: rest) {c : Nat}
    (hc : c ∈ (T0 curr).children) :
    c ∈ done ∧ c < tv.n ∧ c ≠ root ∧ R.parent c = curr := by
  obtain ⟨_, hlt, hcr, hpar⟩ := (spec.children_mem curr c).1 hc
  refine ⟨?_, hlt, hcr, hpar⟩
  have hmem : c ∈ bfs := spec.perm.mem_iff.2 (List.mem_range.2 hlt)
  have hsub := (spec.before c hmem hcr).reverse
  rw [hpar, hsplit] at hsub
  have hnd : (done ++ curr :: rest).Nodup := by
    rw [← hsplit, List.nodup_reverse]
    exact spec.perm.nodup_iff.2 (List.nodup_range _)
  exact sublist_pair_mem_left hnd hsub

theorem parent_not_done {tv : TensorNetwork} {root : Nat} {R : Rooted tv root}
    {T0 : Nat → Node} {bfs : List Nat} (spec : BfsSpec tv root R T0 bfs)
    {done rest : List Nat} {curr : Nat} (hsplit : bfs.reverse = done ++ curr :: rest)
    (hcr : curr ≠ root) : R.parent curr ∉ done ++ [curr] := by
  have hnd : (done ++ curr :: rest).Nodup := by
    rw [← hsplit, List.nodup_reverse]
    exact spec.perm.nodup_iff.2 (List.nodup_range _)
  have hmem : curr ∈ bfs := by
    rw [← List.mem_reverse, hsplit]; simp
  have hlt : curr < tv.n := List.mem_range.1 (spec.perm.mem_iff.1 hmem)
  have hsub := (spec.before curr hmem hcr).reverse
  rw [hsplit] at hsub
  have hr : R.parent curr ∈ rest := sublist_pair_mem_right hnd hsub
  intro h
  rw [List.mem_append, List.mem_singleton] at h
  rcases h with h | h
  · exact (List.nodup_append.1 hnd).2.2 h (by simp [hr])
  · exact R.parent_ne curr hlt hcr h

/-- What the merge of the children of `curr` yields, in terms of the linearisations of the
processed nodes. -/
theorem merged_facts {tv : TensorNetwork} {root : Nat} {R : Rooted tv root}
    {T0 tree : Nat → Node} {bfs : List Nat} (spec : BfsSpec tv root R T0 bfs)
    {done rest : List Nat} {curr : Nat} (hsplit : bfs.reverse = done ++ curr :: rest)
    (inv : LoopInv tv root R T0 tree done) (merged : List Nat)
    (hsub : ∀ c, c ∈ (T0 curr).children → List.Sublist (exposed tree c) merged)
    (hperm : merged.Perm ((T0 curr).children.flatMap (exposed tree))) :
    (∀ x, x ∈ merged → x ∈ done) ∧
    (curr :: merged.flatMap (fun x => (tree x).compound) ++
      ((done.filter (fun v => decide (R.parent v ∉ done))).filter
        (fun v => !decide (R.parent v = curr))).flatMap (flat tree)).Perm (curr :: done) ∧
    (curr :: merged.flatMap (fun x => (tree x).compound)).Nodup ∧
    (∀ u, u ∈ merged.flatMap (fun x => (tree x).compound) →
      List.Sublist [R.parent u, u] (curr :: merged.flatMap (fun x => (tree x).compound))) ∧
    (merged = [] → (T0 curr).children = []) := by
  have hnd : (done ++ curr :: rest).Nodup := by
    rw [← hsplit, List.nodup_reverse]
    exact spec.perm.nodup_iff.2 (List.nodup_range _)
  have hdone_nd : done.Nodup := (List.nodup_append.1 hnd).1
  have hcurr_nd : curr ∉ done := fun h => (List.nodup_append.1 hnd).2.2 h (by simp)
  have hcurr_lt : curr < tv.n := by
    have : curr ∈ bfs := by rw [← List.mem_reverse, hsplit]; simp
    exact List.mem_range.1 (spec.perm.mem_iff.1 this)
  have hcs := fun c (hc : c ∈ (T0 curr).children) => children_done spec hsplit hc
  have hok := fun c (hc : c ∈ (T0 curr).children) => inv.nodes c (hcs c hc).1
  -- members of the merged chain
  have hm1 : ∀ x, x ∈ merged → x ∈ done := by
    intro x hx
    have := hperm.mem_iff.1 hx
    rw [List.mem_flatMap] at this
    obtain ⟨c, hc, hxc⟩ := this
    rcases List.mem_cons.1 hxc with h | h
    · rw [h]; exact (hcs c hc).1
    · exact ((hok c hc).chain_done x (List.mem_of_mem_drop h)).1
  have hm2 : (merged.flatMap (fun x => (tree x).compound)).Perm
      ((T0 curr).children.flatMap (flat tree)) := by
    refine (List.Perm.flatMap_right _ hperm).trans ?_
    rw [List.flatMap_assoc]
    apply List.Perm.of_eq
    apply List.flatMap_congr
    intro c hc
    exact exposed_flat (hok c hc)
  have hm3 : ∀ c, c ∈ (T0 curr).children →
      List.Sublist (flat tree c) (merged.flatMap (fun x => (tree x).compound)) := by
    intro c hc
    rw [← exposed_flat (hok c hc)]
    exact sublist_flatMap _ (hsub c hc)
  -- the children are the top nodes below `curr`
  have hm4 : ((done.filter (fun v => decide (R.parent v ∉ done))).filter
      (fun v => decide (R.parent v = curr))).Perm (T0 curr).children := by
    rw [List.perm_ext_iff_of_nodup ((hdone_nd.filter _).filter _) (spec.children_nodup curr)]
    intro c
    rw [List.mem_filter, List.mem_filter, spec.children_mem]
    simp only [decide_eq_true_eq]
    constructor
    · rintro ⟨⟨h1, _⟩, h3⟩
      have ok := inv.nodes c h1
      exact ⟨hcurr_lt, ok.lt, ok.ne_root, h3⟩
    · rintro ⟨_, h1, h2, h3⟩
      have hc : c ∈ (T0 curr).children := (spec.children_mem curr c).2 ⟨hcurr_lt, h1, h2, h3⟩
      exact ⟨⟨(hcs c hc).1, by rw [h3]; exact hcurr_nd⟩, h3⟩
  have hm5 : (curr :: merged.flatMap (fun x => (tree x).compound) ++
      ((done.filter (fun v => decide (R.parent v ∉ done))).filter
        (fun v => !decide (R.parent v = curr))).flatMap (flat tree)).Perm (curr :: done) := by
    rw [List.cons_append]
    apply List.Perm.cons
    refine List.Perm.trans ?_ inv.tops
    have hsplit2 := List.filter_append_perm (fun v => decide (R.parent v = curr))
      (done.filter (fun v => decide (R.parent v ∉ done)))
    refine List.Perm.trans ?_ (List.Perm.flatMap_right (flat tree) hsplit2)
    rw [List.flatMap_append]
    apply List.Perm.append_right
    exact hm2.trans (List.Perm.flatMap_right _ hm4.symm)
  have hm6 : (curr :: merged.flatMap (fun x => (tree x).compound)).Nodup := by
    have : (curr :: done).Nodup := List.nodup_cons.2 ⟨hcurr_nd, hdone_nd⟩
    exact (List.nodup_append.1 (hm5.nodup_iff.2 this)).1
  refine ⟨hm1, hm5, hm6, ?_, ?_⟩
  · intro u hu
    have := hm2.mem_iff.1 hu
    rw [List.mem_flatMap] at this
    obtain ⟨c, hc, huc⟩ := this
    by_cases huc' : u = c
    · subst huc'
      rw [(hcs u hc).2.2.2]
      exact List.Sublist.cons₂ _ (List.singleton_sublist.2 hu)
    · exact (((hok c hc).prec u huc huc').trans (hm3 c hc)).trans (List.sublist_cons_self _ _)
  · intro hnil
    apply List.eq_nil_iff_forall_not_mem.2
    intro c hc
    have := (hsub c hc).subset (List.mem_cons_self c _)
    rw [hnil] at this
    simp at this

theorem split_nodup {tv : TensorNetwork} {root : Nat} {R : Rooted tv root}
    {T0 : Nat → Node} {bfs : List Nat} (spec : BfsSpec tv root R T0 bfs)
    {done rest : List Nat} {curr : Nat} (hsplit : bfs.reverse = done ++ curr :: rest) :
    (done ++ curr :: rest).Nodup ∧ done.Nodup ∧ curr ∉ done ∧ curr < tv.n := by
  have hnd : (done ++ curr :: rest).Nodup := by
    rw [← hsplit, List.nodup_reverse]
    exact spec.perm.nodup_iff.2 (List.nodup_range _)
  refine ⟨hnd, (List.nodup_append.1 hnd).1, fun h => (List.nodup_append.1 hnd).2.2 h (by simp), ?_⟩
  have : curr ∈ bfs := by rw [← List.mem_reverse, hsplit]; simp
  exact List.mem_range.1 (spec.perm.mem_iff.1 this)

/-- The root is the last node of the loop. -/
theorem root_last {tv : TensorNetwork} {root : Nat} {R : Rooted tv root}
    {T0 : Nat → Node} {bfs : List Nat} (spec : BfsSpec tv root R T0 bfs)
    {done rest : List Nat} {curr : Nat} (hsplit : bfs.reverse = done ++ curr :: rest) :
    curr = root ↔ rest = [] := by
  have hnd := (split_nodup spec hsplit).1
  obtain ⟨tl, htl⟩ : ∃ tl, bfs = root :: tl := by
    have := spec.head
    cases bfs with
    | nil => simp at this
    | cons a tl =>
      simp only [List.head?_cons, Option.some.injEq] at this
      exact ⟨tl, by rw [this]⟩
  rw [htl, List.reverse_cons] at hsplit
  constructor
  · intro hc
    by_contra hne
    obtain ⟨r', x, hx⟩ : ∃ r' x, rest = r' ++ [x] :=
      ⟨rest.dropLast, rest.getLast hne, (List.dropLast_append_getLast hne).symm⟩
    rw [hx, ← List.cons_append, ← List.append_assoc] at hsplit
    have h2 := (List.append_inj' hsplit rfl).2
    simp only [List.cons.injEq, and_true] at h2
    have hmem : curr ∈ rest := by rw [hx, hc, h2]; simp
    have := (List.nodup_append.1 hnd).2.1
    exact (List.nodup_cons.1 this).1 hmem
  · intro hr
    rw [hr] at hsplit
    have h2 := (List.append_inj' hsplit rfl).2
    simp only [List.cons.injEq, and_true] at h2
    exact h2.symm

theorem tops_step {tv : TensorNetwork} {root : Nat} (R : Rooted tv root) (done : List Nat)
    (curr : Nat) (hpar : R.parent curr ∉ done ++ [curr]) :
    (done ++ [curr]).filter (fun v => decide (R.parent v ∉ done ++ [curr])) =
      ((done.filter (fun v => decide (R.parent v ∉ done))).filter
        (fun v => !decide (R.parent v = curr))) ++ [curr] := by
  rw [List.filter_append, List.filter_filter]
  congr 1
  · apply List.filter_congr
    intro v _
    by_cases h1 : R.parent v ∈ done <;> by_cases h2 : R.parent v = curr <;> simp [h1, h2]
  · rw [List.filter_cons_of_pos (by simpa using hpar), List.filter_nil]

/-- The invariant after the node `curr` has been processed, from what the round left in it. -/
theorem LoopInv.extend {tv : TensorNetwork} {root : Nat} {R : Rooted tv root}
    {T0 tree tree' : Nat → Node} {bfs : List Nat} (spec : BfsSpec tv root R T0 bfs)
    {done rest : List Nat} {curr : Nat} (hsplit : bfs.reverse = done ++ curr :: rest)
    (hcr : curr ≠ root) (inv : LoopInv tv root R T0 tree done)
    (hframe : ∀ x, x ≠ curr → tree' x = tree x)
    (hch : (tree' curr).children = (T0 curr).children)
    (hok : NodeOK tv root R tree' (done ++ [curr]) curr)
    (hperm : (flat tree' curr ++ ((done.filter (fun v => decide (R.parent v ∉ done))).filter
        (fun v => !decide (R.parent v = curr))).flatMap (flat tree)).Perm (curr :: done)) :
    LoopInv tv root R T0 tree' (done ++ [curr]) := by
  obtain ⟨_, _, hcurr_nd, _⟩ := split_nodup spec hsplit
  have hagree : ∀ x, x ∈ done → tree' x = tree x :=
    fun x hx => hframe x (fun h => hcurr_nd (h ▸ hx))
  refine ⟨?_, ?_, ?_, ?_⟩
  · intro v hv
    rw [List.mem_append, List.mem_singleton, not_or] at hv
    rw [hframe v hv.2]
    exact inv.frame v hv.1
  · intro v
    by_cases hv : v = curr
    · rw [hv]; exact hch
    · rw [hframe v hv]; exact inv.children v
  · intro v hv
    rw [List.mem_append, List.mem_singleton] at hv
    rcases hv with hv | hv
    · exact (inv.nodes v hv).congr hv hagree (fun x hx => List.mem_append_left _ hx)
    · rw [hv]; exact hok
  · rw [tops_step R done curr (parent_not_done spec hsplit hcr), List.flatMap_append]
    have h1 : ((done.filter (fun v => decide (R.parent v ∉ done))).filter
        (fun v => !decide (R.parent v = curr))).flatMap (flat tree') =
        ((done.filter (fun v => decide (R.parent v ∉ done))).filter
        (fun v => !decide (R.parent v = curr))).flatMap (flat tree) := by
      apply List.flatMap_congr
      intro v hv
      have hvd : v ∈ done := List.mem_of_mem_filter (List.mem_of_mem_filter hv)
      exact flat_congr hagree hvd (fun x hx => ((inv.nodes v hvd).chain_done x hx).1)
    rw [h1]
    have h2 : [curr].flatMap (flat tree') = flat tree' curr := by simp
    rw [h2]
    exact (List.perm_append_comm.trans hperm).trans (List.perm_append_singleton curr done).symm

/-- The invariant after the round of a node `curr` other than the root: its chain is the
merged list, and the first `k` entries of the chain have been contracted into it. -/
theorem node_after {tv : TensorNetwork} {root : Nat} {R : Rooted tv root}
    {T0 tree : Nat → Node} {bfs : List Nat} (spec : BfsSpec tv root R T0 bfs)
    {done rest : List Nat} {curr : Nat} (hsplit : bfs.reverse = done ++ curr :: rest)
    (hcr : curr ≠ root) (inv : LoopInv tv root R T0 tree done) (merged : List Nat)
    (hsub : ∀ c, c ∈ (T0 curr).children → List.Sublist (exposed tree c) merged)
    (hperm : merged.Perm ((T0 curr).children.flatMap (exposed tree)))
    (tree' : Nat → Node) (k : Nat)
    (hframe : ∀ x, x ≠ curr → tree' x = tree x)
    (hchain : (tree' curr).chain = merged) (hk : k ≤ merged.length)
    (hcontr : (tree' curr).contracted = k)
    (hcomp : (tree' curr).compound =
      curr :: (merged.take k).flatMap (fun x => (tree x).compound))
    (houter : (tree' curr).outerLegs =
      strictLegs tv (tree' curr).compound ^^^ BitSet.single (R.eid curr))
    (hinc : (tree' curr).incomingEdgeId = R.eid curr)
    (hch : (tree' curr).children = (T0 curr).children) :
    LoopInv tv root R T0 tree' (done ++ [curr]) := by
  obtain ⟨_, _, hcurr_nd, hcurr_lt⟩ := split_nodup spec hsplit
  obtain ⟨hm1, hm5, hm6, hm7, hm8⟩ := merged_facts spec hsplit inv merged hsub hperm
  have hagree : ∀ x, x ∈ merged → tree' x = tree x :=
    fun x hx => hframe x (fun h => hcurr_nd (h ▸ hm1 x hx))
  have hflat : flat tree' curr = curr :: merged.flatMap (fun x => (tree x).compound) := by
    unfold flat
    rw [hchain]
    congr 1
    apply List.flatMap_congr
    intro x hx
    rw [hagree x hx]
  refine LoopInv.extend spec hsplit hcr inv hframe hch ?_ ?_
  · refine ⟨hcurr_lt, hcr, ?_, ?_, houter, hinc, ?_, ?_, ?_, by rw [hflat]; exact hm6, ?_⟩
    · rw [hcontr, hchain]; exact hk
    · rw [hchain, hcontr, hcomp]
      congr 1
      apply List.flatMap_congr
      intro x hx
      rw [hagree x (List.mem_of_mem_take hx)]
    · intro h
      rw [hch]
      exact hm8 (hchain ▸ h)
    · intro x hx
      rw [hchain] at hx
      exact ⟨List.mem_append_left _ (hm1 x hx), fun h => hcurr_nd (h ▸ hm1 x hx)⟩
    · intro u hu hne
      rw [hflat] at hu ⊢
      rcases List.mem_cons.1 hu with h | h
      · exact absurd h hne
      · exact hm7 u h
    · rw [hflat]
      intro h
      have h1 := hm5.subset (List.mem_append_left _ h)
      apply parent_not_done spec hsplit hcr
      rcases List.mem_cons.1 h1 with h2 | h2
      · rw [h2]; simp
      · exact List.mem_append_left _ h2
  · rw [hflat]
    exact hm5

/-- The merge of the round of `curr` returns a list that interleaves the exposed chains of
the children. -/
theorem merge_round (H : HeapOps) {tv : TensorNetwork} {root : Nat} {R : Rooted tv root}
    {T0 tree : Nat → Node} {bfs : List Nat} (spec : BfsSpec tv root R T0 bfs)
    {done rest : List Nat} {curr : Nat} (hsplit : bfs.reverse = done ++ curr :: rest)
    (inv : LoopInv tv root R T0 tree done) (tree1 : Nat → Node)
    (hframe : ∀ x, x ≠ curr → tree1 x = tree x) :
    ∃ merged, mergeLoop H tv tree1 (T0 curr).children (mergeFuel tree1 (T0 curr).children)
        (H.makeHeap (ikkbzCmp tv tree1 (T0 curr).children (fun _ => none))
          (List.range (T0 curr).children.length), fun _ => none, []) = some merged ∧
      (∀ c, c ∈ (T0 curr).children → List.Sublist (exposed tree c) merged) ∧
      merged.Perm ((T0 curr).children.flatMap (exposed tree)) := by
  obtain ⟨_, _, hcurr_nd, _⟩ := split_nodup spec hsplit
  have hcs := fun c (hc : c ∈ (T0 curr).children) => children_done spec hsplit hc
  have hagree : ∀ c, c ∈ (T0 curr).children → tree1 c = tree c :=
    fun c hc => hframe c (fun h => hcurr_nd (h ▸ (hcs c hc).1))
  have hexp : ∀ c, c ∈ (T0 curr).children → exposed tree1 c = exposed tree c := by
    intro c hc
    unfold exposed
    rw [hagree c hc]
  have hvalid : ∀ c, c ∈ (T0 curr).children → ∀ x, x ∈ exposed tree1 c →
      (tree1 x).rankDefined tv = true := by
    intro c hc x hx
    rw [hexp c hc] at hx
    have hxd : x ∈ done := by
      rcases List.mem_cons.1 hx with h | h
      · rw [h]; exact (hcs c hc).1
      · exact ((inv.nodes c (hcs c hc).1).chain_done x (List.mem_of_mem_drop h)).1
    have ok := inv.nodes x hxd
    rw [hframe x (fun h => hcurr_nd (h ▸ hxd))]
    unfold Node.rankDefined
    rw [ok.incoming]
    exact decide_eq_true (R.eid_lt x ok.lt ok.ne_root)
  obtain ⟨merged, hrun, hsub, hperm⟩ := merge_spec H tv tree1 (T0 curr).children
    (fun c hc => by rw [hagree c hc]; exact (inv.nodes c (hcs c hc).1).contracted_le)
    (fun c hc => by rw [hagree c hc]; exact (inv.nodes c (hcs c hc).1).leaf) hvalid []
  refine ⟨merged, by simpa using hrun, ?_, ?_⟩
  · intro c hc
    rw [← hexp c hc]; exact hsub c hc
  · refine hperm.trans (List.Perm.of_eq ?_)
    apply List.flatMap_congr
    intro c hc
    exact hexp c hc

/-- The order lists every vertex once, and every vertex other than the root after its
parent. -/
def Linearises (tv : TensorNetwork) (root : Nat) (R : Rooted tv root) (order : List Nat) : Prop :=
  order.Perm (List.range tv.n) ∧
    ∀ u, u ∈ order → u ≠ root → List.Sublist [R.parent u, u] order

/-- At the root the merged list linearises all the other nodes. -/
theorem root_order {tv : TensorNetwork} {root : Nat} {R : Rooted tv root}
    {T0 tree : Nat → Node} {bfs : List Nat} (spec : BfsSpec tv root R T0 bfs)
    {done : List Nat} (hsplit : bfs.reverse = done ++ root :: [])
    (inv : LoopInv tv root R T0 tree done) (merged : List Nat)
    (hsub : ∀ c, c ∈ (T0 root).children → List.Sublist (exposed tree c) merged)
    (hperm : merged.Perm ((T0 root).children.flatMap (exposed tree))) :
    Linearises tv root R (root :: merged.flatMap (fun x => (tree x).compound)) ∧
      ∀ x, x ∈ merged → x ∈ done := by
  obtain ⟨hm1, hm5, _, hm7, _⟩ := merged_facts spec hsplit inv merged hsub hperm
  have hF : ((done.filter (fun v => decide (R.parent v ∉ done))).filter
      (fun v => !decide (R.parent v = root))) = [] := by
    rw [List.filter_eq_nil_iff]
    intro v hv
    rw [List.mem_filter, decide_eq_true_eq] at hv
    obtain ⟨hvd, hpv⟩ := hv
    have ok := inv.nodes v hvd
    have hlt := R.parent_lt v ok.lt ok.ne_root
    have hmem : R.parent v ∈ bfs.reverse :=
      List.mem_reverse.2 (spec.perm.mem_iff.2 (List.mem_range.2 hlt))
    rw [hsplit, List.mem_append, List.mem_singleton] at hmem
    rcases hmem with h | h
    · exact absurd h hpv
    · simp [h]
  rw [hF, List.flatMap_nil, List.append_nil] at hm5
  refine ⟨⟨?_, ?_⟩, hm1⟩
  · refine hm5.trans ?_
    refine (List.perm_append_singleton root done).symm.trans ?_
    rw [← hsplit]
    exact (List.reverse_perm bfs).trans spec.perm
  · intro u hu hne
    rcases List.mem_cons.1 hu with h | h
    · exact absurd h hne
    · exact hm7 u h

theorem ikkbzLoop_cons (H : HeapOps) (tv : TensorNetwork) (root curr : Nat) (rest : List Nat)
    (tree tree1 : Nat → Node)
    (h1 : tree1 = Function.update tree curr
      { tree curr with compound := (tree curr).compound ++ [curr] }) :
    ikkbzLoop H tv root (curr :: rest) tree =
      if (tree1 curr).children = [] then ikkbzLoop H tv root rest tree1
      else
        match mergeLoop H tv tree1 (tree1 curr).children (mergeFuel tree1 (tree1 curr).children)
            (H.makeHeap (ikkbzCmp tv tree1 (tree1 curr).children (fun _ => none))
              (List.range (tree1 curr).children.length), fun _ => none, (tree1 curr).chain) with
        | none => none
        | some chain =>
          if curr = root then some (Function.update tree1 curr { tree1 curr with chain := chain })
          else
            match contractLoop tv curr chain
                (Function.update (Function.update tree1 curr { tree1 curr with chain := chain })
                  curr { tree1 curr with chain := chain, contracted := 0 }) with
            | none => none
            | some tree4 => ikkbzLoop H tv root rest tree4 := by
  subst h1
  rw [ikkbzLoop]
  simp only [Function.update_same]

/-- The round of the loop for a node `curr` other than the root: it runs through and leaves
the invariant for one node more. -/
theorem ikkbz_round (H : HeapOps) {tv : TensorNetwork} {root : Nat} {R : Rooted tv root}
    {T0 tree : Nat → Node} {bfs : List Nat} (spec : BfsSpec tv root R T0 bfs)
    {done rest : List Nat} {curr : Nat} (hsplit : bfs.reverse = done ++ curr :: rest)
    (hcr : curr ≠ root) (inv : LoopInv tv root R T0 tree done) :
    ∃ tree', (∀ tail, ikkbzLoop H tv root (curr :: tail) tree = ikkbzLoop H tv root tail tree') ∧
      LoopInv tv root R T0 tree' (done ++ [curr]) := by
  obtain ⟨hnd, hdone_nd, hcurr_nd, hcurr_lt⟩ := split_nodup spec hsplit
  have hT0 : tree curr = T0 curr := inv.frame curr hcurr_nd
  obtain ⟨hfc, hfcomp, hfcontr⟩ := spec.fresh curr
  obtain ⟨tree1, htree1⟩ : ∃ t, t = Function.update tree curr
    { tree curr with compound := (tree curr).compound ++ [curr] } := ⟨_, rfl⟩
  have hframe1 : ∀ x, x ≠ curr → tree1 x = tree x := by
    intro x hx
    rw [htree1]; exact Function.update_noteq hx _ _
  have h1curr : tree1 curr = { T0 curr with compound := [curr] } := by
    rw [htree1, Function.update_same, hT0, hfcomp]; rfl
  have hch1 : (tree1 curr).children = (T0 curr).children := by rw [h1curr]
  have hchain1 : (tree1 curr).chain = [] := by rw [h1curr]; exact hfc
  have hcomp1 : (tree1 curr).compound = [curr] := by rw [h1curr]
  have hcontr1 : (tree1 curr).contracted = 0 := by rw [h1curr]; exact hfcontr
  have hfields : (tree1 curr).incomingEdgeId = R.eid curr ∧
      (tree1 curr).outerLegs =
        strictLegs tv [curr] ^^^ BitSet.single (R.eid curr) := by
    obtain ⟨h1, h2⟩ := spec.fields curr hcurr_lt hcr
    rw [h1curr, strictLegs_singleton]
    exact ⟨h1, h2⟩
  by_cases hleaf : (T0 curr).children = []
  · have hsub : ∀ c, c ∈ (T0 curr).children → List.Sublist (exposed tree c) [] := by
      intro c hc; rw [hleaf] at hc; simp at hc
    have hperm : ([] : List Nat).Perm ((T0 curr).children.flatMap (exposed tree)) := by
      rw [hleaf]; simp
    refine ⟨tree1, ?_, ?_⟩
    · intro tail
      rw [ikkbzLoop_cons H tv root curr tail tree tree1 htree1, hch1, if_pos hleaf]
    · exact node_after spec hsplit hcr inv [] hsub hperm tree1 0 hframe1 hchain1 (le_refl _)
        hcontr1 (by rw [hcomp1]; simp) (by rw [hcomp1]; exact hfields.2) hfields.1 hch1
  · obtain ⟨merged, hrun, hsub, hperm⟩ := merge_round H spec hsplit inv tree1 hframe1
    obtain ⟨hm1, _, hm6, hm7, _⟩ := merged_facts spec hsplit inv merged hsub hperm
    obtain ⟨tree3, htree3⟩ : ∃ t, t = Function.update
        (Function.update tree1 curr { tree1 curr with chain := merged })
        curr { tree1 curr with chain := merged, contracted := 0 } := ⟨_, rfl⟩
    have hframe3 : ∀ x, x ≠ curr → tree3 x = tree x := by
      intro x hx
      rw [htree3, Function.update_noteq hx, Function.update_noteq hx, hframe1 x hx]
    have h3curr : tree3 curr = { tree1 curr with chain := merged, contracted := 0 } := by
      rw [htree3, Function.update_same]
    have hcongr : merged.flatMap (fun x => (tree3 x).compound) =
        merged.flatMap (fun x => (tree x).compound) := by
      apply List.flatMap_congr
      intro x hx
      rw [hframe3 x (fun h => hcurr_nd (h ▸ hm1 x hx))]
    obtain ⟨tree4, k, hrun4, hfr4, hk, hcontr, hcomp, houter, hchain, hchildren, hinc⟩ :=
      contractLoop_spec tv R tree3 curr merged hcurr_lt hcr
        (by
          intro x hx
          have hxd := hm1 x hx
          have hne : x ≠ curr := fun h => hcurr_nd (h ▸ hxd)
          have ok := inv.nodes x hxd
          rw [hframe3 x hne]
          exact ⟨hne, ok.lt, ok.ne_root, ok.incoming, ok.outer, ok.compound_head⟩)
        (by rw [hcongr]; exact hm6)
        (by
          intro x hx
          rw [hcongr]
          apply hm7
          rw [List.mem_flatMap]
          obtain ⟨tl, htl⟩ := (inv.nodes x (hm1 x hx)).compound_head
          exact ⟨x, hx, by rw [htl]; simp⟩)
        merged [] tree3 rfl (fun _ _ => rfl)
        (by rw [h3curr]; simp [hcomp1])
        (by rw [h3curr]; dsimp only; rw [hcomp1]; exact hfields.2)
        (by rw [h3curr]; exact hfields.1)
    refine ⟨tree4, ?_, ?_⟩
    · intro tail
      rw [ikkbzLoop_cons H tv root curr tail tree tree1 htree1, hch1, hchain1, if_neg hleaf,
        hrun]
      dsimp only
      rw [if_neg hcr, ← htree3, hrun4]
    · refine node_after spec hsplit hcr inv merged hsub hperm tree4 k
        (fun x hx => by rw [hfr4 x hx, hframe3 x hx]) ?_ hk ?_ ?_ houter ?_ ?_
      · rw [hchain, h3curr]
      · rw [hcontr, h3curr]; simp
      · rw [hcomp, List.nil_append]
        congr 1
        apply List.flatMap_congr
        intro x hx
        rw [hframe3 x (fun h => hcurr_nd (h ▸ hm1 x (List.mem_of_mem_take hx)))]
      · rw [hinc, h3curr]; exact hfields.1
      · rw [hchildren, h3curr]; exact hch1

/-- The round of the loop for the root, which is the last one: the chain it leaves at the root
linearises the tree, and no node changes its outer legs or its incoming edge. -/
theorem ikkbz_root_round (H : HeapOps) {tv : TensorNetwork} {root : Nat} {R : Rooted tv root}
    {T0 tree : Nat → Node} {bfs : List Nat} (spec : BfsSpec tv root R T0 bfs)
    {done : List Nat} (hsplit : bfs.reverse = done ++ root :: [])
    (inv : LoopInv tv root R T0 tree done) :
    ∃ tree', ikkbzLoop H tv root [root] tree = some tree' ∧
      Linearises tv root R
        (root :: (tree' root).chain.flatMap (fun x => (tree' x).compound)) ∧
      ∀ v, (tree' v).outerLegs = (tree v).outerLegs ∧
        (tree' v).incomingEdgeId = (tree v).incomingEdgeId := by
  obtain ⟨hnd, hdone_nd, hcurr_nd, hcurr_lt⟩ := split_nodup spec hsplit
  have hT0 : tree root = T0 root := inv.frame root hcurr_nd
  obtain ⟨hfc, hfcomp, hfcontr⟩ := spec.fresh root
  obtain ⟨tree1, htree1⟩ : ∃ t, t = Function.update tree root
    { tree root with compound := (tree root).compound ++ [root] } := ⟨_, rfl⟩
  have hframe1 : ∀ x, x ≠ root → tree1 x = tree x := by
    intro x hx
    rw [htree1]; exact Function.update_noteq hx _ _
  have h1curr : tree1 root = { tree root with compound := [root] } := by
    rw [htree1, Function.update_same, hT0, hfcomp]; rfl
  have hch1 : (tree1 root).children = (T0 root).children := by rw [h1curr, hT0]
  have hchain1 : (tree1 root).chain = [] := by rw [h1curr, hT0]; exact hfc
  have hsame1 : ∀ v, (tree1 v).outerLegs = (tree v).outerLegs ∧
      (tree1 v).incomingEdgeId = (tree v).incomingEdgeId := by
    intro v
    by_cases hv : v = root
    · rw [hv, h1curr]; exact ⟨rfl, rfl⟩
    · rw [hframe1 v hv]; exact ⟨rfl, rfl⟩
  rw [ikkbzLoop_cons H tv root root [] tree tree1 htree1, hch1, hchain1]
  by_cases hleaf : (T0 root).children = []
  · rw [if_pos hleaf]
    have hsub : ∀ c, c ∈ (T0 root).children → List.Sublist (exposed tree c) [] := by
      intro c hc; rw [hleaf] at hc; simp at hc
    have hperm : ([] : List Nat).Perm ((T0 root).children.flatMap (exposed tree)) := by
      rw [hleaf]; simp
    refine ⟨tree1, by rw [ikkbzLoop], ?_, hsame1⟩
    rw [hchain1]
    exact (root_order spec hsplit inv [] hsub hperm).1
  · rw [if_neg hleaf]
    obtain ⟨merged, hrun, hsub, hperm⟩ := merge_round H spec hsplit inv tree1 hframe1
    rw [hrun]
    dsimp only
    rw [if_pos rfl]
    obtain ⟨hp, hm1⟩ := root_order spec hsplit inv merged hsub hperm
    refine ⟨_, rfl, ?_, ?_⟩
    · rw [Function.update_same]
      dsimp only
      refine Eq.mpr (congrArg (Linearises tv root R) ?_) hp
      congr 1
      apply List.flatMap_congr
      intro x hx
      have hne : x ≠ root := fun h => hcurr_nd (h ▸ hm1 x hx)
      rw [Function.update_noteq hne, hframe1 x hne]
    · intro v
      by_cases hv : v = root
      · rw [hv, Function.update_same]
        exact hsame1 root
      · rw [Function.update_noteq hv]
        exact hsame1 v

/-- The rounds of a stretch of nodes before the root run through and leave the invariant. -/
theorem ikkbzLoop_prefix (H : HeapOps) {tv : TensorNetwork} {root : Nat} {R : Rooted tv root}
    {T0 : Nat → Node} {bfs : List Nat} (spec : BfsSpec tv root R T0 bfs) :
    ∀ (mid pre rest : List Nat) (tree : Nat → Node), bfs.reverse = pre ++ (mid ++ rest) →
      rest ≠ [] → LoopInv tv root R T0 tree pre →
      ∃ tree', (∀ tail, ikkbzLoop H tv root (mid ++ tail) tree = ikkbzLoop H tv root tail tree') ∧
        LoopInv tv root R T0 tree' (pre ++ mid) := by
  intro mid
  induction mid with
  | nil =>
    intro pre rest tree _ _ inv
    exact ⟨tree, fun _ => rfl, by simpa using inv⟩
  | cons curr mid ih =>
    intro pre rest tree hsplit hrest inv
    have hsplit' : bfs.reverse = pre ++ curr :: (mid ++ rest) := by
      rw [hsplit]; rfl
    have hcr : curr ≠ root := by
      intro h
      have := (root_last spec hsplit').1 h
      exact hrest (List.append_eq_nil.1 this).2
    obtain ⟨tree1, hrun1, inv1⟩ := ikkbz_round H spec hsplit' hcr inv
    obtain ⟨tree', hrun', inv'⟩ := ih (pre ++ [curr]) rest tree1
      (by rw [hsplit]; simp) hrest inv1
    refine ⟨tree', ?_, by simpa using inv'⟩
    intro tail
    rw [List.cons_append, hrun1, hrun']

/-- The loop of `runLocalTensorIKKBZ` runs through: the rounds before the root leave the
invariant, and the chain the last round leaves at the root linearises the tree. -/
theorem ikkbzLoop_spec (H : HeapOps) {tv : TensorNetwork} {root : Nat} {R : Rooted tv root}
    {T0 : Nat → Node} {bfs : List Nat} (spec : BfsSpec tv root R T0 bfs) :
    ∃ done tree tree', bfs.reverse = done ++ [root] ∧
      ikkbzLoop H tv root done T0 = some tree ∧ LoopInv tv root R T0 tree done ∧
      ikkbzLoop H tv root bfs.reverse T0 = some tree' ∧
      Linearises tv root R
        (root :: (tree' root).chain.flatMap (fun x => (tree' x).compound)) ∧
      ∀ v, (tree' v).outerLegs = (tree v).outerLegs ∧
        (tree' v).incomingEdgeId = (tree v).incomingEdgeId := by
  obtain ⟨tl, htl⟩ : ∃ tl, bfs = root :: tl := by
    have := spec.head
    cases bfs with
    | nil => simp at this
    | cons a tl =>
      simp only [List.head?_cons, Option.some.injEq] at this
      exact ⟨tl, by rw [this]⟩
  have hrev : bfs.reverse = tl.reverse ++ [root] := by rw [htl, List.reverse_cons]
  have inv0 : LoopInv tv root R T0 T0 [] :=
    ⟨fun _ _ => rfl, fun _ => rfl, fun v hv => by simp at hv, by simp⟩
  obtain ⟨tree, hrun, inv⟩ := ikkbzLoop_prefix H spec tl.reverse [] [root] T0
    (by rw [hrev]; rfl) (by simp) inv0
  simp only [List.nil_append] at inv
  obtain ⟨tree', hrun', hlin, hsame⟩ := ikkbz_root_round H spec hrev inv
  refine ⟨tl.reverse, tree, tree', hrev, ?_, inv, ?_, hlin, hsame⟩
  · have := hrun []
    rw [List.append_nil] at this
    rw [this, ikkbzLoop]
  · rw [hrev, hrun [root], hrun']

/-- The function `runLocalTensorIKKBZ` returns, and its order linearises the tree view rooted
at `root`. -/
theorem runLocalTensorIKKBZ_spec (H : HeapOps) (net tv : TensorNetwork) (hn : net.n = tv.n)
    {root : Nat} (R : Rooted tv root) (hroot : root < tv.n) :
    ∃ order, runLocalTensorIKKBZ H net tv root = some (net.computeLinearCost order, order) ∧
      Linearises tv root R order ∧ order.head? = some root := by
  obtain ⟨T0, bfs, hpg, spec⟩ := precedenceGraph_spec net tv hn R hroot
  obtain ⟨_, _, tree', _, _, _, hrun, hlin, _⟩ := ikkbzLoop_spec H spec
  refine ⟨_, ?_, hlin, rfl⟩
  unfold runLocalTensorIKKBZ
  simp only [hpg, hrun]
  rw [if_pos]
  rw [hlin.1.length_eq, List.length_range, hn]

/-! ### The order of TensorIKKBZ and the dominance of LinDP -/

theorem path4_connected : path4.Connected := by
  have h01 : path4.Adjacent 0 1 := ⟨0, by decide, Or.inl rfl⟩
  have h10 : path4.Adjacent 1 0 := ⟨0, by decide, Or.inr rfl⟩
  have h12 : path4.Adjacent 1 2 := ⟨1, by decide, Or.inl rfl⟩
  have h21 : path4.Adjacent 2 1 := ⟨1, by decide, Or.inr rfl⟩
  have h23 : path4.Adjacent 2 3 := ⟨2, by decide, Or.inl rfl⟩
  have h32 : path4.Adjacent 3 2 := ⟨2, by decide, Or.inr rfl⟩
  intro u v hu hv
  have hu' : u = 0 ∨ u = 1 ∨ u = 2 ∨ u = 3 := by
    have : u < 4 := hu
    omega
  have hv' : v = 0 ∨ v = 1 ∨ v = 2 ∨ v = 3 := by
    have : v < 4 := hv
    omega
  rcases hu' with rfl | rfl | rfl | rfl <;> rcases hv' with rfl | rfl | rfl | rfl <;>
    first
    | exact Relation.ReflTransGen.refl
    | exact Relation.ReflTransGen.single h01
    | exact Relation.ReflTransGen.single h10
    | exact Relation.ReflTransGen.single h12
    | exact Relation.ReflTransGen.single h21
    | exact Relation.ReflTransGen.single h23
    | exact Relation.ReflTransGen.single h32
    | exact (Relation.ReflTransGen.single h01).tail h12
    | exact (Relation.ReflTransGen.single h21).tail h10
    | exact (Relation.ReflTransGen.single h12).tail h23
    | exact (Relation.ReflTransGen.single h32).tail h21
    | exact ((Relation.ReflTransGen.single h01).tail h12).tail h23
    | exact ((Relation.ReflTransGen.single h32).tail h21).tail h10

/-- The path of four vertices is its own spanning tree. -/
theorem path4_spanning : path4.IsSpanningTree := by
  refine ⟨rfl, ?_, path4_connected⟩
  intro e he
  have : e = 0 ∨ e = 1 ∨ e = 2 := by
    have : e < 3 := he
    omega
  rcases this with rfl | rfl | rfl <;> decide

/-- In a list without repetitions, the first entry of a sublist of two entries stands at a
lower position than the second. -/
theorem sublist_pair_index {a : Nat} {σ : List Nat} (hnd : σ.Nodup) (i : Nat)
    (hi : i < σ.length) (h : List.Sublist [a, σ.getD i 0] σ) :
    ∃ j, j < i ∧ σ.getD j 0 = a := by
  have hsplit : σ.take i ++ σ.getD i 0 :: σ.drop (i + 1) = σ := by
    rw [List.getD_eq_getElem _ _ hi, List.getElem_cons_drop, List.take_append_drop]
  have hmem : a ∈ σ.take i :=
    sublist_pair_mem_left (by rw [hsplit]; exact hnd) (by rw [hsplit]; exact h)
  obtain ⟨j, hj, hja⟩ := List.getElem_of_mem hmem
  rw [List.length_take] at hj
  rw [List.getElem_take] at hja
  exact ⟨j, by omega, by rw [List.getD_eq_getElem _ _ (by omega)]; exact hja⟩

/-- C5 (TensorIKKBZ returns a permutation that starts at the root).  For every tree view `tv`
on the vertices of the network that is a spanning tree, and every root `r` below `n`,
`runLocalTensorIKKBZ` returns (the assertions of the constructor, of the set operations `+`
and `-`, of the merge, and `ptr == n` all hold), and the order it returns is a permutation of
`0, …, n - 1` whose first element is `r`. -/
theorem ikkbz_order_permutation (H : HeapOps) (net tv : TensorNetwork) (hn : net.n = tv.n)
    (htree : tv.IsSpanningTree) (root : Nat) (hroot : root < tv.n) :
    ∃ cost order, runLocalTensorIKKBZ H net tv root = some (cost, order) ∧
      order.Perm (List.range net.n) ∧ order.head? = some root := by
  obtain ⟨R⟩ := exists_rooted tv htree root hroot
  obtain ⟨order, hrun, hlin, hhead⟩ := runLocalTensorIKKBZ_spec H net tv hn R hroot
  exact ⟨_, order, hrun, by rw [hn]; exact hlin.1, hhead⟩

/-- The statement of `ikkbz_order_permutation` on the path of four vertices, which is its own
tree view, rooted at the vertex 1, with the heap that keeps its range sorted. -/
theorem ikkbz_order_permutation_witness :
    ∃ cost order, runLocalTensorIKKBZ sortHeap path4 path4 1 = some (cost, order) ∧
      order.Perm (List.range path4.n) ∧ order.head? = some 1 :=
  ikkbz_order_permutation sortHeap path4 path4 rfl path4_spanning 1 (by decide)

/-- The function `isTree()`: `reach(0, tmp, fill(n))`, then `tmp.size() == n` and
`edgeInfo.size() == n - 1`, the subtraction being that of `unsigned`. -/
def TensorNetwork.isTree (net : TensorNetwork) : Option Bool :=
  match reach net (BitSet.fill net.n) (net.n + 1) 0 0 with
  | none => none
  | some tmp =>
    some (decide (BitSet.size tmp = net.n) &&
      decide (net.edgeInfo.length = (net.n + 2 ^ 32 - 1) % 2 ^ 32))

/-- The path on three vertices: edges `(0,1)` and `(1,2)` of dimensions 2 and 3, followed by
the three open legs. -/
def path3 : TensorNetwork :=
  ⟨3, 2, [⟨2, (0, 1)⟩, ⟨3, (1, 2)⟩, ⟨1, (0, 0)⟩, ⟨1, (0, 0)⟩, ⟨1, (0, 0)⟩], [1, 1, 1]⟩

theorem path3_connected : path3.Connected := by
  have h01 : path3.Adjacent 0 1 := ⟨0, by decide, Or.inl rfl⟩
  have h10 : path3.Adjacent 1 0 := ⟨0, by decide, Or.inr rfl⟩
  have h12 : path3.Adjacent 1 2 := ⟨1, by decide, Or.inl rfl⟩
  have h21 : path3.Adjacent 2 1 := ⟨1, by decide, Or.inr rfl⟩
  intro u v hu hv
  have hu' : u = 0 ∨ u = 1 ∨ u = 2 := by
    have : u < 3 := hu
    omega
  have hv' : v = 0 ∨ v = 1 ∨ v = 2 := by
    have : v < 3 := hv
    omega
  rcases hu' with rfl | rfl | rfl <;> rcases hv' with rfl | rfl | rfl <;>
    first
    | exact Relation.ReflTransGen.refl
    | exact Relation.ReflTransGen.single h01
    | exact Relation.ReflTransGen.single h10
    | exact Relation.ReflTransGen.single h12
    | exact Relation.ReflTransGen.single h21
    | exact (Relation.ReflTransGen.single h01).tail h12
    | exact (Relation.ReflTransGen.single h21).tail h10

/-- On a network as the constructors build it, with `m + n` entries in `edgeInfo`, the
comparison `edgeInfo.size() == n - 1` of `isTree` is false. -/
theorem isTree_false (net : TensorNetwork) (hlen : net.edgeInfo.length = net.m + net.n)
    (hn : 0 < net.n) (hn32 : net.n < 2 ^ 32) : net.isTree = some false := by
  have hμ : reachMeasure (BitSet.fill net.n) (0 ||| BitSet.single 0) < net.n + 1 := by
    have := Finset.card_le_card (Finset.sdiff_subset (s := BitSet.toFinset (BitSet.fill net.n))
      (t := BitSet.toFinset (0 ||| BitSet.single 0)))
    rw [← BitSet.size_eq_card, BitSet.size_fill] at this
    unfold reachMeasure
    omega
  obtain ⟨cum, hcum, _⟩ := reach_spec net (BitSet.fill net.n) _ 0 0 (Nat.zero_testBit _) hμ
  unfold TensorNetwork.isTree
  rw [hcum]
  have h1 : (net.n + 2 ^ 32 - 1) % 2 ^ 32 = net.n - 1 := by omega
  have h2 : ¬ net.edgeInfo.length = (net.n + 2 ^ 32 - 1) % 2 ^ 32 := by
    rw [h1, hlen]; omega
  rw [decide_eq_false h2]
  simp only [Bool.and_false]

/-- C36, on the code: the path on three vertices with two edges is connected and has
`m = n - 1`, and `isTree` returns false on it, because it compares `edgeInfo.size()`, which
counts the `n` open legs too, with `n - 1`. -/
theorem isTree_rejects_path :
    path3.Connected ∧ path3.m = path3.n - 1 ∧ path3.edgeInfo.length = path3.m + path3.n ∧
      path3.isTree = some false :=
  ⟨path3_connected, rfl, rfl, isTree_false path3 rfl (by decide) (by decide)⟩


/-! ## The scenarios S1, S2 and S3 -/

/-- A tree with three leaves is `((a b) c)` or `(a (b c))`. -/
theorem BTree.three_leaves (T : BTree) (h : T.leaves.length = 3) :
    ∃ a b c, T = BTree.node (BTree.node (BTree.leaf a) (BTree.leaf b)) (BTree.leaf c) ∨
      T = BTree.node (BTree.leaf a) (BTree.node (BTree.leaf b) (BTree.leaf c)) := by
  have hpos : ∀ S : BTree, 0 < S.leaves.length := by
    intro S
    induction S with
    | leaf v => simp [BTree.leaves]
    | node l r ihl _ => simp only [BTree.leaves, List.length_append]; omega
  have hone : ∀ S : BTree, S.leaves.length = 1 → ∃ v, S = BTree.leaf v := by
    intro S hS
    cases S with
    | leaf v => exact ⟨v, rfl⟩
    | node l r =>
      simp only [BTree.leaves, List.length_append] at hS
      have := hpos l
      have := hpos r
      omega
  have htwo : ∀ S : BTree, S.leaves.length = 2 →
      ∃ v w, S = BTree.node (BTree.leaf v) (BTree.leaf w) := by
    intro S hS
    cases S with
    | leaf v => simp [BTree.leaves] at hS
    | node l r =>
      simp only [BTree.leaves, List.length_append] at hS
      have hl := hpos l
      have hr := hpos r
      obtain ⟨v, rfl⟩ := hone l (by omega)
      obtain ⟨w, rfl⟩ := hone r (by omega)
      exact ⟨v, w, rfl⟩
  cases T with
  | leaf v => simp [BTree.leaves] at h
  | node l r =>
    simp only [BTree.leaves, List.length_append] at h
    have hl := hpos l
    have hr := hpos r
    by_cases h1 : l.leaves.length = 1
    · obtain ⟨a, rfl⟩ := hone l h1
      obtain ⟨b, c, rfl⟩ := htwo r (by omega)
      exact ⟨a, b, c, Or.inr rfl⟩
    · obtain ⟨a, b, rfl⟩ := htwo l (by omega)
      obtain ⟨c, rfl⟩ := hone r (by omega)
      exact ⟨a, b, c, Or.inl rfl⟩

/-- C32, as the code has it (scenario S1, the triangle): `computeContractionCost({0},{2})` is
60, the product over the union of the legs, which counts the summed edge `(0,2)` too;
`computeContractionCost({0,2},{1})` is 20; and the minimum total cost over all contraction
orders, the binary trees over the three vertices, is 72, reached by contracting 1 and 2 first
(cost 60) and the result with 0 (cost 12). -/
theorem triangle_costs (T : BTree) (hT : T.leaves.Perm [0, 1, 2]) :
    triangle.computeContractionCost (BitSet.single 0) (BitSet.single 2) = 60 ∧
    triangle.computeContractionCost (BitSet.single 0 ||| BitSet.single 2) (BitSet.single 1) = 20 ∧
    72 ≤ T.cost triangle ∧
    (BTree.node (BTree.leaf 0) (BTree.node (BTree.leaf 1) (BTree.leaf 2))).cost triangle = 72 := by
  refine ⟨by decide!, by decide!, ?_, by decide!⟩
  have key : ∀ l, l ∈ [0, 1, 2].permutations' → ∀ a b c, l = [a, b, c] →
      72 ≤ (BTree.node (BTree.node (BTree.leaf a) (BTree.leaf b)) (BTree.leaf c)).cost triangle ∧
      72 ≤ (BTree.node (BTree.leaf a) (BTree.node (BTree.leaf b) (BTree.leaf c))).cost
        triangle := by
    have hp : [0, 1, 2].permutations' =
        [[0, 1, 2], [1, 0, 2], [1, 2, 0], [0, 2, 1], [2, 0, 1], [2, 1, 0]] := by decide
    rw [hp]
    intro l hl a b c habc
    subst habc
    simp only [List.mem_cons, List.cons.injEq, and_true, List.mem_singleton, List.not_mem_nil,
      or_false] at hl
    rcases hl with h | h | h | h | h | h <;> obtain ⟨rfl, rfl, rfl⟩ := h <;>
      constructor <;> decide!
  obtain ⟨a, b, c, h | h⟩ := T.three_leaves (by rw [hT.length_eq]; rfl)
  all_goals
    subst h
    simp only [BTree.leaves, List.singleton_append, List.cons_append, List.nil_append] at hT
    have hmem := (List.mem_permutations' (s := [a, b, c]) (t := [0, 1, 2])).2 hT
  · exact (key _ hmem a b c rfl).1
  · exact (key _ hmem a b c rfl).2

/-- The statement of `triangle_costs` on the tree `((0 2) 1)` of the scenario, which costs
80. -/
theorem triangle_costs_witness :
    triangle.computeContractionCost (BitSet.single 0) (BitSet.single 2) = 60 ∧
    triangle.computeContractionCost (BitSet.single 0 ||| BitSet.single 2) (BitSet.single 1) = 20 ∧
    72 ≤ (BTree.node (BTree.node (BTree.leaf 0) (BTree.leaf 2)) (BTree.leaf 1)).cost triangle ∧
    (BTree.node (BTree.leaf 0) (BTree.node (BTree.leaf 1) (BTree.leaf 2))).cost triangle = 72 :=
  triangle_costs (BTree.node (BTree.node (BTree.leaf 0) (BTree.leaf 2)) (BTree.leaf 1))
    (by decide)

/-- C32, the claim as stated, fails: on the triangle `computeContractionCost({0},{2})` is 60,
not 20, and the order of the scenario, 0 with 2 and then with 1, costs 80, not 40. -/
theorem triangle_cost_not_20 :
    triangle.computeContractionCost (BitSet.single 0) (BitSet.single 2) ≠ 20 ∧
    (BTree.node (BTree.node (BTree.leaf 0) (BTree.leaf 2)) (BTree.leaf 1)).cost triangle = 80 := by
  constructor <;> decide!

/-- C33, as the code has it (scenario S2, the path of four): `computeLinearCost([0,1,2,3])`
is `6 + 12 + 4 = 22`, and `runLocalLinDP` on `[0,1,2,3]` returns the right-deep tree
`(0 (1 (2 3)))` with cost `12 + 6 + 2 = 20`. -/
theorem path4_linDP :
    path4.computeLinearCost [0, 1, 2, 3] = 22 ∧
    runLocalLinDP path4 [0, 1, 2, 3] = some (20,
      [⟨0, NIL, NIL⟩, ⟨1, NIL, NIL⟩, ⟨2, NIL, NIL⟩, ⟨3, NIL, NIL⟩, ⟨2, 2, 3⟩, ⟨1, 1, 4⟩,
        ⟨0, 0, 5⟩]) ∧
    RangeTree [⟨0, NIL, NIL⟩, ⟨1, NIL, NIL⟩, ⟨2, NIL, NIL⟩, ⟨3, NIL, NIL⟩, ⟨2, 2, 3⟩,
        ⟨1, 1, 4⟩, ⟨0, 0, 5⟩] 6
      (BTree.node (BTree.leaf 0) (BTree.node (BTree.leaf 1)
        (BTree.node (BTree.leaf 2) (BTree.leaf 3)))) := by
  refine ⟨by decide!, by decide!, ?_⟩
  have hnil : ∀ k, k < 7 → k ≠ NIL := by
    intro k hk h
    unfold NIL at h
    omega
  exact RangeTree.node 6 0 0 5 _ _ rfl (hnil 0 (by decide)) (by decide) (by decide)
    (RangeTree.leaf 0 0 rfl)
    (RangeTree.node 5 1 1 4 _ _ rfl (hnil 1 (by decide)) (by decide) (by decide)
      (RangeTree.leaf 1 1 rfl)
      (RangeTree.node 4 2 2 3 _ _ rfl (hnil 2 (by decide)) (by decide) (by decide)
        (RangeTree.leaf 2 2 rfl) (RangeTree.leaf 3 3 rfl)))

/-- C33, the claim as stated, fails: on the path of four `runLocalLinDP` does not return the
cost 22, and its solution is not the left-deep tree that `runDummy` builds. -/
theorem path4_linDP_not_linear :
    (runLocalLinDP path4 [0, 1, 2, 3]).map (fun r => r.1) ≠ some 22 ∧
    (runLocalLinDP path4 [0, 1, 2, 3]).map (fun r => r.2) ≠
      some (runDummy [0, 1, 2, 3] 22).2 := by
  constructor <;> decide!

/-- The star of scenario S3: centre 0, edges `(0,i)` of dimension 2 for `i = 1, …, 4`. -/
def star5 : TensorNetwork :=
  ⟨5, 4, [⟨2, (0, 1)⟩, ⟨2, (0, 2)⟩, ⟨2, (0, 3)⟩, ⟨2, (0, 4)⟩, ⟨1, (0, 0)⟩, ⟨1, (0, 0)⟩,
    ⟨1, (0, 0)⟩, ⟨1, (0, 0)⟩, ⟨1, (0, 0)⟩], [1, 1, 1, 1, 1]⟩

/-- C34, as the code has it (scenario S3, the star of five): the linear cost of an order
depends on the position of the centre: 30 when the centre is the first, the second or the
fourth vertex, 26 when it is the third, 44 when it is the last. -/
theorem star_linear_costs (σ : List Nat) (hσ : σ.Perm [0, 1, 2, 3, 4]) :
    star5.computeLinearCost σ =
      if σ.indexOf 0 = 2 then 26 else if σ.indexOf 0 = 4 then 44 else 30 := by
  have key : ∀ l, l ∈ [0, 1, 2, 3, 4].permutations' → star5.computeLinearCost l =
      if l.indexOf 0 = 2 then 26 else if l.indexOf 0 = 4 then 44 else 30 := by
    decide!
  exact key σ (List.mem_permutations'.2 hσ)

/-- The statement of `star_linear_costs` on the order `[1, 2, 0, 3, 4]`, which costs
`4 + 16 + 4 + 2 = 26`. -/
theorem star_linear_costs_witness :
    star5.computeLinearCost [1, 2, 0, 3, 4] =
      if [1, 2, 0, 3, 4].indexOf 0 = 2 then 26
      else if [1, 2, 0, 3, 4].indexOf 0 = 4 then 44 else 30 :=
  star_linear_costs [1, 2, 0, 3, 4] (by decide)

/-- C34, the claim as stated, fails: the order `[0, 1, 2, 3, 4]` of the star costs
`16 + 8 + 4 + 2 = 30`, not 60, and the orders are not equivalent: `[1, 2, 0, 3, 4]` costs 26
and `[1, 2, 3, 4, 0]` costs 44. -/
theorem star_cost_not_60 :
    star5.computeLinearCost [0, 1, 2, 3, 4] = 30 ∧
    star5.computeLinearCost [0, 1, 2, 3, 4] ≠ 60 ∧
    star5.computeLinearCost [1, 2, 0, 3, 4] = 26 ∧
    star5.computeLinearCost [1, 2, 3, 4, 0] = 44 := by
  refine ⟨?_, ?_, ?_, ?_⟩ <;> decide!


/-! ## Parallel edges and the neighbour sets -/

/-- C37, on the code: on the network with the two parallel edges `(0,1)`, `initGraphStructure`
with the initialisation of the neighbour sets succeeds over `BitSet64`, whose `insert` checks
nothing, and fails in the wider variants: there the second `N[0].insert(1)` meets
`assert(!count(v))` of `BitSet<N>::insert`. The same happens in `updateSubgraph` when the
contraction of `{2}` leaves the two parallel edges of a network on three vertices in place. -/
theorem parallel_edges_wide_assert :
    (initGraphStructure false parallelNet (fun _ => 0) true).isSome = true ∧
    (initGraphStructure true parallelNet (fun _ => 0) true).isSome = false ∧
    (updateSubgraph false
      ⟨3, 2, [⟨2, (0, 1)⟩, ⟨3, (0, 1)⟩, ⟨1, (0, 0)⟩, ⟨1, (0, 0)⟩, ⟨1, (0, 0)⟩], [1, 1, 1]⟩
      (BitSet.single 2)).isSome = true ∧
    (updateSubgraph true
      ⟨3, 2, [⟨2, (0, 1)⟩, ⟨3, (0, 1)⟩, ⟨1, (0, 0)⟩, ⟨1, (0, 0)⟩, ⟨1, (0, 0)⟩], [1, 1, 1]⟩
      (BitSet.single 2)).isSome = false := by
  refine ⟨?_, ?_, ?_, ?_⟩ <;> decide!


/-! ### The precedence of the TensorIKKBZ order -/

/-- In an order that lists every vertex after its parent, every vertex of a prefix is joined
to the root by tree edges inside the prefix. -/
theorem prefix_path {tv : TensorNetwork} {root : Nat} (R : Rooted tv root) (σ : List Nat)
    (hlin : Linearises tv root R σ) (hhead : σ.head? = some root) (k : Nat) :
    ∀ i, i < k → i < σ.length →
      Relation.ReflTransGen
        (fun a b => tv.Adjacent a b ∧ (listSet (σ.take k)).testBit a = true ∧
          (listSet (σ.take k)).testBit b = true) root (σ.getD i 0) := by
  have hnd : σ.Nodup := hlin.1.nodup_iff.2 (List.nodup_range _)
  have h0 : σ.getD 0 0 = root := by
    cases σ with
    | nil => simp at hhead
    | cons a tl => simpa using hhead
  have hin : ∀ j, j < k → j < σ.length → (listSet (σ.take k)).testBit (σ.getD j 0) = true := by
    intro j hj hjl
    rw [testBit_listSet, decide_eq_true_eq, List.getD_eq_getElem _ _ hjl,
      List.mem_take_iff_getElem]
    exact ⟨j, by simp; omega, rfl⟩
  intro i
  induction i using Nat.strong_induction_on with
  | _ i ih =>
    intro hik hil
    by_cases hi0 : i = 0
    · rw [hi0, h0]
    · have hne : σ.getD i 0 ≠ root := by
        rw [← h0, List.getD_eq_getElem _ _ hil, List.getD_eq_getElem _ _ (by omega)]
        intro h
        have := (List.Nodup.getElem_inj_iff hnd).1 h
        omega
      have hmem : σ.getD i 0 ∈ σ := by
        rw [List.getD_eq_getElem _ _ hil]; exact List.getElem_mem hil
      have hlt : σ.getD i 0 < tv.n := List.mem_range.1 (hlin.1.mem_iff.1 hmem)
      obtain ⟨j, hj, hja⟩ := sublist_pair_index hnd i hil (hlin.2 _ hmem hne)
      refine (ih j hj (by omega) (by omega)).tail ⟨?_, hin j (by omega) (by omega), hin i hik hil⟩
      rw [hja]
      refine ⟨R.eid (σ.getD i 0), R.eid_lt _ hlt hne, ?_⟩
      rcases R.eid_ends _ hlt hne with h | h
      · exact Or.inr h
      · exact Or.inl h

/-- C38 (the TensorIKKBZ order respects the precedence tree).  For every tree view that is a
spanning tree and every root `r`, `runLocalTensorIKKBZ` returns an order in which, for every
presentation `R` of the tree rooted at `r`, every vertex other than `r` stands at a position
after that of its parent `R.parent`, and every non-empty prefix of which induces a connected
subgraph of the tree. -/
theorem ikkbz_respects_precedence (H : HeapOps) (net tv : TensorNetwork) (hn : net.n = tv.n)
    (htree : tv.IsSpanningTree) (root : Nat) (hroot : root < tv.n) :
    ∃ cost order, runLocalTensorIKKBZ H net tv root = some (cost, order) ∧
      (∀ (R : Rooted tv root) (i : Nat), i < order.length → order.getD i 0 ≠ root →
        ∃ j, j < i ∧ order.getD j 0 = R.parent (order.getD i 0)) ∧
      (∀ k, 0 < k → tv.InducedConnected (listSet (order.take k))) := by
  obtain ⟨R0⟩ := exists_rooted tv htree root hroot
  obtain ⟨σ, hrun, hlin, hhead⟩ := runLocalTensorIKKBZ_spec H net tv hn R0 hroot
  have hnd : σ.Nodup := hlin.1.nodup_iff.2 (List.nodup_range _)
  have hlen : σ.length = tv.n := by rw [hlin.1.length_eq, List.length_range]
  refine ⟨_, σ, hrun, ?_, ?_⟩
  · intro R i hi hne
    obtain ⟨σ', hrun', hlin', _⟩ := runLocalTensorIKKBZ_spec H net tv hn R hroot
    rw [hrun] at hrun'
    have e : σ = σ' := (Prod.mk.inj (Option.some.inj hrun')).2
    rw [← e] at hlin'
    have hmem : σ.getD i 0 ∈ σ := by
      rw [List.getD_eq_getElem _ _ hi]; exact List.getElem_mem hi
    exact sublist_pair_index hnd i hi (hlin'.2 _ hmem hne)
  · intro k hk v hv
    rw [testBit_listSet, decide_eq_true_eq] at hv
    have hsym : Symmetric (fun a b => tv.Adjacent a b ∧
        (listSet (σ.take k)).testBit a = true ∧ (listSet (σ.take k)).testBit b = true) := by
      rintro a b ⟨⟨e, he, h⟩, ha, hb⟩
      exact ⟨⟨e, he, h.symm⟩, hb, ha⟩
    have hpath : ∀ w, w ∈ σ.take k → Relation.ReflTransGen
        (fun a b => tv.Adjacent a b ∧ (listSet (σ.take k)).testBit a = true ∧
          (listSet (σ.take k)).testBit b = true) root w := by
      intro w hw
      obtain ⟨i, hi, hiw⟩ := List.getElem_of_mem hw
      rw [List.length_take] at hi
      rw [List.getElem_take] at hiw
      have := prefix_path R0 σ hlin hhead k i (by omega) (by omega)
      rwa [List.getD_eq_getElem _ _ (by omega), hiw] at this
    have hS : listSet (σ.take k) ≠ 0 := by
      intro h0
      have hr : root ∈ σ.take k := by
        cases σ with
        | nil => simp at hhead
        | cons a tl =>
          simp only [List.head?_cons, Option.some.injEq] at hhead
          obtain ⟨k', rfl⟩ : ∃ k', k = k' + 1 := ⟨k - 1, by omega⟩
          rw [List.take_succ_cons, hhead]
          exact List.mem_cons_self _ _
      have := testBit_listSet (σ.take k) root
      rw [h0, Nat.zero_testBit] at this
      simp [hr] at this
    have hf := front_mem hS
    rw [testBit_listSet, decide_eq_true_eq] at hf
    exact ((Relation.ReflTransGen.symmetric hsym) (hpath _ hf)).trans (hpath v hv)

/-- The statement of `ikkbz_respects_precedence` on the path of four vertices, which is its
own tree view, rooted at the vertex 2, with the heap that keeps its range sorted. -/
theorem ikkbz_respects_precedence_witness :
    ∃ cost order, runLocalTensorIKKBZ sortHeap path4 path4 2 = some (cost, order) ∧
      (∀ (R : Rooted path4 2) (i : Nat), i < order.length → order.getD i 0 ≠ 2 →
        ∃ j, j < i ∧ order.getD j 0 = R.parent (order.getD i 0)) ∧
      (∀ k, 0 < k → path4.InducedConnected (listSet (order.take k))) :=
  ikkbz_respects_precedence sortHeap path4 path4 rfl path4_spanning 2 (by decide)


/-! ## The open legs of a slice and of a contracted subgraph -/

/-- The edge has exactly one endpoint in `ids`. -/
def EdgeInfo.crosses (ids : BitSet) (e : EdgeInfo) : Bool :=
  ids.count e.edge.1 != ids.count e.edge.2

theorem prod_indicator (a : Nat) (c : ℚ) :
    ∀ L : List Nat, L.Nodup →
      (L.map (fun u => if u = a then c else 1)).prod = if a ∈ L then c else 1 := by
  intro L
  induction L with
  | nil => intro _; simp
  | cons b L ih =>
    intro hnd
    rw [List.nodup_cons] at hnd
    rw [List.map_cons, List.prod_cons, ih hnd.2]
    by_cases hba : b = a
    · subst hba
      simp [hnd.1]
    · have hab : ¬ a = b := fun h => hba h.symm
      simp [hba, hab]

/-- An edge leaves `ids` at exactly one member when it crosses, and at none otherwise. -/
theorem prod_leaves (ids : BitSet) (e : EdgeInfo) (L : List Nat) (hnd : L.Nodup)
    (hmem : ∀ u, u ∈ L ↔ ids.count u = true) :
    (L.map (fun u => if EdgeInfo.leaves ids u e then e.cost else 1)).prod =
      if EdgeInfo.crosses ids e then e.cost else 1 := by
  unfold EdgeInfo.crosses
  by_cases h1 : ids.count e.edge.1 = true <;> by_cases h2 : ids.count e.edge.2 = true
  · -- internal
    have : ∀ u, u ∈ L → (if EdgeInfo.leaves ids u e then e.cost else (1 : ℚ)) = 1 := by
      intro u _
      unfold EdgeInfo.leaves
      simp [h1, h2]
    rw [List.map_congr_left this]
    simp [h1, h2]
  · have : ∀ u, u ∈ L → (if EdgeInfo.leaves ids u e then e.cost else (1 : ℚ)) =
        if u = e.edge.1 then e.cost else 1 := by
      intro u _
      unfold EdgeInfo.leaves
      have h2' : ids.count e.edge.2 = false := by simpa using h2
      by_cases hu : e.edge.1 = u
      · subst hu
        simp [h1, h2']
      · have hu' : ¬ u = e.edge.1 := fun h => hu h.symm
        simp [h1, h2', hu, hu']
    rw [List.map_congr_left this, prod_indicator _ _ L hnd, if_pos ((hmem _).2 h1)]
    have h2' : ids.count e.edge.2 = false := by simpa using h2
    simp [h1, h2']
  · have : ∀ u, u ∈ L → (if EdgeInfo.leaves ids u e then e.cost else (1 : ℚ)) =
        if u = e.edge.2 then e.cost else 1 := by
      intro u _
      unfold EdgeInfo.leaves
      have h1' : ids.count e.edge.1 = false := by simpa using h1
      by_cases hu : e.edge.2 = u
      · subst hu
        simp [h1', h2]
      · have hu' : ¬ u = e.edge.2 := fun h => hu h.symm
        simp [h1', h2, hu, hu']
    rw [List.map_congr_left this, prod_indicator _ _ L hnd, if_pos ((hmem _).2 h2)]
    have h1' : ids.count e.edge.1 = false := by simpa using h1
    simp [h1', h2]
  · have : ∀ u, u ∈ L → (if EdgeInfo.leaves ids u e then e.cost else (1 : ℚ)) = 1 := by
      intro u hu
      have hu1 : ids.count u = true := (hmem u).1 hu
      unfold EdgeInfo.leaves
      have e1 : ¬ e.edge.1 = u := fun h => h1 (h ▸ hu1)
      have e2 : ¬ e.edge.2 = u := fun h => h2 (h ▸ hu1)
      simp [e1, e2]
    rw [List.map_congr_left this]
    have h1' : ids.count e.edge.1 = false := by simpa using h1
    have h2' : ids.count e.edge.2 = false := by simpa using h2
    simp [h1', h2']

theorem dimProduct_filter_cons (p : EdgeInfo → Bool) (e : EdgeInfo) (E : List EdgeInfo) :
    dimProduct ((e :: E).filter p) = (if p e then e.cost else 1) * dimProduct (E.filter p) := by
  unfold dimProduct
  by_cases h : p e = true
  · rw [List.filter_cons_of_pos h, if_pos h, List.map_cons, List.prod_cons]
  · rw [List.filter_cons_of_neg h, if_neg h, one_mul]

/-- The edges that leave `ids`, gathered member by member, are the edges that cross. -/
theorem prod_boundary (ids : BitSet) (L : List Nat) (hnd : L.Nodup)
    (hmem : ∀ u, u ∈ L ↔ ids.count u = true) :
    ∀ E : List EdgeInfo,
      (L.map (fun u => dimProduct (E.filter (EdgeInfo.leaves ids u)))).prod =
        dimProduct (E.filter (EdgeInfo.crosses ids)) := by
  intro E
  induction E with
  | nil => simp [dimProduct]
  | cons e E ih =>
    rw [dimProduct_filter_cons, ← ih, ← prod_leaves ids e L hnd hmem, ← List.prod_map_mul]
    congr 1
    apply List.map_congr_left
    intro u _
    exact dimProduct_filter_cons _ _ _

/-- C31, as the code has it: the product of the open-leg dimensions of the slice by `S` is the
open-leg dimension that `updateSubgraph(S)` gives to the representative `min(S)` times the
product of the dimensions of the edges with exactly one endpoint in `S`. The slice folds those
edges into its open legs; `updateSubgraph` keeps them as edges of the representative. -/
theorem slice_updateSubgraph_openLegs (wide : Bool) (net : TensorNetwork) (ids : BitSet)
    (hlen : net.edgeInfo.length = net.m + net.n) (holen : net.openLegSize.length = net.n)
    (hpos : ∀ e, e ∈ net.edgeInfo.take net.m → 0 < e.cost)
    (hids : ids ≠ 0) (hsub : ids < 2 ^ net.n)
    (hsimple : wide = true → SimpleEdges (net.edgeInfo.take net.m))
    (hopen : ∀ v, v < net.n → epsilon < net.openLegSize.getD v 0)
    (hprod : epsilon < ((BitSet.toList ids).map (fun u => net.openLegSize.getD u 0)).prod)
    (hloop : ∀ e, e < net.m → ids.count (net.endpoints e).1 = true →
      (net.endpoints e).1 ≠ (net.endpoints e).2)
    (heps : ∀ k, k < BitSet.size ids →
      epsilon < net.openLegSize.getD ((BitSet.toList ids).getD k 0) 0 *
        dimProduct ((net.edgeInfo.take net.m).filter
          (EdgeInfo.leaves ids ((BitSet.toList ids).getD k 0)))) :
    ∃ sl N' net' r, slice wide net ids = some (sl, N') ∧
      updateSubgraph wide net ids = some net' ∧ BitSet.min ids = some r ∧
      sl.openLegSize.prod = net'.openLegSize.getD r 0 *
        dimProduct ((net.edgeInfo.take net.m).filter (EdgeInfo.crosses ids)) := by
  obtain ⟨sl, N', hsl, _, hsllen, _, _, hslleg, _, _⟩ :=
    slice_spec wide net ids (by omega) hloop heps
  obtain ⟨net', r, hmin, _, _, hupd, _, _, _, _, hr, _, _⟩ :=
    updateSubgraph_spec wide net ids hlen holen hpos hids
      (fun v hv => BitSetN.lowest_lt hsub hv) hsimple hopen hprod
  refine ⟨sl, N', net', r, hsl, hupd, hmin, ?_⟩
  have hlist : sl.openLegSize = (BitSet.toList ids).map (fun u => net.openLegSize.getD u 0 *
      dimProduct ((net.edgeInfo.take net.m).filter (EdgeInfo.leaves ids u))) := by
    apply List.ext_getElem
    · rw [hsllen, List.length_map]; rfl
    · intro k h1 h2
      have hk : k < BitSet.size ids := by rw [← hsllen]; exact h1
      have := hslleg k hk
      rw [List.getD_eq_getElem _ _ h1] at this
      rw [this, List.getElem_map, List.getD_eq_getElem _ _ hk]
  rw [hlist, hr, List.prod_map_mul,
    prod_boundary ids (BitSet.toList ids) (BitSet.toList_nodup ids)
      (fun u => BitSet.mem_toList) (net.edgeInfo.take net.m)]

theorem triangle_edges_pos : ∀ e, e ∈ triangle.edgeInfo.take triangle.m → 0 < e.cost := by
  decide!

theorem triangle_simple : SimpleEdges (triangle.edgeInfo.take triangle.m) := by
  unfold SimpleEdges
  decide!

theorem triangle_open : ∀ v, v < triangle.n → epsilon < triangle.openLegSize.getD v 0 := by
  decide!

/-- The statement of `slice_updateSubgraph_openLegs` on the triangle with `S = {0, 1}`: the
slice has the open legs 3 and 5, the representative 0 the open leg 1, and the edges `(1, 2)`
and `(0, 2)` cross. -/
theorem slice_updateSubgraph_openLegs_witness :
    ∃ sl N' net' r, slice true triangle 3 = some (sl, N') ∧
      updateSubgraph true triangle 3 = some net' ∧ BitSet.min 3 = some r ∧
      sl.openLegSize.prod = net'.openLegSize.getD r 0 *
        dimProduct ((triangle.edgeInfo.take triangle.m).filter (EdgeInfo.crosses 3)) :=
  slice_updateSubgraph_openLegs true triangle 3 (by decide) (by decide) triangle_edges_pos
    (by decide) (by decide) (fun _ => triangle_simple) triangle_open (by decide!)
    (triangle_no_loop 3) triangle_slice_eps

/-- C31, the claim as stated, fails: on the triangle with `S = {0, 1}` the open legs of the
slice multiply to `3 · 5 = 15`, and `updateSubgraph` gives the representative 0 the open leg
`1 · 1 = 1`. -/
theorem slice_openLegs_differ :
    (slice false triangle 3).map (fun r => r.1.openLegSize.prod) = some 15 ∧
    (updateSubgraph false triangle 3).map (fun net' => net'.openLegSize.getD 0 0) = some 1 ∧
    BitSet.min 3 = some 0 := by
  refine ⟨?_, ?_, ?_⟩ <;> decide!


/-! ## The plan cache under in-place improvement -/

/-- A call on the plan cache: `initBaseTensors()` or `createPlan(l, r)` on two cached plans. -/
inductive CacheOp where
  | initBase : CacheOp
  | create (l r : BitSet) : CacheOp
  deriving DecidableEq, Repr

/-- The cache after one call; `none` stands for a failed assertion of `createPlan`. -/
def runOp (net : TensorNetwork) (plans : PlanCache) : CacheOp → Option PlanCache
  | CacheOp.initBase => some (initBaseTensors net plans)
  | CacheOp.create l r => (createPlan net plans l r).map Prod.fst

/-- The cache after a sequence of calls. -/
def runOps (net : TensorNetwork) : List CacheOp → PlanCache → Option PlanCache
  | [], plans => some plans
  | op :: rest, plans =>
    match runOp net plans op with
    | none => none
    | some plans1 => runOps net rest plans1

namespace PlanCache

/-- The stored costs dominate: a node without children costs nothing and the cost of any
other node is at least the contraction cost of its children plus their stored costs. -/
def CostGE (net : TensorNetwork) (plans : PlanCache) : Prop :=
  ∀ s p, plans s = some p →
    (p.left = none → p.totalCost = 0) ∧
    (∀ l r lp rp, p.left = some l → p.right = some r → plans l = some lp → plans r = some rp →
      net.computeContractionCost lp.set rp.set + lp.totalCost + rp.totalCost ≤ p.totalCost)

/-- The stored costs of `plans'` are at most those of `plans`, key by key. -/
def CostLE (plans' plans : PlanCache) : Prop :=
  ∀ s p, plans s = some p → ∃ p', plans' s = some p' ∧ p'.totalCost ≤ p.totalCost

theorem costLE_refl (plans : PlanCache) : CostLE plans plans :=
  fun _ p h => ⟨p, h, le_refl _⟩

theorem costLE_trans {a b c : PlanCache} (h1 : CostLE b a) (h2 : CostLE c b) : CostLE c a := by
  intro s p hp
  obtain ⟨p1, hp1, hle1⟩ := h1 s p hp
  obtain ⟨p2, hp2, hle2⟩ := h2 s p1 hp1
  exact ⟨p2, hp2, le_trans hle2 hle1⟩

/-- In a well-formed cache the key of a node with children is not the key of a child. -/
theorem child_ne {plans : PlanCache} (hwf : plans.WF) {s l r : BitSet} {p lp rp : PlanNode}
    (hp : plans s = some p) (hl : plans l = some lp) (hr : plans r = some rp)
    (hsum : lp.set ||| rp.set = p.set) (hdisj : lp.set &&& rp.set = 0) : l ≠ s ∧ r ≠ s := by
  have hs := (hwf s p hp).1
  have hls := (hwf l lp hl).1
  have hrs := (hwf r rp hr).1
  have hl0 := (hwf l lp hl).2.1
  have hr0 := (hwf r rp hr).2.1
  rw [hls, hrs, hs] at hsum
  rw [hls, hrs] at hdisj
  have hsz : BitSet.size s = BitSet.size l + BitSet.size r := by
    rw [← hsum]; exact BitSet.size_lor hdisj
  have hlpos : 0 < BitSet.size l := Nat.pos_of_ne_zero (fun h => hl0 (BitSet.size_eq_zero.1 h))
  have hrpos : 0 < BitSet.size r := Nat.pos_of_ne_zero (fun h => hr0 (BitSet.size_eq_zero.1 h))
  constructor
  · rintro rfl; omega
  · rintro rfl; omega

/-- Replacing the node under `k` by one that costs no more, has the set `k` and dominates the
costs of its own children keeps the stored costs dominating. -/
theorem costGE_insert {net : TensorNetwork} {plans : PlanCache} (hwf : plans.WF)
    (hc : plans.CostGE net) (k : BitSet) (q : PlanNode) (hset : q.set = k)
    (hold : ∀ old, plans k = some old → q.totalCost ≤ old.totalCost)
    (hleaf : q.left = none → q.totalCost = 0)
    (hq : ∀ l r lp rp, q.left = some l → q.right = some r → plans l = some lp →
      plans r = some rp →
      net.computeContractionCost lp.set rp.set + lp.totalCost + rp.totalCost ≤ q.totalCost)
    (hkids : ∀ l r, q.left = some l → q.right = some r → l ≠ k ∧ r ≠ k) :
    (plans.insert k q).CostGE net := by
  -- a child of a node of the old cache, read in the new cache
  have key : ∀ c cp', plans.insert k q c = some cp' →
      (c ≠ k ∧ plans c = some cp') ∨ (c = k ∧ cp' = q) := by
    intro c cp' h
    by_cases hck : c = k
    · subst hck
      rw [insert_same] at h
      exact Or.inr ⟨rfl, (Option.some.inj h).symm⟩
    · rw [insert_other _ _ hck] at h
      exact Or.inl ⟨hck, h⟩
  intro s p hp
  by_cases hsk : s = k
  · subst hsk
    rw [insert_same] at hp
    cases hp
    refine ⟨hleaf, ?_⟩
    intro l r lp rp h1 h2 h3 h4
    obtain ⟨hlk, hrk⟩ := hkids l r h1 h2
    rw [insert_other _ _ hlk] at h3
    rw [insert_other _ _ hrk] at h4
    exact hq l r lp rp h1 h2 h3 h4
  · rw [insert_other _ _ hsk] at hp
    refine ⟨(hc s p hp).1, ?_⟩
    intro l r lp' rp' h1 h2 h3 h4
    obtain ⟨_, _, hcase⟩ := hwf s p hp
    rcases hcase with ⟨g1, _⟩ | ⟨l2, r2, lp, rp, g1, g2, g3, g4, _, _⟩
    · rw [h1] at g1; cases g1
    · rw [h1] at g1; rw [h2] at g2; cases g1; cases g2
      have hbase := (hc s p hp).2 l r lp rp h1 h2 g3 g4
      have hL : lp'.set = lp.set ∧ lp'.totalCost ≤ lp.totalCost := by
        rcases key l lp' h3 with ⟨_, h⟩ | ⟨hlk, h⟩
        · rw [g3] at h; cases h; exact ⟨rfl, le_refl _⟩
        · subst hlk; subst h
          exact ⟨by rw [hset, (hwf l lp g3).1], hold lp g3⟩
      have hR : rp'.set = rp.set ∧ rp'.totalCost ≤ rp.totalCost := by
        rcases key r rp' h4 with ⟨_, h⟩ | ⟨hrk, h⟩
        · rw [g4] at h; cases h; exact ⟨rfl, le_refl _⟩
        · subst hrk; subst h
          exact ⟨by rw [hset, (hwf r rp g4).1], hold rp g4⟩
      rw [hL.1, hR.1]
      linarith [hL.2, hR.2]

/-- A node stored under a single vertex has no children and costs nothing. -/
theorem single_is_leaf {net : TensorNetwork} {plans : PlanCache} (hwf : plans.WF)
    (hc : plans.CostGE net) {v : Nat} {old : PlanNode} (h : plans (BitSet.single v) = some old) :
    old.left = none ∧ old.right = none ∧ old.totalCost = 0 := by
  obtain ⟨hs, _, hcase⟩ := hwf _ old h
  rcases hcase with ⟨h1, h2, _⟩ | ⟨l, r, lp, rp, _, _, h3, h4, h5, h6⟩
  · exact ⟨h1, h2, (hc _ old h).1 h1⟩
  · exfalso
    have hls := (hwf l lp h3).1
    have hrs := (hwf r rp h4).1
    have hl0 := (hwf l lp h3).2.1
    have hr0 := (hwf r rp h4).2.1
    rw [hls, hrs, hs] at h5
    rw [hls, hrs] at h6
    have hsz : BitSet.size (BitSet.single v) = BitSet.size l + BitSet.size r := by
      rw [← h5]; exact BitSet.size_lor h6
    rw [BitSet.size_single] at hsz
    have hlpos : 0 < BitSet.size l := Nat.pos_of_ne_zero (fun h => hl0 (BitSet.size_eq_zero.1 h))
    have hrpos : 0 < BitSet.size r := Nat.pos_of_ne_zero (fun h => hr0 (BitSet.size_eq_zero.1 h))
    omega

/-- Storing the plan of a single vertex anew keeps the invariants and changes no cost. -/
theorem insert_leaf_inv {net : TensorNetwork} {plans : PlanCache} (hwf : plans.WF)
    (hc : plans.CostGE net) (v : Nat) :
    (plans.insert (BitSet.single v) ⟨0, BitSet.single v, none, none⟩).WF ∧
    (plans.insert (BitSet.single v) ⟨0, BitSet.single v, none, none⟩).CostGE net ∧
    CostLE (plans.insert (BitSet.single v) ⟨0, BitSet.single v, none, none⟩) plans := by
  have hold : ∀ old, plans (BitSet.single v) = some old →
      (0 : ℚ) ≤ old.totalCost := by
    intro old h
    rw [(single_is_leaf hwf hc h).2.2]
  refine ⟨?_, ?_, ?_⟩
  · exact wf_insert hwf _ _ rfl (BitSet.single_ne_zero v) (Or.inl ⟨rfl, rfl, v, rfl⟩)
  · refine costGE_insert hwf hc _ _ rfl hold (fun _ => rfl) ?_ ?_
    · intro l r lp rp h; cases h
    · intro l r h; cases h
  · intro s p hp
    by_cases hsk : s = BitSet.single v
    · subst hsk
      exact ⟨_, insert_same _ _ _, hold p hp⟩
    · exact ⟨p, by rw [insert_other _ _ hsk]; exact hp, le_refl _⟩

end PlanCache

/-- The function `initBaseTensors` keeps the invariants of the cache and raises no cost. -/
theorem initBaseTensors_inv (net : TensorNetwork) {plans : PlanCache} (hwf : plans.WF)
    (hc : plans.CostGE net) :
    (initBaseTensors net plans).WF ∧ (initBaseTensors net plans).CostGE net ∧
      PlanCache.CostLE (initBaseTensors net plans) plans := by
  unfold initBaseTensors
  generalize net.n = n
  induction n with
  | zero => exact ⟨hwf, hc, PlanCache.costLE_refl _⟩
  | succ n ih =>
    rw [List.range_succ, List.foldl_append]
    simp only [List.foldl_cons, List.foldl_nil]
    obtain ⟨h1, h2, h3⟩ := ih
    obtain ⟨g1, g2, g3⟩ := PlanCache.insert_leaf_inv h1 h2 n
    exact ⟨g1, g2, PlanCache.costLE_trans h3 g3⟩

/-- The function `createPlan` keeps the invariants of the cache and raises no cost. -/
theorem createPlan_inv (net : TensorNetwork) {plans plans' : PlanCache} {l r p : BitSet}
    (hwf : plans.WF) (hc : plans.CostGE net)
    (h : createPlan net plans l r = some (plans', p)) :
    plans'.WF ∧ plans'.CostGE net ∧ PlanCache.CostLE plans' plans := by
  refine ⟨createPlan_wf net hwf h, ?_⟩
  unfold createPlan at h
  cases hl : plans l with
  | none => simp [hl] at h
  | some lp =>
    cases hr : plans r with
    | none => simp [hl, hr] at h
    | some rp =>
      have hls := (hwf l lp hl).1
      have hrs := (hwf r rp hr).1
      have hl0 := (hwf l lp hl).2.1
      have hr0 := (hwf r rp hr).2.1
      by_cases hdisj : l &&& r = 0
      · have hsz : BitSet.size (l ||| r) = BitSet.size l + BitSet.size r := BitSet.size_lor hdisj
        have hlpos : 0 < BitSet.size l :=
          Nat.pos_of_ne_zero (fun h => hl0 (BitSet.size_eq_zero.1 h))
        have hrpos : 0 < BitSet.size r :=
          Nat.pos_of_ne_zero (fun h => hr0 (BitSet.size_eq_zero.1 h))
        have hlk : l ≠ l ||| r := by
          intro e; rw [← e] at hsz; omega
        have hrk : r ≠ l ||| r := by
          intro e; rw [← e] at hsz; omega
        simp only [hl, hr, hls, hrs, hdisj, ne_eq, not_true_eq_false, if_false] at h
        -- the node `createPlan` stores
        have hnew : ∀ q : PlanNode, q.set = l ||| r → q.left = some l → q.right = some r →
            q.totalCost = net.computeContractionCost l r + lp.totalCost + rp.totalCost →
            (∀ old, plans (l ||| r) = some old → q.totalCost ≤ old.totalCost) →
            (plans.insert (l ||| r) q).CostGE net ∧
              PlanCache.CostLE (plans.insert (l ||| r) q) plans := by
          intro q hqs hql hqr hqc hqold
          refine ⟨?_, ?_⟩
          · refine PlanCache.costGE_insert hwf hc _ q hqs hqold
              (fun h0 => by rw [hql] at h0; cases h0) ?_ ?_
            · intro l' r' lp' rp' h1 h2 h3 h4
              rw [hql] at h1; rw [hqr] at h2; cases h1; cases h2
              rw [hl] at h3; rw [hr] at h4; cases h3; cases h4
              rw [hqc, hls, hrs]
            · intro l' r' h1 h2
              rw [hql] at h1; rw [hqr] at h2; cases h1; cases h2
              exact ⟨hlk, hrk⟩
          · intro s p0 hp0
            by_cases hsk : s = l ||| r
            · subst hsk
              exact ⟨q, PlanCache.insert_same _ _ _, hqold p0 hp0⟩
            · exact ⟨p0, by rw [PlanCache.insert_other _ _ hsk]; exact hp0, le_refl _⟩
        cases hold : plans (l ||| r) with
        | none =>
          simp only [hold, Option.some.injEq, Prod.mk.injEq] at h
          rw [← h.1]
          exact hnew _ rfl rfl rfl rfl (fun old ho => by rw [hold] at ho; cases ho)
        | some old =>
          have hos := (hwf _ old hold).1
          simp only [hold, hos, not_true_eq_false, if_false] at h
          by_cases hlt : net.computeContractionCost l r + lp.totalCost + rp.totalCost <
              old.totalCost
          · simp only [hlt, if_true, Option.some.injEq, Prod.mk.injEq] at h
            rw [← h.1]
            exact hnew _ rfl rfl rfl rfl
              (fun o ho => by rw [hold] at ho; cases ho; exact le_of_lt hlt)
          · simp only [hlt, if_false, Option.some.injEq, Prod.mk.injEq] at h
            rw [← h.1]
            exact ⟨hc, PlanCache.costLE_refl _⟩
      · simp [hl, hr, hls, hrs, hdisj] at h

/-- A sequence of calls keeps the invariants of the cache and raises no cost. -/
theorem runOps_inv (net : TensorNetwork) :
    ∀ (ops : List CacheOp) (plans plans' : PlanCache), plans.WF → plans.CostGE net →
      runOps net ops plans = some plans' →
      plans'.WF ∧ plans'.CostGE net ∧ PlanCache.CostLE plans' plans := by
  intro ops
  induction ops with
  | nil =>
    intro plans plans' hwf hc h
    simp only [runOps, Option.some.injEq] at h
    subst h
    exact ⟨hwf, hc, PlanCache.costLE_refl _⟩
  | cons op rest ih =>
    intro plans plans' hwf hc h
    rw [runOps] at h
    cases h1 : runOp net plans op with
    | none => rw [h1] at h; cases h
    | some plans1 =>
      rw [h1] at h
      have hstep : plans1.WF ∧ plans1.CostGE net ∧ PlanCache.CostLE plans1 plans := by
        cases op with
        | initBase =>
          simp only [runOp, Option.some.injEq] at h1
          subst h1
          exact initBaseTensors_inv net hwf hc
        | create l r =>
          simp only [runOp, Option.map_eq_some', Prod.exists, exists_and_right, exists_eq_right]
            at h1
          obtain ⟨p, hp⟩ := h1
          exact createPlan_inv net hwf hc hp
      obtain ⟨g1, g2, g3⟩ := ih plans1 plans' hstep.1 hstep.2.1 h
      exact ⟨g1, g2, PlanCache.costLE_trans hstep.2.2 g3⟩

/-- On a cache whose stored costs dominate, the stored cost of a plan is at least the
bottom-up cost of the tree it refers to. -/
theorem toPlan_dominated {net : TensorNetwork} {plans : PlanCache} (hwf : plans.WF)
    (hc : plans.CostGE net) :
    ∀ (fuel : Nat) (s : BitSet) (P : Plan) (p : PlanNode), plans.toPlan fuel s = some P →
      plans s = some p → P.bottomUpCost net ≤ p.totalCost ∧ P.set = p.set := by
  intro fuel
  induction fuel with
  | zero => intro s P p h; simp [PlanCache.toPlan] at h
  | succ fuel ih =>
    intro s P p h hp
    unfold PlanCache.toPlan at h
    simp only [hp] at h
    cases hl : p.left with
    | none =>
      cases hr : p.right with
      | none =>
        simp only [hl, hr, Option.some.injEq] at h
        subst h
        refine ⟨?_, rfl⟩
        simp [Plan.bottomUpCost, (hc s p hp).1 hl]
      | some r => simp [hl, hr] at h
    | some l =>
      cases hr : p.right with
      | none => simp [hl, hr] at h
      | some r =>
        simp only [hl, hr] at h
        cases hPL : plans.toPlan fuel l with
        | none => simp [hPL] at h
        | some PL =>
          cases hPR : plans.toPlan fuel r with
          | none => simp [hPL, hPR] at h
          | some PR =>
            simp only [hPL, hPR, Option.some.injEq] at h
            subst h
            refine ⟨?_, rfl⟩
            obtain ⟨_, _, hcase⟩ := hwf s p hp
            rcases hcase with ⟨h1, _⟩ | ⟨l', r', lp, rp, h1, h2, h3, h4, _, _⟩
            · rw [hl] at h1; cases h1
            · rw [hl] at h1; rw [hr] at h2; cases h1; cases h2
              obtain ⟨hcl, hsl⟩ := ih l PL lp hPL h3
              obtain ⟨hcr, hsr⟩ := ih r PR rp hPR h4
              have := (hc s p hp).2 l r lp rp hl hr h3 h4
              simp only [Plan.bottomUpCost]
              rw [hsl, hsr]
              linarith

theorem costGE_empty (net : TensorNetwork) : PlanCache.empty.CostGE net := by
  intro s p h; simp [PlanCache.empty] at h

/-- The calls on the path of four that store `{0,1,2}` as `{0}` with `{1,2}` (cost 32), build
`{0,1,2,3}` on it (cost 36) and then improve `{0,1,2}` to `{0,1}` with `{2}` (cost 18). -/
def improveOps : List CacheOp :=
  [CacheOp.initBase, CacheOp.create 2 4, CacheOp.create 1 6, CacheOp.create 7 8,
    CacheOp.create 1 2, CacheOp.create 3 4]

theorem improveOps_isSome : (runOps path4 improveOps PlanCache.empty).isSome = true := by
  decide!

/-- The cache after the calls `improveOps`. -/
def improvedCache : PlanCache :=
  (runOps path4 improveOps PlanCache.empty).get improveOps_isSome

/-- C40 (in-place improvement of the plan cache).  After any sequence of calls of
`initBaseTensors` and `createPlan` on the empty cache, the cost stored in a plan node is at
least the bottom-up cost of the tree the node refers to at that moment, and further calls do
not raise the cost stored for a set. Equality may be lost: on the path of four, after the
calls `improveOps`, the node of `{0,1,2,3}` stores 36 and its tree costs 22. -/
theorem plan_cost_dominates (net : TensorNetwork) (ops : List CacheOp) (plans : PlanCache)
    (h : runOps net ops PlanCache.empty = some plans) :
    (∀ s p, plans s = some p →
      ∃ P, plans.toPlan (BitSet.size s) s = some P ∧ P.bottomUpCost net ≤ p.totalCost) ∧
    (∀ ops' plans', runOps net ops' plans = some plans' →
      ∀ s p, plans s = some p → ∃ p', plans' s = some p' ∧ p'.totalCost ≤ p.totalCost) ∧
    (improvedCache 15).map (fun p => p.totalCost) = some 36 ∧
    (improvedCache.toPlan 4 15).map (fun P => P.bottomUpCost path4) = some 22 := by
  obtain ⟨hwf, hc, _⟩ := runOps_inv net ops _ plans PlanCache.wf_empty (costGE_empty net) h
  refine ⟨?_, ?_, ?_, ?_⟩
  · intro s p hp
    obtain ⟨P, hP, _⟩ := PlanCache.toPlan_of_wf hwf (BitSet.size s) s p hp (le_refl _)
    exact ⟨P, hP, (toPlan_dominated hwf hc _ s P p hP hp).1⟩
  · intro ops' plans' h'
    exact (runOps_inv net ops' plans plans' hwf hc h').2.2
  · decide!
  · decide!

/-- The statement of `plan_cost_dominates` on the calls `improveOps` on the path of four. -/
theorem plan_cost_dominates_witness :
    (∀ s p, improvedCache s = some p →
      ∃ P, improvedCache.toPlan (BitSet.size s) s = some P ∧
        P.bottomUpCost path4 ≤ p.totalCost) ∧
    (∀ ops' plans', runOps path4 ops' improvedCache = some plans' →
      ∀ s p, improvedCache s = some p → ∃ p', plans' s = some p' ∧ p'.totalCost ≤ p.totalCost) ∧
    (improvedCache 15).map (fun p => p.totalCost) = some 36 ∧
    (improvedCache.toPlan 4 15).map (fun P => P.bottomUpCost path4) = some 22 :=
  plan_cost_dominates path4 improveOps improvedCache (Option.some_get improveOps_isSome).symm


/-! ### The preconditions of the merge -/

/-- Between two rounds no node has its incoming edge among its outer legs. -/
theorem LoopInv.legsClear {tv : TensorNetwork} {root : Nat} {R : Rooted tv root}
    {T0 tree : Nat → Node} {bfs : List Nat} (spec : BfsSpec tv root R T0 bfs)
    (hm : tv.m ≤ NIL) {done : List Nat} (inv : LoopInv tv root R T0 tree done)
    (hroot : root ∉ done) :
    (∀ v, v < tv.n → (tree v).outerLegs.testBit (tree v).incomingEdgeId = false) ∧
      (tree root).incomingEdgeId = NIL := by
  have hrootT : tree root = T0 root := inv.frame root hroot
  refine ⟨?_, by rw [hrootT]; exact spec.root_fields.1⟩
  intro v hv
  by_cases hvd : v ∈ done
  · have ok := inv.nodes v hvd
    have hsub : List.Sublist (tree v).compound (flat tree v) := by
      rw [ok.compound_eq]
      unfold flat
      exact List.Sublist.cons₂ _ (sublist_flatMap _ (List.take_sublist _ _))
    have hndc : (tree v).compound.Nodup := ok.flat_nodup.sublist hsub
    have hvc : v ∈ (tree v).compound := by rw [ok.compound_eq]; exact List.mem_cons_self _ _
    have hpc : R.parent v ∉ (tree v).compound := fun h => ok.parent_out (hsub.subset h)
    rw [ok.incoming, ok.outer, Nat.testBit_xor, R.testBit_strictLegs hndc v ok.lt ok.ne_root,
      BitSet.testBit_single]
    simp [hvc, hpc]
  · rw [inv.frame v hvd]
    by_cases hvr : v = root
    · subst hvr
      rw [spec.root_fields.1, spec.root_fields.2]
      cases h : (tv.collectVertexLegs v true).testBit NIL with
      | false => rfl
      | true =>
        have := ((testBit_collectVertexLegs_strict tv v NIL).1 h).1
        omega
    · obtain ⟨h1, h2⟩ := spec.fields v hv hvr
      have hbit : (tv.collectVertexLegs v true).testBit (R.eid v) = true := by
        rw [testBit_collectVertexLegs_strict]
        refine ⟨R.eid_lt v hv hvr, ?_⟩
        rcases R.eid_ends v hv hvr with h | h <;> rw [h]
        · exact Or.inl rfl
        · exact Or.inr rfl
      rw [h1, h2, Nat.testBit_xor, hbit, BitSet.testBit_single]
      simp

/-- An absorption that `contractLoop` gets through had its set operations and its ranks
defined. -/
theorem contractLoop_defined (tv : TensorNetwork) (curr next : Nat) (rest : List Nat)
    (tree tree' : Nat → Node) (h : contractLoop tv curr (next :: rest) tree = some tree')
    (hshould : (tree curr).shouldMergeWith tv (tree next) = true) :
    (tree curr).outerLegs.testBit (tree next).incomingEdgeId = true ∧
    (tree next).outerLegs.testBit (tree next).incomingEdgeId = false ∧
    (tree curr).rankDefined tv = true ∧ (tree next).rankDefined tv = true := by
  rw [contractLoop] at h
  by_cases hr : ((tree curr).rankDefined tv && (tree next).rankDefined tv) = false
  · rw [if_pos hr] at h; cases h
  · rw [if_neg hr, if_pos hshould] at h
    rw [Bool.not_eq_false, Bool.and_eq_true] at hr
    refine ⟨?_, ?_, hr.1, hr.2⟩
    · cases hb : (tree curr).outerLegs.testBit (tree next).incomingEdgeId with
      | true => rfl
      | false => simp [BitSet.minus, hb] at h
    · cases hb : (tree next).outerLegs.testBit (tree next).incomingEdgeId with
      | false => rfl
      | true =>
        cases hmin : BitSet.minus (tree curr).outerLegs (tree next).incomingEdgeId with
        | none => simp [hmin] at h
        | some l1 => simp [hmin, BitSet.plus, hb] at h

/-- C39 (the preconditions of the merge hold on a spanning tree view).  For every tree view
that is a spanning tree with `m` an `unsigned`, and every root, the constructor and
`runLocalTensorIKKBZ` return: the assertions of `-` and `+` on the outer legs hold at every
absorption, and so does the assertion `edgeId < m` of `fetchEdge` wherever a rank is computed.
After every number of rounds of the loop no node has its incoming edge among its outer legs,
and the root keeps the incoming edge `NIL`, for which no rank is defined. Every absorption of
`contractLoop` that goes through finds the incoming edge of `next` among the outer legs of
`curr` and not among those of `next`, and both ranks defined. -/
theorem ikkbz_preconditions (H : HeapOps) (net tv : TensorNetwork) (hn : net.n = tv.n)
    (htree : tv.IsSpanningTree) (hm : tv.m ≤ NIL) (root : Nat) (hroot : root < tv.n) :
    ∃ T0 bfs cost order,
      precedenceGraph net tv root = some (T0, bfs) ∧
      runLocalTensorIKKBZ H net tv root = some (cost, order) ∧
      (∀ done rest, bfs.reverse = done ++ rest →
        ∃ tree, ikkbzLoop H tv root done T0 = some tree ∧
          (∀ v, v < tv.n → (tree v).outerLegs.testBit (tree v).incomingEdgeId = false) ∧
          (tree root).incomingEdgeId = NIL ∧ (tree root).rankDefined tv = false) ∧
      ∀ curr next rest tree tree', contractLoop tv curr (next :: rest) tree = some tree' →
        (tree curr).shouldMergeWith tv (tree next) = true →
        (tree curr).outerLegs.testBit (tree next).incomingEdgeId = true ∧
        (tree next).outerLegs.testBit (tree next).incomingEdgeId = false ∧
        (tree curr).rankDefined tv = true ∧ (tree next).rankDefined tv = true := by
  obtain ⟨R⟩ := exists_rooted tv htree root hroot
  obtain ⟨T0, bfs, hpg, spec⟩ := precedenceGraph_spec net tv hn R hroot
  obtain ⟨order, hrun, _, _⟩ := runLocalTensorIKKBZ_spec H net tv hn R hroot
  obtain ⟨done0, treeL, treeF, hrev, hrunL, invL, hrunF, _, hsame⟩ := ikkbzLoop_spec H spec
  have hnd : bfs.reverse.Nodup :=
    List.nodup_reverse.2 (spec.perm.nodup_iff.2 (List.nodup_range _))
  have hroot0 : root ∉ done0 := by
    rw [hrev] at hnd
    intro h
    exact (List.nodup_append.1 hnd).2.2 h (by simp)
  have hrank : ∀ tree : Nat → Node, (tree root).incomingEdgeId = NIL →
      (tree root).rankDefined tv = false := by
    intro tree h
    unfold Node.rankDefined
    rw [h]
    exact decide_eq_false (by omega)
  refine ⟨T0, bfs, _, order, hpg, hrun, ?_, contractLoop_defined tv⟩
  intro done rest hsplit
  by_cases hrest : rest = []
  · -- all the rounds
    subst hrest
    rw [List.append_nil] at hsplit
    rw [← hsplit]
    obtain ⟨hclear, hnil⟩ := invL.legsClear spec hm hroot0
    refine ⟨treeF, hrunF, ?_, ?_, ?_⟩
    · intro v hv
      rw [(hsame v).1, (hsame v).2]
      exact hclear v hv
    · rw [(hsame root).2]; exact hnil
    · exact hrank _ (by rw [(hsame root).2]; exact hnil)
  · obtain ⟨tree, hrunP, invP⟩ := ikkbzLoop_prefix H spec done [] rest T0
      (by rw [hsplit]; rfl) hrest
      ⟨fun _ _ => rfl, fun _ => rfl, fun v hv => by simp at hv, by simp⟩
    simp only [List.nil_append] at invP
    have hrootd : root ∉ done := by
      intro h
      obtain ⟨a, b, hab⟩ := List.append_of_mem h
      rw [hab, List.append_assoc, List.cons_append] at hsplit
      have := (root_last spec hsplit).1 rfl
      exact hrest (List.append_eq_nil.1 this).2
    obtain ⟨hclear, hnil⟩ := invP.legsClear spec hm hrootd
    refine ⟨tree, ?_, hclear, hnil, hrank _ hnil⟩
    have := hrunP []
    rw [List.append_nil] at this
    rw [this, ikkbzLoop]

/-- The statement of `ikkbz_preconditions` on the path of four vertices, which is its own tree
view, rooted at the vertex 1, with the heap that keeps its range sorted. -/
theorem ikkbz_preconditions_witness :
    ∃ T0 bfs cost order,
      precedenceGraph path4 path4 1 = some (T0, bfs) ∧
      runLocalTensorIKKBZ sortHeap path4 path4 1 = some (cost, order) ∧
      (∀ done rest, bfs.reverse = done ++ rest →
        ∃ tree, ikkbzLoop sortHeap path4 1 done T0 = some tree ∧
          (∀ v, v < path4.n → (tree v).outerLegs.testBit (tree v).incomingEdgeId = false) ∧
          (tree 1).incomingEdgeId = NIL ∧ (tree 1).rankDefined path4 = false) ∧
      ∀ curr next rest tree tree', contractLoop path4 curr (next :: rest) tree = some tree' →
        (tree curr).shouldMergeWith path4 (tree next) = true →
        (tree curr).outerLegs.testBit (tree next).incomingEdgeId = true ∧
        (tree next).outerLegs.testBit (tree next).incomingEdgeId = false ∧
        (tree curr).rankDefined path4 = true ∧ (tree next).rankDefined path4 = true :=
  ikkbz_preconditions sortHeap path4 path4 rfl path4_spanning (by decide) 1 (by decide)

/-! ## The drivers `opImpl` and `parallelOpImpl` -/

/-- The body of the loop of `opImpl` and of the lambda `consume` for the root `index`, with
`fn = runLocalLinDP`: the precedence graph of `index` and `runLocalTensorIKKBZ`, then
`fn(sol, cost)` and the assertion `bushyCost <= cost + 1e-6`.  The tree-view status the two
calls switch is that of the calling thread, so the result depends on `index` only. -/
def localOpt (H : HeapOps) (net tv : TensorNetwork) (index : Nat) :
    Option (ℚ × List RangeNode) :=
  match runLocalTensorIKKBZ H net tv index with
  | none => none
  | some (cost, sol) =>
    match runLocalLinDP net sol with
    | none => none
    | some (bushyCost, bushySol) =>
      if bushyCost ≤ cost + 1 / 10 ^ 6 then some (bushyCost, bushySol) else none

/-- The comparison `currCost < minCost`; the cost `kInf` is `none`. -/
def lessThanMin (currCost : ℚ) : Option ℚ → Bool
  | none => true
  | some minCost => decide (currCost < minCost)

/-- The end of both drivers: `translateSolutionToPlan(bestSol)` on the cache of a fresh
optimiser and the assertion `isClose(log10(plan->totalCost), log10(minCost))`.  The function
`log10` is read on positive costs only: on a cost `0` it is `-inf` and the difference of the
assertion is not a number, which is not below `epsilon`. -/
def finishPlan (log10 : ℚ → ℚ) (net : TensorNetwork) (minCost : Option ℚ)
    (bestSol : List RangeNode) : Option (PlanCache × BitSet) :=
  match translateBushySolutionToPlan net PlanCache.empty bestSol with
  | none => none
  | some (plans, p) =>
    match plans p, minCost with
    | some plan, some c =>
      if 0 < plan.totalCost ∧ 0 < c ∧ isClose (log10 plan.totalCost) (log10 c) = true then
        some (plans, p)
      else none
    | _, _ => none

/-- Where a thread that runs `consume` stands: before the test `taskIndex.load() < n` of the
loop, between that test and `taskIndex++`, with the index it has fetched and not yet reported,
or returned. -/
inductive Pc where
  | atLoop
  | loaded
  | running (index : Nat)
  | finished
  deriving DecidableEq, Repr

/-- The variables the threads of `parallelOpImpl` share, and where each thread stands. -/
structure ParState where
  taskIndex : Nat
  pcs : Nat → Pc
  minCost : Option ℚ
  bestIndex : Option Nat
  bestSol : List RangeNode

/-- The lambda `updateSolutionIfBetter(index, currCost, currSol)`, run under the mutex. -/
def updateSolutionIfBetter (st : ParState) (index : Nat) (currCost : ℚ)
    (currSol : List RangeNode) : ParState :=
  if lessThanMin currCost st.minCost then
    { st with minCost := some currCost, bestSol := currSol, bestIndex := some index }
  else st

/-- One atomic step of the thread `w` in `consume`: the test of the loop, the atomic
`taskIndex++` (an `unsigned`) with the test `index >= n`, or the local optimisation of the
fetched index with its report under the mutex.  A thread that has returned stays so. -/
def consumeStep (H : HeapOps) (net tv : TensorNetwork) (st : ParState) (w : Nat) :
    Option ParState :=
  match st.pcs w with
  | Pc.atLoop =>
    some { st with
      pcs := Function.update st.pcs w
        (if st.taskIndex < net.n then Pc.loaded else Pc.finished) }
  | Pc.loaded =>
    some { st with
      taskIndex := (st.taskIndex + 1) % 2 ^ 32,
      pcs := Function.update st.pcs w
        (if st.taskIndex ≥ net.n then Pc.finished else Pc.running st.taskIndex) }
  | Pc.running index =>
    match localOpt H net tv index with
    | none => none
    | some (bushyCost, bushySol) =>
      let st1 := updateSolutionIfBetter st index bushyCost bushySol
      some { st1 with pcs := Function.update st1.pcs w Pc.atLoop }
  | Pc.finished => some st

/-- The steps of the threads in the order `sched` names them. -/
def runSchedule (H : HeapOps) (net tv : TensorNetwork) :
    List Nat → ParState → Option ParState
  | [], st => some st
  | w :: rest, st =>
    match consumeStep H net tv st w with
    | none => none
    | some st1 => runSchedule H net tv rest st1

/-- The loop `for (auto& thread : threads) thread.join()`: each thread in turn is given the
steps it still needs, at most three for every index and three to return. -/
def joinSchedule (workers n : Nat) : List Nat :=
  (List.range workers).flatMap (fun w => List.replicate (3 * n + 3) w)

/-- The function `Optimizer::parallelOpImpl(name, fn, numThreads)` with `fn = runLocalLinDP`.
The argument `numThreads` is not read; `workers` is the value of
`std::thread::hardware_concurrency() - 1`, the number of threads started.  The threads take
their steps in the order `sched`, any interleaving, and are then joined; the plan is built
when all of them have returned.  The barrier orders the registrations, which touch the
tree-view status of the registering thread only, before every step modelled here. -/
def parallelOpImpl (H : HeapOps) (log10 : ℚ → ℚ) (net tv : TensorNetwork) (workers : Nat)
    (sched : List Nat) : Option (PlanCache × BitSet) :=
  let st0 : ParState :=
    ⟨0, fun w => if w < workers then Pc.atLoop else Pc.finished, none, none, []⟩
  match runSchedule H net tv (sched ++ joinSchedule workers net.n) st0 with
  | none => none
  | some st =>
    if (List.range workers).all (fun w => decide (st.pcs w = Pc.finished)) then
      finishPlan log10 net st.minCost st.bestSol
    else none

/-- Without a thread, as on a machine where `hardware_concurrency()` is `1`, no index is ever
fetched: `bestSol` stays empty and `parallelOpImpl` returns no plan. -/
theorem parallelOpImpl_no_worker (H : HeapOps) (log10 : ℚ → ℚ) (net tv : TensorNetwork)
    (sched : List Nat) : parallelOpImpl H log10 net tv 0 sched = none := by
  have hrun : ∀ (l : List Nat) (st : ParState), (∀ w, st.pcs w = Pc.finished) →
      runSchedule H net tv l st = some st := by
    intro l
    induction l with
    | nil => exact fun _ _ => rfl
    | cons w rest ih =>
      intro st h
      have hs : consumeStep H net tv st w = some st := by simp only [consumeStep, h w]
      rw [runSchedule, hs]
      exact ih st h
  unfold parallelOpImpl
  simp only []
  rw [hrun _ _ (fun w => by simp)]
  simp [finishPlan, translateBushySolutionToPlan, translateBushyBuild]

end Netzwerk
